import Mathlib

/-!
Adaptive seeded region growing: threshold estimation.

A shallow embedding of `segmentation/ConnectedThresholdImageFilterNoThreshold.cxx`
(functions `ComputeStats`, `ComputeThreshold`, `ComputeFinalThreshold`,
`ComputePointHash`, `CheckBounds`, `GrowRegions`) and theorems about it.

There are two embeddings of the same functions.  The first one, described here, is
exact: integer intensities, exact sums, real arithmetic for the `double` expressions.
It carries the theorems on the structure of a run (keys, bounds checks, the order of
visits, the cadence of the recomputations, the queue) and on the values that the exact
reading determines.  The second one, namespace `Ieee` (section "Machine arithmetic"),
has `float` pixels and rounds every operation as the C++ text does; it carries the
theorems whose truth depends on the rounding: the value of the final bounds, the
independence from the order of enumeration, the containment of accepted values in the
bounds, and the return of bounds by the final pass.

Modelling conventions of the exact embedding.

* Voxel intensities are integers.  The C++ accumulators are `long long`; they are
  modelled by `Int` and are assumed not to overflow, and an accumulation
  `acc += image->GetPixel(..)`, which C++ carries out in `float`, is taken to be
  exact.  The one place where the width matters is the conversion of a signed operand
  to `unsigned long` that C++ performs when a `long long` meets a `size_t` (64 bit) or
  an index meets an image size; it is modelled by `toUInt64` / `toInt64` with an
  explicit `% 2^64`.
* C++ `/` on integers is truncated division, `Int.tdiv`.  A division by zero is a
  fault: the functions return `none`.
* `double` expressions are idealised as real numbers.  `sqrt` of an integer followed
  by a conversion to `long long` is the integer square root; the two threshold
  formulas are evaluated exactly (see `boundAbove`, `boundBelow` and the lemmas that
  relate them to `Real.sqrt`).
* `std::unordered_map<long long, IndexType>` is an association list without repeated
  keys, kept in insertion order; the order in which a range-`for` visits the entries
  is a parameter (`MapOrder`).  `std::queue` is a list, front first.
-/

namespace RegionGrowing

/-! ## Data model -/

/-- A voxel index (`InternalImageType::IndexType`): three signed coordinates. -/
structure Point where
  x : Int
  y : Int
  z : Int
deriving DecidableEq, Repr

/-- The image as `GrowRegions` sees it: the size of its largest possible region
(`InternalImageType::SizeType`, unsigned) and the pixel lookup. -/
structure Volume where
  sx : Nat
  sy : Nat
  sz : Nat
  GetPixel : Point → Int

/-- The entries of `std::unordered_map<long long, IndexType>`, in insertion order. -/
abbrev PointMap := List (Int × Point)

/-- The order in which a range-`for` over the map visits its entries: some permutation
of the entries, which the C++ standard leaves unspecified. -/
structure MapOrder where
  enumerate : PointMap → PointMap
  perm : ∀ m, (enumerate m).Perm m

/-- Entries are visited in insertion order. -/
def insertionOrder : MapOrder := ⟨fun m => m, fun m => List.Perm.refl m⟩

/-- Entries are visited in reverse insertion order. -/
def reverseOrder : MapOrder := ⟨fun m => m.reverse, fun m => List.reverse_perm m⟩

/-- Two to the 64. -/
def two64 : Int := 18446744073709551616

/-- Two to the 63. -/
def two63 : Int := 9223372036854775808

/-- Conversion of a signed value to `unsigned long` (64 bit). -/
def toUInt64 (a : Int) : Int := a % two64

/-- Conversion of an unsigned 64-bit value to `long long`. -/
def toInt64 (a : Int) : Int := (a + two63) % two64 - two63

/-- Newton iteration for the integer square root, with an explicit iteration budget. -/
def isqrtIter : Nat → Nat → Nat → Nat
  | 0, _, guess => guess
  | fuel + 1, n, guess =>
    let next := (guess + n / guess) / 2
    if next < guess then isqrtIter fuel n next else guess

/-- The integer part of the square root: `(long long) sqrt(n)`. -/
def isqrt (n : Nat) : Nat := if n ≤ 1 then n else isqrtIter n n (n / 2)

/-- The test `map.find(k) != map.end()`. -/
def mapContains (m : PointMap) (k : Int) : Bool := m.any (fun kv => kv.1 == k)

/-- The assignment `map[k] = v`: overwrite the entry with key `k`, or add a new entry. -/
def mapAssign (m : PointMap) (k : Int) (v : Point) : PointMap :=
  if mapContains m k then m.map (fun kv => if kv.1 == k then (k, v) else kv)
  else m ++ [(k, v)]

/-! ## Statistics -/

/-- Lines 41-46 of `ComputeStats`: the value stored in `*mgv`.

`sum / region_points.size()` divides a `long long` by a `size_t`: both operands are
converted to `unsigned long long`, and the quotient is converted back to `long long`
by the assignment.  An empty map is a division by zero. -/
def regionMean (ord : MapOrder) (image : Volume) (region_points : PointMap) : Option Int :=
  let sum := (ord.enumerate region_points).foldl (fun s kv => s + image.GetPixel kv.2) 0
  if region_points.length = 0 then none
  else some (toInt64 (Int.tdiv (toUInt64 sum) region_points.length))

/-- Lines 48-80 of `ComputeStats`, for the entries in the order of the iteration and
the mean `mgv`: returns `(upper_dev, lower_dev)`.  The divisions are between
`long long` operands. -/
def halfDeviations (image : Volume) (entries : PointMap) (mgv : Int) : Option (Int × Int) :=
  let pix := fun (kv : Int × Point) => image.GetPixel kv.2
  let upper_sum := entries.foldl (fun s kv => if pix kv ≥ mgv then s + pix kv else s) 0
  let lower_sum := entries.foldl (fun s kv => if pix kv ≤ mgv then s + pix kv else s) 0
  let upper_num : Int := entries.foldl (fun n kv => if pix kv ≥ mgv then n + 1 else n) 0
  let lower_num : Int := entries.foldl (fun n kv => if pix kv ≤ mgv then n + 1 else n) 0
  if upper_num = 0 then none else
  if lower_num = 0 then none else
  let upper_mean := Int.tdiv upper_sum upper_num
  let lower_mean := Int.tdiv lower_sum lower_num
  let upper_dev := entries.foldl
    (fun s kv => if pix kv ≥ mgv then s + (pix kv - upper_mean) * (pix kv - upper_mean) else s) 0
  let lower_dev := entries.foldl
    (fun s kv => if pix kv ≤ mgv then s + (pix kv - lower_mean) * (pix kv - lower_mean) else s) 0
  let upper_dev := Int.tdiv upper_dev upper_num
  let lower_dev := Int.tdiv lower_dev lower_num
  some ((isqrt upper_dev.toNat : Int), (isqrt lower_dev.toNat : Int))

/-- Function `ComputeStats`, lines 38-81: returns `(mgv, upper_dev, lower_dev)`. -/
def ComputeStats (ord : MapOrder) (image : Volume) (region_points : PointMap) :
    Option (Int × Int × Int) :=
  match regionMean ord image region_points with
  | none => none
  | some mgv =>
    match halfDeviations image (ord.enumerate region_points) mgv with
    | none => none
    | some (upper_dev, lower_dev) => some (mgv, upper_dev, lower_dev)

/-! ## Threshold policy -/

/-- The integer part of `20 * q / sqrt n`. -/
def invSqrtFloor (q n : Nat) : Nat := isqrt (400 * q * q / n)

/-- The least integer that is at least `20 * q / sqrt n`. -/
def invSqrtCeil (q n : Nat) : Nat :=
  let c := (400 * q * q + n - 1) / n
  if isqrt c * isqrt c = c then isqrt c else isqrt c + 1

/-- The value `(long long)(mgv + (dev * k + 20 / sqrt(n)))` for `k = p / q`, the `double` expression
read as a real number and truncated toward zero on conversion.  With
`a = q * mgv + dev * p`, the real number is `(a + 20 * q / sqrt n) / q`. -/
def boundAbove (mgv dev : Int) (p q n : Nat) : Int :=
  let a := (q : Int) * mgv + dev * p
  if 0 ≤ a + invSqrtFloor q n then Int.tdiv (a + invSqrtFloor q n) q
  else Int.tdiv (a + invSqrtCeil q n) q

/-- The value `(long long)(mgv - (dev * k + 20 / sqrt(n)))` for `k = p / q`, the `double` expression
read as a real number and truncated toward zero on conversion.  With
`b = q * mgv - dev * p`, the real number is `(b - 20 * q / sqrt n) / q`. -/
def boundBelow (mgv dev : Int) (p q n : Nat) : Int :=
  let b := (q : Int) * mgv - dev * p
  if 0 ≤ b - invSqrtCeil q n then Int.tdiv (b - invSqrtCeil q n) q
  else Int.tdiv (b - invSqrtFloor q n) q

/-- Function `ComputeThreshold`, lines 84-95: returns `(upper_threshold, lower_threshold)` with
the multiplier `1.5 = 3 / 2`. -/
def ComputeThreshold (ord : MapOrder) (image : Volume) (region_points : PointMap) :
    Option (Int × Int) :=
  match ComputeStats ord image region_points with
  | none => none
  | some (mgv, upper_dev, lower_dev) =>
    some (boundAbove mgv upper_dev 3 2 region_points.length,
          boundBelow mgv lower_dev 3 2 region_points.length)

/-- Function `ComputeFinalThreshold`, lines 98-109: returns `(upper_threshold, lower_threshold)`
with the multiplier `2 * 2.58 = 129 / 25`. -/
def ComputeFinalThreshold (ord : MapOrder) (image : Volume) (region_points : PointMap) :
    Option (Int × Int) :=
  match ComputeStats ord image region_points with
  | none => none
  | some (mgv, upper_dev, lower_dev) =>
    some (boundAbove mgv upper_dev 129 25 region_points.length,
          boundBelow mgv lower_dev 129 25 region_points.length)

/-! ## Geometry -/

/-- Function `ComputePointHash`, lines 112-114. -/
def ComputePointHash (point : Point) : Int :=
  point.x * point.y * point.z + point.x * 100 + point.y * 10 + point.z

/-- Function `CheckBounds`, lines 117-123.  In `point[0] < size[0]` the signed index is
converted to the unsigned type of the size. -/
def CheckBounds (point : Point) (size : Nat × Nat × Nat) : Bool :=
  if !(decide (toUInt64 point.x < size.1) && decide (point.x ≥ 0)) then false
  else if !(decide (toUInt64 point.y < size.2.1) && decide (point.y ≥ 0)) then false
  else if !(decide (toUInt64 point.z < size.2.2) && decide (point.z ≥ 0)) then false
  else true

/-- The size `image->GetLargestPossibleRegion().GetSize()`. -/
def Volume.size (image : Volume) : Nat × Nat × Nat := (image.sx, image.sy, image.sz)

/-- The offsets `(i, j, k)` in the order of the three nested loops over `-1 .. 1`,
without the central one. -/
def offsets26 : List (Int × Int × Int) :=
  ([-1, 0, 1].flatMap fun i => [-1, 0, 1].flatMap fun j => [-1, 0, 1].map fun k => (i, j, k)).filter
    fun o => !(o.1 == 0 && o.2.1 == 0 && o.2.2 == 0)

/-- The point `seed_copy` after `seed_copy[0] += i; seed_copy[1] += j; seed_copy[2] += k`. -/
def Point.shift (p : Point) (o : Int × Int × Int) : Point :=
  ⟨p.x + o.1, p.y + o.2.1, p.z + o.2.2⟩

/-! ## Region growing -/

/-- The local variables of `GrowRegions` during the growing loop.  `region_size` is a
positive count; it is kept as a natural number. -/
structure GrowState where
  visited_points : PointMap
  q : List Point
  upper_threshold : Int
  lower_threshold : Int
  region_size : Nat
deriving DecidableEq

/-- The body of the innermost seeding loop, lines 142-149, on the pair
`(visited_points, q)`. -/
def seedNeighbour (size : Nat × Nat × Nat) (seed : Point) (st : PointMap × List Point)
    (o : Int × Int × Int) : PointMap × List Point :=
  let seed_copy := seed.shift o
  if !CheckBounds seed_copy size then st
  else (mapAssign st.1 (ComputePointHash seed_copy) seed_copy, st.2 ++ [seed_copy])

/-- Lines 129-153: the map and the queue when the seeding loops are over, before the
first call of `ComputeThreshold`. -/
def seedRegion (image : Volume) (seed : Point) : PointMap × List Point :=
  offsets26.foldl (seedNeighbour image.size seed)
    (mapAssign [] (ComputePointHash seed) seed, [])

/-- Lines 129-155: seeding, the first thresholds and the first `region_size`. -/
def Seeding (ord : MapOrder) (image : Volume) (seed : Point) : Option GrowState :=
  let s := seedRegion image seed
  match ComputeThreshold ord image s.1 with
  | none => none
  | some (upper, lower) => some ⟨s.1, s.2, upper, lower, s.1.length⟩

/-- The body of the innermost growing loop, lines 173-198, for the dequeued point
`elem` and one offset. -/
def growNeighbour (ord : MapOrder) (image : Volume) (elem : Point) (st : GrowState)
    (o : Int × Int × Int) : Option GrowState :=
  let seed_copy := elem.shift o
  if !CheckBounds seed_copy image.size then some st
  else if image.GetPixel seed_copy ≥ st.lower_threshold ∧
      image.GetPixel seed_copy ≤ st.upper_threshold then
    if mapContains st.visited_points (ComputePointHash seed_copy) then some st
    else
      let q := st.q ++ [seed_copy]
      let visited_points := mapAssign st.visited_points (ComputePointHash seed_copy) seed_copy
      if st.region_size = 0 then none
      else if visited_points.length / st.region_size ≥ 2 then
        match ComputeThreshold ord image visited_points with
        | none => none
        | some (upper, lower) => some ⟨visited_points, q, upper, lower, visited_points.length⟩
      else some ⟨visited_points, q, st.upper_threshold, st.lower_threshold, st.region_size⟩
  else some st

/-- The three nested loops of lines 168-202 for the dequeued point `elem`, over the
offsets `os` that are still to be examined. -/
def growNeighbours (ord : MapOrder) (image : Volume) (elem : Point) :
    List (Int × Int × Int) → GrowState → Option GrowState
  | [], st => some st
  | o :: os, st =>
    match growNeighbour ord image elem st o with
    | none => none
    | some st1 => growNeighbours ord image elem os st1

/-- One iteration of the `while` loop after the cap test, lines 166-202: take the
front of the queue and examine its 26 neighbours. -/
def growStep (ord : MapOrder) (image : Volume) (st : GrowState) : Option GrowState :=
  match st.q with
  | [] => some st
  | elem :: rest => growNeighbours ord image elem offsets26 { st with q := rest }

/-- The `while` loop of lines 160-203.  The first argument is the number of iterations
that the cap still allows, `10000000 - iter`; the loop ends when the queue is empty or
when the cap is reached. -/
def growLoop (ord : MapOrder) (image : Volume) : Nat → GrowState → Option GrowState
  | 0, st => some st
  | left + 1, st =>
    match st.q with
    | [] => some st
    | _ :: _ =>
      match growStep ord image st with
      | none => none
      | some st1 => growLoop ord image left st1

/-- The iteration cap of line 163. -/
def iterCap : Nat := 10000000

/-- Lines 129-203: the state of `GrowRegions` when the growing loop is over. -/
def Growing (ord : MapOrder) (image : Volume) (seed : Point) : Option GrowState :=
  match Seeding ord image seed with
  | none => none
  | some st => growLoop ord image iterCap st

/-- Function `GrowRegions`, lines 125-207: returns `(upper_threshold, lower_threshold)`. -/
def GrowRegions (ord : MapOrder) (image : Volume) (seed : Point) : Option (Int × Int) :=
  match Growing ord image seed with
  | none => none
  | some st => ComputeFinalThreshold ord image st.visited_points

/-! ## Test volumes -/

/-- A volume of the given size whose voxels all have the value `v`. -/
def uniformVolume (sx sy sz : Nat) (v : Int) : Volume := ⟨sx, sy, sz, fun _ => v⟩

/-- The 5x5x5 volume of the concrete scenario: 100 everywhere except 500 at (2,2,3). -/
def scenarioVolume : Volume :=
  ⟨5, 5, 5, fun p => if p = ⟨2, 2, 3⟩ then 500 else 100⟩

/-! ## Notions used in the statements -/

/-- The conditional sum that the accumulation loops of `ComputeStats` compute. -/
def sumWhere {α : Type} (c : α → Bool) (f : α → Int) (l : List α) : Int :=
  ((l.filter c).map f).sum

/-- The point lies inside the volume. -/
def InBounds (image : Volume) (p : Point) : Prop :=
  (0 ≤ p.x ∧ p.x < image.sx) ∧ (0 ≤ p.y ∧ p.y < image.sy) ∧ (0 ≤ p.z ∧ p.z < image.sz)

instance (image : Volume) (p : Point) : Decidable (InBounds image p) := by
  unfold InBounds; infer_instance

/-- The three sizes fit the unsigned 64-bit `SizeValueType`. -/
def SizeRepresentable (image : Volume) : Prop :=
  (image.sx : Int) < two64 ∧ (image.sy : Int) < two64 ∧ (image.sz : Int) < two64

instance (image : Volume) : Decidable (SizeRepresentable image) := by
  unfold SizeRepresentable; infer_instance

/-- The three coordinates fit the signed 64-bit `IndexValueType`. -/
def IndexRepresentable (p : Point) : Prop :=
  (-two63 ≤ p.x ∧ p.x < two63) ∧ (-two63 ≤ p.y ∧ p.y < two63) ∧ (-two63 ≤ p.z ∧ p.z < two63)

/-- Every point of the map and every point of the queue lies inside the volume. -/
def AllInBounds (image : Volume) (m : PointMap) (q : List Point) : Prop :=
  (∀ kv ∈ m, InBounds image kv.2) ∧ (∀ p ∈ q, InBounds image p)

/-- The points of the Region: the values of the map. -/
def regionPoints (m : PointMap) : List Point := m.map (fun kv => kv.2)

/-- The 26 neighbours of a point, in the order of the loops. -/
def neighbours (p : Point) : List Point := offsets26.map p.shift

/-- The map and the queue of the seeding loops after the first `k` offsets. -/
def seedAfter (image : Volume) (seed : Point) (k : Nat) : PointMap × List Point :=
  (offsets26.take k).foldl (seedNeighbour image.size seed)
    (mapAssign [] (ComputePointHash seed) seed, [])

/-- Lines 194-197 on sizes alone: the sizes at which the thresholds are computed again
when the map reaches the given sizes one after the other, starting from the baseline
`region_size`. -/
def recomputeSizes : Nat → List Nat → List Nat
  | _, [] => []
  | region_size, s :: rest =>
    if s / region_size ≥ 2 then s :: recomputeSizes s rest
    else recomputeSizes region_size rest

/-- The integer `z` is the real number `x` truncated toward zero, the conversion of a
`double` to `long long`. -/
def IsTruncation (x : ℝ) (z : Int) : Prop :=
  (0 ≤ x → z = ⌊x⌋) ∧ (x < 0 → z = ⌈x⌉)

/-- A 3x1x1 volume with the values -4, -2, 0 along the first axis. -/
def rampVolume : Volume := ⟨3, 1, 1, fun p => 2 * p.x - 4⟩

/-- The state of `GrowRegions` on the uniform 5x5x5 volume with seed (2,2,2) in the
fourth iteration of the growing loop, when the front of the queue has been removed and
its first 23 neighbours have been examined; the removed front comes with it. -/
def fourthIterationState : Option (Point × GrowState) :=
  match (Seeding insertionOrder (uniformVolume 5 5 5 100) ⟨2, 2, 2⟩).bind
      (growLoop insertionOrder (uniformVolume 5 5 5 100) 3) with
  | none => none
  | some st3 =>
    match st3.q with
    | [] => none
    | elem :: rest =>
      (growNeighbours insertionOrder (uniformVolume 5 5 5 100) elem (offsets26.take 23)
        { st3 with q := rest }).map fun st => (elem, st)

/-- The values of the region in the order of the iteration. -/
def regionValues (ord : MapOrder) (image : Volume) (m : PointMap) : List Int :=
  (ord.enumerate m).map fun kv => image.GetPixel kv.2

/-- The upper half of a list of values for a mean: the values that are at least the
mean. -/
def upperHalf (vals : List Int) (mean : Int) : List Int := vals.filter fun v => decide (v ≥ mean)

/-- The lower half of a list of values for a mean: the values that are at most the
mean. -/
def lowerHalf (vals : List Int) (mean : Int) : List Int := vals.filter fun v => decide (v ≤ mean)

/-- The deviation of one half as the specification words it: the half's own mean is
its sum divided by its size, the squared differences from that mean are summed and
divided by the size, both divisions truncating, and the integer part of the square
root is taken. -/
def truncatedDeviation (half : List Int) : Int :=
  let ownMean := Int.tdiv half.sum half.length
  let squares := (half.map fun v => (v - ownMean) * (v - ownMean)).sum
  (isqrt (Int.tdiv squares half.length).toNat : Int)

/-- The map entries of a list of points, each under its own key. -/
def keyed (pts : List Point) : PointMap := pts.map fun p => (ComputePointHash p, p)

/-- The neighbours of a point that pass `CheckBounds`, in the order of the loops. -/
def inBoundsNeighbours (image : Volume) (p : Point) : List Point :=
  (neighbours p).filter fun n => CheckBounds n image.size

/-- The largest key that a point inside the volume can have. -/
def keyBound (image : Volume) : Nat :=
  image.sx * image.sy * image.sz + image.sx * 100 + image.sy * 10 + image.sz

/-- The map is not empty, every entry is a point inside the volume under its own key,
and no key occurs twice. -/
def MapWF (image : Volume) (m : PointMap) : Prop :=
  0 < m.length ∧ (∀ kv ∈ m, kv.1 = ComputePointHash kv.2 ∧ InBounds image kv.2) ∧
    (m.map fun kv => kv.1).Nodup

/-- The values of the voxels of the volume lie between 0 and `vmax`, and `vmax` is small
enough for the sum over any region to fit a `long long`. -/
def ValuesFit (image : Volume) (vmax : Int) : Prop :=
  (∀ p, InBounds image p → 0 ≤ image.GetPixel p ∧ image.GetPixel p ≤ vmax) ∧
    ((keyBound image : Int) + 1) * vmax < two63

/-- The invariant of the growing loop: the map is well formed, the queue holds points
inside the volume, and `region_size` is positive. -/
def GoodState (image : Volume) (st : GrowState) : Prop :=
  MapWF image st.visited_points ∧ (∀ p ∈ st.q, InBounds image p) ∧ 0 < st.region_size

/-- A 1x1x4 volume with the values 0, 10, 40, 90 along the third axis. -/
def quadVolume : Volume := ⟨1, 1, 4, fun p => 10 * p.z * p.z⟩

/-- A 1x1x3 volume with the values 10, -9, -2 along the third axis. -/
def mixedVolume : Volume :=
  ⟨1, 1, 3, fun p => if p.z = 0 then 10 else if p.z = 1 then -9 else -2⟩

/-! ## A record of the run -/

/-- The three tests that decide whether the neighbour of `elem` at offset `o` is taken
into the Region in the state `st`: inside the volume (line 177), value within the
current bounds (line 181), key not yet in the map (lines 184-187). -/
def accepts (image : Volume) (elem : Point) (st : GrowState) (o : Int × Int × Int) : Bool :=
  CheckBounds (elem.shift o) image.size &&
    (decide (st.lower_threshold ≤ image.GetPixel (elem.shift o) ∧
      image.GetPixel (elem.shift o) ≤ st.upper_threshold) &&
    !mapContains st.visited_points (ComputePointHash (elem.shift o)))

/-- What is recorded about a run of the growing loop, next to its state: the accepted
neighbours in order, each with the lower and the upper bound that were current when it
was accepted; the number of times the thresholds were computed again; the number of
points taken from the queue. -/
structure RunLog where
  accepted : List (Point × Int × Int)
  recomputes : Nat
  dequeues : Nat
deriving DecidableEq

/-- The record of a run that has not started. -/
def RunLog.empty : RunLog := ⟨[], 0, 0⟩

/-- The body of the innermost growing loop together with the record: the state is the
one of `growNeighbour`; an acceptance is recorded with the bounds of the state in
which the tests were made, and a recomputation when the test of line 194 passes. -/
def logNeighbour (ord : MapOrder) (image : Volume) (elem : Point) (sl : GrowState × RunLog)
    (o : Int × Int × Int) : Option (GrowState × RunLog) :=
  match growNeighbour ord image elem sl.1 o with
  | none => none
  | some st1 =>
    if accepts image elem sl.1 o then
      some (st1,
        { accepted := sl.2.accepted ++
            [(elem.shift o, sl.1.lower_threshold, sl.1.upper_threshold)]
          recomputes :=
            if (mapAssign sl.1.visited_points (ComputePointHash (elem.shift o))
                (elem.shift o)).length / sl.1.region_size ≥ 2
            then sl.2.recomputes + 1 else sl.2.recomputes
          dequeues := sl.2.dequeues })
    else some (st1, sl.2)

/-- The loops over the offsets `os` for the dequeued point `elem`, with the record. -/
def logNeighbours (ord : MapOrder) (image : Volume) (elem : Point) :
    List (Int × Int × Int) → GrowState × RunLog → Option (GrowState × RunLog)
  | [], sl => some sl
  | o :: os, sl =>
    match logNeighbour ord image elem sl o with
    | none => none
    | some sl1 => logNeighbours ord image elem os sl1

/-- The state and the record right after the front of the queue has been taken. -/
def dequeued (sl : GrowState × RunLog) (rest : List Point) : GrowState × RunLog :=
  ({ sl.1 with q := rest }, { sl.2 with dequeues := sl.2.dequeues + 1 })

/-- One iteration of the `while` loop, with the record. -/
def logStep (ord : MapOrder) (image : Volume) (sl : GrowState × RunLog) :
    Option (GrowState × RunLog) :=
  match sl.1.q with
  | [] => some sl
  | elem :: rest => logNeighbours ord image elem offsets26 (dequeued sl rest)

/-- The `while` loop with the record, for the number of iterations that the cap still
allows. -/
def logLoop (ord : MapOrder) (image : Volume) :
    Nat → GrowState × RunLog → Option (GrowState × RunLog)
  | 0, sl => some sl
  | left + 1, sl =>
    match sl.1.q with
    | [] => some sl
    | _ :: _ =>
      match logStep ord image sl with
      | none => none
      | some sl1 => logLoop ord image left sl1

/-- The state and the record of `GrowRegions` when the growing loop is over. -/
def GrowingLog (ord : MapOrder) (image : Volume) (seed : Point) :
    Option (GrowState × RunLog) :=
  match Seeding ord image seed with
  | none => none
  | some st => logLoop ord image iterCap (st, RunLog.empty)

/-- The states, with their records, that the growing loop started from the seed passes
through: the state after some number of iterations, or a state inside the next
iteration, after the front of the queue has been taken and some of the offsets have
been examined. -/
def Reached (ord : MapOrder) (image : Volume) (seed : Point) (sl : GrowState × RunLog) :
    Prop :=
  ∃ st0 n slN, Seeding ord image seed = some st0 ∧
    logLoop ord image n (st0, RunLog.empty) = some slN ∧
    (sl = slN ∨ ∃ elem rest k, slN.1.q = elem :: rest ∧
      logNeighbours ord image elem (offsets26.take k) (dequeued slN rest) = some sl)

/-- The points pushed onto the queue up to a state of the run: those of the seeding
loops followed by the accepted neighbours. -/
def pushed (image : Volume) (seed : Point) (log : RunLog) : List Point :=
  (seedRegion image seed).2 ++ log.accepted.map fun e => e.1

/-! ## Machine arithmetic

The second embedding, namespace `Ieee`, follows the arithmetic of the C++ text operation
by operation.  The pixels are `float` (`InternalPixelType`), the accumulators are
`long long`, and a mixed expression is evaluated in the floating type its operands are
converted to: `float` when a `long long` meets a pixel, `double` when a `long long` or
a `size_t` meets a `double` literal or the result of `sqrt`.

* A finite floating-point value is the rational number it stands for.  An operation
  is the exact operation followed by rounding to the nearest value of the format,
  ties to the even significand (IEEE 754 binary32 with 24 significant bits, binary64
  with 53), each operation rounded on its own, in the format of its operands (no
  excess precision, no fused multiply-add).  The exponent range is not bounded: a
  `float` overflow would need a pixel in the last binade and ends in a conversion
  that is out of range in either reading, and an underflow does not change an integer
  result.
* The conversion of a floating value to `long long` truncates toward zero; when the
  truncated value does not fit, the C++ behaviour is undefined and the functions return
  `none`, as they do for a division by zero.
-/

/-- Halving `n` until it is below 2, at most `fuel` times: the number of halvings. -/
def log2Fuel : Nat → Nat → Nat
  | 0, _ => 0
  | fuel + 1, n => if n < 2 then 0 else log2Fuel fuel (n / 2) + 1

/-- The integer part of the binary logarithm of a positive natural number. -/
def ilog2 (n : Nat) : Nat := log2Fuel n n

/-- The binary exponent of a rational `x` other than 0: the integer `E` with
`2^E ≤ |x| < 2^(E+1)`. -/
def binaryExponent (x : ℚ) : Int :=
  let e0 : Int := (ilog2 x.num.natAbs : Int) - (ilog2 x.den : Int)
  if (2 : ℚ) ^ e0 ≤ |x| then e0 else e0 - 1

/-- Rounding to the nearest binary floating-point value with a significand of `prec`
bits, ties to the even significand.  With `E` the binary exponent of `x`, the values of
the format around `x` are the multiples of `2^(E - prec + 1)`. -/
def roundNearestEven (prec : Nat) (x : ℚ) : ℚ :=
  if x = 0 then 0
  else
    let e : Int := binaryExponent x - ((prec : Int) - 1)
    let m : ℚ := |x| / (2 : ℚ) ^ e
    let q : Int := ⌊m⌋
    let r : ℚ := m - q
    let q1 : Int :=
      if r < 1 / 2 then q else if 1 / 2 < r then q + 1 else if q % 2 = 0 then q else q + 1
    (if x < 0 then -1 else 1) * (q1 : ℚ) * (2 : ℚ) ^ e

/-- The value of a `float` expression, or of a conversion to `float`: binary32. -/
def toFloat (x : ℚ) : ℚ := roundNearestEven 24 x

/-- The value of a `double` expression, or of a conversion to `double`: binary64. -/
def toDouble (x : ℚ) : ℚ := roundNearestEven 53 x

/-- The library function `sqrt` on a `double` that is not negative: the `double` nearest
to the square root.  With `y = x * 4^s` at least `2^120` and `t` the integer part of
its root, the root of `x` is `t / 2^s` when `t * t = y` and lies strictly between
`t / 2^s` and `(t + 1) / 2^s` otherwise, where no value of the format and no midpoint
of two values lies. -/
def sqrtDouble (x : ℚ) : ℚ :=
  if x ≤ 0 then 0
  else
    let s : Int := 60 - binaryExponent x / 2
    let y : ℚ := x * (4 : ℚ) ^ s
    let t : Nat := isqrt ⌊y⌋.toNat
    toDouble (((t : ℚ) + (if (t : ℚ) * t = y then 0 else 1 / 2)) / (2 : ℚ) ^ s)

/-- Truncation toward zero. -/
def truncate (x : ℚ) : Int := if 0 ≤ x then ⌊x⌋ else ⌈x⌉

/-- The conversion of a floating value to `long long`: the value truncated toward
zero when that fits 64 bits, undefined otherwise. -/
def toLongLong (x : ℚ) : Option Int :=
  if -two63 ≤ truncate x ∧ truncate x < two63 then some (truncate x) else none

/-- The value is a finite binary32 number: 24 significant bits, a multiple of
`2^(-149)`, below `2^128` in magnitude. -/
def IsBinary32 (x : ℚ) : Prop := toFloat x = x ∧ x.den ∣ 2 ^ 149 ∧ |x| < 2 ^ 128

instance (x : ℚ) : Decidable (IsBinary32 x) := by
  unfold IsBinary32; infer_instance

/-- The image `itk::Image<float, 3>` as `GrowRegions` sees it: the size of its largest
possible region and the pixel lookup, which returns a `float`. -/
structure InternalImage where
  sx : Nat
  sy : Nat
  sz : Nat
  GetPixel : Point → ℚ

/-- The size `image->GetLargestPossibleRegion().GetSize()`. -/
def InternalImage.size (image : InternalImage) : Nat × Nat × Nat := (image.sx, image.sy, image.sz)

/-- The index space of the image, for the notions that depend on the sizes alone: the
pixel values are left out. -/
def InternalImage.grid (image : InternalImage) : Volume :=
  ⟨image.sx, image.sy, image.sz, fun _ => 0⟩

namespace Ieee

/-- The statement `acc += x` for a `long long` accumulator and a `float` operand: the
accumulator is converted to `float`, the sum is a `float`, and the assignment converts
it back. -/
def accumulate (acc : Int) (x : ℚ) : Option Int :=
  toLongLong (toFloat (toFloat acc + x))

/-- A loop `for (kv : entries) if (c kv) acc += f kv;` from the initial value 0. -/
def accumulateWhere (c : Int × Point → Bool) (f : Int × Point → ℚ) (entries : PointMap) :
    Option Int :=
  entries.foldlM (fun acc kv => if c kv then accumulate acc (f kv) else some acc) 0

/-- Lines 41-46 of `ComputeStats`: the value stored in `*mgv`.  The sum is accumulated
by `sum += image->GetPixel(..)`; `sum / region_points.size()` divides a `long long` by
a `size_t`, both operands converted to `unsigned long long`, and the quotient is
converted back to `long long` by the assignment.  An empty map is a division by
zero. -/
def regionMean (ord : MapOrder) (image : InternalImage) (region_points : PointMap) :
    Option Int :=
  match accumulateWhere (fun _ => true) (fun kv => image.GetPixel kv.2)
      (ord.enumerate region_points) with
  | none => none
  | some sum =>
    if region_points.length = 0 then none
    else some (toInt64 (Int.tdiv (toUInt64 sum) region_points.length))

/-- The value of `(long long) sqrt(n)` for a `long long` `n`, lines 79-80: `n` is
converted to `double`, the root is a `double`, the assignment truncates.  The root of a
negative number is not a number and its conversion is undefined. -/
def sqrtLongLong (n : Int) : Option Int :=
  if n < 0 then none else toLongLong (sqrtDouble (toDouble n))

/-- The squared difference `(pixel - mean) * (pixel - mean)` of lines 69 and 72: the
mean is converted to `float`, the difference and the product are `float`. -/
def squaredDifference (pixel : ℚ) (mean : Int) : ℚ :=
  toFloat (toFloat (pixel - toFloat mean) * toFloat (pixel - toFloat mean))

/-- Lines 48-80 of `ComputeStats`, for the entries in the order of the iteration and
the mean `mgv`: returns `(upper_dev, lower_dev)`.  In the comparisons `mgv` is
converted to `float`; the divisions are between `long long` operands. -/
def halfDeviations (image : InternalImage) (entries : PointMap) (mgv : Int) :
    Option (Int × Int) :=
  let pix := fun (kv : Int × Point) => image.GetPixel kv.2
  let upper := fun (kv : Int × Point) => decide (pix kv ≥ toFloat mgv)
  let lower := fun (kv : Int × Point) => decide (pix kv ≤ toFloat mgv)
  match accumulateWhere upper pix entries, accumulateWhere lower pix entries with
  | some upper_sum, some lower_sum =>
    let upper_num : Int := entries.foldl (fun n kv => if upper kv then n + 1 else n) 0
    let lower_num : Int := entries.foldl (fun n kv => if lower kv then n + 1 else n) 0
    if upper_num = 0 then none else
    if lower_num = 0 then none else
    let upper_mean := Int.tdiv upper_sum upper_num
    let lower_mean := Int.tdiv lower_sum lower_num
    match accumulateWhere upper (fun kv => squaredDifference (pix kv) upper_mean) entries,
        accumulateWhere lower (fun kv => squaredDifference (pix kv) lower_mean) entries with
    | some upper_dev, some lower_dev =>
      match sqrtLongLong (Int.tdiv upper_dev upper_num),
          sqrtLongLong (Int.tdiv lower_dev lower_num) with
      | some upper_dev, some lower_dev => some (upper_dev, lower_dev)
      | _, _ => none
    | _, _ => none
  | _, _ => none

/-- Function `ComputeStats`, lines 38-81: returns `(mgv, upper_dev, lower_dev)`. -/
def ComputeStats (ord : MapOrder) (image : InternalImage) (region_points : PointMap) :
    Option (Int × Int × Int) :=
  match regionMean ord image region_points with
  | none => none
  | some mgv =>
    match halfDeviations image (ord.enumerate region_points) mgv with
    | none => none
    | some (upper_dev, lower_dev) => some (mgv, upper_dev, lower_dev)

/-- The `double` value of `20 / sqrt(region_points.size())`. -/
def sizeTerm (n : Nat) : ℚ := toDouble (20 / sqrtDouble (toDouble n))

/-- The `double` value of `upper_dev * 1.5`, line 90; the literal 1.5 is a `double`. -/
def spread (dev : Int) : ℚ := toDouble (toDouble dev * (3 / 2))

/-- The `double` nearest to the literal 2.58. -/
def literal258 : ℚ := toDouble (258 / 100)

/-- The `double` value of `upper_dev * 2 * 2.58`, line 104: the product `upper_dev * 2`
is a `long long`, converted to `double` for the second product. -/
def finalSpread (dev : Int) : ℚ := toDouble (toDouble ((dev * 2 : Int) : ℚ) * literal258)

/-- The value assigned by `*upper_threshold = mgv + (s + 20 / sqrt(size))`, for the
`double` value `s` of the first summand: two sums in `double` and the conversion to
`long long`. -/
def boundAbove (mgv : Int) (s : ℚ) (n : Nat) : Option Int :=
  toLongLong (toDouble (toDouble mgv + toDouble (s + sizeTerm n)))

/-- The value assigned by `*lower_threshold = mgv - (s + 20 / sqrt(size))`. -/
def boundBelow (mgv : Int) (s : ℚ) (n : Nat) : Option Int :=
  toLongLong (toDouble (toDouble mgv - toDouble (s + sizeTerm n)))

/-- Function `ComputeThreshold`, lines 84-95: returns
`(upper_threshold, lower_threshold)`. -/
def ComputeThreshold (ord : MapOrder) (image : InternalImage) (region_points : PointMap) :
    Option (Int × Int) :=
  match ComputeStats ord image region_points with
  | none => none
  | some (mgv, upper_dev, lower_dev) =>
    match boundAbove mgv (spread upper_dev) region_points.length,
        boundBelow mgv (spread lower_dev) region_points.length with
    | some upper, some lower => some (upper, lower)
    | _, _ => none

/-- Function `ComputeFinalThreshold`, lines 98-109: returns
`(upper_threshold, lower_threshold)`. -/
def ComputeFinalThreshold (ord : MapOrder) (image : InternalImage)
    (region_points : PointMap) : Option (Int × Int) :=
  match ComputeStats ord image region_points with
  | none => none
  | some (mgv, upper_dev, lower_dev) =>
    match boundAbove mgv (finalSpread upper_dev) region_points.length,
        boundBelow mgv (finalSpread lower_dev) region_points.length with
    | some upper, some lower => some (upper, lower)
    | _, _ => none

/-- Lines 129-155: seeding, the first thresholds and the first `region_size`. -/
def Seeding (ord : MapOrder) (image : InternalImage) (seed : Point) : Option GrowState :=
  let s := seedRegion image.grid seed
  match ComputeThreshold ord image s.1 with
  | none => none
  | some (upper, lower) => some ⟨s.1, s.2, upper, lower, s.1.length⟩

/-- The test of line 181: the pixel is compared with each bound converted to
`float`. -/
def withinBounds (pixel : ℚ) (lower upper : Int) : Bool :=
  decide (pixel ≥ toFloat lower) && decide (pixel ≤ toFloat upper)

/-- The body of the innermost growing loop, lines 173-198, for the dequeued point
`elem` and one offset. -/
def growNeighbour (ord : MapOrder) (image : InternalImage) (elem : Point) (st : GrowState)
    (o : Int × Int × Int) : Option GrowState :=
  let seed_copy := elem.shift o
  if !CheckBounds seed_copy image.size then some st
  else if withinBounds (image.GetPixel seed_copy) st.lower_threshold st.upper_threshold then
    if mapContains st.visited_points (ComputePointHash seed_copy) then some st
    else
      let q := st.q ++ [seed_copy]
      let visited_points := mapAssign st.visited_points (ComputePointHash seed_copy) seed_copy
      if st.region_size = 0 then none
      else if visited_points.length / st.region_size ≥ 2 then
        match ComputeThreshold ord image visited_points with
        | none => none
        | some (upper, lower) => some ⟨visited_points, q, upper, lower, visited_points.length⟩
      else some ⟨visited_points, q, st.upper_threshold, st.lower_threshold, st.region_size⟩
  else some st

/-- The three nested loops of lines 168-202 for the dequeued point `elem`, over the
offsets `os` that are still to be examined. -/
def growNeighbours (ord : MapOrder) (image : InternalImage) (elem : Point) :
    List (Int × Int × Int) → GrowState → Option GrowState
  | [], st => some st
  | o :: os, st =>
    match growNeighbour ord image elem st o with
    | none => none
    | some st1 => growNeighbours ord image elem os st1

/-- One iteration of the `while` loop after the cap test, lines 166-202. -/
def growStep (ord : MapOrder) (image : InternalImage) (st : GrowState) : Option GrowState :=
  match st.q with
  | [] => some st
  | elem :: rest => growNeighbours ord image elem offsets26 { st with q := rest }

/-- The `while` loop of lines 160-203, for the number of iterations that the cap still
allows. -/
def growLoop (ord : MapOrder) (image : InternalImage) : Nat → GrowState → Option GrowState
  | 0, st => some st
  | left + 1, st =>
    match st.q with
    | [] => some st
    | _ :: _ =>
      match growStep ord image st with
      | none => none
      | some st1 => growLoop ord image left st1

/-- Lines 129-203: the state of `GrowRegions` when the growing loop is over. -/
def Growing (ord : MapOrder) (image : InternalImage) (seed : Point) : Option GrowState :=
  match Seeding ord image seed with
  | none => none
  | some st => growLoop ord image iterCap st

/-- Function `GrowRegions`, lines 125-207: returns `(upper_threshold, lower_threshold)`. -/
def GrowRegions (ord : MapOrder) (image : InternalImage) (seed : Point) : Option (Int × Int) :=
  match Growing ord image seed with
  | none => none
  | some st => ComputeFinalThreshold ord image st.visited_points

/-- The three tests that decide whether the neighbour of `elem` at offset `o` is taken
into the Region in the state `st`: inside the image (line 177), value within the
current bounds as line 181 compares them, key not yet in the map (lines 184-187). -/
def accepts (image : InternalImage) (elem : Point) (st : GrowState) (o : Int × Int × Int) :
    Bool :=
  CheckBounds (elem.shift o) image.size &&
    (withinBounds (image.GetPixel (elem.shift o)) st.lower_threshold st.upper_threshold &&
    !mapContains st.visited_points (ComputePointHash (elem.shift o)))

/-- The body of the innermost growing loop together with the record: the state is the
one of `growNeighbour`; an acceptance is recorded with the bounds of the state in
which the tests were made, and a recomputation when the test of line 194 passes. -/
def logNeighbour (ord : MapOrder) (image : InternalImage) (elem : Point)
    (sl : GrowState × RunLog) (o : Int × Int × Int) : Option (GrowState × RunLog) :=
  match growNeighbour ord image elem sl.1 o with
  | none => none
  | some st1 =>
    if accepts image elem sl.1 o then
      some (st1,
        { accepted := sl.2.accepted ++
            [(elem.shift o, sl.1.lower_threshold, sl.1.upper_threshold)]
          recomputes :=
            if (mapAssign sl.1.visited_points (ComputePointHash (elem.shift o))
                (elem.shift o)).length / sl.1.region_size ≥ 2
            then sl.2.recomputes + 1 else sl.2.recomputes
          dequeues := sl.2.dequeues })
    else some (st1, sl.2)

/-- The loops over the offsets `os` for the dequeued point `elem`, with the record. -/
def logNeighbours (ord : MapOrder) (image : InternalImage) (elem : Point) :
    List (Int × Int × Int) → GrowState × RunLog → Option (GrowState × RunLog)
  | [], sl => some sl
  | o :: os, sl =>
    match logNeighbour ord image elem sl o with
    | none => none
    | some sl1 => logNeighbours ord image elem os sl1

/-- One iteration of the `while` loop, with the record. -/
def logStep (ord : MapOrder) (image : InternalImage) (sl : GrowState × RunLog) :
    Option (GrowState × RunLog) :=
  match sl.1.q with
  | [] => some sl
  | elem :: rest => logNeighbours ord image elem offsets26 (dequeued sl rest)

/-- The `while` loop with the record, for the number of iterations that the cap still
allows. -/
def logLoop (ord : MapOrder) (image : InternalImage) :
    Nat → GrowState × RunLog → Option (GrowState × RunLog)
  | 0, sl => some sl
  | left + 1, sl =>
    match sl.1.q with
    | [] => some sl
    | _ :: _ =>
      match logStep ord image sl with
      | none => none
      | some sl1 => logLoop ord image left sl1

/-- The state and the record of `GrowRegions` when the growing loop is over. -/
def GrowingLog (ord : MapOrder) (image : InternalImage) (seed : Point) :
    Option (GrowState × RunLog) :=
  match Seeding ord image seed with
  | none => none
  | some st => logLoop ord image iterCap (st, RunLog.empty)

/-- The states, with their records, that the growing loop started from the seed passes
through: the state after some number of iterations, or a state inside the next
iteration, after the front of the queue has been taken and some of the offsets have
been examined. -/
def Reached (ord : MapOrder) (image : InternalImage) (seed : Point)
    (sl : GrowState × RunLog) : Prop :=
  ∃ st0 n slN, Seeding ord image seed = some st0 ∧
    logLoop ord image n (st0, RunLog.empty) = some slN ∧
    (sl = slN ∨ ∃ elem rest k, slN.1.q = elem :: rest ∧
      logNeighbours ord image elem (offsets26.take k) (dequeued slN rest) = some sl)

end Ieee

/-- A 1x1x3 image with the given pixels along the third axis. -/
def lineImage (a b c : ℚ) : InternalImage :=
  ⟨1, 1, 3, fun p => if p.z = 0 then a else if p.z = 1 then b else c⟩

/-- An image of the given size whose pixels all have the value `v`. -/
def uniformImage (sx sy sz : Nat) (v : ℚ) : InternalImage := ⟨sx, sy, sz, fun _ => v⟩

/-! ## Regions on which the sums are exact -/

/-- The integer that a pixel with an integer value stands for. -/
def InternalImage.intPixel (image : InternalImage) (p : Point) : Int := (image.GetPixel p).num

/-- The pixels of the entries are integers between `lo` and `hi`, and the entries are
few enough for every sum of `ComputeStats` over them to be exact in `float`: with `N`
the number of entries, `N * max |lo| |hi| ≤ 2^24`, `N * (hi - lo)^2 ≤ 2^24` and
`N ≤ 2^24`. -/
def ExactRegion (image : InternalImage) (entries : PointMap) (lo hi : Int) : Prop :=
  (∀ kv ∈ entries, (image.GetPixel kv.2).den = 1 ∧ lo ≤ image.intPixel kv.2 ∧
      image.intPixel kv.2 ≤ hi) ∧
    (entries.length : Int) * max |lo| |hi| ≤ 2 ^ 24 ∧
    (entries.length : Int) * (hi - lo) ^ 2 ≤ 2 ^ 24 ∧
    (entries.length : Int) ≤ 2 ^ 24

instance (image : InternalImage) (entries : PointMap) (lo hi : Int) :
    Decidable (ExactRegion image entries lo hi) := by
  unfold ExactRegion; infer_instance

/-- Lines 48-80 of `ComputeStats` with the sums taken exactly over the integer values
of the pixels; the two halves are those of the comparisons with `mgv` converted to
`float`, and the roots are those of `sqrtLongLong`. -/
def Ieee.halfDeviationsOfSums (image : InternalImage) (entries : PointMap) (mgv : Int) :
    Option (Int × Int) :=
  let upper := fun (kv : Int × Point) => decide (image.GetPixel kv.2 ≥ toFloat mgv)
  let lower := fun (kv : Int × Point) => decide (image.GetPixel kv.2 ≤ toFloat mgv)
  let ipix := fun (kv : Int × Point) => image.intPixel kv.2
  let upper_num := sumWhere upper (fun _ => 1) entries
  let lower_num := sumWhere lower (fun _ => 1) entries
  if upper_num = 0 then none else
  if lower_num = 0 then none else
  let upper_mean := Int.tdiv (sumWhere upper ipix entries) upper_num
  let lower_mean := Int.tdiv (sumWhere lower ipix entries) lower_num
  match Ieee.sqrtLongLong (Int.tdiv
        (sumWhere upper (fun kv => (ipix kv - upper_mean) ^ 2) entries) upper_num),
      Ieee.sqrtLongLong (Int.tdiv
        (sumWhere lower (fun kv => (ipix kv - lower_mean) ^ 2) entries) lower_num) with
  | some upper_dev, some lower_dev => some (upper_dev, lower_dev)
  | _, _ => none

/-- Every pixel inside the image is an integer between `lo` and `hi`, and the image is
small enough for every sum of `ComputeStats` over a region of it to be exact in
`float`: with `V = sx * sy * sz` the number of pixels, `V * max |lo| |hi| ≤ 2^24`,
`V * (hi - lo)^2 ≤ 2^24` and `V ≤ 2^24`. -/
def ExactImage (image : InternalImage) (lo hi : Int) : Prop :=
  (∀ p, InBounds image.grid p → (image.GetPixel p).den = 1 ∧ lo ≤ image.intPixel p ∧
      image.intPixel p ≤ hi) ∧
    ((image.sx * image.sy * image.sz : Nat) : Int) * max |lo| |hi| ≤ 2 ^ 24 ∧
    ((image.sx * image.sy * image.sz : Nat) : Int) * (hi - lo) ^ 2 ≤ 2 ^ 24 ∧
    ((image.sx * image.sy * image.sz : Nat) : Int) ≤ 2 ^ 24

/-! ## Loops as sums -/

theorem foldl_add_eq {α : Type} (f : α → Int) (l : List α) (s : Int) :
    l.foldl (fun s a => s + f a) s = s + (l.map f).sum := by
  induction l generalizing s with
  | nil => simp
  | cons a l ih => simp [ih, add_assoc]

theorem foldl_cond_eq {α : Type} (c : α → Prop) [DecidablePred c] (f : α → Int) (l : List α)
    (s : Int) :
    l.foldl (fun s a => if c a then s + f a else s) s = s + sumWhere (fun a => decide (c a)) f l := by
  induction l generalizing s with
  | nil => simp [sumWhere]
  | cons a l ih =>
    by_cases h : c a
    · simp [sumWhere, List.filter_cons, h, ih, add_assoc]
    · simp [sumWhere, List.filter_cons, h, ih]

theorem sumWhere_perm {α : Type} (c : α → Bool) (f : α → Int) {l₁ l₂ : List α}
    (h : l₁.Perm l₂) : sumWhere c f l₁ = sumWhere c f l₂ :=
  ((h.filter c).map f).sum_eq

theorem foldl_add_perm {α : Type} (f : α → Int) {l₁ l₂ : List α} (h : l₁.Perm l₂) :
    l₁.foldl (fun s a => s + f a) 0 = l₂.foldl (fun s a => s + f a) 0 := by
  rw [foldl_add_eq, foldl_add_eq, (h.map f).sum_eq]

theorem foldl_cond_perm {α : Type} (c : α → Prop) [DecidablePred c] (f : α → Int)
    {l₁ l₂ : List α} (h : l₁.Perm l₂) :
    l₁.foldl (fun s a => if c a then s + f a else s) 0
      = l₂.foldl (fun s a => if c a then s + f a else s) 0 := by
  rw [foldl_cond_eq, foldl_cond_eq, sumWhere_perm _ _ h]

/-! ## Order independence -/

theorem halfDeviations_perm (image : Volume) {l₁ l₂ : PointMap} (h : l₁.Perm l₂) (mgv : Int) :
    halfDeviations image l₁ mgv = halfDeviations image l₂ mgv := by
  unfold halfDeviations
  simp only []
  rw [foldl_cond_perm (fun kv : Int × Point => image.GetPixel kv.2 ≥ mgv)
        (fun kv => image.GetPixel kv.2) h,
      foldl_cond_perm (fun kv : Int × Point => image.GetPixel kv.2 ≤ mgv)
        (fun kv => image.GetPixel kv.2) h,
      foldl_cond_perm (fun kv : Int × Point => image.GetPixel kv.2 ≥ mgv) (fun _ => 1) h,
      foldl_cond_perm (fun kv : Int × Point => image.GetPixel kv.2 ≤ mgv) (fun _ => 1) h]
  split
  · rfl
  split
  · rfl
  rw [foldl_cond_perm (fun kv : Int × Point => image.GetPixel kv.2 ≥ mgv) _ h,
      foldl_cond_perm (fun kv : Int × Point => image.GetPixel kv.2 ≤ mgv) _ h]

theorem regionMean_order (ord₁ ord₂ : MapOrder) (image : Volume) (m : PointMap) :
    regionMean ord₁ image m = regionMean ord₂ image m := by
  unfold regionMean
  have h : (ord₁.enumerate m).Perm (ord₂.enumerate m) := (ord₁.perm m).trans (ord₂.perm m).symm
  simp only [foldl_add_perm (fun kv : Int × Point => image.GetPixel kv.2) h]

theorem ComputeStats_order (ord₁ ord₂ : MapOrder) (image : Volume) (m : PointMap) :
    ComputeStats ord₁ image m = ComputeStats ord₂ image m := by
  unfold ComputeStats
  rw [regionMean_order ord₁ ord₂]
  cases regionMean ord₂ image m with
  | none => rfl
  | some mgv =>
    simp only []
    rw [halfDeviations_perm image ((ord₁.perm m).trans (ord₂.perm m).symm)]

theorem ComputeThreshold_order (ord₁ ord₂ : MapOrder) (image : Volume) (m : PointMap) :
    ComputeThreshold ord₁ image m = ComputeThreshold ord₂ image m := by
  unfold ComputeThreshold
  rw [ComputeStats_order ord₁ ord₂]

theorem ComputeFinalThreshold_order (ord₁ ord₂ : MapOrder) (image : Volume) (m : PointMap) :
    ComputeFinalThreshold ord₁ image m = ComputeFinalThreshold ord₂ image m := by
  unfold ComputeFinalThreshold
  rw [ComputeStats_order ord₁ ord₂]

theorem growNeighbour_order (ord₁ ord₂ : MapOrder) (image : Volume) (elem : Point)
    (st : GrowState) (o : Int × Int × Int) :
    growNeighbour ord₁ image elem st o = growNeighbour ord₂ image elem st o := by
  unfold growNeighbour
  simp only [ComputeThreshold_order ord₁ ord₂]

theorem growNeighbours_order (ord₁ ord₂ : MapOrder) (image : Volume) (elem : Point)
    (os : List (Int × Int × Int)) (st : GrowState) :
    growNeighbours ord₁ image elem os st = growNeighbours ord₂ image elem os st := by
  induction os generalizing st with
  | nil => rfl
  | cons o os ih =>
    simp only [growNeighbours, growNeighbour_order ord₁ ord₂]
    cases growNeighbour ord₂ image elem st o with
    | none => rfl
    | some st1 => exact ih st1

theorem growStep_order (ord₁ ord₂ : MapOrder) (image : Volume) (st : GrowState) :
    growStep ord₁ image st = growStep ord₂ image st := by
  unfold growStep
  cases st.q with
  | nil => rfl
  | cons elem rest => exact growNeighbours_order ord₁ ord₂ image elem _ _

theorem growLoop_order (ord₁ ord₂ : MapOrder) (image : Volume) (n : Nat) (st : GrowState) :
    growLoop ord₁ image n st = growLoop ord₂ image n st := by
  induction n generalizing st with
  | zero => rfl
  | succ n ih =>
    simp only [growLoop, growStep_order ord₁ ord₂]
    cases st.q with
    | nil => rfl
    | cons elem rest =>
      simp only []
      cases growStep ord₂ image st with
      | none => rfl
      | some st1 => exact ih st1

theorem Seeding_order (ord₁ ord₂ : MapOrder) (image : Volume) (seed : Point) :
    Seeding ord₁ image seed = Seeding ord₂ image seed := by
  unfold Seeding
  simp only [ComputeThreshold_order ord₁ ord₂]

theorem Growing_order (ord₁ ord₂ : MapOrder) (image : Volume) (seed : Point) :
    Growing ord₁ image seed = Growing ord₂ image seed := by
  unfold Growing
  rw [Seeding_order ord₁ ord₂]
  cases Seeding ord₂ image seed with
  | none => rfl
  | some st => exact growLoop_order ord₁ ord₂ image _ st

theorem regionMean_perm (ord₁ ord₂ : MapOrder) (image : Volume) {l₁ l₂ : PointMap}
    (h : l₁.Perm l₂) : regionMean ord₁ image l₁ = regionMean ord₂ image l₂ := by
  unfold regionMean
  have hp : (ord₁.enumerate l₁).Perm (ord₂.enumerate l₂) :=
    ((ord₁.perm l₁).trans h).trans (ord₂.perm l₂).symm
  simp only [foldl_add_perm (fun kv : Int × Point => image.GetPixel kv.2) hp, h.length_eq]

theorem ComputeStats_perm (ord₁ ord₂ : MapOrder) (image : Volume) {l₁ l₂ : PointMap}
    (h : l₁.Perm l₂) : ComputeStats ord₁ image l₁ = ComputeStats ord₂ image l₂ := by
  unfold ComputeStats
  rw [regionMean_perm ord₁ ord₂ image h]
  cases regionMean ord₂ image l₂ with
  | none => rfl
  | some mgv =>
    simp only []
    rw [halfDeviations_perm image (((ord₁.perm l₁).trans h).trans (ord₂.perm l₂).symm)]


theorem GrowRegions_order (ord₁ ord₂ : MapOrder) (image : Volume) (seed : Point) :
    GrowRegions ord₁ image seed = GrowRegions ord₂ image seed := by
  unfold GrowRegions
  rw [Growing_order ord₁ ord₂]
  cases Growing ord₂ image seed with
  | none => rfl
  | some st => exact ComputeFinalThreshold_order ord₁ ord₂ image _

/-! ## The visited-point map -/

theorem mapContains_iff (m : PointMap) (k : Int) :
    mapContains m k = true ↔ ∃ kv ∈ m, kv.1 = k := by
  simp [mapContains]

theorem mapAssign_length_of_absent (m : PointMap) (k : Int) (v : Point)
    (h : mapContains m k = false) : (mapAssign m k v).length = m.length + 1 := by
  simp [mapAssign, h]

theorem mapAssign_length_of_present (m : PointMap) (k : Int) (v : Point)
    (h : mapContains m k = true) : (mapAssign m k v).length = m.length := by
  simp [mapAssign, h]

theorem mapAssign_eq_of_absent (m : PointMap) (k : Int) (v : Point)
    (h : mapContains m k = false) : mapAssign m k v = m ++ [(k, v)] := by
  simp [mapAssign, h]

theorem mem_mapAssign (m : PointMap) (k : Int) (v : Point) (kv : Int × Point)
    (h : kv ∈ mapAssign m k v) : kv ∈ m ∨ kv = (k, v) := by
  unfold mapAssign at h
  split at h
  · rw [List.mem_map] at h
    obtain ⟨a, ha, rfl⟩ := h
    split
    · exact Or.inr rfl
    · exact Or.inl ha
  · rw [List.mem_append, List.mem_singleton] at h
    exact h

theorem forall_mapAssign (P : Point → Prop) (m : PointMap) (k : Int) (v : Point)
    (hm : ∀ kv ∈ m, P kv.2) (hv : P v) : ∀ kv ∈ mapAssign m k v, P kv.2 := by
  intro kv h
  rcases mem_mapAssign m k v kv h with h | h
  · exact hm kv h
  · rw [h]; exact hv

/-! ## Bounds check -/

theorem toUInt64_of_nonneg_lt {a : Int} (h0 : 0 ≤ a) (h1 : a < two64) : toUInt64 a = a :=
  Int.emod_eq_of_lt h0 h1

theorem toUInt64_le_self {a : Int} (h0 : 0 ≤ a) : toUInt64 a ≤ a := by
  unfold toUInt64 two64
  omega

theorem CheckBounds_eq_true_iff (point : Point) (size : Nat × Nat × Nat) :
    CheckBounds point size = true ↔
      (toUInt64 point.x < size.1 ∧ 0 ≤ point.x) ∧ (toUInt64 point.y < size.2.1 ∧ 0 ≤ point.y) ∧
        (toUInt64 point.z < size.2.2 ∧ 0 ≤ point.z) := by
  unfold CheckBounds
  by_cases hx : toUInt64 point.x < size.1 ∧ 0 ≤ point.x
  · by_cases hy : toUInt64 point.y < size.2.1 ∧ 0 ≤ point.y
    · by_cases hz : toUInt64 point.z < size.2.2 ∧ 0 ≤ point.z
      · simp [hx, hy, hz]
      · have hz' := hz
        rw [not_and_or] at hz'
        rcases hz' with h | h <;> simp [hx, hy, hz, h]
    · have hy' := hy
      rw [not_and_or] at hy'
      rcases hy' with h | h <;> simp [hx, hy, h]
  · have hx' := hx
    rw [not_and_or] at hx'
    rcases hx' with h | h <;> simp [hx, h]

theorem InBounds_of_CheckBounds (image : Volume) (p : Point)
    (hx : p.x < two64) (hy : p.y < two64) (hz : p.z < two64)
    (h : CheckBounds p image.size = true) : InBounds image p := by
  rw [CheckBounds_eq_true_iff] at h
  obtain ⟨⟨hx1, hx0⟩, ⟨hy1, hy0⟩, ⟨hz1, hz0⟩⟩ := h
  rw [toUInt64_of_nonneg_lt hx0 hx] at hx1
  rw [toUInt64_of_nonneg_lt hy0 hy] at hy1
  rw [toUInt64_of_nonneg_lt hz0 hz] at hz1
  exact ⟨⟨hx0, hx1⟩, ⟨hy0, hy1⟩, ⟨hz0, hz1⟩⟩

theorem CheckBounds_of_InBounds (image : Volume) (p : Point) (h : InBounds image p) :
    CheckBounds p image.size = true := by
  rw [CheckBounds_eq_true_iff]
  obtain ⟨⟨hx0, hx1⟩, ⟨hy0, hy1⟩, ⟨hz0, hz1⟩⟩ := h
  exact ⟨⟨lt_of_le_of_lt (toUInt64_le_self hx0) hx1, hx0⟩,
    ⟨lt_of_le_of_lt (toUInt64_le_self hy0) hy1, hy0⟩,
    ⟨lt_of_le_of_lt (toUInt64_le_self hz0) hz1, hz0⟩⟩

theorem mem_offsets26 (o : Int × Int × Int) (h : o ∈ offsets26) :
    (-1 ≤ o.1 ∧ o.1 ≤ 1) ∧ (-1 ≤ o.2.1 ∧ o.2.1 ≤ 1) ∧ (-1 ≤ o.2.2 ∧ o.2.2 ≤ 1) := by
  revert o
  decide

/-- A neighbour of a point of the volume passes `CheckBounds` only if it lies inside
the volume. -/
theorem InBounds_shift_of_CheckBounds (image : Volume) (hsize : SizeRepresentable image)
    (p : Point) (hp : InBounds image p) (o : Int × Int × Int) (ho : o ∈ offsets26)
    (h : CheckBounds (p.shift o) image.size = true) : InBounds image (p.shift o) := by
  obtain ⟨⟨hx0, hx1⟩, ⟨hy0, hy1⟩, ⟨hz0, hz1⟩⟩ := hp
  obtain ⟨⟨_, ox⟩, ⟨_, oy⟩, ⟨_, oz⟩⟩ := mem_offsets26 o ho
  obtain ⟨sx, sy, sz⟩ := hsize
  apply InBounds_of_CheckBounds image _ _ _ _ h
  · show p.x + o.1 < two64
    omega
  · show p.y + o.2.1 < two64
    omega
  · show p.z + o.2.2 < two64
    omega

/-! ## Every stored point lies inside the volume -/

theorem seedNeighbour_inBounds (image : Volume) (hsize : SizeRepresentable image)
    (seed : Point) (hseed : InBounds image seed) (st : PointMap × List Point)
    (o : Int × Int × Int) (ho : o ∈ offsets26) (h : AllInBounds image st.1 st.2) :
    AllInBounds image (seedNeighbour image.size seed st o).1
      (seedNeighbour image.size seed st o).2 := by
  unfold seedNeighbour
  by_cases hc : CheckBounds (seed.shift o) image.size = true
  · have hin := InBounds_shift_of_CheckBounds image hsize seed hseed o ho hc
    simp only [hc, Bool.not_true, Bool.false_eq_true, if_false]
    refine ⟨forall_mapAssign _ _ _ _ h.1 hin, ?_⟩
    intro p hp
    rw [List.mem_append, List.mem_singleton] at hp
    rcases hp with hp | hp
    · exact h.2 p hp
    · rw [hp]; exact hin
  · simp only [hc, Bool.not_false, if_true]
    exact h

theorem seedFold_inBounds (image : Volume) (hsize : SizeRepresentable image)
    (seed : Point) (hseed : InBounds image seed) (os : List (Int × Int × Int))
    (hos : ∀ o ∈ os, o ∈ offsets26) (st : PointMap × List Point)
    (h : AllInBounds image st.1 st.2) :
    AllInBounds image (os.foldl (seedNeighbour image.size seed) st).1
      (os.foldl (seedNeighbour image.size seed) st).2 := by
  induction os generalizing st with
  | nil => exact h
  | cons o os ih =>
    rw [List.foldl_cons]
    exact ih (fun o' ho' => hos o' (List.mem_cons_of_mem _ ho')) _
      (seedNeighbour_inBounds image hsize seed hseed st o (hos o (List.mem_cons_self _ _)) h)

theorem seedInit_inBounds (image : Volume) (seed : Point) (hseed : InBounds image seed) :
    AllInBounds image (mapAssign [] (ComputePointHash seed) seed) [] := by
  refine ⟨forall_mapAssign _ _ _ _ (fun _ h => absurd h (List.not_mem_nil _)) hseed, ?_⟩
  intro p hp
  exact absurd hp (List.not_mem_nil _)

theorem seedAfter_inBounds (image : Volume) (hsize : SizeRepresentable image)
    (seed : Point) (hseed : InBounds image seed) (k : Nat) :
    AllInBounds image (seedAfter image seed k).1 (seedAfter image seed k).2 :=
  seedFold_inBounds image hsize seed hseed _ (fun _ ho => List.mem_of_mem_take ho) _
    (seedInit_inBounds image seed hseed)

theorem seedRegion_eq_seedAfter (image : Volume) (seed : Point) :
    seedRegion image seed = seedAfter image seed 26 := by
  unfold seedRegion seedAfter
  rw [List.take_of_length_le (by decide)]

theorem seedRegion_inBounds (image : Volume) (hsize : SizeRepresentable image)
    (seed : Point) (hseed : InBounds image seed) :
    AllInBounds image (seedRegion image seed).1 (seedRegion image seed).2 := by
  rw [seedRegion_eq_seedAfter]
  exact seedAfter_inBounds image hsize seed hseed 26

theorem Seeding_eq_some (ord : MapOrder) (image : Volume) (seed : Point) (st : GrowState)
    (h : Seeding ord image seed = some st) :
    st.visited_points = (seedRegion image seed).1 ∧ st.q = (seedRegion image seed).2 ∧
      st.region_size = (seedRegion image seed).1.length ∧
      ComputeThreshold ord image (seedRegion image seed).1
        = some (st.upper_threshold, st.lower_threshold) := by
  unfold Seeding at h
  simp only [] at h
  split at h
  · exact absurd h (by simp)
  · rename_i upper lower heq
    injection h with h
    subst h
    exact ⟨rfl, rfl, rfl, heq⟩

theorem growNeighbour_inBounds (ord : MapOrder) (image : Volume)
    (hsize : SizeRepresentable image) (elem : Point) (helem : InBounds image elem)
    (st st1 : GrowState) (o : Int × Int × Int) (ho : o ∈ offsets26)
    (h : AllInBounds image st.visited_points st.q)
    (hstep : growNeighbour ord image elem st o = some st1) :
    AllInBounds image st1.visited_points st1.q := by
  unfold growNeighbour at hstep
  simp only [] at hstep
  by_cases hc : CheckBounds (elem.shift o) image.size = true
  · have hin := InBounds_shift_of_CheckBounds image hsize elem helem o ho hc
    have hq : ∀ p ∈ st.q ++ [elem.shift o], InBounds image p := by
      intro p hp
      rw [List.mem_append, List.mem_singleton] at hp
      rcases hp with hp | hp
      · exact h.2 p hp
      · rw [hp]; exact hin
    have hm := forall_mapAssign (InBounds image) st.visited_points
      (ComputePointHash (elem.shift o)) (elem.shift o) h.1 hin
    simp only [hc, Bool.not_true, Bool.false_eq_true, if_false] at hstep
    split at hstep
    · split at hstep
      · injection hstep with hstep; subst hstep; exact h
      · split at hstep
        · exact absurd hstep (by simp)
        · split at hstep
          · split at hstep
            · exact absurd hstep (by simp)
            · injection hstep with hstep; subst hstep; exact ⟨hm, hq⟩
          · injection hstep with hstep; subst hstep; exact ⟨hm, hq⟩
    · injection hstep with hstep; subst hstep; exact h
  · simp only [hc, Bool.not_false, if_true] at hstep
    injection hstep with hstep; subst hstep; exact h

theorem growNeighbours_inBounds (ord : MapOrder) (image : Volume)
    (hsize : SizeRepresentable image) (elem : Point) (helem : InBounds image elem)
    (os : List (Int × Int × Int)) (hos : ∀ o ∈ os, o ∈ offsets26) (st st1 : GrowState)
    (h : AllInBounds image st.visited_points st.q)
    (hrun : growNeighbours ord image elem os st = some st1) :
    AllInBounds image st1.visited_points st1.q := by
  induction os generalizing st with
  | nil =>
    simp only [growNeighbours] at hrun
    injection hrun with hrun; subst hrun; exact h
  | cons o os ih =>
    simp only [growNeighbours] at hrun
    split at hrun
    · exact absurd hrun (by simp)
    · rename_i st2 heq
      exact ih (fun o' ho' => hos o' (List.mem_cons_of_mem _ ho')) st2
        (growNeighbour_inBounds ord image hsize elem helem st st2 o
          (hos o (List.mem_cons_self _ _)) h heq) hrun

theorem dequeue_inBounds (image : Volume) (st : GrowState) (elem : Point) (rest : List Point)
    (hq : st.q = elem :: rest) (h : AllInBounds image st.visited_points st.q) :
    InBounds image elem ∧
      AllInBounds image ({ st with q := rest } : GrowState).visited_points
        ({ st with q := rest } : GrowState).q := by
  refine ⟨h.2 elem (by rw [hq]; exact List.mem_cons_self _ _), h.1, ?_⟩
  intro p hp
  exact h.2 p (by rw [hq]; exact List.mem_cons_of_mem _ hp)

theorem growStep_inBounds (ord : MapOrder) (image : Volume)
    (hsize : SizeRepresentable image) (st st1 : GrowState)
    (h : AllInBounds image st.visited_points st.q)
    (hstep : growStep ord image st = some st1) :
    AllInBounds image st1.visited_points st1.q := by
  unfold growStep at hstep
  split at hstep
  · injection hstep with hstep; subst hstep; exact h
  · rename_i elem rest hq
    obtain ⟨helem, hrest⟩ := dequeue_inBounds image st elem rest hq h
    exact growNeighbours_inBounds ord image hsize elem helem offsets26 (fun _ ho => ho) _ st1
      hrest hstep

theorem growLoop_inBounds (ord : MapOrder) (image : Volume)
    (hsize : SizeRepresentable image) (n : Nat) (st st1 : GrowState)
    (h : AllInBounds image st.visited_points st.q)
    (hrun : growLoop ord image n st = some st1) :
    AllInBounds image st1.visited_points st1.q := by
  induction n generalizing st with
  | zero =>
    simp only [growLoop] at hrun
    injection hrun with hrun; subst hrun; exact h
  | succ n ih =>
    simp only [growLoop] at hrun
    split at hrun
    · injection hrun with hrun; subst hrun; exact h
    · split at hrun
      · exact absurd hrun (by simp)
      · rename_i st2 heq
        exact ih st2 (growStep_inBounds ord image hsize st st2 h heq) hrun

/-! ## Acceptance of a neighbour and the recompute test -/

theorem div_ge_two_iff (s r : Nat) (hr : 0 < r) : s / r ≥ 2 ↔ 2 * r ≤ s := by
  rw [ge_iff_le, Nat.le_div_iff_mul_le hr]

/-- What `growNeighbour` does with a neighbour that passes the three tests. -/
theorem growNeighbour_accept (ord : MapOrder) (image : Volume) (elem : Point)
    (st : GrowState) (o : Int × Int × Int)
    (hb : CheckBounds (elem.shift o) image.size = true)
    (hv : st.lower_threshold ≤ image.GetPixel (elem.shift o) ∧
      image.GetPixel (elem.shift o) ≤ st.upper_threshold)
    (hk : mapContains st.visited_points (ComputePointHash (elem.shift o)) = false)
    (hr : 0 < st.region_size) :
    growNeighbour ord image elem st o =
      if (st.visited_points.length + 1) / st.region_size ≥ 2 then
        (ComputeThreshold ord image
            (st.visited_points ++ [(ComputePointHash (elem.shift o), elem.shift o)])).map
          fun b => ⟨st.visited_points ++ [(ComputePointHash (elem.shift o), elem.shift o)],
            st.q ++ [elem.shift o], b.1, b.2, st.visited_points.length + 1⟩
      else
        some ⟨st.visited_points ++ [(ComputePointHash (elem.shift o), elem.shift o)],
          st.q ++ [elem.shift o], st.upper_threshold, st.lower_threshold, st.region_size⟩ := by
  unfold growNeighbour
  have hr' : st.region_size ≠ 0 := Nat.pos_iff_ne_zero.mp hr
  simp only [hb, Bool.not_true, Bool.false_eq_true, if_false, ge_iff_le, hv.1, hv.2, and_self,
    if_true, hk, hr', mapAssign_eq_of_absent _ _ _ hk, List.length_append, List.length_singleton]
  split
  · cases ComputeThreshold ord image
      (st.visited_points ++ [(ComputePointHash (elem.shift o), elem.shift o)]) with
    | none => rfl
    | some b => rfl
  · rfl

/-- What `growNeighbour` does with a neighbour that fails one of the three tests. -/
theorem growNeighbour_reject (ord : MapOrder) (image : Volume) (elem : Point)
    (st : GrowState) (o : Int × Int × Int)
    (h : ¬ (CheckBounds (elem.shift o) image.size = true ∧
      (st.lower_threshold ≤ image.GetPixel (elem.shift o) ∧
        image.GetPixel (elem.shift o) ≤ st.upper_threshold) ∧
      mapContains st.visited_points (ComputePointHash (elem.shift o)) = false)) :
    growNeighbour ord image elem st o = some st := by
  unfold growNeighbour
  by_cases hb : CheckBounds (elem.shift o) image.size = true
  · by_cases hv : st.lower_threshold ≤ image.GetPixel (elem.shift o) ∧
        image.GetPixel (elem.shift o) ≤ st.upper_threshold
    · by_cases hk : mapContains st.visited_points (ComputePointHash (elem.shift o)) = true
      · simp [hb, hv, hk]
      · exact absurd ⟨hb, hv, by simpa using hk⟩ h
    · simp only [hb, Bool.not_true, Bool.false_eq_true, if_false, ge_iff_le]
      rw [if_neg hv]
  · simp [hb]

/-- The sizes `lo, lo + 1, ..., lo + len - 1` never trigger a recompute when they stay
below twice the baseline. -/
theorem recomputeSizes_below (r lo len : Nat) (hr : 0 < r) (h : lo + len ≤ 2 * r) :
    recomputeSizes r (List.range' lo len) = [] := by
  induction len generalizing lo with
  | zero => rfl
  | succ len ih =>
    rw [List.range'_succ, recomputeSizes]
    have : ¬ (lo / r ≥ 2) := by
      rw [div_ge_two_iff lo r hr]
      omega
    rw [if_neg this]
    exact ih (lo + 1) (by omega)

/-! ## The integer square root -/

theorem isqrtIter_eq (n : Nat) : ∀ fuel guess, guess ≤ fuel →
    isqrtIter fuel n guess = Nat.sqrt.iter n guess := by
  intro fuel
  induction fuel with
  | zero =>
    intro guess hg
    have : guess = 0 := by omega
    subst this
    rw [isqrtIter, Nat.sqrt.iter]
    simp
  | succ fuel ih =>
    intro guess hg
    rw [isqrtIter, Nat.sqrt.iter]
    split
    · rename_i h
      exact ih _ (by omega)
    · rfl

theorem isqrt_eq_sqrt (n : Nat) : isqrt n = Nat.sqrt n := by
  unfold isqrt Nat.sqrt
  split
  · rfl
  · exact isqrtIter_eq n n (n / 2) (Nat.div_le_self n 2)

theorem isqrt_sq_le (n : Nat) : isqrt n * isqrt n ≤ n := by
  rw [isqrt_eq_sqrt]
  exact Nat.sqrt_le n

theorem lt_isqrt_succ_sq (n : Nat) : n < (isqrt n + 1) * (isqrt n + 1) := by
  rw [isqrt_eq_sqrt]
  exact Nat.lt_succ_sqrt n

/-! ## The term `20 / sqrt(n)` -/

theorem natCast_mul_sqrt_sq (a n : ℕ) : ((a : ℝ) * √(n : ℝ)) ^ 2 = ((a * a * n : ℕ) : ℝ) := by
  push_cast
  rw [mul_pow, Real.sq_sqrt (Nat.cast_nonneg n)]
  ring

theorem natCast_le_div_sqrt_iff (a b n : ℕ) (hn : 0 < n) :
    (a : ℝ) ≤ (b : ℝ) / √(n : ℝ) ↔ a * a * n ≤ b * b := by
  have hs : 0 < √(n : ℝ) := Real.sqrt_pos.mpr (by exact_mod_cast hn)
  rw [le_div_iff₀ hs]
  have hl : (0 : ℝ) ≤ (a : ℝ) * √(n : ℝ) := by positivity
  have hb : (0 : ℝ) ≤ (b : ℝ) := Nat.cast_nonneg b
  rw [← pow_le_pow_iff_left₀ hl hb (two_ne_zero), natCast_mul_sqrt_sq]
  have : ((b : ℝ)) ^ 2 = ((b * b : ℕ) : ℝ) := by push_cast; ring
  rw [this, Nat.cast_le]

theorem div_sqrt_le_natCast_iff (a b n : ℕ) (hn : 0 < n) :
    (b : ℝ) / √(n : ℝ) ≤ (a : ℝ) ↔ b * b ≤ a * a * n := by
  have hs : 0 < √(n : ℝ) := Real.sqrt_pos.mpr (by exact_mod_cast hn)
  rw [div_le_iff₀ hs]
  have hl : (0 : ℝ) ≤ (a : ℝ) * √(n : ℝ) := by positivity
  have hb : (0 : ℝ) ≤ (b : ℝ) := Nat.cast_nonneg b
  rw [← pow_le_pow_iff_left₀ hb hl (two_ne_zero), natCast_mul_sqrt_sq]
  have : ((b : ℝ)) ^ 2 = ((b * b : ℕ) : ℝ) := by push_cast; ring
  rw [this, Nat.cast_le]

/-- The integer part of `20 * q / sqrt n` is `invSqrtFloor q n`. -/
theorem invSqrtFloor_spec (q n : ℕ) (hn : 0 < n) :
    ((invSqrtFloor q n : ℕ) : ℝ) ≤ ((20 * q : ℕ) : ℝ) / √(n : ℝ) ∧
      ((20 * q : ℕ) : ℝ) / √(n : ℝ) < ((invSqrtFloor q n + 1 : ℕ) : ℝ) := by
  have hle := isqrt_sq_le (400 * q * q / n)
  have hlt := lt_isqrt_succ_sq (400 * q * q / n)
  have hdiv : 400 * q * q / n * n ≤ 400 * q * q := Nat.div_mul_le_self _ _
  have hdiv' : 400 * q * q < (400 * q * q / n + 1) * n := by
    rw [Nat.mul_comm (400 * q * q / n + 1) n]
    exact Nat.lt_mul_div_succ _ hn
  constructor
  · rw [natCast_le_div_sqrt_iff _ _ _ hn]
    unfold invSqrtFloor
    calc isqrt (400 * q * q / n) * isqrt (400 * q * q / n) * n
        ≤ 400 * q * q / n * n := Nat.mul_le_mul_right _ hle
      _ ≤ 400 * q * q := hdiv
      _ = 20 * q * (20 * q) := by ring
  · rw [← not_le, natCast_le_div_sqrt_iff _ _ _ hn, not_le]
    unfold invSqrtFloor
    calc 20 * q * (20 * q) = 400 * q * q := by ring
      _ < (400 * q * q / n + 1) * n := hdiv'
      _ ≤ (isqrt (400 * q * q / n) + 1) * (isqrt (400 * q * q / n) + 1) * n :=
          Nat.mul_le_mul_right _ hlt

theorem ceilDiv_spec (y n : ℕ) (hn : 0 < n) :
    y ≤ (y + n - 1) / n * n ∧ (0 < y → ((y + n - 1) / n - 1) * n < y ∧ 0 < (y + n - 1) / n) := by
  have h1 : y + n - 1 < n * ((y + n - 1) / n + 1) := Nat.lt_mul_div_succ _ hn
  have h2 : (y + n - 1) / n * n ≤ y + n - 1 := Nat.div_mul_le_self _ _
  rw [Nat.mul_add, Nat.mul_one, Nat.mul_comm] at h1
  refine ⟨by omega, fun hy => ?_⟩
  have hpos : 0 < (y + n - 1) / n := Nat.div_pos (by omega) hn
  refine ⟨?_, hpos⟩
  rw [Nat.sub_mul, Nat.one_mul]
  have : n ≤ (y + n - 1) / n * n := Nat.le_mul_of_pos_left n hpos
  omega

theorem ceilSqrt_spec (c s : ℕ) (hle : s * s ≤ c) (hlt : c < (s + 1) * (s + 1)) :
    c ≤ (if s * s = c then s else s + 1) * (if s * s = c then s else s + 1) ∧
    (0 < c → 0 < (if s * s = c then s else s + 1) ∧
      ((if s * s = c then s else s + 1) - 1) * ((if s * s = c then s else s + 1) - 1) ≤ c - 1) := by
  by_cases h : s * s = c
  · rw [if_pos h]
    refine ⟨le_of_eq h.symm, fun hc => ?_⟩
    have hs : 0 < s := by
      rcases Nat.eq_zero_or_pos s with h0 | h0
      · rw [h0] at h; omega
      · exact h0
    refine ⟨hs, ?_⟩
    obtain ⟨a, rfl⟩ : ∃ a, s = a + 1 := ⟨s - 1, by omega⟩
    rw [Nat.add_sub_cancel, ← h]
    have : (a + 1) * (a + 1) = a * a + (2 * a + 1) := by ring
    omega
  · rw [if_neg h]
    refine ⟨le_of_lt hlt, fun _ => ⟨Nat.succ_pos s, ?_⟩⟩
    rw [Nat.add_sub_cancel]
    have := lt_of_le_of_ne hle h
    omega

/-- The least integer above `20 * q / sqrt n` is `invSqrtCeil q n`. -/
theorem invSqrtCeil_spec (q n : ℕ) (hn : 0 < n) :
    ((invSqrtCeil q n : ℕ) : ℝ) - 1 < ((20 * q : ℕ) : ℝ) / √(n : ℝ) ∧
      ((20 * q : ℕ) : ℝ) / √(n : ℝ) ≤ ((invSqrtCeil q n : ℕ) : ℝ) := by
  have hs : 0 < √(n : ℝ) := Real.sqrt_pos.mpr (by exact_mod_cast hn)
  have hr : (0 : ℝ) ≤ ((20 * q : ℕ) : ℝ) / √(n : ℝ) := by positivity
  obtain ⟨hc1, hc2⟩ := ceilDiv_spec (400 * q * q) n hn
  obtain ⟨hs1, hs2⟩ := ceilSqrt_spec _ _ (isqrt_sq_le ((400 * q * q + n - 1) / n))
    (lt_isqrt_succ_sq ((400 * q * q + n - 1) / n))
  have h400 : 20 * q * (20 * q) = 400 * q * q := by ring
  have hdef : invSqrtCeil q n =
      if isqrt ((400 * q * q + n - 1) / n) * isqrt ((400 * q * q + n - 1) / n)
        = (400 * q * q + n - 1) / n then isqrt ((400 * q * q + n - 1) / n)
      else isqrt ((400 * q * q + n - 1) / n) + 1 := rfl
  rw [← hdef] at hs1 hs2
  have hup : 20 * q * (20 * q) ≤ invSqrtCeil q n * invSqrtCeil q n * n := by
    rw [h400]
    exact le_trans hc1 (Nat.mul_le_mul_right _ hs1)
  constructor
  · rcases Nat.eq_zero_or_pos (400 * q * q) with hy | hy
    · have hq : q = 0 := by
        rcases Nat.eq_zero_or_pos q with h0 | h0
        · exact h0
        · have : 0 < 400 * q * q := by positivity
          omega
      subst hq
      have : invSqrtCeil 0 n = 0 := by
        rw [hdef]
        have : (400 * 0 * 0 + n - 1) / n = 0 := by
          simp only [Nat.mul_zero, Nat.zero_add]
          exact Nat.div_eq_of_lt (by omega)
        rw [this]
        decide
      rw [this]
      simp
    · obtain ⟨hc3, hc4⟩ := hc2 hy
      obtain ⟨hpos, hs3⟩ := hs2 hc4
      have hcast : ((invSqrtCeil q n : ℕ) : ℝ) - 1 = ((invSqrtCeil q n - 1 : ℕ) : ℝ) := by
        rw [Nat.cast_sub hpos]; simp
      rw [hcast, ← not_le, div_sqrt_le_natCast_iff _ _ _ hn, not_le, h400]
      exact lt_of_le_of_lt (Nat.mul_le_mul_right _ hs3) hc3
  · rw [div_sqrt_le_natCast_iff _ _ _ hn]
    exact hup

/-! ## Truncation of the `double` expressions -/

/-- Truncation toward zero of a quotient `t / q`, from the integer part `L` and the
ceiling `U` of `t`. -/
theorem isTruncation_div (t : ℝ) (q : ℕ) (hq : 0 < q) (L U : ℤ)
    (hL : (L : ℝ) ≤ t) (hL' : t < (L : ℝ) + 1) (hU' : (U : ℝ) - 1 < t) (hU : t ≤ (U : ℝ)) :
    IsTruncation (t / (q : ℝ)) (if 0 ≤ L then Int.tdiv L q else Int.tdiv U q) := by
  have hqR : (0 : ℝ) < (q : ℝ) := by exact_mod_cast hq
  have hqZ : (0 : ℤ) < (q : ℤ) := by exact_mod_cast hq
  by_cases h0 : 0 ≤ L
  · rw [if_pos h0]
    have ht : 0 ≤ t := le_trans (by exact_mod_cast h0) hL
    refine ⟨fun _ => ?_, fun hneg => absurd (div_nonneg ht hqR.le) (not_le.mpr hneg)⟩
    rw [Int.tdiv_eq_ediv h0 hqZ.le]
    symm
    rw [Int.floor_eq_iff, le_div_iff₀ hqR, div_lt_iff₀ hqR]
    have h1 : L / (q : ℤ) * q ≤ L := Int.ediv_mul_le L (ne_of_gt hqZ)
    have h2 : L < (L / (q : ℤ) + 1) * q := Int.lt_ediv_add_one_mul_self L hqZ
    have h1R : ((L / (q : ℤ) : ℤ) : ℝ) * (q : ℝ) ≤ (L : ℝ) := by exact_mod_cast h1
    have h2R : (L : ℝ) + 1 ≤ (((L / (q : ℤ) : ℤ) : ℝ) + 1) * (q : ℝ) := by
      have : L + 1 ≤ (L / (q : ℤ) + 1) * q := h2
      exact_mod_cast this
    exact ⟨le_trans h1R hL, lt_of_lt_of_le hL' h2R⟩
  · rw [if_neg h0]
    have hL1 : (L : ℝ) + 1 ≤ 0 := by
      have : L + 1 ≤ 0 := by omega
      exact_mod_cast this
    have ht : t < 0 := lt_of_lt_of_le hL' hL1
    refine ⟨fun hpos => absurd hpos (not_le.mpr (div_neg_of_neg_of_pos ht hqR)), fun _ => ?_⟩
    have hU0 : U ≤ 0 := by
      have : (U : ℝ) - 1 < 0 := lt_trans hU' ht
      have : (U : ℝ) < 1 := by linarith
      have : U < 1 := by exact_mod_cast this
      omega
    have hneg : Int.tdiv U q = -((-U) / (q : ℤ)) := by
      rw [← Int.tdiv_eq_ediv (by omega) hqZ.le, Int.neg_tdiv, neg_neg]
    rw [hneg]
    symm
    rw [Int.ceil_eq_iff, div_le_iff₀ hqR, lt_div_iff₀ hqR]
    have h1 : (-U) / (q : ℤ) * q ≤ -U := Int.ediv_mul_le (-U) (ne_of_gt hqZ)
    have h2 : -U < ((-U) / (q : ℤ) + 1) * q := Int.lt_ediv_add_one_mul_self (-U) hqZ
    have h1R : (U : ℝ) ≤ ((-((-U) / (q : ℤ)) : ℤ) : ℝ) * (q : ℝ) := by
      have : U ≤ -((-U) / (q : ℤ)) * q := by linarith
      exact_mod_cast this
    have h2R : (((-((-U) / (q : ℤ)) : ℤ) : ℝ) - 1) * (q : ℝ) ≤ (U : ℝ) - 1 := by
      have : (-((-U) / (q : ℤ)) - 1) * q ≤ U - 1 := by linarith
      exact_mod_cast this
    exact ⟨lt_of_le_of_lt h2R hU', le_trans hU h1R⟩

/-- The value `boundAbove` is the truncation toward zero of the real number
`mgv + (dev * (p / q) + 20 / sqrt n)`. -/
theorem boundAbove_spec (mgv dev : ℤ) (p q n : ℕ) (hq : 0 < q) (hn : 0 < n) :
    IsTruncation ((mgv : ℝ) + ((dev : ℝ) * ((p : ℝ) / (q : ℝ)) + 20 / √(n : ℝ)))
      (boundAbove mgv dev p q n) := by
  have hqR : (q : ℝ) ≠ 0 := by exact_mod_cast (ne_of_gt hq)
  have hs : √(n : ℝ) ≠ 0 := ne_of_gt (Real.sqrt_pos.mpr (by exact_mod_cast hn))
  obtain ⟨hF, hF'⟩ := invSqrtFloor_spec q n hn
  obtain ⟨hC', hC⟩ := invSqrtCeil_spec q n hn
  have hx : (mgv : ℝ) + ((dev : ℝ) * ((p : ℝ) / (q : ℝ)) + 20 / √(n : ℝ))
      = ((((q : ℤ) * mgv + dev * p : ℤ) : ℝ) + ((20 * q : ℕ) : ℝ) / √(n : ℝ)) / (q : ℝ) := by
    push_cast
    field_simp
    ring
  rw [hx]
  have := isTruncation_div
    ((((q : ℤ) * mgv + dev * p : ℤ) : ℝ) + ((20 * q : ℕ) : ℝ) / √(n : ℝ)) q hq
    ((q : ℤ) * mgv + dev * p + invSqrtFloor q n) ((q : ℤ) * mgv + dev * p + invSqrtCeil q n)
    (by push_cast; push_cast at hF; linarith) (by push_cast; push_cast at hF'; linarith)
    (by push_cast; push_cast at hC'; linarith) (by push_cast; push_cast at hC; linarith)
  exact this

/-- The value `boundBelow` is the truncation toward zero of the real number
`mgv - (dev * (p / q) + 20 / sqrt n)`. -/
theorem boundBelow_spec (mgv dev : ℤ) (p q n : ℕ) (hq : 0 < q) (hn : 0 < n) :
    IsTruncation ((mgv : ℝ) - ((dev : ℝ) * ((p : ℝ) / (q : ℝ)) + 20 / √(n : ℝ)))
      (boundBelow mgv dev p q n) := by
  have hqR : (q : ℝ) ≠ 0 := by exact_mod_cast (ne_of_gt hq)
  have hs : √(n : ℝ) ≠ 0 := ne_of_gt (Real.sqrt_pos.mpr (by exact_mod_cast hn))
  obtain ⟨hF, hF'⟩ := invSqrtFloor_spec q n hn
  obtain ⟨hC', hC⟩ := invSqrtCeil_spec q n hn
  have hx : (mgv : ℝ) - ((dev : ℝ) * ((p : ℝ) / (q : ℝ)) + 20 / √(n : ℝ))
      = ((((q : ℤ) * mgv - dev * p : ℤ) : ℝ) - ((20 * q : ℕ) : ℝ) / √(n : ℝ)) / (q : ℝ) := by
    push_cast
    field_simp
    ring
  rw [hx]
  have := isTruncation_div
    ((((q : ℤ) * mgv - dev * p : ℤ) : ℝ) - ((20 * q : ℕ) : ℝ) / √(n : ℝ)) q hq
    ((q : ℤ) * mgv - dev * p - invSqrtCeil q n) ((q : ℤ) * mgv - dev * p - invSqrtFloor q n)
    (by push_cast; push_cast at hC; linarith) (by push_cast; push_cast at hC'; linarith)
    (by push_cast; push_cast at hF'; linarith) (by push_cast; push_cast at hF; linarith)
  exact this

theorem isTruncation_unique (x : ℝ) (z z' : ℤ) (h : IsTruncation x z) (h' : IsTruncation x z') :
    z = z' := by
  rcases le_or_lt 0 x with hx | hx
  · rw [h.1 hx, h'.1 hx]
  · rw [h.2 hx, h'.2 hx]

theorem ComputeStats_length_pos (ord : MapOrder) (image : Volume) (m : PointMap)
    (s : Int × Int × Int) (h : ComputeStats ord image m = some s) : 0 < m.length := by
  unfold ComputeStats regionMean at h
  by_cases h0 : m.length = 0
  · simp [h0] at h
  · omega

/-- The bounds of `ComputeThreshold` as truncated real numbers, multiplier 1.5. -/
theorem ComputeThreshold_spec (ord : MapOrder) (image : Volume) (m : PointMap)
    (mgv upper_dev lower_dev : Int)
    (h : ComputeStats ord image m = some (mgv, upper_dev, lower_dev)) :
    ∃ upper lower, ComputeThreshold ord image m = some (upper, lower) ∧
      IsTruncation ((mgv : ℝ) + ((upper_dev : ℝ) * 1.5 + 20 / √(m.length : ℝ))) upper ∧
      IsTruncation ((mgv : ℝ) - ((lower_dev : ℝ) * 1.5 + 20 / √(m.length : ℝ))) lower := by
  have hn := ComputeStats_length_pos ord image m _ h
  refine ⟨boundAbove mgv upper_dev 3 2 m.length, boundBelow mgv lower_dev 3 2 m.length, ?_, ?_, ?_⟩
  · unfold ComputeThreshold
    rw [h]
  · have := boundAbove_spec mgv upper_dev 3 2 m.length (by decide) hn
    have e : (upper_dev : ℝ) * 1.5 = (upper_dev : ℝ) * (((3 : ℕ) : ℝ) / ((2 : ℕ) : ℝ)) := by
      norm_num
    rw [e]; exact this
  · have := boundBelow_spec mgv lower_dev 3 2 m.length (by decide) hn
    have e : (lower_dev : ℝ) * 1.5 = (lower_dev : ℝ) * (((3 : ℕ) : ℝ) / ((2 : ℕ) : ℝ)) := by
      norm_num
    rw [e]; exact this

/-- The bounds of `ComputeFinalThreshold` as truncated real numbers, multiplier
`2 * 2.58 = 5.16`. -/
theorem ComputeFinalThreshold_spec (ord : MapOrder) (image : Volume) (m : PointMap)
    (mgv upper_dev lower_dev : Int)
    (h : ComputeStats ord image m = some (mgv, upper_dev, lower_dev)) :
    ∃ upper lower, ComputeFinalThreshold ord image m = some (upper, lower) ∧
      IsTruncation ((mgv : ℝ) + ((upper_dev : ℝ) * 5.16 + 20 / √(m.length : ℝ))) upper ∧
      IsTruncation ((mgv : ℝ) - ((lower_dev : ℝ) * 5.16 + 20 / √(m.length : ℝ))) lower := by
  have hn := ComputeStats_length_pos ord image m _ h
  refine ⟨boundAbove mgv upper_dev 129 25 m.length, boundBelow mgv lower_dev 129 25 m.length,
    ?_, ?_, ?_⟩
  · unfold ComputeFinalThreshold
    rw [h]
  · have := boundAbove_spec mgv upper_dev 129 25 m.length (by decide) hn
    have e : (upper_dev : ℝ) * 5.16 = (upper_dev : ℝ) * (((129 : ℕ) : ℝ) / ((25 : ℕ) : ℝ)) := by
      norm_num
    rw [e]; exact this
  · have := boundBelow_spec mgv lower_dev 129 25 m.length (by decide) hn
    have e : (lower_dev : ℝ) * 5.16 = (lower_dev : ℝ) * (((129 : ℕ) : ℝ) / ((25 : ℕ) : ℝ)) := by
      norm_num
    rw [e]; exact this

/-! ## The statistics in closed form -/

theorem foldl_cond_values {α : Type} (P : Int → Prop) [DecidablePred P] (pix : α → Int)
    (g : Int → Int) (l : List α) (s : Int) :
    l.foldl (fun s a => if P (pix a) then s + g (pix a) else s) s
      = s + (((l.map pix).filter fun v => decide (P v)).map g).sum := by
  induction l generalizing s with
  | nil => simp
  | cons a l ih =>
    by_cases h : P (pix a)
    · simp only [List.foldl_cons, h, if_true, ih, List.map_cons, List.filter_cons, decide_True,
        List.sum_cons, add_assoc]
    · simp only [List.foldl_cons, h, if_false, ih, List.map_cons, List.filter_cons,
        decide_False, Bool.false_eq_true]

theorem sum_map_one (l : List Int) : (l.map fun _ => (1 : Int)).sum = l.length := by
  induction l with
  | nil => rfl
  | cons a l ih =>
    simp only [List.map_cons, List.sum_cons, ih, List.length_cons]
    push_cast
    ring

/-- Lines 48-80 in closed form: the deviations are those of the two halves. -/
theorem halfDeviations_eq (image : Volume) (entries : PointMap) (mgv : Int) :
    halfDeviations image entries mgv =
      if (upperHalf (entries.map fun kv => image.GetPixel kv.2) mgv).length = 0 then none
      else if (lowerHalf (entries.map fun kv => image.GetPixel kv.2) mgv).length = 0 then none
      else some (truncatedDeviation (upperHalf (entries.map fun kv => image.GetPixel kv.2) mgv),
        truncatedDeviation (lowerHalf (entries.map fun kv => image.GetPixel kv.2) mgv)) := by
  have hus := foldl_cond_values (fun v => v ≥ mgv) (fun kv : Int × Point => image.GetPixel kv.2)
    (fun v => v) entries 0
  have hls := foldl_cond_values (fun v => v ≤ mgv) (fun kv : Int × Point => image.GetPixel kv.2)
    (fun v => v) entries 0
  have hun := foldl_cond_values (fun v => v ≥ mgv) (fun kv : Int × Point => image.GetPixel kv.2)
    (fun _ => 1) entries 0
  have hln := foldl_cond_values (fun v => v ≤ mgv) (fun kv : Int × Point => image.GetPixel kv.2)
    (fun _ => 1) entries 0
  have hud := fun c : Int => foldl_cond_values (fun v => v ≥ mgv)
    (fun kv : Int × Point => image.GetPixel kv.2) (fun v => (v - c) * (v - c)) entries 0
  have hld := fun c : Int => foldl_cond_values (fun v => v ≤ mgv)
    (fun kv : Int × Point => image.GetPixel kv.2) (fun v => (v - c) * (v - c)) entries 0
  simp only [zero_add, sum_map_one, List.map_id'] at hus hls hun hln hud hld
  unfold halfDeviations upperHalf lowerHalf truncatedDeviation
  simp only [hus, hls, hun, hln, hud, hld, Nat.cast_eq_zero]

theorem regionValues_length (ord : MapOrder) (image : Volume) (m : PointMap) :
    (regionValues ord image m).length = m.length := by
  unfold regionValues
  rw [List.length_map, (ord.perm m).length_eq]

/-- Lines 41-46 in closed form. -/
theorem regionMean_eq (ord : MapOrder) (image : Volume) (m : PointMap) :
    regionMean ord image m =
      if m.length = 0 then none
      else some (toInt64 (Int.tdiv (toUInt64 (regionValues ord image m).sum) m.length)) := by
  unfold regionMean regionValues
  simp only [foldl_add_eq, zero_add]

/-- Function `ComputeStats` in closed form. -/
theorem ComputeStats_eq (ord : MapOrder) (image : Volume) (m : PointMap) :
    ComputeStats ord image m =
      match regionMean ord image m with
      | none => none
      | some mgv =>
        if (upperHalf (regionValues ord image m) mgv).length = 0 then none
        else if (lowerHalf (regionValues ord image m) mgv).length = 0 then none
        else some (mgv, truncatedDeviation (upperHalf (regionValues ord image m) mgv),
          truncatedDeviation (lowerHalf (regionValues ord image m) mgv)) := by
  unfold ComputeStats
  cases regionMean ord image m with
  | none => rfl
  | some mgv =>
    simp only [halfDeviations_eq, regionValues]
    split_ifs <;> rfl

/-- The unsigned division of line 46 is the truncated division when the sum is not
negative and fits a `long long`. -/
theorem unsigned_div_of_nonneg (sum : Int) (n : Nat) (h0 : 0 ≤ sum) (h1 : sum < two63) :
    toInt64 (Int.tdiv (toUInt64 sum) n) = Int.tdiv sum n := by
  have hn : (0 : Int) ≤ (n : Int) := Int.ofNat_nonneg n
  have hu : toUInt64 sum = sum := toUInt64_of_nonneg_lt h0 (lt_trans h1 (by decide))
  rw [hu, Int.tdiv_eq_ediv h0 hn]
  have hq0 : 0 ≤ sum / (n : Int) := Int.ediv_nonneg h0 hn
  have hq1 : sum / (n : Int) ≤ sum := Int.ediv_le_self _ h0
  unfold toInt64 two64
  unfold two63 at h1 ⊢
  omega

theorem regionMean_of_nonneg (ord : MapOrder) (image : Volume) (m : PointMap)
    (hm : 0 < m.length) (h0 : 0 ≤ (regionValues ord image m).sum)
    (h1 : (regionValues ord image m).sum < two63) :
    regionMean ord image m = some (Int.tdiv (regionValues ord image m).sum m.length) := by
  rw [regionMean_eq, if_neg (by omega), unsigned_div_of_nonneg _ _ h0 h1]

theorem sum_le_of_forall_le (l : List Int) (b : Int) (h : ∀ v ∈ l, v ≤ b) :
    l.sum ≤ l.length * b := by
  induction l with
  | nil => simp
  | cons a l ih =>
    have ha := h a (List.mem_cons_self _ _)
    have := ih (fun v hv => h v (List.mem_cons_of_mem _ hv))
    simp only [List.sum_cons, List.length_cons]
    push_cast
    linarith

theorem le_sum_of_forall_ge (l : List Int) (b : Int) (h : ∀ v ∈ l, b ≤ v) :
    l.length * b ≤ l.sum := by
  induction l with
  | nil => simp
  | cons a l ih =>
    have ha := h a (List.mem_cons_self _ _)
    have := ih (fun v hv => h v (List.mem_cons_of_mem _ hv))
    simp only [List.sum_cons, List.length_cons]
    push_cast
    linarith

/-- Some value of a non-empty list is at least the truncated mean, when the sum is not
negative. -/
theorem upperHalf_ne_nil (vals : List Int) (hn : 0 < vals.length) (h0 : 0 ≤ vals.sum) :
    0 < (upperHalf vals (Int.tdiv vals.sum vals.length)).length := by
  have hnZ : (0 : Int) < (vals.length : Int) := by exact_mod_cast hn
  rw [Int.tdiv_eq_ediv h0 hnZ.le]
  by_contra hc
  have hnil : upperHalf vals (vals.sum / vals.length) = [] :=
    List.length_eq_zero.mp (by omega)
  have hall : ∀ v ∈ vals, v ≤ vals.sum / vals.length - 1 := by
    intro v hv
    by_contra hv'
    have : v ∈ upperHalf vals (vals.sum / vals.length) := by
      unfold upperHalf
      rw [List.mem_filter]
      exact ⟨hv, by simp only [decide_eq_true_eq]; omega⟩
    rw [hnil] at this
    exact absurd this (List.not_mem_nil _)
  have h1 := sum_le_of_forall_le vals _ hall
  have h2 : vals.sum / (vals.length : Int) * vals.length ≤ vals.sum :=
    Int.ediv_mul_le _ (ne_of_gt hnZ)
  nlinarith

/-- Some value of a non-empty list is at most the truncated mean, when the sum is not
negative. -/
theorem lowerHalf_ne_nil (vals : List Int) (hn : 0 < vals.length) (h0 : 0 ≤ vals.sum) :
    0 < (lowerHalf vals (Int.tdiv vals.sum vals.length)).length := by
  have hnZ : (0 : Int) < (vals.length : Int) := by exact_mod_cast hn
  rw [Int.tdiv_eq_ediv h0 hnZ.le]
  by_contra hc
  have hnil : lowerHalf vals (vals.sum / vals.length) = [] :=
    List.length_eq_zero.mp (by omega)
  have hall : ∀ v ∈ vals, vals.sum / vals.length + 1 ≤ v := by
    intro v hv
    by_contra hv'
    have : v ∈ lowerHalf vals (vals.sum / vals.length) := by
      unfold lowerHalf
      rw [List.mem_filter]
      exact ⟨hv, by simp only [decide_eq_true_eq]; omega⟩
    rw [hnil] at this
    exact absurd this (List.not_mem_nil _)
  have h1 := le_sum_of_forall_ge vals _ hall
  have h2 : vals.sum < (vals.sum / (vals.length : Int) + 1) * vals.length :=
    Int.lt_ediv_add_one_mul_self _ hnZ
  nlinarith

/-- Function `ComputeStats` returns for every non-empty region whose sum is not negative and
fits a `long long`: the mean is the truncated quotient and the deviations are those
of the two halves. -/
theorem ComputeStats_of_nonneg (ord : MapOrder) (image : Volume) (m : PointMap)
    (hm : 0 < m.length) (h0 : 0 ≤ (regionValues ord image m).sum)
    (h1 : (regionValues ord image m).sum < two63) :
    ComputeStats ord image m =
      some (Int.tdiv (regionValues ord image m).sum m.length,
        truncatedDeviation (upperHalf (regionValues ord image m)
          (Int.tdiv (regionValues ord image m).sum m.length)),
        truncatedDeviation (lowerHalf (regionValues ord image m)
          (Int.tdiv (regionValues ord image m).sum m.length))) := by
  have hlen := regionValues_length ord image m
  have hu := upperHalf_ne_nil (regionValues ord image m) (by omega) h0
  have hl := lowerHalf_ne_nil (regionValues ord image m) (by omega) h0
  rw [hlen] at hu hl
  rw [ComputeStats_eq, regionMean_of_nonneg ord image m hm h0 h1]
  simp only []
  rw [if_neg (by omega), if_neg (by omega)]

/-! ## Regions of identical values -/

theorem regionValues_uniform (ord : MapOrder) (image : Volume) (m : PointMap) (V : Int)
    (hV : ∀ kv ∈ m, image.GetPixel kv.2 = V) :
    regionValues ord image m = List.replicate m.length V := by
  rw [← regionValues_length ord image m]
  apply List.eq_replicate_iff.mpr
  refine ⟨rfl, ?_⟩
  intro v hv
  unfold regionValues at hv
  rw [List.mem_map] at hv
  obtain ⟨kv, hkv, rfl⟩ := hv
  exact hV kv ((ord.perm m).mem_iff.mp hkv)

theorem sum_replicate_int (n : Nat) (V : Int) : (List.replicate n V).sum = n * V := by
  induction n with
  | zero => simp
  | succ n ih =>
    rw [List.replicate_succ, List.sum_cons, ih]
    push_cast
    ring

theorem truncatedDeviation_replicate (n : Nat) (hn : 0 < n) (V : Int) :
    truncatedDeviation (List.replicate n V) = 0 := by
  have hnZ : (n : Int) ≠ 0 := by exact_mod_cast (ne_of_gt hn)
  unfold truncatedDeviation
  have hmean : Int.tdiv ((n : Int) * V) n = V := by
    rw [Int.mul_comm, Int.mul_tdiv_cancel _ hnZ]
  simp only [List.length_replicate, sum_replicate_int, List.map_replicate, hmean, sub_self,
    mul_zero, Int.zero_tdiv, Int.toNat_zero]
  decide

/-- The statistics of a non-empty region whose values are all the same `V`, for
`V` not negative: the mean is `V` and both deviations are 0. -/
theorem ComputeStats_uniform (ord : MapOrder) (image : Volume) (m : PointMap) (V : Int)
    (hm : 0 < m.length) (hV : ∀ kv ∈ m, image.GetPixel kv.2 = V) (h0 : 0 ≤ V)
    (h1 : m.length * V < two63) :
    ComputeStats ord image m = some (V, 0, 0) := by
  have hvals := regionValues_uniform ord image m V hV
  have hsum : (regionValues ord image m).sum = m.length * V := by
    rw [hvals, sum_replicate_int]
  have hmZ : (m.length : Int) ≠ 0 := by exact_mod_cast (ne_of_gt hm)
  have hmean : Int.tdiv ((m.length : Int) * V) m.length = V := by
    rw [Int.mul_comm, Int.mul_tdiv_cancel _ hmZ]
  have hup : upperHalf (List.replicate m.length V) V = List.replicate m.length V := by
    unfold upperHalf
    rw [List.filter_eq_self]
    intro v hv
    rw [(List.mem_replicate.mp hv).2]
    simp
  have hlow : lowerHalf (List.replicate m.length V) V = List.replicate m.length V := by
    unfold lowerHalf
    rw [List.filter_eq_self]
    intro v hv
    rw [(List.mem_replicate.mp hv).2]
    simp
  rw [ComputeStats_of_nonneg ord image m hm
      (by rw [hsum]; exact Int.mul_nonneg (Int.ofNat_nonneg _) h0) (by rw [hsum]; exact h1),
    hsum, hmean, hvals, hup, hlow, truncatedDeviation_replicate _ hm]

/-- The bounds of a non-empty region of `N` points whose values are all the same `V`,
for `V` not negative: both passes return `V + 20 / sqrt N` and `V - 20 / sqrt N`, each
truncated toward zero. -/
theorem thresholds_uniform (ord : MapOrder) (image : Volume) (m : PointMap) (V : Int)
    (hm : 0 < m.length) (hV : ∀ kv ∈ m, image.GetPixel kv.2 = V) (h0 : 0 ≤ V)
    (h1 : m.length * V < two63) :
    ∃ upper lower,
      ComputeThreshold ord image m = some (upper, lower) ∧
      ComputeFinalThreshold ord image m = some (upper, lower) ∧
      IsTruncation ((V : ℝ) + 20 / √(m.length : ℝ)) upper ∧
      IsTruncation ((V : ℝ) - 20 / √(m.length : ℝ)) lower := by
  have hs := ComputeStats_uniform ord image m V hm hV h0 h1
  obtain ⟨u, l, hc, hu, hl⟩ := ComputeThreshold_spec ord image m V 0 0 hs
  obtain ⟨u', l', hc', hu', hl'⟩ := ComputeFinalThreshold_spec ord image m V 0 0 hs
  simp only [Int.cast_zero, zero_mul, zero_add] at hu hl hu' hl'
  have e1 := isTruncation_unique _ _ _ hu hu'
  have e2 := isTruncation_unique _ _ _ hl hl'
  subst e1 e2
  exact ⟨u, l, hc, hc', hu, hl⟩

/-! ## Seeding when the keys do not collide -/

theorem mapContains_keyed (pts : List Point) (k : Int) :
    mapContains (keyed pts) k = true ↔ k ∈ pts.map ComputePointHash := by
  rw [mapContains_iff]
  unfold keyed
  simp only [List.mem_map]
  constructor
  · rintro ⟨kv, ⟨p, hp, rfl⟩, rfl⟩
    exact ⟨p, hp, rfl⟩
  · rintro ⟨p, hp, rfl⟩
    exact ⟨_, ⟨p, hp, rfl⟩, rfl⟩

theorem regionPoints_keyed (pts : List Point) : regionPoints (keyed pts) = pts := by
  unfold regionPoints keyed
  rw [List.map_map]
  exact List.map_id _

/-- The queue after the seeding loops over the offsets `os`: the neighbours that pass
`CheckBounds` are appended, in order. -/
theorem seedFold_queue (size : Nat × Nat × Nat) (seed : Point) (os : List (Int × Int × Int))
    (st : PointMap × List Point) :
    (os.foldl (seedNeighbour size seed) st).2
      = st.2 ++ (os.map seed.shift).filter fun n => CheckBounds n size := by
  induction os generalizing st with
  | nil => simp
  | cons o os ih =>
    rw [List.foldl_cons, ih]
    unfold seedNeighbour
    by_cases h : CheckBounds (seed.shift o) size = true
    · simp [h, List.filter_cons]
    · simp [h, List.filter_cons]

/-- The map after the seeding loops over the offsets `os`, when no two of the points
involved share a key: the neighbours that pass `CheckBounds` are appended, in order. -/
theorem seedFold_map (size : Nat × Nat × Nat) (seed : Point) (os : List (Int × Int × Int))
    (pts q : List Point)
    (hkeys : ((pts ++ (os.map seed.shift).filter fun n => CheckBounds n size).map
      ComputePointHash).Nodup) :
    (os.foldl (seedNeighbour size seed) (keyed pts, q)).1
      = keyed (pts ++ (os.map seed.shift).filter fun n => CheckBounds n size) := by
  induction os generalizing pts q with
  | nil => simp
  | cons o os ih =>
    rw [List.foldl_cons]
    by_cases h : CheckBounds (seed.shift o) size = true
    · have hstep : seedNeighbour size seed (keyed pts, q) o
          = (keyed (pts ++ [seed.shift o]), q ++ [seed.shift o]) := by
        have habs : mapContains (keyed pts) (ComputePointHash (seed.shift o)) = false := by
          rw [Bool.eq_false_iff, Ne, mapContains_keyed]
          intro hmem
          simp only [List.map_cons, List.filter_cons, h, if_true, List.map_append] at hkeys
          rw [List.nodup_append] at hkeys
          exact hkeys.2.2 hmem (List.mem_cons_self _ _)
        unfold seedNeighbour
        simp only [h, Bool.not_true, Bool.false_eq_true, if_false,
          mapAssign_eq_of_absent _ _ _ habs]
        unfold keyed
        simp
      rw [hstep, ih (pts ++ [seed.shift o]) (q ++ [seed.shift o])]
      · simp [List.filter_cons, h]
      · simpa [List.filter_cons, h] using hkeys
    · have hstep : seedNeighbour size seed (keyed pts, q) o = (keyed pts, q) := by
        unfold seedNeighbour
        simp [h]
      rw [hstep, ih pts q]
      · simp [List.filter_cons, h]
      · simpa [List.filter_cons, h] using hkeys

/-- The seeding postcondition when the seed and its inBoundsNeighbours neighbours have pairwise
different keys: the Region is the seed followed by the inBoundsNeighbours neighbours, and the
queue holds the inBoundsNeighbours neighbours.  The queue part needs no assumption. -/
theorem seedRegion_of_distinct_keys (image : Volume) (seed : Point)
    (hkeys : ((seed :: inBoundsNeighbours image seed).map ComputePointHash).Nodup) :
    regionPoints (seedRegion image seed).1 = seed :: inBoundsNeighbours image seed ∧
    (seedRegion image seed).1.length = 1 + (inBoundsNeighbours image seed).length ∧
    (seedRegion image seed).2 = inBoundsNeighbours image seed := by
  have hinit : mapAssign [] (ComputePointHash seed) seed = keyed [seed] := rfl
  have hm : (seedRegion image seed).1 = keyed (seed :: inBoundsNeighbours image seed) := by
    unfold seedRegion
    rw [hinit, seedFold_map image.size seed offsets26 [seed] [] hkeys]
    rfl
  refine ⟨?_, ?_, ?_⟩
  · rw [hm, regionPoints_keyed]
  · rw [hm]
    unfold keyed
    rw [List.length_map, List.length_cons, Nat.add_comm]
  · unfold seedRegion
    rw [seedFold_queue]
    rfl

/-! ## The mean of a negative sum -/

/-- The unsigned division of line 46 on a negative sum: the quotient of the wrapped
sum. -/
theorem unsigned_div_of_neg (sum : Int) (n : Nat) (hn : 2 ≤ n) (h0 : sum < 0)
    (h1 : -two63 ≤ sum) :
    toInt64 (Int.tdiv (toUInt64 sum) n) = (sum + two64) / n := by
  have hnZ : (2 : Int) ≤ (n : Int) := by exact_mod_cast hn
  have hu : toUInt64 sum = sum + two64 := by
    unfold toUInt64 two64
    unfold two63 at h1
    omega
  have hw0 : 0 ≤ sum + two64 := by
    unfold two64
    unfold two63 at h1
    omega
  rw [hu, Int.tdiv_eq_ediv hw0 (by omega)]
  have hq0 : 0 ≤ (sum + two64) / (n : Int) := Int.ediv_nonneg hw0 (by omega)
  have hq1 : (sum + two64) / (n : Int) < two63 := by
    rw [Int.ediv_lt_iff_lt_mul (by omega)]
    have : two63 * 2 ≤ two63 * (n : Int) := Int.mul_le_mul_of_nonneg_left hnZ (by decide)
    unfold two64
    unfold two63 at this ⊢
    omega
  generalize (sum + two64) / (n : Int) = w at hq0 hq1 ⊢
  unfold toInt64 two64
  unfold two63 at hq1 ⊢
  omega

/-- A region of at least two points whose sum is negative: line 46 stores the quotient
of the wrapped sum, and when no value reaches it the statistics end in the division by
the zero `upper_num`. -/
theorem ComputeStats_of_negative_sum (ord : MapOrder) (image : Volume) (m : PointMap)
    (hm : 2 ≤ m.length) (h0 : (regionValues ord image m).sum < 0)
    (h1 : -two63 ≤ (regionValues ord image m).sum)
    (hv : ∀ v ∈ regionValues ord image m,
      v < ((regionValues ord image m).sum + two64) / m.length) :
    regionMean ord image m = some (((regionValues ord image m).sum + two64) / m.length) ∧
      ComputeStats ord image m = none := by
  have hmean : regionMean ord image m
      = some (((regionValues ord image m).sum + two64) / m.length) := by
    rw [regionMean_eq, if_neg (by omega), unsigned_div_of_neg _ _ hm h0 h1]
  refine ⟨hmean, ?_⟩
  rw [ComputeStats_eq, hmean]
  simp only []
  have hnil : upperHalf (regionValues ord image m)
      (((regionValues ord image m).sum + two64) / m.length) = [] := by
    unfold upperHalf
    rw [List.filter_eq_nil_iff]
    intro v hmem
    have := hv v hmem
    simp only [decide_eq_true_eq, not_le, ge_iff_le]
    exact this
  rw [hnil]
  rfl

/-! ## Well-formed maps and the absence of faults -/

theorem mapAssign_keys_of_present (m : PointMap) (k : Int) (v : Point) :
    ((m.map fun kv => if kv.1 == k then (k, v) else kv).map fun kv => kv.1)
      = m.map fun kv => kv.1 := by
  rw [List.map_map]
  apply List.map_congr_left
  intro kv _
  simp only [Function.comp]
  by_cases h : kv.1 = k
  · simp [h]
  · simp [h]

theorem mapAssign_wf (image : Volume) (m : PointMap) (p : Point) (hp : InBounds image p)
    (hm : MapWF image m) : MapWF image (mapAssign m (ComputePointHash p) p) := by
  obtain ⟨hlen, hent, hnd⟩ := hm
  refine ⟨?_, ?_, ?_⟩
  · by_cases h : mapContains m (ComputePointHash p) = true
    · rw [mapAssign_length_of_present _ _ _ h]; exact hlen
    · rw [mapAssign_length_of_absent _ _ _ (by simpa using h)]; omega
  · intro kv hkv
    rcases mem_mapAssign m _ p kv hkv with h | h
    · exact hent kv h
    · rw [h]; exact ⟨rfl, hp⟩
  · unfold mapAssign
    by_cases h : mapContains m (ComputePointHash p) = true
    · rw [if_pos h, mapAssign_keys_of_present]
      exact hnd
    · rw [if_neg h, List.map_append, List.map_singleton]
      apply List.Nodup.append hnd (List.nodup_singleton _)
      intro k hk1 hk2
      rw [List.mem_singleton] at hk2
      subst hk2
      apply h
      rw [mapContains_iff]
      rw [List.mem_map] at hk1
      obtain ⟨kv, hkv, hkey⟩ := hk1
      exact ⟨kv, hkv, hkey⟩

theorem key_bounds (image : Volume) (p : Point) (hp : InBounds image p) :
    0 ≤ ComputePointHash p ∧ ComputePointHash p ≤ keyBound image := by
  obtain ⟨⟨hx0, hx1⟩, ⟨hy0, hy1⟩, ⟨hz0, hz1⟩⟩ := hp
  unfold ComputePointHash keyBound
  have hxy : p.x * p.y ≤ (image.sx : Int) * image.sy :=
    Int.mul_le_mul hx1.le hy1.le hy0 (Int.ofNat_nonneg _)
  have hxy0 : 0 ≤ p.x * p.y := Int.mul_nonneg hx0 hy0
  have hxyz : p.x * p.y * p.z ≤ (image.sx : Int) * image.sy * image.sz :=
    Int.mul_le_mul hxy hz1.le hz0 (Int.mul_nonneg (Int.ofNat_nonneg _) (Int.ofNat_nonneg _))
  have hxyz0 : 0 ≤ p.x * p.y * p.z := Int.mul_nonneg hxy0 hz0
  push_cast
  constructor
  · omega
  · omega

theorem length_le_of_nodup_of_bounded (l : List Int) (K : Nat) (hnd : l.Nodup)
    (hb : ∀ k ∈ l, 0 ≤ k ∧ k ≤ K) : l.length ≤ K + 1 := by
  have hinj : (l.map Int.toNat).Nodup := by
    rw [List.nodup_map_iff_inj_on hnd]
    intro a ha b hb' hab
    have h1 := (hb a ha).1
    have h2 := (hb b hb').1
    omega
  have hsub : (l.map Int.toNat).toFinset ⊆ Finset.range (K + 1) := by
    intro n hn
    rw [List.mem_toFinset, List.mem_map] at hn
    obtain ⟨k, hk, rfl⟩ := hn
    rw [Finset.mem_range]
    have := hb k hk
    omega
  have hcard := Finset.card_le_card hsub
  rw [List.toFinset_card_of_nodup hinj, List.length_map, Finset.card_range] at hcard
  exact hcard

theorem MapWF_length_le (image : Volume) (m : PointMap) (hm : MapWF image m) :
    m.length ≤ keyBound image + 1 := by
  obtain ⟨_, hent, hnd⟩ := hm
  have := length_le_of_nodup_of_bounded (m.map fun kv => kv.1) (keyBound image) hnd (by
    intro k hk
    rw [List.mem_map] at hk
    obtain ⟨kv, hkv, rfl⟩ := hk
    rw [(hent kv hkv).1]
    exact key_bounds image kv.2 (hent kv hkv).2)
  rwa [List.length_map] at this

theorem regionValues_sum_bounds (ord : MapOrder) (image : Volume) (vmax : Int) (m : PointMap)
    (hin : ∀ kv ∈ m, InBounds image kv.2)
    (hv : ∀ p, InBounds image p → 0 ≤ image.GetPixel p ∧ image.GetPixel p ≤ vmax) :
    0 ≤ (regionValues ord image m).sum ∧ (regionValues ord image m).sum ≤ m.length * vmax := by
  have hmem : ∀ v ∈ regionValues ord image m, 0 ≤ v ∧ v ≤ vmax := by
    intro v hv1
    unfold regionValues at hv1
    rw [List.mem_map] at hv1
    obtain ⟨kv, hkv, rfl⟩ := hv1
    exact hv kv.2 (hin kv ((ord.perm m).mem_iff.mp hkv))
  have h1 := le_sum_of_forall_ge _ 0 (fun v h => (hmem v h).1)
  have h2 := sum_le_of_forall_le _ vmax (fun v h => (hmem v h).2)
  rw [regionValues_length] at h2
  simp only [mul_zero] at h1
  exact ⟨h1, h2⟩

/-- No fault in the statistics of a well-formed map when the voxel values fit. -/
theorem ComputeStats_isSome (ord : MapOrder) (image : Volume) (vmax : Int) (m : PointMap)
    (hfit : ValuesFit image vmax) (hm : MapWF image m) :
    ∃ s, ComputeStats ord image m = some s := by
  obtain ⟨hv, hbig⟩ := hfit
  have hin : ∀ kv ∈ m, InBounds image kv.2 := fun kv hkv => (hm.2.1 kv hkv).2
  obtain ⟨h0, h1⟩ := regionValues_sum_bounds ord image vmax m hin hv
  have hlen := MapWF_length_le image m hm
  obtain ⟨kv0, hkv0⟩ := List.exists_mem_of_length_pos hm.1
  have hvmax : 0 ≤ vmax := le_trans (hv kv0.2 (hin kv0 hkv0)).1 (hv kv0.2 (hin kv0 hkv0)).2
  have hlt : (regionValues ord image m).sum < two63 := by
    have : (m.length : Int) * vmax ≤ ((keyBound image : Int) + 1) * vmax := by
      apply Int.mul_le_mul_of_nonneg_right _ hvmax
      exact_mod_cast hlen
    linarith
  exact ⟨_, ComputeStats_of_nonneg ord image m hm.1 h0 hlt⟩

theorem ComputeThreshold_isSome (ord : MapOrder) (image : Volume) (vmax : Int) (m : PointMap)
    (hfit : ValuesFit image vmax) (hm : MapWF image m) :
    ∃ b, ComputeThreshold ord image m = some b := by
  obtain ⟨s, hs⟩ := ComputeStats_isSome ord image vmax m hfit hm
  unfold ComputeThreshold
  rw [hs]
  exact ⟨_, rfl⟩

theorem ComputeFinalThreshold_isSome (ord : MapOrder) (image : Volume) (vmax : Int)
    (m : PointMap) (hfit : ValuesFit image vmax) (hm : MapWF image m) :
    ∃ b, ComputeFinalThreshold ord image m = some b := by
  obtain ⟨s, hs⟩ := ComputeStats_isSome ord image vmax m hfit hm
  unfold ComputeFinalThreshold
  rw [hs]
  exact ⟨_, rfl⟩

theorem seedNeighbour_wf (image : Volume) (hsize : SizeRepresentable image)
    (seed : Point) (hseed : InBounds image seed) (st : PointMap × List Point)
    (o : Int × Int × Int) (ho : o ∈ offsets26)
    (h : MapWF image st.1 ∧ ∀ p ∈ st.2, InBounds image p) :
    MapWF image (seedNeighbour image.size seed st o).1 ∧
      ∀ p ∈ (seedNeighbour image.size seed st o).2, InBounds image p := by
  unfold seedNeighbour
  by_cases hc : CheckBounds (seed.shift o) image.size = true
  · have hin := InBounds_shift_of_CheckBounds image hsize seed hseed o ho hc
    simp only [hc, Bool.not_true, Bool.false_eq_true, if_false]
    refine ⟨mapAssign_wf image _ _ hin h.1, ?_⟩
    intro p hp
    rw [List.mem_append, List.mem_singleton] at hp
    rcases hp with hp | hp
    · exact h.2 p hp
    · rw [hp]; exact hin
  · simp only [hc, Bool.not_false, if_true]
    exact h

theorem seedFold_wf (image : Volume) (hsize : SizeRepresentable image)
    (seed : Point) (hseed : InBounds image seed) (os : List (Int × Int × Int))
    (hos : ∀ o ∈ os, o ∈ offsets26) (st : PointMap × List Point)
    (h : MapWF image st.1 ∧ ∀ p ∈ st.2, InBounds image p) :
    MapWF image (os.foldl (seedNeighbour image.size seed) st).1 ∧
      ∀ p ∈ (os.foldl (seedNeighbour image.size seed) st).2, InBounds image p := by
  induction os generalizing st with
  | nil => exact h
  | cons o os ih =>
    rw [List.foldl_cons]
    exact ih (fun o' ho' => hos o' (List.mem_cons_of_mem _ ho')) _
      (seedNeighbour_wf image hsize seed hseed st o (hos o (List.mem_cons_self _ _)) h)

theorem seedRegion_wf (image : Volume) (hsize : SizeRepresentable image)
    (seed : Point) (hseed : InBounds image seed) :
    MapWF image (seedRegion image seed).1 ∧
      ∀ p ∈ (seedRegion image seed).2, InBounds image p := by
  unfold seedRegion
  apply seedFold_wf image hsize seed hseed _ (fun _ ho => ho)
  refine ⟨⟨?_, ?_, ?_⟩, fun p hp => absurd hp (List.not_mem_nil _)⟩
  · simp [mapAssign, mapContains]
  · intro kv hkv
    have : kv = (ComputePointHash seed, seed) := by
      simpa [mapAssign, mapContains] using hkv
    rw [this]
    exact ⟨rfl, hseed⟩
  · simp [mapAssign, mapContains]

/-- Seeding ends without a fault, in a good state, when the voxel values fit. -/
theorem Seeding_isSome (ord : MapOrder) (image : Volume) (vmax : Int) (seed : Point)
    (hsize : SizeRepresentable image) (hseed : InBounds image seed)
    (hfit : ValuesFit image vmax) :
    ∃ st, Seeding ord image seed = some st ∧ GoodState image st := by
  obtain ⟨hwf, hq⟩ := seedRegion_wf image hsize seed hseed
  obtain ⟨b, hb⟩ := ComputeThreshold_isSome ord image vmax _ hfit hwf
  refine ⟨⟨(seedRegion image seed).1, (seedRegion image seed).2, b.1, b.2,
    (seedRegion image seed).1.length⟩, ?_, hwf, hq, hwf.1⟩
  unfold Seeding
  simp only [hb]

theorem growNeighbour_isSome (ord : MapOrder) (image : Volume) (vmax : Int)
    (hsize : SizeRepresentable image) (hfit : ValuesFit image vmax)
    (elem : Point) (helem : InBounds image elem) (st : GrowState)
    (o : Int × Int × Int) (ho : o ∈ offsets26) (h : GoodState image st) :
    ∃ st1, growNeighbour ord image elem st o = some st1 ∧ GoodState image st1 := by
  by_cases hacc : CheckBounds (elem.shift o) image.size = true ∧
      (st.lower_threshold ≤ image.GetPixel (elem.shift o) ∧
        image.GetPixel (elem.shift o) ≤ st.upper_threshold) ∧
      mapContains st.visited_points (ComputePointHash (elem.shift o)) = false
  · obtain ⟨hb, hv, hk⟩ := hacc
    have hin := InBounds_shift_of_CheckBounds image hsize elem helem o ho hb
    have hwf := mapAssign_wf image st.visited_points (elem.shift o) hin h.1
    rw [mapAssign_eq_of_absent _ _ _ hk] at hwf
    have hq : ∀ p ∈ st.q ++ [elem.shift o], InBounds image p := by
      intro p hp
      rw [List.mem_append, List.mem_singleton] at hp
      rcases hp with hp | hp
      · exact h.2.1 p hp
      · rw [hp]; exact hin
    rw [growNeighbour_accept ord image elem st o hb hv hk h.2.2]
    split
    · obtain ⟨b, hb'⟩ := ComputeThreshold_isSome ord image vmax _ hfit hwf
      rw [hb']
      exact ⟨_, rfl, hwf, hq, Nat.succ_pos _⟩
    · exact ⟨_, rfl, hwf, hq, h.2.2⟩
  · rw [growNeighbour_reject ord image elem st o hacc]
    exact ⟨st, rfl, h⟩

theorem growNeighbours_isSome (ord : MapOrder) (image : Volume) (vmax : Int)
    (hsize : SizeRepresentable image) (hfit : ValuesFit image vmax)
    (elem : Point) (helem : InBounds image elem) (os : List (Int × Int × Int))
    (hos : ∀ o ∈ os, o ∈ offsets26) (st : GrowState) (h : GoodState image st) :
    ∃ st1, growNeighbours ord image elem os st = some st1 ∧ GoodState image st1 := by
  induction os generalizing st with
  | nil => exact ⟨st, rfl, h⟩
  | cons o os ih =>
    obtain ⟨st1, h1, hg1⟩ := growNeighbour_isSome ord image vmax hsize hfit elem helem st o
      (hos o (List.mem_cons_self _ _)) h
    obtain ⟨st2, h2, hg2⟩ := ih (fun o' ho' => hos o' (List.mem_cons_of_mem _ ho')) st1 hg1
    refine ⟨st2, ?_, hg2⟩
    simp only [growNeighbours, h1, h2]

theorem growStep_isSome (ord : MapOrder) (image : Volume) (vmax : Int)
    (hsize : SizeRepresentable image) (hfit : ValuesFit image vmax)
    (st : GrowState) (h : GoodState image st) :
    ∃ st1, growStep ord image st = some st1 ∧ GoodState image st1 := by
  unfold growStep
  split
  · exact ⟨st, rfl, h⟩
  · rename_i elem rest hq
    have helem : InBounds image elem := h.2.1 elem (by rw [hq]; exact List.mem_cons_self _ _)
    exact growNeighbours_isSome ord image vmax hsize hfit elem helem offsets26 (fun _ ho => ho)
      _ ⟨h.1, fun p hp => h.2.1 p (by rw [hq]; exact List.mem_cons_of_mem _ hp), h.2.2⟩

theorem growLoop_isSome (ord : MapOrder) (image : Volume) (vmax : Int)
    (hsize : SizeRepresentable image) (hfit : ValuesFit image vmax)
    (n : Nat) (st : GrowState) (h : GoodState image st) :
    ∃ st1, growLoop ord image n st = some st1 ∧ GoodState image st1 := by
  induction n generalizing st with
  | zero => exact ⟨st, rfl, h⟩
  | succ n ih =>
    simp only [growLoop]
    split
    · exact ⟨st, rfl, h⟩
    · obtain ⟨st1, h1, hg1⟩ := growStep_isSome ord image vmax hsize hfit st h
      rw [h1]
      exact ih st1 hg1

/-- The growing loop ends without a fault, in a good state, when the voxel values
fit. -/
theorem Growing_isSome (ord : MapOrder) (image : Volume) (vmax : Int) (seed : Point)
    (hsize : SizeRepresentable image) (hseed : InBounds image seed)
    (hfit : ValuesFit image vmax) :
    ∃ st, Growing ord image seed = some st ∧ GoodState image st := by
  obtain ⟨st0, h0, hg0⟩ := Seeding_isSome ord image vmax seed hsize hseed hfit
  unfold Growing
  rw [h0]
  exact growLoop_isSome ord image vmax hsize hfit iterCap st0 hg0

/-- The run of `GrowRegions` returns bounds when the sizes are representable, the seed
lies inside the volume and the voxel values fit. -/
theorem GrowRegions_isSome (ord : MapOrder) (image : Volume) (vmax : Int) (seed : Point)
    (hsize : SizeRepresentable image) (hseed : InBounds image seed)
    (hfit : ValuesFit image vmax) :
    ∃ b, GrowRegions ord image seed = some b := by
  obtain ⟨st, hst, hg⟩ := Growing_isSome ord image vmax seed hsize hseed hfit
  obtain ⟨b, hb⟩ := ComputeFinalThreshold_isSome ord image vmax _ hfit hg.1
  unfold GrowRegions
  rw [hst]
  exact ⟨b, hb⟩

/-! ## Order properties of the truncation -/

theorem isTruncation_mono (x y : ℝ) (a b : ℤ) (hx : IsTruncation x a) (hy : IsTruncation y b)
    (hxy : x ≤ y) : a ≤ b := by
  rcases le_or_lt 0 x with h0 | h0
  · rw [hx.1 h0, hy.1 (le_trans h0 hxy)]
    exact Int.floor_le_floor hxy
  · rcases le_or_lt 0 y with h1 | h1
    · rw [hx.2 h0, hy.1 h1]
      have ha : ⌈x⌉ ≤ 0 := Int.ceil_le.mpr (by exact_mod_cast h0.le)
      have hb : 0 ≤ ⌊y⌋ := Int.floor_nonneg.mpr h1
      exact le_trans ha hb
    · rw [hx.2 h0, hy.2 h1]
      exact Int.ceil_le_ceil hxy

theorem truncatedDeviation_nonneg (half : List Int) : 0 ≤ truncatedDeviation half := by
  unfold truncatedDeviation
  exact Int.ofNat_nonneg _

theorem ComputeStats_dev_nonneg (ord : MapOrder) (image : Volume) (m : PointMap)
    (mgv upper_dev lower_dev : Int)
    (h : ComputeStats ord image m = some (mgv, upper_dev, lower_dev)) :
    0 ≤ upper_dev ∧ 0 ≤ lower_dev := by
  rw [ComputeStats_eq] at h
  split at h
  · exact absurd h (by simp)
  · split at h
    · exact absurd h (by simp)
    · split at h
      · exact absurd h (by simp)
      · injection h with h
        injection h with h1 h2
        injection h2 with h2 h3
        rw [← h2, ← h3]
        exact ⟨truncatedDeviation_nonneg _, truncatedDeviation_nonneg _⟩

theorem tdiv_mul_bounds (s : Int) (n : Int) (hn : 0 < n) :
    n * Int.tdiv s n - n < s ∧ s < n * Int.tdiv s n + n := by
  rcases le_or_lt 0 s with h | h
  · rw [Int.tdiv_eq_ediv h hn.le]
    have h1 : s / n * n ≤ s := Int.ediv_mul_le s (ne_of_gt hn)
    have h2 : s < (s / n + 1) * n := Int.lt_ediv_add_one_mul_self s hn
    constructor <;> nlinarith
  · have hneg : Int.tdiv s n = -((-s) / n) := by
      rw [← Int.tdiv_eq_ediv (by omega) hn.le, Int.neg_tdiv, neg_neg]
    rw [hneg]
    have h1 : (-s) / n * n ≤ -s := Int.ediv_mul_le (-s) (ne_of_gt hn)
    have h2 : -s < ((-s) / n + 1) * n := Int.lt_ediv_add_one_mul_self (-s) hn
    constructor <;> nlinarith

/-- For the truncated quotient of the sum by the size as the mean, both halves of a
non-empty list of integers of either sign are non-empty. -/
theorem halves_nonempty_of_truncated_mean (vals : List Int) (hn : 0 < vals.length) :
    0 < (upperHalf vals (Int.tdiv vals.sum vals.length)).length ∧
      0 < (lowerHalf vals (Int.tdiv vals.sum vals.length)).length := by
  have hnZ : (0 : Int) < (vals.length : Int) := by exact_mod_cast hn
  obtain ⟨hlo, hhi⟩ := tdiv_mul_bounds vals.sum vals.length hnZ
  constructor
  · by_contra hc
    have hnil : upperHalf vals (Int.tdiv vals.sum vals.length) = [] :=
      List.length_eq_zero.mp (by omega)
    have hall : ∀ v ∈ vals, v ≤ Int.tdiv vals.sum vals.length - 1 := by
      intro v hv
      by_contra hv1
      have : v ∈ upperHalf vals (Int.tdiv vals.sum vals.length) := by
        unfold upperHalf
        rw [List.mem_filter]
        exact ⟨hv, by simp only [decide_eq_true_eq]; omega⟩
      rw [hnil] at this
      exact absurd this (List.not_mem_nil _)
    have h1 := sum_le_of_forall_le vals _ hall
    nlinarith
  · by_contra hc
    have hnil : lowerHalf vals (Int.tdiv vals.sum vals.length) = [] :=
      List.length_eq_zero.mp (by omega)
    have hall : ∀ v ∈ vals, Int.tdiv vals.sum vals.length + 1 ≤ v := by
      intro v hv
      by_contra hv1
      have : v ∈ lowerHalf vals (Int.tdiv vals.sum vals.length) := by
        unfold lowerHalf
        rw [List.mem_filter]
        exact ⟨hv, by simp only [decide_eq_true_eq]; omega⟩
      rw [hnil] at this
      exact absurd this (List.not_mem_nil _)
    have h1 := le_sum_of_forall_ge vals _ hall
    nlinarith

/-! ## One examined neighbour -/

theorem accepts_iff (image : Volume) (elem : Point) (st : GrowState) (o : Int × Int × Int) :
    accepts image elem st o = true ↔
      CheckBounds (elem.shift o) image.size = true ∧
      (st.lower_threshold ≤ image.GetPixel (elem.shift o) ∧
        image.GetPixel (elem.shift o) ≤ st.upper_threshold) ∧
      mapContains st.visited_points (ComputePointHash (elem.shift o)) = false := by
  unfold accepts
  simp only [Bool.and_eq_true, decide_eq_true_eq, Bool.not_eq_true']

/-- The outcome of `growNeighbour` when it returns: either the three tests pass, the
baseline is positive, the neighbour is appended to the map and to the queue, and the
bounds and the baseline are renewed or kept according to the test of line 194; or one
of the tests fails and the state is unchanged. -/
theorem growNeighbour_cases (ord : MapOrder) (image : Volume) (elem : Point)
    (st st1 : GrowState) (o : Int × Int × Int)
    (h : growNeighbour ord image elem st o = some st1) :
    (accepts image elem st o = true ∧ 0 < st.region_size ∧
      st1.visited_points
        = st.visited_points ++ [(ComputePointHash (elem.shift o), elem.shift o)] ∧
      st1.q = st.q ++ [elem.shift o] ∧
      (((st.visited_points.length + 1) / st.region_size ≥ 2 ∧
          st1.region_size = st.visited_points.length + 1 ∧
          ComputeThreshold ord image st1.visited_points
            = some (st1.upper_threshold, st1.lower_threshold)) ∨
        (¬ (st.visited_points.length + 1) / st.region_size ≥ 2 ∧
          st1.region_size = st.region_size ∧ st1.upper_threshold = st.upper_threshold ∧
          st1.lower_threshold = st.lower_threshold))) ∨
    (accepts image elem st o = false ∧ st1 = st) := by
  by_cases ha : accepts image elem st o = true
  · left
    obtain ⟨hb, hv, hk⟩ := (accepts_iff image elem st o).mp ha
    have hr : 0 < st.region_size := by
      by_contra hc
      have h0 : st.region_size = 0 := by omega
      unfold growNeighbour at h
      simp [hb, hv.1, hv.2, hk, h0] at h
    rw [growNeighbour_accept ord image elem st o hb hv hk hr] at h
    refine ⟨ha, hr, ?_⟩
    split at h
    · rename_i hc
      cases hct : ComputeThreshold ord image
          (st.visited_points ++ [(ComputePointHash (elem.shift o), elem.shift o)]) with
      | none => rw [hct] at h; exact absurd h (by simp)
      | some b =>
        rw [hct] at h
        simp only [Option.map_some'] at h
        injection h with h
        subst h
        exact ⟨rfl, rfl, Or.inl ⟨hc, rfl, hct⟩⟩
    · rename_i hc
      injection h with h
      subst h
      exact ⟨rfl, rfl, Or.inr ⟨hc, rfl, rfl, rfl⟩⟩
  · right
    have ha1 : accepts image elem st o = false := by simpa using ha
    have hrej := growNeighbour_reject ord image elem st o (by
      rw [← accepts_iff]; exact ha)
    rw [hrej] at h
    injection h with h
    exact ⟨ha1, h.symm⟩

/-! ## The record follows the state -/

theorem logNeighbour_fst (ord : MapOrder) (image : Volume) (elem : Point)
    (sl : GrowState × RunLog) (o : Int × Int × Int) :
    (logNeighbour ord image elem sl o).map (fun r => r.1) = growNeighbour ord image elem sl.1 o := by
  unfold logNeighbour
  cases growNeighbour ord image elem sl.1 o with
  | none => rfl
  | some st1 =>
    simp only []
    split <;> rfl

theorem logNeighbours_fst (ord : MapOrder) (image : Volume) (elem : Point)
    (os : List (Int × Int × Int)) (sl : GrowState × RunLog) :
    (logNeighbours ord image elem os sl).map (fun r => r.1)
      = growNeighbours ord image elem os sl.1 := by
  induction os generalizing sl with
  | nil => rfl
  | cons o os ih =>
    have h := logNeighbour_fst ord image elem sl o
    simp only [logNeighbours, growNeighbours]
    cases hl : logNeighbour ord image elem sl o with
    | none =>
      rw [hl] at h
      simp only [Option.map_none'] at h
      rw [← h]
      rfl
    | some sl1 =>
      rw [hl] at h
      simp only [Option.map_some'] at h
      rw [← h]
      exact ih sl1

theorem logStep_fst (ord : MapOrder) (image : Volume) (sl : GrowState × RunLog) :
    (logStep ord image sl).map (fun r => r.1) = growStep ord image sl.1 := by
  unfold logStep growStep
  cases hq : sl.1.q with
  | nil => rfl
  | cons elem rest => exact logNeighbours_fst ord image elem offsets26 (dequeued sl rest)

theorem logLoop_fst (ord : MapOrder) (image : Volume) (n : Nat) (sl : GrowState × RunLog) :
    (logLoop ord image n sl).map (fun r => r.1) = growLoop ord image n sl.1 := by
  induction n generalizing sl with
  | zero => rfl
  | succ n ih =>
    simp only [logLoop, growLoop]
    cases hq : sl.1.q with
    | nil => rfl
    | cons elem rest =>
      simp only []
      have h := logStep_fst ord image sl
      cases hl : logStep ord image sl with
      | none =>
        rw [hl] at h
        simp only [Option.map_none'] at h
        rw [← h]
        rfl
      | some sl1 =>
        rw [hl] at h
        simp only [Option.map_some'] at h
        rw [← h]
        exact ih sl1

/-- The state of `GrowingLog` is the state of `Growing`. -/
theorem GrowingLog_fst (ord : MapOrder) (image : Volume) (seed : Point) :
    (GrowingLog ord image seed).map (fun r => r.1) = Growing ord image seed := by
  unfold GrowingLog Growing
  cases Seeding ord image seed with
  | none => rfl
  | some st => exact logLoop_fst ord image iterCap (st, RunLog.empty)

/-- Every final state of `Growing` comes with a record. -/
theorem GrowingLog_of_Growing (ord : MapOrder) (image : Volume) (seed : Point) (st : GrowState)
    (h : Growing ord image seed = some st) :
    ∃ log, GrowingLog ord image seed = some (st, log) := by
  have hf := GrowingLog_fst ord image seed
  rw [h] at hf
  cases hg : GrowingLog ord image seed with
  | none => rw [hg] at hf; exact absurd hf (by simp)
  | some sl =>
    rw [hg] at hf
    simp only [Option.map_some', Option.some.injEq] at hf
    exact ⟨sl.2, by rw [← hf]⟩

/-! ## Induction over the states of a run -/

theorem logNeighbours_induct (ord : MapOrder) (image : Volume)
    (P : GrowState × RunLog → Prop) (elem : Point)
    (hnb : ∀ sl o sl1, P sl → o ∈ offsets26 →
      logNeighbour ord image elem sl o = some sl1 → P sl1)
    (os : List (Int × Int × Int)) (hos : ∀ o ∈ os, o ∈ offsets26)
    (sl sl1 : GrowState × RunLog) (h : P sl)
    (hrun : logNeighbours ord image elem os sl = some sl1) : P sl1 := by
  induction os generalizing sl with
  | nil =>
    simp only [logNeighbours] at hrun
    injection hrun with hrun
    rw [← hrun]; exact h
  | cons o os ih =>
    simp only [logNeighbours] at hrun
    split at hrun
    · exact absurd hrun (by simp)
    · rename_i sl2 heq
      exact ih (fun o1 ho1 => hos o1 (List.mem_cons_of_mem _ ho1)) sl2
        (hnb sl o sl2 h (hos o (List.mem_cons_self _ _)) heq) hrun

theorem logLoop_induct (ord : MapOrder) (image : Volume)
    (P : GrowState × RunLog → Prop) (E : Point → Prop)
    (hdeq : ∀ sl elem rest, P sl → sl.1.q = elem :: rest → P (dequeued sl rest) ∧ E elem)
    (hnb : ∀ sl elem o sl1, P sl → E elem → o ∈ offsets26 →
      logNeighbour ord image elem sl o = some sl1 → P sl1)
    (n : Nat) (sl sl1 : GrowState × RunLog) (h : P sl)
    (hrun : logLoop ord image n sl = some sl1) : P sl1 := by
  induction n generalizing sl with
  | zero =>
    simp only [logLoop] at hrun
    injection hrun with hrun
    rw [← hrun]; exact h
  | succ n ih =>
    simp only [logLoop] at hrun
    split at hrun
    · injection hrun with hrun
      rw [← hrun]; exact h
    · rename_i elem rest hq
      split at hrun
      · exact absurd hrun (by simp)
      · rename_i sl2 heq
        unfold logStep at heq
        rw [hq] at heq
        simp only [] at heq
        obtain ⟨hd, he⟩ := hdeq sl elem rest h hq
        exact ih sl2 (logNeighbours_induct ord image P elem
          (fun s o s1 hs ho hr => hnb s elem o s1 hs he ho hr) offsets26 (fun _ ho => ho)
          _ sl2 hd heq) hrun

/-- A property holds in every state that a run passes through when it holds after
seeding, is kept when the front of the queue is taken, and is kept by every examined
neighbour; a property `E` of the dequeued point may be used while its neighbours are
examined. -/
theorem reached_induct (ord : MapOrder) (image : Volume) (seed : Point)
    (P : GrowState × RunLog → Prop) (E : Point → Prop)
    (hseed : ∀ st0, Seeding ord image seed = some st0 → P (st0, RunLog.empty))
    (hdeq : ∀ sl elem rest, P sl → sl.1.q = elem :: rest → P (dequeued sl rest) ∧ E elem)
    (hnb : ∀ sl elem o sl1, P sl → E elem → o ∈ offsets26 →
      logNeighbour ord image elem sl o = some sl1 → P sl1)
    (sl : GrowState × RunLog) (h : Reached ord image seed sl) : P sl := by
  obtain ⟨st0, n, slN, h0, hN, hcase⟩ := h
  have hPN : P slN := logLoop_induct ord image P E hdeq hnb n _ slN (hseed st0 h0) hN
  rcases hcase with rfl | ⟨elem, rest, k, hq, hk⟩
  · exact hPN
  · obtain ⟨hd, he⟩ := hdeq slN elem rest hPN hq
    exact logNeighbours_induct ord image P elem
      (fun s o s1 hs ho hr => hnb s elem o s1 hs he ho hr) _
      (fun _ ho => List.mem_of_mem_take ho) _ sl hd hk

/-- The final state of the growing loop, with its record, is a state of the run. -/
theorem reached_of_GrowingLog (ord : MapOrder) (image : Volume) (seed : Point)
    (sl : GrowState × RunLog) (h : GrowingLog ord image seed = some sl) :
    Reached ord image seed sl := by
  unfold GrowingLog at h
  cases h0 : Seeding ord image seed with
  | none => rw [h0] at h; exact absurd h (by simp)
  | some st0 =>
    rw [h0] at h
    exact ⟨st0, iterCap, sl, h0, h, Or.inl rfl⟩

/-- What `logNeighbour` records: on an acceptance the neighbour with the bounds of the
state in which it was tested, and a recomputation when the test of line 194 passes;
nothing otherwise. -/
theorem logNeighbour_cases (ord : MapOrder) (image : Volume) (elem : Point)
    (sl sl1 : GrowState × RunLog) (o : Int × Int × Int)
    (h : logNeighbour ord image elem sl o = some sl1) :
    growNeighbour ord image elem sl.1 o = some sl1.1 ∧
    ((accepts image elem sl.1 o = true ∧
      sl1.2.accepted = sl.2.accepted ++
        [(elem.shift o, sl.1.lower_threshold, sl.1.upper_threshold)] ∧
      sl1.2.recomputes = (if (sl.1.visited_points.length + 1) / sl.1.region_size ≥ 2
        then sl.2.recomputes + 1 else sl.2.recomputes) ∧
      sl1.2.dequeues = sl.2.dequeues) ∨
     (accepts image elem sl.1 o = false ∧ sl1.2 = sl.2)) := by
  unfold logNeighbour at h
  cases hg : growNeighbour ord image elem sl.1 o with
  | none => rw [hg] at h; exact absurd h (by simp)
  | some st1 =>
    rw [hg] at h
    simp only [] at h
    by_cases ha : accepts image elem sl.1 o = true
    · rw [if_pos ha] at h
      injection h with h
      subst h
      have hk := ((accepts_iff image elem sl.1 o).mp ha).2.2
      refine ⟨rfl, Or.inl ⟨ha, rfl, ?_, rfl⟩⟩
      simp only [mapAssign_length_of_absent _ _ _ hk]
    · rw [if_neg ha] at h
      injection h with h
      subst h
      exact ⟨rfl, Or.inr ⟨by simpa using ha, rfl⟩⟩

/-! ## The map only grows during the growing loop -/

theorem growNeighbour_append (ord : MapOrder) (image : Volume) (elem : Point)
    (st st1 : GrowState) (o : Int × Int × Int)
    (h : growNeighbour ord image elem st o = some st1) :
    ∃ added, st1.visited_points = st.visited_points ++ added := by
  rcases growNeighbour_cases ord image elem st st1 o h with ⟨_, _, hv, _⟩ | ⟨_, rfl⟩
  · exact ⟨_, hv⟩
  · exact ⟨[], by simp⟩

theorem growNeighbours_append (ord : MapOrder) (image : Volume) (elem : Point)
    (os : List (Int × Int × Int)) (st st1 : GrowState)
    (h : growNeighbours ord image elem os st = some st1) :
    ∃ added, st1.visited_points = st.visited_points ++ added := by
  induction os generalizing st with
  | nil =>
    simp only [growNeighbours] at h
    injection h with h
    exact ⟨[], by rw [h]; simp⟩
  | cons o os ih =>
    simp only [growNeighbours] at h
    split at h
    · exact absurd h (by simp)
    · rename_i st2 heq
      obtain ⟨a1, h1⟩ := growNeighbour_append ord image elem st st2 o heq
      obtain ⟨a2, h2⟩ := ih st2 h
      exact ⟨a1 ++ a2, by rw [h2, h1, List.append_assoc]⟩

theorem growStep_append (ord : MapOrder) (image : Volume) (st st1 : GrowState)
    (h : growStep ord image st = some st1) :
    ∃ added, st1.visited_points = st.visited_points ++ added := by
  unfold growStep at h
  split at h
  · injection h with h
    exact ⟨[], by rw [h]; simp⟩
  · rename_i elem rest _
    exact growNeighbours_append ord image elem offsets26
      ⟨st.visited_points, rest, st.upper_threshold, st.lower_threshold, st.region_size⟩ st1 h

theorem growLoop_append (ord : MapOrder) (image : Volume) (n : Nat) (st st1 : GrowState)
    (h : growLoop ord image n st = some st1) :
    ∃ added, st1.visited_points = st.visited_points ++ added := by
  induction n generalizing st with
  | zero =>
    simp only [growLoop] at h
    injection h with h
    exact ⟨[], by rw [h]; simp⟩
  | succ n ih =>
    simp only [growLoop] at h
    split at h
    · injection h with h
      exact ⟨[], by rw [h]; simp⟩
    · split at h
      · exact absurd h (by simp)
      · rename_i st2 heq
        obtain ⟨a1, h1⟩ := growStep_append ord image st st2 heq
        obtain ⟨a2, h2⟩ := ih st2 h
        exact ⟨a1 ++ a2, by rw [h2, h1, List.append_assoc]⟩

/-- When a map is an extension of another, every point of the first Region is a point
of the second and the size does not shrink. -/
theorem region_kept_of_append (m m1 added : PointMap) (h : m1 = m ++ added) :
    (∀ p ∈ regionPoints m, p ∈ regionPoints m1) ∧ m.length ≤ m1.length := by
  subst h
  constructor
  · intro p hp
    unfold regionPoints at hp ⊢
    rw [List.map_append, List.mem_append]
    exact Or.inl hp
  · rw [List.length_append]
    omega

/-! ## The accepted neighbours and their bounds -/

theorem keyed_append (a b : List Point) : keyed (a ++ b) = keyed a ++ keyed b := by
  unfold keyed
  rw [List.map_append]

/-- In every state of a run the map is the seeding map followed by the accepted
neighbours under their keys, and every accepted neighbour was recorded with bounds
that contain its value. -/
theorem reached_accepted (ord : MapOrder) (image : Volume) (seed : Point)
    (sl : GrowState × RunLog) (h : Reached ord image seed sl) :
    sl.1.visited_points
      = (seedRegion image seed).1 ++ keyed (sl.2.accepted.map fun e => e.1) ∧
    ∀ e ∈ sl.2.accepted, e.2.1 ≤ image.GetPixel e.1 ∧ image.GetPixel e.1 ≤ e.2.2 := by
  refine reached_induct ord image seed
    (fun sl => sl.1.visited_points
        = (seedRegion image seed).1 ++ keyed (sl.2.accepted.map fun e => e.1) ∧
      ∀ e ∈ sl.2.accepted, e.2.1 ≤ image.GetPixel e.1 ∧ image.GetPixel e.1 ≤ e.2.2)
    (fun _ => True) ?_ ?_ ?_ sl h
  · intro st0 h0
    obtain ⟨hv, _, _, _⟩ := Seeding_eq_some ord image seed st0 h0
    refine ⟨?_, fun e he => absurd he (List.not_mem_nil _)⟩
    simp only [RunLog.empty, List.map_nil, keyed, List.append_nil]
    exact hv
  · intro sl elem rest hP _
    exact ⟨hP, trivial⟩
  · intro sl elem o sl1 hP _ _ hstep
    obtain ⟨hg, hlog⟩ := logNeighbour_cases ord image elem sl sl1 o hstep
    rcases hlog with ⟨ha, hacc, _, _⟩ | ⟨ha, hsame⟩
    · rcases growNeighbour_cases ord image elem sl.1 sl1.1 o hg with ⟨_, _, hv, _⟩ | ⟨hf, _⟩
      · obtain ⟨_, hb, _⟩ := (accepts_iff image elem sl.1 o).mp ha
        constructor
        · rw [hv, hacc, hP.1, List.map_append, keyed_append, List.append_assoc]
          rfl
        · intro e he
          rw [hacc, List.mem_append, List.mem_singleton] at he
          rcases he with he | he
          · exact hP.2 e he
          · rw [he]; exact hb
      · rw [ha] at hf; exact absurd hf (by simp)
    · rcases growNeighbour_cases ord image elem sl.1 sl1.1 o hg with ⟨ht, _⟩ | ⟨_, he⟩
      · rw [ha] at ht; exact absurd ht (by simp)
      · rw [he, hsame]; exact hP

/-! ## The baseline of the recompute test -/

theorem ComputeThreshold_length_pos (ord : MapOrder) (image : Volume) (m : PointMap)
    (b : Int × Int) (h : ComputeThreshold ord image m = some b) : 0 < m.length := by
  unfold ComputeThreshold at h
  cases hs : ComputeStats ord image m with
  | none => rw [hs] at h; exact absurd h (by simp)
  | some s => exact ComputeStats_length_pos ord image m s hs

/-- In every state of a run the baseline is the seeding size doubled once per
recomputation, and the size of the map lies between the baseline and twice the
baseline. -/
theorem reached_baseline (ord : MapOrder) (image : Volume) (seed : Point)
    (sl : GrowState × RunLog) (h : Reached ord image seed sl) :
    sl.1.region_size = (seedRegion image seed).1.length * 2 ^ sl.2.recomputes ∧
    sl.1.region_size ≤ sl.1.visited_points.length ∧
    sl.1.visited_points.length < 2 * sl.1.region_size := by
  refine reached_induct ord image seed
    (fun sl => sl.1.region_size = (seedRegion image seed).1.length * 2 ^ sl.2.recomputes ∧
      sl.1.region_size ≤ sl.1.visited_points.length ∧
      sl.1.visited_points.length < 2 * sl.1.region_size)
    (fun _ => True) ?_ ?_ ?_ sl h
  · intro st0 h0
    obtain ⟨hv, _, hr, hc⟩ := Seeding_eq_some ord image seed st0 h0
    have hpos := ComputeThreshold_length_pos ord image _ _ hc
    simp only [RunLog.empty, pow_zero, Nat.mul_one]
    rw [hv, hr]
    omega
  · intro sl elem rest hP _
    exact ⟨hP, trivial⟩
  · intro sl elem o sl1 hP _ _ hstep
    obtain ⟨hg, hlog⟩ := logNeighbour_cases ord image elem sl sl1 o hstep
    obtain ⟨h1, h2, h3⟩ := hP
    rcases growNeighbour_cases ord image elem sl.1 sl1.1 o hg with
      ⟨ha, hr, hv, _, hb⟩ | ⟨ha, he⟩
    · rcases hlog with ⟨_, _, hrec, _⟩ | ⟨hf, _⟩
      · have hlen : sl1.1.visited_points.length = sl.1.visited_points.length + 1 := by
          rw [hv, List.length_append, List.length_singleton]
        rcases hb with ⟨hc, hrs, _⟩ | ⟨hc, hrs, _, _⟩
        · have h2r := (div_ge_two_iff _ _ hr).mp hc
          rw [if_pos hc] at hrec
          rw [hrec, hrs, hlen, pow_succ, ← Nat.mul_assoc, ← h1]
          omega
        · have h2r : ¬ 2 * sl.1.region_size ≤ sl.1.visited_points.length + 1 :=
            fun hh => hc ((div_ge_two_iff _ _ hr).mpr hh)
          rw [if_neg hc] at hrec
          rw [hrec, hrs, hlen, ← h1]
          omega
      · rw [ha] at hf; exact absurd hf (by simp)
    · rcases hlog with ⟨ht, _⟩ | ⟨_, hsame⟩
      · rw [ha] at ht; exact absurd ht (by simp)
      · rw [he, hsame]; exact ⟨h1, h2, h3⟩

/-! ## Counting the dequeues -/

theorem logNeighbours_dequeues (ord : MapOrder) (image : Volume) (elem : Point)
    (os : List (Int × Int × Int)) (sl sl1 : GrowState × RunLog)
    (h : logNeighbours ord image elem os sl = some sl1) : sl1.2.dequeues = sl.2.dequeues := by
  induction os generalizing sl with
  | nil =>
    simp only [logNeighbours] at h
    injection h with h
    rw [h]
  | cons o os ih =>
    simp only [logNeighbours] at h
    split at h
    · exact absurd h (by simp)
    · rename_i sl2 heq
      rw [ih sl2 h]
      obtain ⟨_, hlog⟩ := logNeighbour_cases ord image elem sl sl2 o heq
      rcases hlog with ⟨_, _, _, hd⟩ | ⟨_, hsame⟩
      · exact hd
      · rw [hsame]

/-- The loop with `n` iterations allowed takes at most `n` points from the queue, and
exactly `n` when it ends with a queue that is not empty. -/
theorem logLoop_dequeues (ord : MapOrder) (image : Volume) (n : Nat)
    (sl sl1 : GrowState × RunLog) (h : logLoop ord image n sl = some sl1) :
    sl1.2.dequeues ≤ sl.2.dequeues + n ∧ (sl1.1.q ≠ [] → sl1.2.dequeues = sl.2.dequeues + n) := by
  induction n generalizing sl with
  | zero =>
    simp only [logLoop] at h
    injection h with h
    rw [h]
    exact ⟨le_refl _, fun _ => rfl⟩
  | succ n ih =>
    simp only [logLoop] at h
    split at h
    · rename_i hq
      injection h with h
      rw [← h]
      exact ⟨by omega, fun hne => absurd hq hne⟩
    · rename_i elem rest hq
      split at h
      · exact absurd h (by simp)
      · rename_i sl2 heq
        unfold logStep at heq
        rw [hq] at heq
        simp only [] at heq
        have hd := logNeighbours_dequeues ord image elem offsets26 _ sl2 heq
        have hd2 : sl2.2.dequeues = sl.2.dequeues + 1 := by rw [hd]; rfl
        obtain ⟨h1, h2⟩ := ih sl2 h
        exact ⟨by omega, fun hne => by rw [h2 hne]; omega⟩

theorem GrowRegions_of_Growing (ord : MapOrder) (image : Volume) (seed : Point)
    (st : GrowState) (h : Growing ord image seed = some st) :
    GrowRegions ord image seed = ComputeFinalThreshold ord image st.visited_points := by
  unfold GrowRegions
  rw [h]

/-! ## The pushed points are pairwise different -/

theorem shift_injective (p : Point) : Function.Injective p.shift := by
  intro o1 o2 h
  unfold Point.shift at h
  injection h with hx hy hz
  obtain ⟨a1, b1, c1⟩ := o1
  obtain ⟨a2, b2, c2⟩ := o2
  simp only [] at hx hy hz
  have ha : a1 = a2 := by omega
  have hb : b1 = b2 := by omega
  have hc : c1 = c2 := by omega
  rw [ha, hb, hc]

theorem seed_cons_neighbours_nodup (seed : Point) : (seed :: neighbours seed).Nodup := by
  rw [List.nodup_cons]
  constructor
  · intro hmem
    unfold neighbours at hmem
    rw [List.mem_map] at hmem
    obtain ⟨o, ho, hso⟩ := hmem
    have h0 : seed.shift (0, 0, 0) = seed := by
      unfold Point.shift
      simp
    have : o = (0, 0, 0) := shift_injective seed (by rw [hso, h0])
    rw [this] at ho
    exact absurd ho (by decide)
  · unfold neighbours
    exact List.Nodup.map (shift_injective seed) (by decide)

theorem seed_cons_inBoundsNeighbours_nodup (image : Volume) (seed : Point) :
    (seed :: inBoundsNeighbours image seed).Nodup := by
  have h := seed_cons_neighbours_nodup seed
  rw [List.nodup_cons] at h ⊢
  unfold inBoundsNeighbours
  exact ⟨fun hmem => h.1 (List.mem_of_mem_filter hmem), h.2.filter _⟩

theorem seedRegion_queue (image : Volume) (seed : Point) :
    (seedRegion image seed).2 = inBoundsNeighbours image seed := by
  unfold seedRegion
  rw [seedFold_queue]
  rfl

theorem mapContains_mapAssign (m : PointMap) (k : Int) (v : Point) (k1 : Int) :
    mapContains (mapAssign m k v) k1 = true ↔ mapContains m k1 = true ∨ k1 = k := by
  by_cases h : mapContains m k = true
  · unfold mapAssign
    rw [if_pos h]
    rw [mapContains_iff, mapContains_iff]
    constructor
    · rintro ⟨kv, hkv, rfl⟩
      rw [List.mem_map] at hkv
      obtain ⟨a, ha, rfl⟩ := hkv
      by_cases hk : a.1 = k
      · right; simp [hk]
      · left
        refine ⟨a, ha, ?_⟩
        simp [hk]
    · rintro (⟨kv, hkv, rfl⟩ | rfl)
      · by_cases hk : kv.1 = k
        · exact ⟨(k, v), List.mem_map.mpr ⟨kv, hkv, by simp [hk]⟩, hk.symm⟩
        · exact ⟨kv, List.mem_map.mpr ⟨kv, hkv, by simp [hk]⟩, rfl⟩
      · obtain ⟨kv, hkv, hk⟩ := (mapContains_iff m k1).mp h
        exact ⟨(k1, v), List.mem_map.mpr ⟨kv, hkv, by simp [hk]⟩, rfl⟩
  · have h1 : mapContains m k = false := by simpa using h
    rw [mapAssign_eq_of_absent _ _ _ h1, mapContains_iff, mapContains_iff]
    constructor
    · rintro ⟨kv, hkv, rfl⟩
      rw [List.mem_append, List.mem_singleton] at hkv
      rcases hkv with hkv | rfl
      · exact Or.inl ⟨kv, hkv, rfl⟩
      · exact Or.inr rfl
    · rintro (⟨kv, hkv, rfl⟩ | rfl)
      · exact ⟨kv, List.mem_append_left _ hkv, rfl⟩
      · exact ⟨(k1, v), List.mem_append_right _ (List.mem_singleton.mpr rfl), rfl⟩

/-- After the seeding loops the key of the seed and the key of every pushed point are
in the map. -/
theorem seedFold_keys (size : Nat × Nat × Nat) (seed : Point) (os : List (Int × Int × Int))
    (st : PointMap × List Point)
    (h : ∀ p ∈ seed :: st.2, mapContains st.1 (ComputePointHash p) = true) :
    ∀ p ∈ seed :: (os.foldl (seedNeighbour size seed) st).2,
      mapContains (os.foldl (seedNeighbour size seed) st).1 (ComputePointHash p) = true := by
  induction os generalizing st with
  | nil => exact h
  | cons o os ih =>
    rw [List.foldl_cons]
    apply ih
    unfold seedNeighbour
    by_cases hc : CheckBounds (seed.shift o) size = true
    · simp only [hc, Bool.not_true, Bool.false_eq_true, if_false]
      intro p hp
      rw [mapContains_mapAssign]
      rw [List.mem_cons, List.mem_append, List.mem_singleton] at hp
      rcases hp with rfl | hp | rfl
      · exact Or.inl (h _ (List.mem_cons_self _ _))
      · exact Or.inl (h p (List.mem_cons_of_mem _ hp))
      · exact Or.inr rfl
    · simp only [hc, Bool.not_false, if_true]
      exact h

theorem seedRegion_keys (image : Volume) (seed : Point) :
    ∀ p ∈ seed :: (seedRegion image seed).2,
      mapContains (seedRegion image seed).1 (ComputePointHash p) = true := by
  unfold seedRegion
  apply seedFold_keys
  intro p hp
  rw [List.mem_cons] at hp
  rcases hp with rfl | hp
  · rw [mapContains_mapAssign]
    exact Or.inr rfl
  · exact absurd hp (List.not_mem_nil _)

/-- A list of pairwise different points inside the volume has at most as many entries
as the volume has voxels. -/
theorem length_le_volume (image : Volume) (l : List Point) (hnd : l.Nodup)
    (hin : ∀ p ∈ l, InBounds image p) : l.length ≤ image.sx * image.sy * image.sz := by
  have hinj : (l.map fun p : Point => (p.x.toNat, p.y.toNat, p.z.toNat)).Nodup := by
    rw [List.nodup_map_iff_inj_on hnd]
    intro a ha b hb hab
    obtain ⟨⟨ax, _⟩, ⟨ay, _⟩, ⟨az, _⟩⟩ := hin a ha
    obtain ⟨⟨bx, _⟩, ⟨b_y, _⟩, ⟨bz, _⟩⟩ := hin b hb
    simp only [Prod.mk.injEq] at hab
    obtain ⟨h1, h2, h3⟩ := hab
    cases a
    cases b
    simp only [Point.mk.injEq] at *
    omega
  have hsub : (l.map fun p : Point => (p.x.toNat, p.y.toNat, p.z.toNat)).toFinset ⊆
      Finset.range image.sx ×ˢ (Finset.range image.sy ×ˢ Finset.range image.sz) := by
    intro t ht
    rw [List.mem_toFinset, List.mem_map] at ht
    obtain ⟨p, hp, rfl⟩ := ht
    obtain ⟨⟨x0, x1⟩, ⟨y0, y1⟩, ⟨z0, z1⟩⟩ := hin p hp
    simp only [Finset.mem_product, Finset.mem_range]
    omega
  have hcard := Finset.card_le_card hsub
  rw [List.toFinset_card_of_nodup hinj, List.length_map, Finset.card_product,
    Finset.card_product, Finset.card_range, Finset.card_range, Finset.card_range,
    ← Nat.mul_assoc] at hcard
  exact hcard

/-- In every state of a run from a seed inside the volume: the seed and the points
pushed so far are pairwise different, the pushed points lie inside the volume, their
keys and the key of the seed are in the map, the points taken from the queue and the
points still in it add up to the pushed points, and the queue holds pushed points. -/
theorem reached_pushed (ord : MapOrder) (image : Volume) (seed : Point)
    (hsize : SizeRepresentable image) (hseed : InBounds image seed)
    (sl : GrowState × RunLog) (h : Reached ord image seed sl) :
    (seed :: pushed image seed sl.2).Nodup ∧
    (∀ p ∈ pushed image seed sl.2, InBounds image p) ∧
    (∀ p ∈ seed :: pushed image seed sl.2,
      mapContains sl.1.visited_points (ComputePointHash p) = true) ∧
    sl.2.dequeues + sl.1.q.length = (pushed image seed sl.2).length ∧
    (∀ p ∈ sl.1.q, p ∈ pushed image seed sl.2) := by
  refine reached_induct ord image seed
    (fun sl => (seed :: pushed image seed sl.2).Nodup ∧
      (∀ p ∈ pushed image seed sl.2, InBounds image p) ∧
      (∀ p ∈ seed :: pushed image seed sl.2,
        mapContains sl.1.visited_points (ComputePointHash p) = true) ∧
      sl.2.dequeues + sl.1.q.length = (pushed image seed sl.2).length ∧
      (∀ p ∈ sl.1.q, p ∈ pushed image seed sl.2))
    (fun elem => InBounds image elem) ?_ ?_ ?_ sl h
  · intro st0 h0
    obtain ⟨hv, hq, _, _⟩ := Seeding_eq_some ord image seed st0 h0
    have hp : pushed image seed RunLog.empty = (seedRegion image seed).2 := by
      simp [pushed, RunLog.empty]
    simp only [hp, hv, hq]
    refine ⟨?_, (seedRegion_inBounds image hsize seed hseed).2, seedRegion_keys image seed,
      by simp [RunLog.empty], fun p hp => hp⟩
    rw [seedRegion_queue]
    exact seed_cons_inBoundsNeighbours_nodup image seed
  · intro sl elem rest hP hq
    obtain ⟨h1, h2, h3, h4, h5⟩ := hP
    have hmem : elem ∈ pushed image seed sl.2 := h5 elem (by rw [hq]; exact List.mem_cons_self _ _)
    refine ⟨⟨h1, h2, h3, ?_, ?_⟩, h2 elem hmem⟩
    · rw [hq, List.length_cons] at h4
      show sl.2.dequeues + 1 + rest.length = _
      simp only [dequeued, pushed] at h4 ⊢
      omega
    · intro p hp
      exact h5 p (by rw [hq]; exact List.mem_cons_of_mem _ hp)
  · intro sl elem o sl1 hP helem ho hstep
    obtain ⟨h1, h2, h3, h4, h5⟩ := hP
    obtain ⟨hg, hlog⟩ := logNeighbour_cases ord image elem sl sl1 o hstep
    rcases growNeighbour_cases ord image elem sl.1 sl1.1 o hg with
      ⟨ha, _, hv, hq, _⟩ | ⟨ha, he⟩
    · rcases hlog with ⟨_, hacc, _, hd⟩ | ⟨hf, _⟩
      · obtain ⟨hb, _, hk⟩ := (accepts_iff image elem sl.1 o).mp ha
        have hin := InBounds_shift_of_CheckBounds image hsize elem helem o ho hb
        have hps : pushed image seed sl1.2 = pushed image seed sl.2 ++ [elem.shift o] := by
          simp only [pushed, hacc, List.map_append, List.map_singleton, List.append_assoc]
        have hnew : elem.shift o ∉ seed :: pushed image seed sl.2 := by
          intro hmem
          have := h3 _ hmem
          rw [hk] at this
          exact absurd this (by simp)
        rw [hps]
        refine ⟨?_, ?_, ?_, ?_, ?_⟩
        · rw [← List.cons_append]
          apply List.Nodup.append h1 (List.nodup_singleton _)
          intro p hp1 hp2
          rw [List.mem_singleton] at hp2
          rw [hp2] at hp1
          exact hnew hp1
        · intro p hp
          rw [List.mem_append, List.mem_singleton] at hp
          rcases hp with hp | rfl
          · exact h2 p hp
          · exact hin
        · intro p hp
          rw [hv, ← mapAssign_eq_of_absent _ _ _ hk, mapContains_mapAssign]
          rw [← List.cons_append, List.mem_append, List.mem_singleton] at hp
          rcases hp with hp | rfl
          · exact Or.inl (h3 p hp)
          · exact Or.inr rfl
        · rw [hd, hq]
          simp only [List.length_append, List.length_singleton]
          omega
        · intro p hp
          rw [hq, List.mem_append, List.mem_singleton] at hp
          rw [List.mem_append, List.mem_singleton]
          rcases hp with hp | rfl
          · exact Or.inl (h5 p hp)
          · exact Or.inr rfl
      · rw [ha] at hf; exact absurd hf (by simp)
    · rcases hlog with ⟨ht, _⟩ | ⟨_, hsame⟩
      · rw [ha] at ht; exact absurd ht (by simp)
      · rw [he, hsame]; exact ⟨h1, h2, h3, h4, h5⟩

/-- The number of pushed points, and so of dequeues, is below the number of voxels. -/
theorem reached_pushed_count (ord : MapOrder) (image : Volume) (seed : Point)
    (hsize : SizeRepresentable image) (hseed : InBounds image seed)
    (sl : GrowState × RunLog) (h : Reached ord image seed sl) :
    (pushed image seed sl.2).length + 1 ≤ image.sx * image.sy * image.sz ∧
    sl.2.dequeues + sl.1.q.length + 1 ≤ image.sx * image.sy * image.sz := by
  obtain ⟨h1, h2, _, h4, _⟩ := reached_pushed ord image seed hsize hseed sl h
  have hlen := length_le_volume image (seed :: pushed image seed sl.2) h1 (by
    intro p hp
    rw [List.mem_cons] at hp
    rcases hp with rfl | hp
    · exact hseed
    · exact h2 p hp)
  rw [List.length_cons] at hlen
  exact ⟨hlen, by omega⟩

/-! ## The loop without the cap -/

/-- Once the loop has ended with an empty queue or with a fault, more iterations
allowed change nothing. -/
theorem growLoop_stable (ord : MapOrder) (image : Volume) (n k : Nat) (st : GrowState)
    (h : growLoop ord image n st = none ∨
      ∃ st1, growLoop ord image n st = some st1 ∧ st1.q = []) :
    growLoop ord image (n + k) st = growLoop ord image n st := by
  induction n generalizing st with
  | zero =>
    rcases h with h | ⟨st1, h, hq⟩
    · simp [growLoop] at h
    · simp only [growLoop] at h
      injection h with h
      subst h
      cases k with
      | zero => rfl
      | succ k =>
        simp only [Nat.zero_add, growLoop, hq]
  | succ n ih =>
    have e : n + 1 + k = (n + k) + 1 := by omega
    rw [e]
    simp only [growLoop] at h ⊢
    cases hq : st.q with
    | nil => rfl
    | cons elem rest =>
      rw [hq] at h
      simp only [] at h ⊢
      cases hs : growStep ord image st with
      | none => rfl
      | some st2 =>
        rw [hs] at h
        simp only [] at h ⊢
        exact ih st2 h

/-- From a seed inside the volume, the loop with at least `sx*sy*sz - 1` iterations
allowed ends with an empty queue. -/
theorem growLoop_queue_empty (ord : MapOrder) (image : Volume) (seed : Point)
    (hsize : SizeRepresentable image) (hseed : InBounds image seed)
    (st0 st : GrowState) (h0 : Seeding ord image seed = some st0) (n : Nat)
    (hn : image.sx * image.sy * image.sz ≤ n + 1)
    (h : growLoop ord image n st0 = some st) : st.q = [] := by
  have hf := logLoop_fst ord image n (st0, RunLog.empty)
  rw [h] at hf
  cases hl : logLoop ord image n (st0, RunLog.empty) with
  | none => rw [hl] at hf; exact absurd hf (by simp)
  | some sl =>
    rw [hl] at hf
    simp only [Option.map_some', Option.some.injEq] at hf
    have hreach : Reached ord image seed sl := ⟨st0, n, sl, h0, hl, Or.inl rfl⟩
    obtain ⟨_, hcount⟩ := reached_pushed_count ord image seed hsize hseed sl hreach
    obtain ⟨_, hd⟩ := logLoop_dequeues ord image n _ sl hl
    by_contra hne
    rw [← hf] at hne
    have := hd hne
    simp only [RunLog.empty, Nat.zero_add] at this
    have hpos : 0 < sl.1.q.length := List.length_pos.mpr hne
    omega

/-- C2. Boundary exclusion: for a volume whose sizes fit the unsigned size type and a
seed inside the volume, `CheckBounds` accepts an index exactly when it lies inside the
volume (negative coordinates included), and the map and the queue of `GrowRegions`
hold only points inside the volume at every moment: after each offset of the seeding
loops, after every number of iterations of the growing loop, and after each offset
examined inside an iteration. -/
theorem boundary_exclusion (ord : MapOrder) (image : Volume) (seed : Point)
    (hsize : SizeRepresentable image) (hseed : InBounds image seed) :
    (∀ p : Point, IndexRepresentable p →
      (CheckBounds p image.size = true ↔ InBounds image p)) ∧
    (∀ k, AllInBounds image (seedAfter image seed k).1 (seedAfter image seed k).2) ∧
    (∀ st0, Seeding ord image seed = some st0 →
      ∀ n st, growLoop ord image n st0 = some st →
        AllInBounds image st.visited_points st.q ∧
        ∀ elem rest, st.q = elem :: rest → ∀ k st1,
          growNeighbours ord image elem (offsets26.take k) { st with q := rest } = some st1 →
          AllInBounds image st1.visited_points st1.q) := by
  refine ⟨fun p hp => ⟨fun h => ?_, CheckBounds_of_InBounds image p⟩,
    seedAfter_inBounds image hsize seed hseed, ?_⟩
  · obtain ⟨⟨_, hx⟩, ⟨_, hy⟩, ⟨_, hz⟩⟩ := hp
    have h63 : two63 < two64 := by decide
    exact InBounds_of_CheckBounds image p (lt_trans hx h63) (lt_trans hy h63)
      (lt_trans hz h63) h
  · intro st0 hst0 n st hrun
    obtain ⟨hv, hq, _, _⟩ := Seeding_eq_some ord image seed st0 hst0
    have h0 : AllInBounds image st0.visited_points st0.q := by
      rw [hv, hq]
      exact seedRegion_inBounds image hsize seed hseed
    have hst := growLoop_inBounds ord image hsize n st0 st h0 hrun
    refine ⟨hst, ?_⟩
    intro elem rest hqe k st1 hk
    obtain ⟨helem, hrest⟩ := dequeue_inBounds image st elem rest hqe hst
    exact growNeighbours_inBounds ord image hsize elem helem _
      (fun _ ho => List.mem_of_mem_take ho) _ st1 hrest hk

/-- The boundary-exclusion theorem at the 4x4x4 volume with the seed at the corner
(0,0,0): seeding takes exactly the seven neighbours inside the volume, the run
returns a state, and the points of that state lie inside the volume. -/
theorem boundary_exclusion_witness :
    SizeRepresentable (uniformVolume 4 4 4 100) ∧
    InBounds (uniformVolume 4 4 4 100) ⟨0, 0, 0⟩ ∧
    (seedRegion (uniformVolume 4 4 4 100) ⟨0, 0, 0⟩).2
      = [⟨0, 0, 1⟩, ⟨0, 1, 0⟩, ⟨0, 1, 1⟩, ⟨1, 0, 0⟩, ⟨1, 0, 1⟩, ⟨1, 1, 0⟩, ⟨1, 1, 1⟩] ∧
    regionPoints (seedRegion (uniformVolume 4 4 4 100) ⟨0, 0, 0⟩).1
      = [⟨0, 0, 0⟩, ⟨0, 0, 1⟩, ⟨0, 1, 0⟩, ⟨0, 1, 1⟩, ⟨1, 0, 0⟩, ⟨1, 0, 1⟩, ⟨1, 1, 0⟩,
          ⟨1, 1, 1⟩] ∧
    (Seeding insertionOrder (uniformVolume 4 4 4 100) ⟨0, 0, 0⟩).isSome = true ∧
    (∀ st0, Seeding insertionOrder (uniformVolume 4 4 4 100) ⟨0, 0, 0⟩ = some st0 →
      ∀ n st, growLoop insertionOrder (uniformVolume 4 4 4 100) n st0 = some st →
        AllInBounds (uniformVolume 4 4 4 100) st.visited_points st.q) :=
  ⟨by decide, by decide, by decide, by decide, by decide,
    fun st0 h0 n st h =>
      ((boundary_exclusion insertionOrder (uniformVolume 4 4 4 100) ⟨0, 0, 0⟩
        (by decide) (by decide)).2.2 st0 h0 n st h).1⟩

/-- C9. Recompute cadence: when `growNeighbour` accepts a neighbour (inside the volume,
value within the current bounds, key not yet in the map) the map grows by exactly one
entry, and the thresholds are computed again on the grown map exactly when
`size / region_size >= 2` in integer division, that is exactly when the new size is at
least `2 * region_size`; `region_size` then becomes the new size, and otherwise bounds
and `region_size` stay as they were.  When the size was below `2 * region_size` before
the acceptance, the recompute happens exactly when the new size equals
`2 * region_size`.  From the baseline 27, the sizes 28, 29, ..., 55 trigger a recompute
at 54 only. -/
theorem recompute_cadence (ord : MapOrder) (image : Volume) (elem : Point)
    (st : GrowState) (o : Int × Int × Int)
    (hb : CheckBounds (elem.shift o) image.size = true)
    (hv : st.lower_threshold ≤ image.GetPixel (elem.shift o) ∧
      image.GetPixel (elem.shift o) ≤ st.upper_threshold)
    (hk : mapContains st.visited_points (ComputePointHash (elem.shift o)) = false)
    (hr : 0 < st.region_size) :
    (mapAssign st.visited_points (ComputePointHash (elem.shift o)) (elem.shift o)).length
      = st.visited_points.length + 1 ∧
    ((st.visited_points.length + 1) / st.region_size ≥ 2 ↔
      2 * st.region_size ≤ st.visited_points.length + 1) ∧
    (2 * st.region_size ≤ st.visited_points.length + 1 →
      growNeighbour ord image elem st o =
        (ComputeThreshold ord image
            (mapAssign st.visited_points (ComputePointHash (elem.shift o)) (elem.shift o))).map
          fun b => ⟨mapAssign st.visited_points (ComputePointHash (elem.shift o)) (elem.shift o),
            st.q ++ [elem.shift o], b.1, b.2, st.visited_points.length + 1⟩) ∧
    (st.visited_points.length + 1 < 2 * st.region_size →
      growNeighbour ord image elem st o =
        some ⟨mapAssign st.visited_points (ComputePointHash (elem.shift o)) (elem.shift o),
          st.q ++ [elem.shift o], st.upper_threshold, st.lower_threshold, st.region_size⟩) ∧
    (st.visited_points.length < 2 * st.region_size →
      (2 * st.region_size ≤ st.visited_points.length + 1 ↔
        st.visited_points.length + 1 = 2 * st.region_size)) ∧
    recomputeSizes 27 (List.range' 28 28) = [54] := by
  have hdiv := div_ge_two_iff (st.visited_points.length + 1) st.region_size hr
  have hacc := growNeighbour_accept ord image elem st o hb hv hk hr
  rw [mapAssign_eq_of_absent _ _ _ hk]
  refine ⟨by simp, hdiv, ?_, ?_, ?_, by decide⟩
  · intro h
    rw [hacc, if_pos (hdiv.mpr h)]
  · intro h
    rw [hacc, if_neg (fun hc => absurd (hdiv.mp hc) (by omega))]
  · intro h
    omega

/-- The cadence theorem at a concrete acceptance: in the uniform 1x1x4 volume with seed
(0,0,0), when (0,0,2) is dequeued the map holds three points, the baseline is 2 and the
bounds are 85 and 114; the neighbour (0,0,3) is accepted, the map reaches 4 = 2 * 2
entries and the thresholds are computed again, giving 90 and 110 and the baseline 4. -/
theorem recompute_cadence_witness :
    CheckBounds ((⟨0, 0, 2⟩ : Point).shift (0, 0, 1)) (uniformVolume 1 1 4 100).size = true ∧
    ((85 : Int) ≤ (uniformVolume 1 1 4 100).GetPixel ((⟨0, 0, 2⟩ : Point).shift (0, 0, 1)) ∧
      (uniformVolume 1 1 4 100).GetPixel ((⟨0, 0, 2⟩ : Point).shift (0, 0, 1)) ≤ 114) ∧
    mapContains [(0, ⟨0, 0, 0⟩), (1, ⟨0, 0, 1⟩), (2, ⟨0, 0, 2⟩)]
      (ComputePointHash ((⟨0, 0, 2⟩ : Point).shift (0, 0, 1))) = false ∧
    (growNeighbour insertionOrder (uniformVolume 1 1 4 100) ⟨0, 0, 2⟩
        ⟨[(0, ⟨0, 0, 0⟩), (1, ⟨0, 0, 1⟩), (2, ⟨0, 0, 2⟩)], [], 114, 85, 2⟩ (0, 0, 1)).map
      (fun s => (s.visited_points.length, s.region_size, s.upper_threshold, s.lower_threshold))
      = some (4, 4, 110, 90) :=
  have h := recompute_cadence insertionOrder (uniformVolume 1 1 4 100) ⟨0, 0, 2⟩
    ⟨[(0, ⟨0, 0, 0⟩), (1, ⟨0, 0, 1⟩), (2, ⟨0, 0, 2⟩)], [], 114, 85, 2⟩ (0, 0, 1)
    (by decide) (by decide) (by decide) (by decide)
  ⟨by decide, by decide, by decide, by rw [h.2.2.1 (by decide)]; decide⟩

set_option maxRecDepth 100000

/-- C1. Seeding in the uniform 5x5x5 volume with seed (3,3,1): the seed and its 26
neighbours all lie inside the volume and the queue receives the 26 neighbours, but the
map holds 25 entries instead of 27.  The neighbour (3,4,0) has the key 340 of the seed
and replaces it, and the neighbour (2,3,0) has the key 230 of the neighbour (2,2,2) and
replaces it, so neither the seed nor (2,2,2) is a point of the Region when seeding
ends. -/
theorem seeding_loses_points_on_key_collision :
    InBounds (uniformVolume 5 5 5 100) ⟨3, 3, 1⟩ ∧
    (∀ p ∈ neighbours ⟨3, 3, 1⟩, InBounds (uniformVolume 5 5 5 100) p) ∧
    (seedRegion (uniformVolume 5 5 5 100) ⟨3, 3, 1⟩).2 = neighbours ⟨3, 3, 1⟩ ∧
    ComputePointHash ⟨3, 4, 0⟩ = ComputePointHash ⟨3, 3, 1⟩ ∧
    ComputePointHash ⟨2, 3, 0⟩ = ComputePointHash ⟨2, 2, 2⟩ ∧
    (seedRegion (uniformVolume 5 5 5 100) ⟨3, 3, 1⟩).1.length = 25 ∧
    (⟨3, 3, 1⟩ : Point) ∉ regionPoints (seedRegion (uniformVolume 5 5 5 100) ⟨3, 3, 1⟩).1 ∧
    (⟨2, 2, 2⟩ : Point) ∈ neighbours ⟨3, 3, 1⟩ ∧
    (⟨2, 2, 2⟩ : Point) ∉ regionPoints (seedRegion (uniformVolume 5 5 5 100) ⟨3, 3, 1⟩).1 := by
  refine ⟨by decide, by decide, by decide, by decide, by decide, by decide, by decide,
    by decide, by decide⟩

/-- C3. Growing in the uniform 5x5x5 volume with seed (2,2,2): in the fourth iteration
of the loop the point (1,2,1) is dequeued.  When its neighbour (2,3,0) is examined
(offset (1,1,-1), after 23 other offsets), that neighbour lies inside the volume, is
not a point of the Region and has the value 100 within the current bounds 97 and 102,
yet `growNeighbour` leaves the map and the queue as they are: the key 230 of (2,3,0)
is the key under which the seed (2,2,2) is stored. -/
theorem growing_skips_neighbour_on_key_collision :
    offsets26.drop 23 = [(1, 1, -1), (1, 1, 0), (1, 1, 1)] ∧
    (⟨1, 2, 1⟩ : Point).shift (1, 1, -1) = ⟨2, 3, 0⟩ ∧
    CheckBounds ⟨2, 3, 0⟩ (uniformVolume 5 5 5 100).size = true ∧
    (uniformVolume 5 5 5 100).GetPixel ⟨2, 3, 0⟩ = 100 ∧
    ComputePointHash ⟨2, 3, 0⟩ = 230 ∧
    fourthIterationState.map (fun es =>
        (es.1, decide ((⟨2, 3, 0⟩ : Point) ∈ regionPoints es.2.visited_points),
          es.2.lower_threshold, es.2.upper_threshold,
          decide ((230, (⟨2, 2, 2⟩ : Point)) ∈ es.2.visited_points),
          decide (growNeighbour insertionOrder (uniformVolume 5 5 5 100) es.1 es.2 (1, 1, -1)
            = some es.2)))
      = some (⟨1, 2, 1⟩, false, 97, 102, true, true) := by
  refine ⟨by decide, by decide, by decide, by decide, by decide, by decide!⟩

/-- C4. The mean of a region with a negative sum: for the two voxels of the uniform
2x1x1 volume with value -10, which is the Region that seeding builds from the seed
(0,0,0), the sum is -20 and the truncated quotient -20 / 2 is -10, but lines 41-46
store 9223372036854775798 = (2^64 - 20) / 2 in `*mgv`, no value of the region reaches
that mean, and `ComputeStats` and `GrowRegions` end in the division by the zero
`upper_num`. -/
theorem mean_of_negative_sum_is_wrapped (ord : MapOrder) :
    (seedRegion (uniformVolume 2 1 1 (-10)) ⟨0, 0, 0⟩).1 = [(0, ⟨0, 0, 0⟩), (100, ⟨1, 0, 0⟩)] ∧
    Int.tdiv ((uniformVolume 2 1 1 (-10)).GetPixel ⟨0, 0, 0⟩ +
      (uniformVolume 2 1 1 (-10)).GetPixel ⟨1, 0, 0⟩) 2 = -10 ∧
    regionMean ord (uniformVolume 2 1 1 (-10)) [(0, ⟨0, 0, 0⟩), (100, ⟨1, 0, 0⟩)]
      = some 9223372036854775798 ∧
    ComputeStats ord (uniformVolume 2 1 1 (-10)) [(0, ⟨0, 0, 0⟩), (100, ⟨1, 0, 0⟩)] = none ∧
    GrowRegions ord (uniformVolume 2 1 1 (-10)) ⟨0, 0, 0⟩ = none := by
  refine ⟨by decide, by decide, ?_, ?_, ?_⟩
  · rw [regionMean_order ord insertionOrder]; decide
  · rw [ComputeStats_order ord insertionOrder]; decide
  · rw [GrowRegions_order ord insertionOrder]; decide

/-- C5. The deviations of a region with a negative sum: for the three voxels of the
3x1x1 volume with the values -4, -2, 0, the mean is -2, the upper half -2, 0 and the
lower half -4, -2 both have the deviation 1 around their own means -1 and -3 (lines
48-80 run with the mean -2 return them), but `ComputeStats` returns nothing: it
stores 6148914691236517203 = (2^64 - 6) / 3 in `*mgv`, the upper half is empty and
the division by `upper_num` is a division by zero. -/
theorem deviations_of_negative_sum_fault (ord : MapOrder) :
    (seedRegion rampVolume ⟨1, 0, 0⟩).1
      = [(100, ⟨1, 0, 0⟩), (0, ⟨0, 0, 0⟩), (200, ⟨2, 0, 0⟩)] ∧
    [(100, (⟨1, 0, 0⟩ : Point)), (0, ⟨0, 0, 0⟩), (200, ⟨2, 0, 0⟩)].map
      (fun kv => rampVolume.GetPixel kv.2) = [-2, -4, 0] ∧
    halfDeviations rampVolume [(100, ⟨1, 0, 0⟩), (0, ⟨0, 0, 0⟩), (200, ⟨2, 0, 0⟩)] (-2)
      = some (1, 1) ∧
    regionMean ord rampVolume [(100, ⟨1, 0, 0⟩), (0, ⟨0, 0, 0⟩), (200, ⟨2, 0, 0⟩)]
      = some 6148914691236517203 ∧
    ComputeStats ord rampVolume [(100, ⟨1, 0, 0⟩), (0, ⟨0, 0, 0⟩), (200, ⟨2, 0, 0⟩)] = none := by
  refine ⟨by decide, by decide, by decide, ?_, ?_⟩
  · rw [regionMean_order ord insertionOrder]; decide
  · rw [ComputeStats_order ord insertionOrder]; decide

/-- C7. A region of identical negative values: for the three voxels of the uniform
3x1x1 volume with value -7, `ComputeStats` does not return the mean -7 and the
deviations 0: it stores 6148914691236517198 = (2^64 - 21) / 3 in `*mgv` and ends in a
division by zero, and so do `ComputeThreshold` and `ComputeFinalThreshold`.  The same
volume with the value 7 gives the mean 7, the deviations 0 and the bounds 18 and -4
of the claim (20 / sqrt 3 = 11.5...). -/
theorem uniform_negative_region_faults (ord : MapOrder) :
    (seedRegion (uniformVolume 3 1 1 (-7)) ⟨1, 0, 0⟩).1
      = [(100, ⟨1, 0, 0⟩), (0, ⟨0, 0, 0⟩), (200, ⟨2, 0, 0⟩)] ∧
    regionMean ord (uniformVolume 3 1 1 (-7))
      [(100, ⟨1, 0, 0⟩), (0, ⟨0, 0, 0⟩), (200, ⟨2, 0, 0⟩)] = some 6148914691236517198 ∧
    ComputeStats ord (uniformVolume 3 1 1 (-7))
      [(100, ⟨1, 0, 0⟩), (0, ⟨0, 0, 0⟩), (200, ⟨2, 0, 0⟩)] = none ∧
    ComputeThreshold ord (uniformVolume 3 1 1 (-7))
      [(100, ⟨1, 0, 0⟩), (0, ⟨0, 0, 0⟩), (200, ⟨2, 0, 0⟩)] = none ∧
    ComputeFinalThreshold ord (uniformVolume 3 1 1 (-7))
      [(100, ⟨1, 0, 0⟩), (0, ⟨0, 0, 0⟩), (200, ⟨2, 0, 0⟩)] = none ∧
    ComputeStats ord (uniformVolume 3 1 1 7)
      [(100, ⟨1, 0, 0⟩), (0, ⟨0, 0, 0⟩), (200, ⟨2, 0, 0⟩)] = some (7, 0, 0) ∧
    ComputeThreshold ord (uniformVolume 3 1 1 7)
      [(100, ⟨1, 0, 0⟩), (0, ⟨0, 0, 0⟩), (200, ⟨2, 0, 0⟩)] = some (18, -4) ∧
    ComputeFinalThreshold ord (uniformVolume 3 1 1 7)
      [(100, ⟨1, 0, 0⟩), (0, ⟨0, 0, 0⟩), (200, ⟨2, 0, 0⟩)] = some (18, -4) := by
  refine ⟨by decide, ?_, ?_, ?_, ?_, ?_, ?_, ?_⟩
  · rw [regionMean_order ord insertionOrder]; decide
  · rw [ComputeStats_order ord insertionOrder]; decide
  · rw [ComputeThreshold_order ord insertionOrder]; decide
  · rw [ComputeFinalThreshold_order ord insertionOrder]; decide
  · rw [ComputeStats_order ord insertionOrder]; decide
  · rw [ComputeThreshold_order ord insertionOrder]; decide
  · rw [ComputeFinalThreshold_order ord insertionOrder]; decide

/-- C8, as stated. In the 5x5x5 scenario with seed (2,2,2) the statistics at the end of
seeding are not (115, 0, 0): the mean is not 115. -/
theorem scenario_mean_is_not_115 :
    ¬ (ComputeStats insertionOrder scenarioVolume (seedRegion scenarioVolume ⟨2, 2, 2⟩).1
      = some (115, 0, 0)) := by
  decide

/-- C8, amended. In the 5x5x5 scenario with seed (2,2,2) seeding takes all 26
neighbours, the Region then holds 27 points (the seed and the 26 neighbours, 26 of
them with the value 100 and one with the value 500), and the statistics that
`GrowRegions` computes at the end of seeding are the mean 114, which is
(26 * 100 + 500) / 27 truncated, the upper deviation 0 and the lower deviation 0, for
every iteration order of the map. -/
theorem scenario_seeding_statistics (ord : MapOrder) :
    (seedRegion scenarioVolume ⟨2, 2, 2⟩).2 = neighbours ⟨2, 2, 2⟩ ∧
    (neighbours ⟨2, 2, 2⟩).length = 26 ∧
    regionPoints (seedRegion scenarioVolume ⟨2, 2, 2⟩).1 = ⟨2, 2, 2⟩ :: neighbours ⟨2, 2, 2⟩ ∧
    ((regionPoints (seedRegion scenarioVolume ⟨2, 2, 2⟩).1).filter
      fun p => scenarioVolume.GetPixel p = 100).length = 26 ∧
    ((regionPoints (seedRegion scenarioVolume ⟨2, 2, 2⟩).1).filter
      fun p => scenarioVolume.GetPixel p = 500) = [⟨2, 2, 3⟩] ∧
    Int.tdiv (26 * 100 + 500) 27 = 114 ∧
    ComputeStats ord scenarioVolume (seedRegion scenarioVolume ⟨2, 2, 2⟩).1
      = some (114, 0, 0) := by
  refine ⟨by decide, by decide, by decide, by decide, by decide, by decide, ?_⟩
  rw [ComputeStats_order ord insertionOrder]
  decide

/-- C16. The point key is not injective: `ComputePointHash (x, y, z)` is
`x*y*z + 100*x + 10*y + z`, and the two different points (3,3,1) and (3,4,0), whose
coordinates are not negative, have the same key 340 (so have (0,0,10) and (0,1,0),
with key 10).  The visited-point map then treats the two voxels as one entry: once
(3,3,1) is stored, the lookup of the key of (3,4,0) succeeds, and an assignment under
the key of (3,4,0) replaces (3,3,1). -/
theorem key_not_injective :
    (∀ x y z : Int, ComputePointHash ⟨x, y, z⟩ = x * y * z + 100 * x + 10 * y + z) ∧
    (∃ p q : Point, (0 ≤ p.x ∧ 0 ≤ p.y ∧ 0 ≤ p.z) ∧ (0 ≤ q.x ∧ 0 ≤ q.y ∧ 0 ≤ q.z) ∧ p ≠ q ∧
      ComputePointHash p = ComputePointHash q) ∧
    ¬ Function.Injective ComputePointHash ∧
    ComputePointHash ⟨3, 3, 1⟩ = 340 ∧ ComputePointHash ⟨3, 4, 0⟩ = 340 ∧
    ComputePointHash ⟨0, 0, 10⟩ = 10 ∧ ComputePointHash ⟨0, 1, 0⟩ = 10 ∧
    mapContains (mapAssign [] (ComputePointHash ⟨3, 3, 1⟩) ⟨3, 3, 1⟩)
      (ComputePointHash ⟨3, 4, 0⟩) = true ∧
    regionPoints (mapAssign (mapAssign [] (ComputePointHash ⟨3, 3, 1⟩) ⟨3, 3, 1⟩)
      (ComputePointHash ⟨3, 4, 0⟩) ⟨3, 4, 0⟩) = [⟨3, 4, 0⟩] := by
  have hne : (⟨3, 3, 1⟩ : Point) ≠ ⟨3, 4, 0⟩ := by decide
  have heq : ComputePointHash ⟨3, 3, 1⟩ = ComputePointHash ⟨3, 4, 0⟩ := by decide
  refine ⟨fun x y z => ?_, ⟨⟨3, 3, 1⟩, ⟨3, 4, 0⟩, by decide, by decide, hne, heq⟩,
    fun hinj => hne (hinj heq), by decide, by decide, by decide, by decide, by decide,
    by decide⟩
  unfold ComputePointHash
  ring

/-- C19. The returned bounds need not contain the value of the seed: in the 5x5x5
volume with all values 100 except 500 at (2,2,3) and the seed (2,2,2), which lies
inside the volume and has the value 100, `GrowRegions` returns the upper bound 117 and
the lower bound 110 for every iteration order of the map, and 100 is below the lower
bound. -/
theorem returned_bounds_exclude_seed_value (ord : MapOrder) :
    InBounds scenarioVolume ⟨2, 2, 2⟩ ∧
    scenarioVolume.GetPixel ⟨2, 2, 2⟩ = 100 ∧
    GrowRegions ord scenarioVolume ⟨2, 2, 2⟩ = some (117, 110) ∧
    (∃ image seed upper lower, InBounds image seed ∧
      GrowRegions ord image seed = some (upper, lower) ∧
      (image.GetPixel seed < lower ∨ upper < image.GetPixel seed)) := by
  have hrun : GrowRegions ord scenarioVolume ⟨2, 2, 2⟩ = some (117, 110) := by
    rw [GrowRegions_order ord insertionOrder]
    decide
  exact ⟨by decide, by decide, hrun,
    scenarioVolume, ⟨2, 2, 2⟩, 117, 110, by decide, hrun, Or.inl (by decide)⟩

/-- C18. The final pass is never narrower than the exploratory pass: when
`ComputeStats` returns for a region, `ComputeThreshold` returns `(up_e, lo_e)`,
`ComputeFinalThreshold` returns `(up_f, lo_f)` for the same region and volume, and
`lo_f <= lo_e` and `up_e <= up_f`. -/
theorem final_pass_not_narrower (ord : MapOrder) (image : Volume) (m : PointMap)
    (s : Int × Int × Int) (h : ComputeStats ord image m = some s) :
    ∃ up_e lo_e up_f lo_f,
      ComputeThreshold ord image m = some (up_e, lo_e) ∧
      ComputeFinalThreshold ord image m = some (up_f, lo_f) ∧
      lo_f ≤ lo_e ∧ up_e ≤ up_f := by
  obtain ⟨mgv, upper_dev, lower_dev⟩ := s
  obtain ⟨hud, hld⟩ := ComputeStats_dev_nonneg ord image m _ _ _ h
  have hudR : (0 : ℝ) ≤ (upper_dev : ℝ) := by exact_mod_cast hud
  have hldR : (0 : ℝ) ≤ (lower_dev : ℝ) := by exact_mod_cast hld
  obtain ⟨ue, le, he, hue, hle⟩ := ComputeThreshold_spec ord image m _ _ _ h
  obtain ⟨uf, lf, hf, huf, hlf⟩ := ComputeFinalThreshold_spec ord image m _ _ _ h
  refine ⟨ue, le, uf, lf, he, hf, ?_, ?_⟩
  · exact isTruncation_mono _ _ _ _ hlf hle (by nlinarith)
  · exact isTruncation_mono _ _ _ _ hue huf (by nlinarith)

/-- The comparison of the two passes at the four voxels 0, 10, 40, 90 of the 1x1x4
volume: the exploratory bounds are 82 and 17, the final bounds are 174 and 0. -/
theorem final_pass_not_narrower_witness :
    ComputeStats insertionOrder quadVolume (keyed [⟨0, 0, 0⟩, ⟨0, 0, 1⟩, ⟨0, 0, 2⟩, ⟨0, 0, 3⟩])
      = some (35, 25, 5) ∧
    ∃ up_e lo_e up_f lo_f,
      ComputeThreshold insertionOrder quadVolume
        (keyed [⟨0, 0, 0⟩, ⟨0, 0, 1⟩, ⟨0, 0, 2⟩, ⟨0, 0, 3⟩]) = some (up_e, lo_e) ∧
      ComputeFinalThreshold insertionOrder quadVolume
        (keyed [⟨0, 0, 0⟩, ⟨0, 0, 1⟩, ⟨0, 0, 2⟩, ⟨0, 0, 3⟩]) = some (up_f, lo_f) ∧
      (up_e, lo_e, up_f, lo_f) = (82, 17, 174, 0) ∧ lo_f ≤ lo_e ∧ up_e ≤ up_f := by
  have hs : ComputeStats insertionOrder quadVolume
      (keyed [⟨0, 0, 0⟩, ⟨0, 0, 1⟩, ⟨0, 0, 2⟩, ⟨0, 0, 3⟩]) = some (35, 25, 5) := by decide
  obtain ⟨ue, le, uf, lf, he, hf, h1, h2⟩ :=
    final_pass_not_narrower insertionOrder quadVolume _ _ hs
  have he2 : ComputeThreshold insertionOrder quadVolume
      (keyed [⟨0, 0, 0⟩, ⟨0, 0, 1⟩, ⟨0, 0, 2⟩, ⟨0, 0, 3⟩]) = some (82, 17) := by decide
  have hf2 : ComputeFinalThreshold insertionOrder quadVolume
      (keyed [⟨0, 0, 0⟩, ⟨0, 0, 1⟩, ⟨0, 0, 2⟩, ⟨0, 0, 3⟩]) = some (174, 0) := by decide
  rw [he2] at he
  rw [hf2] at hf
  injection he with he
  injection hf with hf
  injection he with he1 he3
  injection hf with hf1 hf3
  subst he1 he3 hf1 hf3
  exact ⟨hs, _, _, _, _, he2, hf2, rfl, h1, h2⟩

/-- C14. A non-empty region with an empty half: in the 1x1x3 volume with the values
10, -9, -2 and the seed (0,0,0), the growing loop ends with the three voxels in the
Region.  Their sum is -1 and the truncated mean is 0, for which the upper half 10 and
the lower half -9, -2 are not empty; but line 46 stores
6148914691236517205 = (2^64 - 1) / 3 in `*mgv`, the upper half for that mean is empty,
`upper_num` is 0, and `ComputeStats`, and with it `GrowRegions`, ends in the division
`upper_sum / upper_num` by zero. -/
theorem nonempty_region_with_empty_half (ord : MapOrder) :
    (Growing ord mixedVolume ⟨0, 0, 0⟩).map (fun st => st.visited_points)
      = some [(0, ⟨0, 0, 0⟩), (1, ⟨0, 0, 1⟩), (2, ⟨0, 0, 2⟩)] ∧
    regionValues insertionOrder mixedVolume [(0, ⟨0, 0, 0⟩), (1, ⟨0, 0, 1⟩), (2, ⟨0, 0, 2⟩)]
      = [10, -9, -2] ∧
    Int.tdiv (10 + -9 + -2) 3 = 0 ∧
    upperHalf [10, -9, -2] 0 = [10] ∧ lowerHalf [10, -9, -2] 0 = [-9, -2] ∧
    regionMean ord mixedVolume [(0, ⟨0, 0, 0⟩), (1, ⟨0, 0, 1⟩), (2, ⟨0, 0, 2⟩)]
      = some 6148914691236517205 ∧
    upperHalf [10, -9, -2] 6148914691236517205 = [] ∧
    ComputeStats ord mixedVolume [(0, ⟨0, 0, 0⟩), (1, ⟨0, 0, 1⟩), (2, ⟨0, 0, 2⟩)] = none ∧
    GrowRegions ord mixedVolume ⟨0, 0, 0⟩ = none := by
  refine ⟨?_, by decide, by decide, by decide, by decide, ?_, by decide, ?_, ?_⟩
  · rw [Growing_order ord insertionOrder]; decide
  · rw [regionMean_order ord insertionOrder]; decide
  · rw [ComputeStats_order ord insertionOrder]; decide
  · rw [GrowRegions_order ord insertionOrder]; decide

/-- C11. Monotonic region growth.  One examined neighbour: when `growNeighbour` returns,
either the neighbour was accepted, and then the new map is the old one with one entry
appended, so the size rises by exactly 1, or it was not, and then the state is
unchanged.  One iteration (`growStep`: one dequeue with its 26 neighbours) and any
number of iterations (`growLoop`): the new map is the old one with entries appended.
In each case every point of the Region before is a point of the Region after and the
size after is at least the size before. -/
theorem monotonic_region_growth (ord : MapOrder) (image : Volume) :
    (∀ elem st o st1, growNeighbour ord image elem st o = some st1 →
      (accepts image elem st o = true →
        st1.visited_points
          = st.visited_points ++ [(ComputePointHash (elem.shift o), elem.shift o)] ∧
        st1.visited_points.length = st.visited_points.length + 1) ∧
      (accepts image elem st o = false → st1 = st) ∧
      (∀ p ∈ regionPoints st.visited_points, p ∈ regionPoints st1.visited_points) ∧
      st.visited_points.length ≤ st1.visited_points.length) ∧
    (∀ st st1, growStep ord image st = some st1 →
      (∃ added, st1.visited_points = st.visited_points ++ added) ∧
      (∀ p ∈ regionPoints st.visited_points, p ∈ regionPoints st1.visited_points) ∧
      st.visited_points.length ≤ st1.visited_points.length) ∧
    (∀ n st st1, growLoop ord image n st = some st1 →
      (∃ added, st1.visited_points = st.visited_points ++ added) ∧
      (∀ p ∈ regionPoints st.visited_points, p ∈ regionPoints st1.visited_points) ∧
      st.visited_points.length ≤ st1.visited_points.length) := by
  refine ⟨fun elem st o st1 h => ?_, fun st st1 h => ?_, fun n st st1 h => ?_⟩
  · obtain ⟨added, ha⟩ := growNeighbour_append ord image elem st st1 o h
    obtain ⟨hk, hl⟩ := region_kept_of_append _ _ _ ha
    refine ⟨fun hacc => ?_, fun hrej => ?_, hk, hl⟩
    · rcases growNeighbour_cases ord image elem st st1 o h with ⟨_, _, hv, _⟩ | ⟨hf, _⟩
      · exact ⟨hv, by rw [hv, List.length_append, List.length_singleton]⟩
      · rw [hacc] at hf; exact absurd hf (by simp)
    · rcases growNeighbour_cases ord image elem st st1 o h with ⟨ht, _⟩ | ⟨_, he⟩
      · rw [hrej] at ht; exact absurd ht (by simp)
      · exact he
  · obtain ⟨added, ha⟩ := growStep_append ord image st st1 h
    obtain ⟨hk, hl⟩ := region_kept_of_append _ _ _ ha
    exact ⟨⟨added, ha⟩, hk, hl⟩
  · obtain ⟨added, ha⟩ := growLoop_append ord image n st st1 h
    obtain ⟨hk, hl⟩ := region_kept_of_append _ _ _ ha
    exact ⟨⟨added, ha⟩, hk, hl⟩

/-- The growth theorem in the uniform 1x1x4 volume with seed (0,0,0): seeding leaves
the Region (0,0,0), (0,0,1); one iteration appends (0,0,2), the run appends (0,0,2)
and (0,0,3), and the Region of the seeding state is kept by the run. -/
theorem monotonic_region_growth_witness :
    ∃ st0 st1 st2, Seeding insertionOrder (uniformVolume 1 1 4 100) ⟨0, 0, 0⟩ = some st0 ∧
      growStep insertionOrder (uniformVolume 1 1 4 100) st0 = some st1 ∧
      growLoop insertionOrder (uniformVolume 1 1 4 100) iterCap st0 = some st2 ∧
      regionPoints st0.visited_points = [⟨0, 0, 0⟩, ⟨0, 0, 1⟩] ∧
      regionPoints st1.visited_points = [⟨0, 0, 0⟩, ⟨0, 0, 1⟩, ⟨0, 0, 2⟩] ∧
      regionPoints st2.visited_points = [⟨0, 0, 0⟩, ⟨0, 0, 1⟩, ⟨0, 0, 2⟩, ⟨0, 0, 3⟩] ∧
      (∀ p ∈ regionPoints st0.visited_points, p ∈ regionPoints st2.visited_points) ∧
      st0.visited_points.length ≤ st2.visited_points.length := by
  have h0 : Seeding insertionOrder (uniformVolume 1 1 4 100) ⟨0, 0, 0⟩
      = some ⟨[(0, ⟨0, 0, 0⟩), (1, ⟨0, 0, 1⟩)], [⟨0, 0, 1⟩], 114, 85, 2⟩ := by decide
  have h1 : growStep insertionOrder (uniformVolume 1 1 4 100)
      ⟨[(0, ⟨0, 0, 0⟩), (1, ⟨0, 0, 1⟩)], [⟨0, 0, 1⟩], 114, 85, 2⟩
      = some ⟨[(0, ⟨0, 0, 0⟩), (1, ⟨0, 0, 1⟩), (2, ⟨0, 0, 2⟩)], [⟨0, 0, 2⟩], 114, 85, 2⟩ := by
    decide
  have h2 : growLoop insertionOrder (uniformVolume 1 1 4 100) iterCap
      ⟨[(0, ⟨0, 0, 0⟩), (1, ⟨0, 0, 1⟩)], [⟨0, 0, 1⟩], 114, 85, 2⟩
      = some ⟨[(0, ⟨0, 0, 0⟩), (1, ⟨0, 0, 1⟩), (2, ⟨0, 0, 2⟩), (3, ⟨0, 0, 3⟩)], [], 110, 90, 4⟩ := by
    decide
  obtain ⟨_, hk, hl⟩ :=
    (monotonic_region_growth insertionOrder (uniformVolume 1 1 4 100)).2.2 _ _ _ h2
  exact ⟨_, _, _, h0, h1, h2, by decide, by decide, by decide, hk, hl⟩

/-- C15. The number of recomputations is logarithmic.  In every state that a run of
`GrowRegions` passes through in Growing (so after every acceptance check), with `s0`
the size recorded at the end of Seeding and `r` the number of recomputations recorded
so far: the baseline `region_size` is `s0 * 2^r`, and
`region_size <= size < 2 * region_size`, hence `s0 * 2^r <= size`.  An examined
neighbour raises the number of recomputations only when the thresholds are computed
again, by one, and then the baseline is exactly doubled.  In particular
`s0 * 2^r <= s` for the size `s` of the Region when Growing stops. -/
theorem recomputes_logarithmic (ord : MapOrder) (image : Volume) (seed : Point) :
    (∀ sl, Reached ord image seed sl →
      sl.1.region_size = (seedRegion image seed).1.length * 2 ^ sl.2.recomputes ∧
      sl.1.region_size ≤ sl.1.visited_points.length ∧
      sl.1.visited_points.length < 2 * sl.1.region_size ∧
      (seedRegion image seed).1.length * 2 ^ sl.2.recomputes ≤ sl.1.visited_points.length) ∧
    (∀ sl elem o sl1, Reached ord image seed sl →
      logNeighbour ord image elem sl o = some sl1 →
      (sl1.2.recomputes = sl.2.recomputes ∧ sl1.1.region_size = sl.1.region_size ∧
        sl1.1.upper_threshold = sl.1.upper_threshold ∧
        sl1.1.lower_threshold = sl.1.lower_threshold) ∨
      (sl1.2.recomputes = sl.2.recomputes + 1 ∧
        sl1.1.region_size = 2 * sl.1.region_size ∧
        sl1.1.region_size = sl1.1.visited_points.length ∧
        ComputeThreshold ord image sl1.1.visited_points
          = some (sl1.1.upper_threshold, sl1.1.lower_threshold))) ∧
    (∀ st log, GrowingLog ord image seed = some (st, log) →
      (seedRegion image seed).1.length * 2 ^ log.recomputes ≤ st.visited_points.length) := by
  refine ⟨fun sl h => ?_, fun sl elem o sl1 h hstep => ?_, fun st log h => ?_⟩
  · obtain ⟨h1, h2, h3⟩ := reached_baseline ord image seed sl h
    exact ⟨h1, h2, h3, by rw [← h1]; exact h2⟩
  · obtain ⟨h1, h2, h3⟩ := reached_baseline ord image seed sl h
    obtain ⟨hg, hlog⟩ := logNeighbour_cases ord image elem sl sl1 o hstep
    rcases growNeighbour_cases ord image elem sl.1 sl1.1 o hg with
      ⟨ha, hr, hv, _, hb⟩ | ⟨ha, he⟩
    · rcases hlog with ⟨_, _, hrec, _⟩ | ⟨hf, _⟩
      · have hlen : sl1.1.visited_points.length = sl.1.visited_points.length + 1 := by
          rw [hv, List.length_append, List.length_singleton]
        rcases hb with ⟨hc, hrs, hct⟩ | ⟨hc, hrs, hu, hl⟩
        · have h2r := (div_ge_two_iff _ _ hr).mp hc
          rw [if_pos hc] at hrec
          exact Or.inr ⟨hrec, by omega, by omega, hct⟩
        · rw [if_neg hc] at hrec
          exact Or.inl ⟨hrec, hrs, hu, hl⟩
      · rw [ha] at hf; exact absurd hf (by simp)
    · rcases hlog with ⟨ht, _⟩ | ⟨_, hsame⟩
      · rw [ha] at ht; exact absurd ht (by simp)
      · rw [he, hsame]
        exact Or.inl ⟨rfl, rfl, rfl, rfl⟩
  · obtain ⟨h1, h2, _⟩ := reached_baseline ord image seed _
      (reached_of_GrowingLog ord image seed _ h)
    rw [← h1]
    exact h2

/-- The recompute theorem in the uniform 1x1x4 volume with seed (0,0,0): seeding
records the size 2, the run ends with 4 points after one recomputation, and
2 * 2^1 <= 4. -/
theorem recomputes_logarithmic_witness :
    (seedRegion (uniformVolume 1 1 4 100) ⟨0, 0, 0⟩).1.length = 2 ∧
    (GrowingLog insertionOrder (uniformVolume 1 1 4 100) ⟨0, 0, 0⟩).map
        (fun sl => (sl.1.visited_points.length, sl.1.region_size, sl.2.recomputes))
      = some (4, 4, 1) ∧
    ∃ st log, GrowingLog insertionOrder (uniformVolume 1 1 4 100) ⟨0, 0, 0⟩ = some (st, log) ∧
      (seedRegion (uniformVolume 1 1 4 100) ⟨0, 0, 0⟩).1.length * 2 ^ log.recomputes
        ≤ st.visited_points.length := by
  have hlog : GrowingLog insertionOrder (uniformVolume 1 1 4 100) ⟨0, 0, 0⟩
      = some (⟨[(0, ⟨0, 0, 0⟩), (1, ⟨0, 0, 1⟩), (2, ⟨0, 0, 2⟩), (3, ⟨0, 0, 3⟩)], [], 110, 90, 4⟩,
        ⟨[(⟨0, 0, 2⟩, 85, 114), (⟨0, 0, 3⟩, 85, 114)], 1, 3⟩) := by
    decide
  exact ⟨by decide, by decide, _, _, hlog,
    (recomputes_logarithmic insertionOrder (uniformVolume 1 1 4 100) ⟨0, 0, 0⟩).2.2 _ _ hlog⟩

/-- C20. Each voxel is enqueued at most once.  For a volume with representable sizes
and a seed inside it, in every state that the run passes through (Seeding done, any
number of iterations of Growing, any number of examined neighbours): the points
pushed onto the queue so far, those of Seeding followed by those accepted in Growing,
are pairwise different, lie inside the volume and differ from the seed; their number,
and the number of dequeues, is at most `sx*sy*sz - 1`.  The record grows by the pushed
point exactly when `growNeighbour` pushes.  And the loop ends without the cap: with any
number `n >= sx*sy*sz - 1` of iterations allowed it gives the result that
`sx*sy*sz - 1` iterations give, with an empty queue when it returns a state; so does
the loop of `GrowRegions` when the volume has at most 10,000,001 voxels. -/
theorem enqueued_at_most_once (ord : MapOrder) (image : Volume) (seed : Point)
    (hsize : SizeRepresentable image) (hseed : InBounds image seed) :
    (∀ sl, Reached ord image seed sl →
      (pushed image seed sl.2).Nodup ∧
      (∀ p ∈ pushed image seed sl.2, InBounds image p ∧ p ≠ seed) ∧
      (pushed image seed sl.2).length + 1 ≤ image.sx * image.sy * image.sz ∧
      sl.2.dequeues + sl.1.q.length = (pushed image seed sl.2).length ∧
      sl.2.dequeues + 1 ≤ image.sx * image.sy * image.sz) ∧
    (pushed image seed RunLog.empty = (seedRegion image seed).2 ∧
      ∀ elem sl o sl1, logNeighbour ord image elem sl o = some sl1 →
        (accepts image elem sl.1 o = true →
          sl1.1.q = sl.1.q ++ [elem.shift o] ∧
          pushed image seed sl1.2 = pushed image seed sl.2 ++ [elem.shift o]) ∧
        (accepts image elem sl.1 o = false →
          sl1.1.q = sl.1.q ∧ pushed image seed sl1.2 = pushed image seed sl.2)) ∧
    (∀ st0, Seeding ord image seed = some st0 →
      ∀ n, image.sx * image.sy * image.sz ≤ n + 1 →
        growLoop ord image n st0
          = growLoop ord image (image.sx * image.sy * image.sz - 1) st0 ∧
        ∀ st, growLoop ord image n st0 = some st → st.q = []) ∧
    (image.sx * image.sy * image.sz ≤ 10000001 →
      ∀ st, Growing ord image seed = some st → st.q = []) := by
  refine ⟨fun sl h => ?_, ⟨by simp [pushed, RunLog.empty], fun elem sl o sl1 hstep => ?_⟩,
    fun st0 h0 n hn => ?_, fun hV st hst => ?_⟩
  · obtain ⟨h1, h2, _, h4, _⟩ := reached_pushed ord image seed hsize hseed sl h
    obtain ⟨hc1, hc2⟩ := reached_pushed_count ord image seed hsize hseed sl h
    rw [List.nodup_cons] at h1
    refine ⟨h1.2, fun p hp => ⟨h2 p hp, fun heq => h1.1 (heq ▸ hp)⟩, hc1, h4, by omega⟩
  · obtain ⟨hg, hlog⟩ := logNeighbour_cases ord image elem sl sl1 o hstep
    refine ⟨fun ha => ?_, fun ha => ?_⟩
    · rcases hlog with ⟨_, hacc, _, _⟩ | ⟨hf, _⟩
      · rcases growNeighbour_cases ord image elem sl.1 sl1.1 o hg with
          ⟨_, _, _, hq, _⟩ | ⟨hf, _⟩
        · refine ⟨hq, ?_⟩
          simp only [pushed, hacc, List.map_append, List.map_singleton, List.append_assoc]
        · rw [ha] at hf; exact absurd hf (by simp)
      · rw [ha] at hf; exact absurd hf (by simp)
    · rcases hlog with ⟨ht, _⟩ | ⟨_, hsame⟩
      · rw [ha] at ht; exact absurd ht (by simp)
      · rcases growNeighbour_cases ord image elem sl.1 sl1.1 o hg with ⟨ht, _⟩ | ⟨_, he⟩
        · rw [ha] at ht; exact absurd ht (by simp)
        · rw [he, hsame]; exact ⟨rfl, rfl⟩
  · have hempty := fun m hm st1 hr =>
      growLoop_queue_empty ord image seed hsize hseed st0 st1 h0 m hm hr
    refine ⟨?_, fun st hr => hempty n hn st hr⟩
    obtain ⟨k, hk⟩ : ∃ k, n = (image.sx * image.sy * image.sz - 1) + k :=
      ⟨n - (image.sx * image.sy * image.sz - 1), by
        generalize image.sx * image.sy * image.sz = v at hn
        omega⟩
    rw [hk]
    apply growLoop_stable
    cases hr : growLoop ord image (image.sx * image.sy * image.sz - 1) st0 with
    | none => exact Or.inl rfl
    | some st1 => exact Or.inr ⟨st1, rfl, hempty _ (by omega) st1 hr⟩
  · unfold Growing at hst
    cases h0 : Seeding ord image seed with
    | none => rw [h0] at hst; exact absurd hst (by simp)
    | some st0 =>
      rw [h0] at hst
      exact growLoop_queue_empty ord image seed hsize hseed st0 st h0 iterCap
        (by have : iterCap = 10000000 := rfl; omega) hst

/-- The theorem on pushes in the uniform 1x1x4 volume with seed (0,0,0): the run
pushes (0,0,1) in Seeding and (0,0,2), (0,0,3) in Growing, three points for the four
voxels, takes each of them from the queue once and ends with an empty queue; three
iterations allowed give the same result as the cap. -/
theorem enqueued_at_most_once_witness :
    SizeRepresentable (uniformVolume 1 1 4 100) ∧
    InBounds (uniformVolume 1 1 4 100) ⟨0, 0, 0⟩ ∧
    (GrowingLog insertionOrder (uniformVolume 1 1 4 100) ⟨0, 0, 0⟩).map
        (fun sl => (pushed (uniformVolume 1 1 4 100) ⟨0, 0, 0⟩ sl.2, sl.2.dequeues, sl.1.q))
      = some ([⟨0, 0, 1⟩, ⟨0, 0, 2⟩, ⟨0, 0, 3⟩], 3, []) ∧
    (∀ st0, Seeding insertionOrder (uniformVolume 1 1 4 100) ⟨0, 0, 0⟩ = some st0 →
      growLoop insertionOrder (uniformVolume 1 1 4 100) iterCap st0
        = growLoop insertionOrder (uniformVolume 1 1 4 100) 3 st0) ∧
    ∀ st, Growing insertionOrder (uniformVolume 1 1 4 100) ⟨0, 0, 0⟩ = some st → st.q = [] := by
  have h := enqueued_at_most_once insertionOrder (uniformVolume 1 1 4 100) ⟨0, 0, 0⟩
    (by decide) (by decide)
  exact ⟨by decide, by decide, by decide,
    fun st0 h0 => (h.2.2.1 st0 h0 iterCap (by decide)).1, h.2.2.2 (by decide)⟩

/-! ## Rounding -/

theorem log2Fuel_eq_log (fuel n : Nat) (h : n ≤ fuel) : log2Fuel fuel n = Nat.log 2 n := by
  induction fuel generalizing n with
  | zero =>
    have hn : n = 0 := by omega
    subst hn
    simp [log2Fuel]
  | succ fuel ih =>
    unfold log2Fuel
    by_cases h2 : n < 2
    · rw [if_pos h2, Nat.log_of_lt h2]
    · rw [if_neg h2, ih (n / 2) (by omega)]
      exact (Nat.log_of_one_lt_of_le (by norm_num) (by omega)).symm

theorem ilog2_eq_log (n : Nat) : ilog2 n = Nat.log 2 n :=
  log2Fuel_eq_log n n (le_refl n)

theorem ilog2_spec (n : Nat) (h : 0 < n) : 2 ^ ilog2 n ≤ n ∧ n < 2 ^ (ilog2 n + 1) := by
  rw [ilog2_eq_log]
  exact ⟨Nat.pow_log_le_self 2 (by omega), Nat.lt_pow_succ_log_self (by norm_num) n⟩

/-- The absolute value of a rational as the quotient of two natural numbers. -/
theorem abs_eq_natAbs_div_den (x : ℚ) : |x| = (x.num.natAbs : ℚ) / (x.den : ℚ) := by
  have hd : (0 : ℚ) < x.den := by exact_mod_cast x.den_pos
  conv_lhs => rw [← Rat.num_div_den x]
  rw [abs_div, abs_of_pos hd, Nat.cast_natAbs, Int.cast_abs]

/-- The binary exponent brackets the magnitude: `2^E ≤ |x| < 2^(E+1)`. -/
theorem binaryExponent_spec (x : ℚ) (hx : x ≠ 0) :
    (2 : ℚ) ^ binaryExponent x ≤ |x| ∧ |x| < (2 : ℚ) ^ (binaryExponent x + 1) := by
  have hn : 0 < x.num.natAbs := Int.natAbs_pos.mpr (Rat.num_ne_zero.mpr hx)
  have hd : 0 < x.den := x.den_pos
  obtain ⟨hn1, hn2⟩ := ilog2_spec _ hn
  obtain ⟨hd1, hd2⟩ := ilog2_spec _ hd
  have hdq : (0 : ℚ) < x.den := by exact_mod_cast hd
  have habs := abs_eq_natAbs_div_den x
  have hn1q : (2 : ℚ) ^ (ilog2 x.num.natAbs : Int) ≤ (x.num.natAbs : ℚ) := by
    rw [zpow_natCast]; exact_mod_cast hn1
  have hn2q : (x.num.natAbs : ℚ) < (2 : ℚ) ^ ((ilog2 x.num.natAbs : Int) + 1) := by
    rw [show ((ilog2 x.num.natAbs : Int) + 1) = ((ilog2 x.num.natAbs + 1 : Nat) : Int) by push_cast; rfl,
      zpow_natCast]
    exact_mod_cast hn2
  have hd1q : (2 : ℚ) ^ (ilog2 x.den : Int) ≤ (x.den : ℚ) := by
    rw [zpow_natCast]; exact_mod_cast hd1
  have hd2q : (x.den : ℚ) < (2 : ℚ) ^ ((ilog2 x.den : Int) + 1) := by
    rw [show ((ilog2 x.den : Int) + 1) = ((ilog2 x.den + 1 : Nat) : Int) by push_cast; rfl,
      zpow_natCast]
    exact_mod_cast hd2
  have h2 : (0 : ℚ) < 2 := by norm_num
  -- the two outer bounds on the quotient
  have hlow : (2 : ℚ) ^ ((ilog2 x.num.natAbs : Int) - (ilog2 x.den : Int) - 1) ≤ |x| := by
    rw [habs, le_div_iff₀ hdq]
    calc (2 : ℚ) ^ ((ilog2 x.num.natAbs : Int) - (ilog2 x.den : Int) - 1) * (x.den : ℚ)
        ≤ (2 : ℚ) ^ ((ilog2 x.num.natAbs : Int) - (ilog2 x.den : Int) - 1)
            * (2 : ℚ) ^ ((ilog2 x.den : Int) + 1) :=
          mul_le_mul_of_nonneg_left (le_of_lt hd2q) (le_of_lt (zpow_pos h2 _))
      _ = (2 : ℚ) ^ (ilog2 x.num.natAbs : Int) := by
          rw [← zpow_add₀ (by norm_num : (2 : ℚ) ≠ 0)]; congr 1; ring
      _ ≤ _ := hn1q
  have hhigh : |x| < (2 : ℚ) ^ ((ilog2 x.num.natAbs : Int) - (ilog2 x.den : Int) + 1) := by
    rw [habs, div_lt_iff₀ hdq]
    calc (x.num.natAbs : ℚ) < (2 : ℚ) ^ ((ilog2 x.num.natAbs : Int) + 1) := hn2q
      _ = (2 : ℚ) ^ ((ilog2 x.num.natAbs : Int) - (ilog2 x.den : Int) + 1)
            * (2 : ℚ) ^ (ilog2 x.den : Int) := by
          rw [← zpow_add₀ (by norm_num : (2 : ℚ) ≠ 0)]; congr 1; ring
      _ ≤ _ := mul_le_mul_of_nonneg_left hd1q (le_of_lt (zpow_pos h2 _))
  unfold binaryExponent
  simp only []
  split
  · rename_i hc
    exact ⟨hc, hhigh⟩
  · rename_i hc
    refine ⟨hlow, ?_⟩
    rw [show (ilog2 x.num.natAbs : Int) - (ilog2 x.den : Int) - 1 + 1
      = (ilog2 x.num.natAbs : Int) - (ilog2 x.den : Int) by ring]
    exact lt_of_not_le hc

/-- The shape of a rounded value: an integer multiple `q1` of the unit in the last place
`2^e`, with the sign of `x`, and `q1` within one half of the exact quotient. -/
theorem roundNearestEven_shape (prec : Nat) (x : ℚ) (hx : x ≠ 0) :
    ∃ q1 : Int,
      roundNearestEven prec x
        = (if x < 0 then -1 else 1) * (q1 : ℚ)
            * (2 : ℚ) ^ (binaryExponent x - ((prec : Int) - 1)) ∧
      |(q1 : ℚ) - |x| / (2 : ℚ) ^ (binaryExponent x - ((prec : Int) - 1))| ≤ 1 / 2 := by
  unfold roundNearestEven
  rw [if_neg hx]
  simp only []
  generalize hm : |x| / (2 : ℚ) ^ (binaryExponent x - ((prec : Int) - 1)) = m
  have hfl : (⌊m⌋ : ℚ) ≤ m := Int.floor_le m
  have hfl2 : m < (⌊m⌋ : ℚ) + 1 := Int.lt_floor_add_one m
  by_cases h1 : m - (⌊m⌋ : ℚ) < 1 / 2
  · refine ⟨⌊m⌋, by rw [if_pos h1], ?_⟩
    rw [abs_le]; constructor <;> linarith
  · by_cases h2 : 1 / 2 < m - (⌊m⌋ : ℚ)
    · refine ⟨⌊m⌋ + 1, by rw [if_neg h1, if_pos h2], ?_⟩
      rw [abs_le]; push_cast; constructor <;> linarith
    · have h3 : m - (⌊m⌋ : ℚ) = 1 / 2 := le_antisymm (not_lt.mp h2) (not_lt.mp h1)
      by_cases h4 : ⌊m⌋ % 2 = 0
      · refine ⟨⌊m⌋, by rw [if_neg h1, if_neg h2, if_pos h4], ?_⟩
        rw [abs_le]; constructor <;> linarith
      · refine ⟨⌊m⌋ + 1, by rw [if_neg h1, if_neg h2, if_neg h4], ?_⟩
        rw [abs_le]; push_cast; constructor <;> linarith

/-- A value as its sign times its magnitude. -/
theorem sign_mul_abs (x : ℚ) : (if x < 0 then (-1 : ℚ) else 1) * |x| = x := by
  split
  · rename_i h; rw [abs_of_neg h]; ring
  · rename_i h; rw [abs_of_nonneg (not_lt.mp h)]; ring

/-- The rounding error is at most half a unit in the last place. -/
theorem roundNearestEven_error_ulp (prec : Nat) (x : ℚ) (hx : x ≠ 0) :
    |roundNearestEven prec x - x|
      ≤ (2 : ℚ) ^ (binaryExponent x - ((prec : Int) - 1)) / 2 := by
  obtain ⟨q1, hq, hq1⟩ := roundNearestEven_shape prec x hx
  have hu : (0 : ℚ) < (2 : ℚ) ^ (binaryExponent x - ((prec : Int) - 1)) :=
    zpow_pos (by norm_num) _
  have hx2 : x = (if x < 0 then (-1 : ℚ) else 1)
      * (|x| / (2 : ℚ) ^ (binaryExponent x - ((prec : Int) - 1)))
      * (2 : ℚ) ^ (binaryExponent x - ((prec : Int) - 1)) := by
    rw [mul_assoc, div_mul_cancel₀ _ (ne_of_gt hu), sign_mul_abs]
  have hs : |(if x < 0 then (-1 : ℚ) else 1)| = 1 := by split <;> simp
  have hdiff : roundNearestEven prec x - x
      = (if x < 0 then (-1 : ℚ) else 1)
        * ((q1 : ℚ) - |x| / (2 : ℚ) ^ (binaryExponent x - ((prec : Int) - 1)))
        * (2 : ℚ) ^ (binaryExponent x - ((prec : Int) - 1)) := by
    rw [hq]; linear_combination (-1 : ℚ) * hx2
  rw [hdiff, abs_mul, abs_mul, hs, one_mul, abs_of_pos hu]
  calc _ ≤ 1 / 2 * (2 : ℚ) ^ (binaryExponent x - ((prec : Int) - 1)) :=
        mul_le_mul_of_nonneg_right hq1 (le_of_lt hu)
    _ = _ := by ring

/-- The relative rounding error is at most `2^(-prec)`. -/
theorem roundNearestEven_error (prec : Nat) (x : ℚ) :
    |roundNearestEven prec x - x| ≤ |x| / (2 : ℚ) ^ prec := by
  by_cases hx : x = 0
  · subst hx; simp [roundNearestEven]
  · have h := roundNearestEven_error_ulp prec x hx
    obtain ⟨hE, _⟩ := binaryExponent_spec x hx
    have h2 : (2 : ℚ) ≠ 0 := by norm_num
    have hp : (0 : ℚ) < (2 : ℚ) ^ prec := pow_pos (by norm_num) _
    calc |roundNearestEven prec x - x|
        ≤ (2 : ℚ) ^ (binaryExponent x - ((prec : Int) - 1)) / 2 := h
      _ = (2 : ℚ) ^ binaryExponent x / (2 : ℚ) ^ prec := by
          rw [show binaryExponent x - ((prec : Int) - 1) = binaryExponent x - prec + 1 by ring,
            zpow_add₀ h2, zpow_sub₀ h2, zpow_natCast, zpow_one]
          field_simp
          ring
      _ ≤ |x| / (2 : ℚ) ^ prec := div_le_div_of_nonneg_right hE (le_of_lt hp)

theorem roundNearestEven_zero (prec : Nat) : roundNearestEven prec 0 = 0 := by
  simp [roundNearestEven]

/-- A number with at most `prec` significant bits is not changed by the rounding. -/
theorem roundNearestEven_exact (prec : Nat) (k j : Int) (hk : |k| < 2 ^ prec) :
    roundNearestEven prec ((k : ℚ) * (2 : ℚ) ^ j) = (k : ℚ) * (2 : ℚ) ^ j := by
  by_cases hk0 : k = 0
  · subst hk0; simp [roundNearestEven]
  have h2 : (2 : ℚ) ≠ 0 := by norm_num
  have h2p : (0 : ℚ) < 2 := by norm_num
  have hx : (k : ℚ) * (2 : ℚ) ^ j ≠ 0 :=
    mul_ne_zero (by exact_mod_cast hk0) (zpow_ne_zero _ h2)
  generalize hxdef : (k : ℚ) * (2 : ℚ) ^ j = x at hx ⊢
  obtain ⟨hE, _⟩ := binaryExponent_spec x hx
  have habs : |x| = (|k| : Int) * (2 : ℚ) ^ j := by
    rw [← hxdef, abs_mul, abs_of_pos (zpow_pos h2p j), Int.cast_abs]
  -- the binary exponent is below `prec + j`
  have hElt : binaryExponent x < prec + j := by
    by_contra hc
    have hc1 : (prec : Int) + j ≤ binaryExponent x := not_lt.mp hc
    have h3 : (2 : ℚ) ^ ((prec : Int) + j) ≤ |x| :=
      le_trans (zpow_le_zpow_right₀ (by norm_num) hc1) hE
    rw [habs, zpow_add₀ h2, zpow_natCast] at h3
    have h4 : (2 : ℚ) ^ prec ≤ ((|k| : Int) : ℚ) :=
      le_of_mul_le_mul_right h3 (zpow_pos h2p j)
    have h5 : ((|k| : Int) : ℚ) < (2 : ℚ) ^ prec := by exact_mod_cast hk
    linarith
  obtain ⟨d, hd⟩ : ∃ d : Nat, j = binaryExponent x - ((prec : Int) - 1) + d :=
    ⟨(j - (binaryExponent x - ((prec : Int) - 1))).toNat, by omega⟩
  -- the exact quotient is an integer
  have hm : |x| / (2 : ℚ) ^ (binaryExponent x - ((prec : Int) - 1))
      = ((|k| * 2 ^ d : Int) : ℚ) := by
    rw [habs, hd, zpow_add₀ h2, zpow_natCast]
    push_cast
    field_simp
    ring
  unfold roundNearestEven
  rw [if_neg hx]
  simp only []
  rw [hm, Int.floor_intCast, sub_self, if_pos (by norm_num : (0 : ℚ) < 1 / 2)]
  have hsign : (if x < 0 then (-1 : ℚ) else 1) * ((|k| : Int) : ℚ) = (k : ℚ) := by
    have hpos : (0 : ℚ) < (2 : ℚ) ^ j := zpow_pos h2p j
    by_cases hkn : k < 0
    · have : x < 0 := by
        rw [← hxdef]; exact mul_neg_of_neg_of_pos (by exact_mod_cast hkn) hpos
      rw [if_pos this, abs_of_neg hkn]; push_cast; ring
    · have hk1 : 0 ≤ k := not_lt.mp hkn
      have : ¬ x < 0 := by
        rw [← hxdef]; exact not_lt.mpr (mul_nonneg (by exact_mod_cast hk1) (le_of_lt hpos))
      rw [if_neg this, abs_of_nonneg hk1]; ring
  have hj : (2 : ℚ) ^ j
      = (2 : ℚ) ^ (binaryExponent x - ((prec : Int) - 1)) * (2 : ℚ) ^ d := by
    have := congrArg (fun t : Int => (2 : ℚ) ^ t) hd
    simp only [] at this
    rw [this, zpow_add₀ h2, zpow_natCast]
  have hxe : x = (k : ℚ) * ((2 : ℚ) ^ (binaryExponent x - ((prec : Int) - 1)) * (2 : ℚ) ^ d) :=
    calc x = (k : ℚ) * (2 : ℚ) ^ j := hxdef.symm
      _ = _ := by rw [hj]
  refine Eq.trans ?_ hxe.symm
  rw [← hsign]
  push_cast
  ring

/-- An integer of magnitude at most `2^prec` is not changed by the rounding. -/
theorem roundNearestEven_int (prec : Nat) (hp : 0 < prec) (n : Int) (hn : |n| ≤ 2 ^ prec) :
    roundNearestEven prec (n : ℚ) = n := by
  rcases lt_or_eq_of_le hn with h | h
  · have := roundNearestEven_exact prec n 0 h
    simpa using this
  · have h1 : |(if n < 0 then (-1 : Int) else 1)| < 2 ^ prec := by
      have : (1 : Int) < 2 ^ prec := by
        have := Nat.one_lt_two_pow (Nat.pos_iff_ne_zero.mp hp)
        exact_mod_cast this
      split <;> simpa using this
    have hn2 : (n : ℚ) = ((if n < 0 then (-1 : Int) else 1) : Int) * (2 : ℚ) ^ (prec : Int) := by
      rw [zpow_natCast]
      by_cases hneg : n < 0
      · rw [if_pos hneg]
        rw [abs_of_neg hneg] at h
        have : n = -(2 ^ prec) := by omega
        rw [this]; push_cast; ring
      · rw [if_neg hneg]
        rw [abs_of_nonneg (not_lt.mp hneg)] at h
        rw [h]; push_cast; ring
    rw [hn2]
    exact roundNearestEven_exact prec _ _ h1

theorem toFloat_int (n : Int) (hn : |n| ≤ 2 ^ 24) : toFloat (n : ℚ) = n :=
  roundNearestEven_int 24 (by norm_num) n hn

theorem toDouble_int (n : Int) (hn : |n| ≤ 2 ^ 53) : toDouble (n : ℚ) = n :=
  roundNearestEven_int 53 (by norm_num) n hn

theorem toFloat_error (x : ℚ) : |toFloat x - x| ≤ |x| / 2 ^ 24 :=
  roundNearestEven_error 24 x

theorem toDouble_error (x : ℚ) : |toDouble x - x| ≤ |x| / 2 ^ 53 :=
  roundNearestEven_error 53 x

/-- The pixels of a `lineImage` are `float` values when the three given values are. -/
theorem lineImage_binary32 (a b c : ℚ) (ha : IsBinary32 a) (hb : IsBinary32 b)
    (hc : IsBinary32 c) (p : Point) : IsBinary32 ((lineImage a b c).GetPixel p) := by
  unfold lineImage
  simp only []
  split
  · exact ha
  · split
    · exact hb
    · exact hc

/-! ## The run in machine arithmetic: one examined neighbour, the record, induction -/

theorem withinBounds_iff (pixel : ℚ) (lower upper : Int) :
    Ieee.withinBounds pixel lower upper = true ↔
      toFloat (lower : ℚ) ≤ pixel ∧ pixel ≤ toFloat (upper : ℚ) := by
  unfold Ieee.withinBounds
  simp only [Bool.and_eq_true, decide_eq_true_eq, ge_iff_le]

theorem ieee_Seeding_eq_some (ord : MapOrder) (image : InternalImage) (seed : Point) (st : GrowState)
    (h : Ieee.Seeding ord image seed = some st) :
    st.visited_points = (seedRegion image.grid seed).1 ∧ st.q = (seedRegion image.grid seed).2 ∧
      st.region_size = (seedRegion image.grid seed).1.length ∧
      Ieee.ComputeThreshold ord image (seedRegion image.grid seed).1
        = some (st.upper_threshold, st.lower_threshold) := by
  unfold Ieee.Seeding at h
  simp only [] at h
  split at h
  · exact absurd h (by simp)
  · rename_i upper lower heq
    injection h with h
    subst h
    exact ⟨rfl, rfl, rfl, heq⟩

/-- What `Ieee.growNeighbour` does with a neighbour that passes the three tests. -/
theorem ieee_growNeighbour_accept (ord : MapOrder) (image : InternalImage) (elem : Point)
    (st : GrowState) (o : Int × Int × Int)
    (hb : CheckBounds (elem.shift o) image.size = true)
    (hv : toFloat (st.lower_threshold : ℚ) ≤ image.GetPixel (elem.shift o) ∧
      image.GetPixel (elem.shift o) ≤ toFloat (st.upper_threshold : ℚ))
    (hk : mapContains st.visited_points (ComputePointHash (elem.shift o)) = false)
    (hr : 0 < st.region_size) :
    Ieee.growNeighbour ord image elem st o =
      if (st.visited_points.length + 1) / st.region_size ≥ 2 then
        (Ieee.ComputeThreshold ord image
            (st.visited_points ++ [(ComputePointHash (elem.shift o), elem.shift o)])).map
          fun b => ⟨st.visited_points ++ [(ComputePointHash (elem.shift o), elem.shift o)],
            st.q ++ [elem.shift o], b.1, b.2, st.visited_points.length + 1⟩
      else
        some ⟨st.visited_points ++ [(ComputePointHash (elem.shift o), elem.shift o)],
          st.q ++ [elem.shift o], st.upper_threshold, st.lower_threshold, st.region_size⟩ := by
  unfold Ieee.growNeighbour
  have hr' : st.region_size ≠ 0 := Nat.pos_iff_ne_zero.mp hr
  have hw := (withinBounds_iff _ _ _).mpr hv
  simp only [hb, Bool.not_true, Bool.false_eq_true, if_false, ge_iff_le, hw,
    if_true, hk, hr', mapAssign_eq_of_absent _ _ _ hk, List.length_append, List.length_singleton]
  split
  · cases Ieee.ComputeThreshold ord image
      (st.visited_points ++ [(ComputePointHash (elem.shift o), elem.shift o)]) with
    | none => rfl
    | some b => rfl
  · rfl

/-- What `Ieee.growNeighbour` does with a neighbour that fails one of the three tests. -/
theorem ieee_growNeighbour_reject (ord : MapOrder) (image : InternalImage) (elem : Point)
    (st : GrowState) (o : Int × Int × Int)
    (h : ¬ (CheckBounds (elem.shift o) image.size = true ∧
      (toFloat (st.lower_threshold : ℚ) ≤ image.GetPixel (elem.shift o) ∧
        image.GetPixel (elem.shift o) ≤ toFloat (st.upper_threshold : ℚ)) ∧
      mapContains st.visited_points (ComputePointHash (elem.shift o)) = false)) :
    Ieee.growNeighbour ord image elem st o = some st := by
  unfold Ieee.growNeighbour
  by_cases hb : CheckBounds (elem.shift o) image.size = true
  · by_cases hv : toFloat (st.lower_threshold : ℚ) ≤ image.GetPixel (elem.shift o) ∧
        image.GetPixel (elem.shift o) ≤ toFloat (st.upper_threshold : ℚ)
    · by_cases hk : mapContains st.visited_points (ComputePointHash (elem.shift o)) = true
      · have hw := (withinBounds_iff _ _ _).mpr hv
        simp [hb, hw, hk]
      · exact absurd ⟨hb, hv, by simpa using hk⟩ h
    · have hw : ¬ Ieee.withinBounds (image.GetPixel (elem.shift o)) st.lower_threshold
          st.upper_threshold = true := fun hw => hv ((withinBounds_iff _ _ _).mp hw)
      simp only [hb, Bool.not_true, Bool.false_eq_true, if_false, ge_iff_le]
      rw [if_neg hw]
  · simp [hb]

theorem ieee_accepts_iff (image : InternalImage) (elem : Point) (st : GrowState) (o : Int × Int × Int) :
    Ieee.accepts image elem st o = true ↔
      CheckBounds (elem.shift o) image.size = true ∧
      (toFloat (st.lower_threshold : ℚ) ≤ image.GetPixel (elem.shift o) ∧
        image.GetPixel (elem.shift o) ≤ toFloat (st.upper_threshold : ℚ)) ∧
      mapContains st.visited_points (ComputePointHash (elem.shift o)) = false := by
  unfold Ieee.accepts
  simp only [Bool.and_eq_true, decide_eq_true_eq, Bool.not_eq_true', withinBounds_iff]

/-- The outcome of `Ieee.growNeighbour` when it returns: either the three tests pass, the
baseline is positive, the neighbour is appended to the map and to the queue, and the
bounds and the baseline are renewed or kept according to the test of line 194; or one
of the tests fails and the state is unchanged. -/
theorem ieee_growNeighbour_cases (ord : MapOrder) (image : InternalImage) (elem : Point)
    (st st1 : GrowState) (o : Int × Int × Int)
    (h : Ieee.growNeighbour ord image elem st o = some st1) :
    (Ieee.accepts image elem st o = true ∧ 0 < st.region_size ∧
      st1.visited_points
        = st.visited_points ++ [(ComputePointHash (elem.shift o), elem.shift o)] ∧
      st1.q = st.q ++ [elem.shift o] ∧
      (((st.visited_points.length + 1) / st.region_size ≥ 2 ∧
          st1.region_size = st.visited_points.length + 1 ∧
          Ieee.ComputeThreshold ord image st1.visited_points
            = some (st1.upper_threshold, st1.lower_threshold)) ∨
        (¬ (st.visited_points.length + 1) / st.region_size ≥ 2 ∧
          st1.region_size = st.region_size ∧ st1.upper_threshold = st.upper_threshold ∧
          st1.lower_threshold = st.lower_threshold))) ∨
    (Ieee.accepts image elem st o = false ∧ st1 = st) := by
  by_cases ha : Ieee.accepts image elem st o = true
  · left
    obtain ⟨hb, hv, hk⟩ := (ieee_accepts_iff image elem st o).mp ha
    have hr : 0 < st.region_size := by
      by_contra hc
      have h0 : st.region_size = 0 := by omega
      unfold Ieee.growNeighbour at h
      have hw := (withinBounds_iff _ _ _).mpr hv
      simp [hb, hw, hk, h0] at h
    rw [ieee_growNeighbour_accept ord image elem st o hb hv hk hr] at h
    refine ⟨ha, hr, ?_⟩
    split at h
    · rename_i hc
      cases hct : Ieee.ComputeThreshold ord image
          (st.visited_points ++ [(ComputePointHash (elem.shift o), elem.shift o)]) with
      | none => rw [hct] at h; exact absurd h (by simp)
      | some b =>
        rw [hct] at h
        simp only [Option.map_some'] at h
        injection h with h
        subst h
        exact ⟨rfl, rfl, Or.inl ⟨hc, rfl, hct⟩⟩
    · rename_i hc
      injection h with h
      subst h
      exact ⟨rfl, rfl, Or.inr ⟨hc, rfl, rfl, rfl⟩⟩
  · right
    have ha1 : Ieee.accepts image elem st o = false := by simpa using ha
    have hrej := ieee_growNeighbour_reject ord image elem st o (by
      rw [← ieee_accepts_iff]; exact ha)
    rw [hrej] at h
    injection h with h
    exact ⟨ha1, h.symm⟩

theorem ieee_logNeighbour_fst (ord : MapOrder) (image : InternalImage) (elem : Point)
    (sl : GrowState × RunLog) (o : Int × Int × Int) :
    (Ieee.logNeighbour ord image elem sl o).map (fun r => r.1) = Ieee.growNeighbour ord image elem sl.1 o := by
  unfold Ieee.logNeighbour
  cases Ieee.growNeighbour ord image elem sl.1 o with
  | none => rfl
  | some st1 =>
    simp only []
    split <;> rfl

theorem ieee_logNeighbours_fst (ord : MapOrder) (image : InternalImage) (elem : Point)
    (os : List (Int × Int × Int)) (sl : GrowState × RunLog) :
    (Ieee.logNeighbours ord image elem os sl).map (fun r => r.1)
      = Ieee.growNeighbours ord image elem os sl.1 := by
  induction os generalizing sl with
  | nil => rfl
  | cons o os ih =>
    have h := ieee_logNeighbour_fst ord image elem sl o
    simp only [Ieee.logNeighbours, Ieee.growNeighbours]
    cases hl : Ieee.logNeighbour ord image elem sl o with
    | none =>
      rw [hl] at h
      simp only [Option.map_none'] at h
      rw [← h]
      rfl
    | some sl1 =>
      rw [hl] at h
      simp only [Option.map_some'] at h
      rw [← h]
      exact ih sl1

theorem ieee_logStep_fst (ord : MapOrder) (image : InternalImage) (sl : GrowState × RunLog) :
    (Ieee.logStep ord image sl).map (fun r => r.1) = Ieee.growStep ord image sl.1 := by
  unfold Ieee.logStep Ieee.growStep
  cases hq : sl.1.q with
  | nil => rfl
  | cons elem rest => exact ieee_logNeighbours_fst ord image elem offsets26 (dequeued sl rest)

theorem ieee_logLoop_fst (ord : MapOrder) (image : InternalImage) (n : Nat) (sl : GrowState × RunLog) :
    (Ieee.logLoop ord image n sl).map (fun r => r.1) = Ieee.growLoop ord image n sl.1 := by
  induction n generalizing sl with
  | zero => rfl
  | succ n ih =>
    simp only [Ieee.logLoop, Ieee.growLoop]
    cases hq : sl.1.q with
    | nil => rfl
    | cons elem rest =>
      simp only []
      have h := ieee_logStep_fst ord image sl
      cases hl : Ieee.logStep ord image sl with
      | none =>
        rw [hl] at h
        simp only [Option.map_none'] at h
        rw [← h]
        rfl
      | some sl1 =>
        rw [hl] at h
        simp only [Option.map_some'] at h
        rw [← h]
        exact ih sl1

/-- The state of `Ieee.GrowingLog` is the state of `Ieee.Growing`. -/
theorem ieee_GrowingLog_fst (ord : MapOrder) (image : InternalImage) (seed : Point) :
    (Ieee.GrowingLog ord image seed).map (fun r => r.1) = Ieee.Growing ord image seed := by
  unfold Ieee.GrowingLog Ieee.Growing
  cases Ieee.Seeding ord image seed with
  | none => rfl
  | some st => exact ieee_logLoop_fst ord image iterCap (st, RunLog.empty)

/-- Every final state of `Ieee.Growing` comes with a record. -/
theorem ieee_GrowingLog_of_Growing (ord : MapOrder) (image : InternalImage) (seed : Point) (st : GrowState)
    (h : Ieee.Growing ord image seed = some st) :
    ∃ log, Ieee.GrowingLog ord image seed = some (st, log) := by
  have hf := ieee_GrowingLog_fst ord image seed
  rw [h] at hf
  cases hg : Ieee.GrowingLog ord image seed with
  | none => rw [hg] at hf; exact absurd hf (by simp)
  | some sl =>
    rw [hg] at hf
    simp only [Option.map_some', Option.some.injEq] at hf
    exact ⟨sl.2, by rw [← hf]⟩

theorem ieee_logNeighbours_induct (ord : MapOrder) (image : InternalImage)
    (P : GrowState × RunLog → Prop) (elem : Point)
    (hnb : ∀ sl o sl1, P sl → o ∈ offsets26 →
      Ieee.logNeighbour ord image elem sl o = some sl1 → P sl1)
    (os : List (Int × Int × Int)) (hos : ∀ o ∈ os, o ∈ offsets26)
    (sl sl1 : GrowState × RunLog) (h : P sl)
    (hrun : Ieee.logNeighbours ord image elem os sl = some sl1) : P sl1 := by
  induction os generalizing sl with
  | nil =>
    simp only [Ieee.logNeighbours] at hrun
    injection hrun with hrun
    rw [← hrun]; exact h
  | cons o os ih =>
    simp only [Ieee.logNeighbours] at hrun
    split at hrun
    · exact absurd hrun (by simp)
    · rename_i sl2 heq
      exact ih (fun o1 ho1 => hos o1 (List.mem_cons_of_mem _ ho1)) sl2
        (hnb sl o sl2 h (hos o (List.mem_cons_self _ _)) heq) hrun

theorem ieee_logLoop_induct (ord : MapOrder) (image : InternalImage)
    (P : GrowState × RunLog → Prop) (E : Point → Prop)
    (hdeq : ∀ sl elem rest, P sl → sl.1.q = elem :: rest → P (dequeued sl rest) ∧ E elem)
    (hnb : ∀ sl elem o sl1, P sl → E elem → o ∈ offsets26 →
      Ieee.logNeighbour ord image elem sl o = some sl1 → P sl1)
    (n : Nat) (sl sl1 : GrowState × RunLog) (h : P sl)
    (hrun : Ieee.logLoop ord image n sl = some sl1) : P sl1 := by
  induction n generalizing sl with
  | zero =>
    simp only [Ieee.logLoop] at hrun
    injection hrun with hrun
    rw [← hrun]; exact h
  | succ n ih =>
    simp only [Ieee.logLoop] at hrun
    split at hrun
    · injection hrun with hrun
      rw [← hrun]; exact h
    · rename_i elem rest hq
      split at hrun
      · exact absurd hrun (by simp)
      · rename_i sl2 heq
        unfold Ieee.logStep at heq
        rw [hq] at heq
        simp only [] at heq
        obtain ⟨hd, he⟩ := hdeq sl elem rest h hq
        exact ih sl2 (ieee_logNeighbours_induct ord image P elem
          (fun s o s1 hs ho hr => hnb s elem o s1 hs he ho hr) offsets26 (fun _ ho => ho)
          _ sl2 hd heq) hrun

/-- A property holds in every state that a run passes through when it holds after
seeding, is kept when the front of the queue is taken, and is kept by every examined
neighbour; a property `E` of the dequeued point may be used while its neighbours are
examined. -/
theorem ieee_reached_induct (ord : MapOrder) (image : InternalImage) (seed : Point)
    (P : GrowState × RunLog → Prop) (E : Point → Prop)
    (hseed : ∀ st0, Ieee.Seeding ord image seed = some st0 → P (st0, RunLog.empty))
    (hdeq : ∀ sl elem rest, P sl → sl.1.q = elem :: rest → P (dequeued sl rest) ∧ E elem)
    (hnb : ∀ sl elem o sl1, P sl → E elem → o ∈ offsets26 →
      Ieee.logNeighbour ord image elem sl o = some sl1 → P sl1)
    (sl : GrowState × RunLog) (h : Ieee.Reached ord image seed sl) : P sl := by
  obtain ⟨st0, n, slN, h0, hN, hcase⟩ := h
  have hPN : P slN := ieee_logLoop_induct ord image P E hdeq hnb n _ slN (hseed st0 h0) hN
  rcases hcase with rfl | ⟨elem, rest, k, hq, hk⟩
  · exact hPN
  · obtain ⟨hd, he⟩ := hdeq slN elem rest hPN hq
    exact ieee_logNeighbours_induct ord image P elem
      (fun s o s1 hs ho hr => hnb s elem o s1 hs he ho hr) _
      (fun _ ho => List.mem_of_mem_take ho) _ sl hd hk

/-- The final state of the growing loop, with its record, is a state of the run. -/
theorem ieee_reached_of_GrowingLog (ord : MapOrder) (image : InternalImage) (seed : Point)
    (sl : GrowState × RunLog) (h : Ieee.GrowingLog ord image seed = some sl) :
    Ieee.Reached ord image seed sl := by
  unfold Ieee.GrowingLog at h
  cases h0 : Ieee.Seeding ord image seed with
  | none => rw [h0] at h; exact absurd h (by simp)
  | some st0 =>
    rw [h0] at h
    exact ⟨st0, iterCap, sl, h0, h, Or.inl rfl⟩

/-- What `Ieee.logNeighbour` records: on an acceptance the neighbour with the bounds of the
state in which it was tested, and a recomputation when the test of line 194 passes;
nothing otherwise. -/
theorem ieee_logNeighbour_cases (ord : MapOrder) (image : InternalImage) (elem : Point)
    (sl sl1 : GrowState × RunLog) (o : Int × Int × Int)
    (h : Ieee.logNeighbour ord image elem sl o = some sl1) :
    Ieee.growNeighbour ord image elem sl.1 o = some sl1.1 ∧
    ((Ieee.accepts image elem sl.1 o = true ∧
      sl1.2.accepted = sl.2.accepted ++
        [(elem.shift o, sl.1.lower_threshold, sl.1.upper_threshold)] ∧
      sl1.2.recomputes = (if (sl.1.visited_points.length + 1) / sl.1.region_size ≥ 2
        then sl.2.recomputes + 1 else sl.2.recomputes) ∧
      sl1.2.dequeues = sl.2.dequeues) ∨
     (Ieee.accepts image elem sl.1 o = false ∧ sl1.2 = sl.2)) := by
  unfold Ieee.logNeighbour at h
  cases hg : Ieee.growNeighbour ord image elem sl.1 o with
  | none => rw [hg] at h; exact absurd h (by simp)
  | some st1 =>
    rw [hg] at h
    simp only [] at h
    by_cases ha : Ieee.accepts image elem sl.1 o = true
    · rw [if_pos ha] at h
      injection h with h
      subst h
      have hk := ((ieee_accepts_iff image elem sl.1 o).mp ha).2.2
      refine ⟨rfl, Or.inl ⟨ha, rfl, ?_, rfl⟩⟩
      simp only [mapAssign_length_of_absent _ _ _ hk]
    · rw [if_neg ha] at h
      injection h with h
      subst h
      exact ⟨rfl, Or.inr ⟨by simpa using ha, rfl⟩⟩

/-- In every state of a run the map is the seeding map followed by the accepted
neighbours under their keys, and every accepted neighbour was recorded with bounds
that contain its value. -/
theorem ieee_reached_accepted (ord : MapOrder) (image : InternalImage) (seed : Point)
    (sl : GrowState × RunLog) (h : Ieee.Reached ord image seed sl) :
    sl.1.visited_points
      = (seedRegion image.grid seed).1 ++ keyed (sl.2.accepted.map fun e => e.1) ∧
    ∀ e ∈ sl.2.accepted, toFloat (e.2.1 : ℚ) ≤ image.GetPixel e.1 ∧ image.GetPixel e.1 ≤ toFloat (e.2.2 : ℚ) := by
  refine ieee_reached_induct ord image seed
    (fun sl => sl.1.visited_points
        = (seedRegion image.grid seed).1 ++ keyed (sl.2.accepted.map fun e => e.1) ∧
      ∀ e ∈ sl.2.accepted, toFloat (e.2.1 : ℚ) ≤ image.GetPixel e.1 ∧ image.GetPixel e.1 ≤ toFloat (e.2.2 : ℚ))
    (fun _ => True) ?_ ?_ ?_ sl h
  · intro st0 h0
    obtain ⟨hv, _, _, _⟩ := ieee_Seeding_eq_some ord image seed st0 h0
    refine ⟨?_, fun e he => absurd he (List.not_mem_nil _)⟩
    simp only [RunLog.empty, List.map_nil, keyed, List.append_nil]
    exact hv
  · intro sl elem rest hP _
    exact ⟨hP, trivial⟩
  · intro sl elem o sl1 hP _ _ hstep
    obtain ⟨hg, hlog⟩ := ieee_logNeighbour_cases ord image elem sl sl1 o hstep
    rcases hlog with ⟨ha, hacc, _, _⟩ | ⟨ha, hsame⟩
    · rcases ieee_growNeighbour_cases ord image elem sl.1 sl1.1 o hg with ⟨_, _, hv, _⟩ | ⟨hf, _⟩
      · obtain ⟨_, hb, _⟩ := (ieee_accepts_iff image elem sl.1 o).mp ha
        constructor
        · rw [hv, hacc, hP.1, List.map_append, keyed_append, List.append_assoc]
          rfl
        · intro e he
          rw [hacc, List.mem_append, List.mem_singleton] at he
          rcases he with he | he
          · exact hP.2 e he
          · rw [he]; exact hb
      · rw [ha] at hf; exact absurd hf (by simp)
    · rcases ieee_growNeighbour_cases ord image elem sl.1 sl1.1 o hg with ⟨ht, _⟩ | ⟨_, he⟩
      · rw [ha] at ht; exact absurd ht (by simp)
      · rw [he, hsame]; exact hP

theorem ieee_logNeighbours_dequeues (ord : MapOrder) (image : InternalImage) (elem : Point)
    (os : List (Int × Int × Int)) (sl sl1 : GrowState × RunLog)
    (h : Ieee.logNeighbours ord image elem os sl = some sl1) : sl1.2.dequeues = sl.2.dequeues := by
  induction os generalizing sl with
  | nil =>
    simp only [Ieee.logNeighbours] at h
    injection h with h
    rw [h]
  | cons o os ih =>
    simp only [Ieee.logNeighbours] at h
    split at h
    · exact absurd h (by simp)
    · rename_i sl2 heq
      rw [ih sl2 h]
      obtain ⟨_, hlog⟩ := ieee_logNeighbour_cases ord image elem sl sl2 o heq
      rcases hlog with ⟨_, _, _, hd⟩ | ⟨_, hsame⟩
      · exact hd
      · rw [hsame]

/-- The loop with `n` iterations allowed takes at most `n` points from the queue, and
exactly `n` when it ends with a queue that is not empty. -/
theorem ieee_logLoop_dequeues (ord : MapOrder) (image : InternalImage) (n : Nat)
    (sl sl1 : GrowState × RunLog) (h : Ieee.logLoop ord image n sl = some sl1) :
    sl1.2.dequeues ≤ sl.2.dequeues + n ∧ (sl1.1.q ≠ [] → sl1.2.dequeues = sl.2.dequeues + n) := by
  induction n generalizing sl with
  | zero =>
    simp only [Ieee.logLoop] at h
    injection h with h
    rw [h]
    exact ⟨le_refl _, fun _ => rfl⟩
  | succ n ih =>
    simp only [Ieee.logLoop] at h
    split at h
    · rename_i hq
      injection h with h
      rw [← h]
      exact ⟨by omega, fun hne => absurd hq hne⟩
    · rename_i elem rest hq
      split at h
      · exact absurd h (by simp)
      · rename_i sl2 heq
        unfold Ieee.logStep at heq
        rw [hq] at heq
        simp only [] at heq
        have hd := ieee_logNeighbours_dequeues ord image elem offsets26 _ sl2 heq
        have hd2 : sl2.2.dequeues = sl.2.dequeues + 1 := by rw [hd]; rfl
        obtain ⟨h1, h2⟩ := ih sl2 h
        exact ⟨by omega, fun hne => by rw [h2 hne]; omega⟩

theorem ieee_GrowRegions_of_Growing (ord : MapOrder) (image : InternalImage) (seed : Point)
    (st : GrowState) (h : Ieee.Growing ord image seed = some st) :
    Ieee.GrowRegions ord image seed = Ieee.ComputeFinalThreshold ord image st.visited_points := by
  unfold Ieee.GrowRegions
  rw [h]

/-! ## Sums that are exact in `float` -/

theorem truncate_intCast (n : Int) : truncate (n : ℚ) = n := by
  unfold truncate
  split
  · exact Int.floor_intCast n
  · exact Int.ceil_intCast n

theorem toLongLong_intCast (n : Int) (h1 : -two63 ≤ n) (h2 : n < two63) :
    toLongLong (n : ℚ) = some n := by
  unfold toLongLong
  rw [truncate_intCast, if_pos ⟨h1, h2⟩]

/-- An accumulation of integers that stays within `2^24` in magnitude is exact. -/
theorem accumulate_exact (acc v : Int) (h1 : |acc| ≤ 2 ^ 24) (h2 : |acc + v| ≤ 2 ^ 24) :
    Ieee.accumulate acc (v : ℚ) = some (acc + v) := by
  unfold Ieee.accumulate
  rw [toFloat_int acc h1, ← Int.cast_add, toFloat_int _ h2]
  have h3 := abs_le.mp h2
  exact toLongLong_intCast _ (by unfold two63; omega) (by unfold two63; omega)

theorem sumWhere_cons {α : Type} (c : α → Bool) (f : α → Int) (a : α) (l : List α) :
    sumWhere c f (a :: l) = (if c a then f a else 0) + sumWhere c f l := by
  unfold sumWhere
  by_cases h : c a = true
  · simp [List.filter_cons, h]
  · simp [List.filter_cons, h]

theorem abs_sumWhere_le {α : Type} (c : α → Bool) (f : α → Int) (B : Int) (hB : 0 ≤ B)
    (l : List α) (h : ∀ a ∈ l, c a = true → |f a| ≤ B) :
    |sumWhere c f l| ≤ l.length * B := by
  induction l with
  | nil => simp [sumWhere]
  | cons a l ih =>
    rw [sumWhere_cons]
    have ih1 := ih (fun b hb => h b (List.mem_cons_of_mem _ hb))
    have ha : |if c a = true then f a else 0| ≤ B := by
      split
      · rename_i hc; exact h a (List.mem_cons_self _ _) hc
      · simpa using hB
    simp only [List.length_cons]
    push_cast
    calc |(if c a = true then f a else 0) + sumWhere c f l|
        ≤ |if c a = true then f a else 0| + |sumWhere c f l| := abs_add _ _
      _ ≤ B + l.length * B := add_le_add ha ih1
      _ = _ := by ring

/-- A conditional accumulation loop over integer values of magnitude at most `B` is
exact when the number of entries times `B` is at most `2^24`. -/
theorem accumulateFrom_exact (c : Int × Point → Bool) (f : Int × Point → ℚ)
    (g : Int × Point → Int) (B : Int) (hB : 0 ≤ B) (entries : PointMap)
    (hfg : ∀ kv ∈ entries, c kv = true → f kv = g kv ∧ |g kv| ≤ B)
    (acc : Int) (hlen : |acc| + entries.length * B ≤ 2 ^ 24) :
    entries.foldlM (fun acc kv => if c kv then Ieee.accumulate acc (f kv) else some acc) acc
      = some (acc + sumWhere c g entries) := by
  induction entries generalizing acc with
  | nil => simp [sumWhere]
  | cons kv entries ih =>
    simp only [List.length_cons] at hlen
    push_cast at hlen
    have hrest : ∀ kv1 ∈ entries, c kv1 = true → f kv1 = g kv1 ∧ |g kv1| ≤ B :=
      fun kv1 h1 => hfg kv1 (List.mem_cons_of_mem _ h1)
    have hnn : (0 : Int) ≤ entries.length * B := mul_nonneg (Int.ofNat_nonneg _) hB
    rw [List.foldlM_cons, sumWhere_cons]
    by_cases hc : c kv = true
    · obtain ⟨hf, hg⟩ := hfg kv (List.mem_cons_self _ _) hc
      have hsum : |acc + g kv| ≤ |acc| + B := le_trans (abs_add _ _) (by linarith)
      rw [if_pos hc, hf, accumulate_exact acc (g kv) (by linarith) (by linarith)]
      simp only [Option.bind_eq_bind, Option.some_bind]
      rw [ih hrest (acc + g kv) (by linarith), if_pos hc, add_assoc]
    · rw [if_neg hc]
      simp only [Option.bind_eq_bind, Option.some_bind]
      rw [ih hrest acc (by linarith), if_neg hc, zero_add]

theorem accumulateWhere_exact (c : Int × Point → Bool) (f : Int × Point → ℚ)
    (g : Int × Point → Int) (B : Int) (hB : 0 ≤ B) (entries : PointMap)
    (hfg : ∀ kv ∈ entries, c kv = true → f kv = g kv ∧ |g kv| ≤ B)
    (hlen : (entries.length : Int) * B ≤ 2 ^ 24) :
    Ieee.accumulateWhere c f entries = some (sumWhere c g entries) := by
  unfold Ieee.accumulateWhere
  rw [accumulateFrom_exact c f g B hB entries hfg 0 (by simpa using hlen), zero_add]

theorem pixel_eq_intPixel (image : InternalImage) (p : Point)
    (h : (image.GetPixel p).den = 1) : image.GetPixel p = (image.intPixel p : ℚ) := by
  unfold InternalImage.intPixel
  exact (Rat.den_eq_one_iff _).mp h |>.symm

theorem ExactRegion_perm (image : InternalImage) {l₁ l₂ : PointMap} (h : l₁.Perm l₂)
    (lo hi : Int) (hex : ExactRegion image l₁ lo hi) : ExactRegion image l₂ lo hi := by
  obtain ⟨h1, h2, h3, h4⟩ := hex
  refine ⟨fun kv hkv => h1 kv (h.mem_iff.mpr hkv), ?_, ?_, ?_⟩
  · rw [← h.length_eq]; exact h2
  · rw [← h.length_eq]; exact h3
  · rw [← h.length_eq]; exact h4

/-- The squared difference of an integer pixel and an integer mean is exact when the
mean is at most `2^24` in magnitude and the square is at most `2^24`. -/
theorem squaredDifference_exact (v um : Int) (h1 : |um| ≤ 2 ^ 24)
    (h2 : (v - um) ^ 2 ≤ 2 ^ 24) :
    Ieee.squaredDifference (v : ℚ) um = (((v - um) ^ 2 : Int) : ℚ) := by
  have hd : |v - um| ≤ 2 ^ 24 := by
    have : |v - um| ≤ (v - um) ^ 2 := by
      rw [← sq_abs]
      have h0 : 0 ≤ |v - um| := abs_nonneg _
      nlinarith
    linarith
  have hsq : |(v - um) ^ 2| ≤ 2 ^ 24 := by
    rw [abs_of_nonneg (sq_nonneg _)]; exact h2
  unfold Ieee.squaredDifference
  rw [toFloat_int um h1, ← Int.cast_sub, toFloat_int _ hd, ← Int.cast_mul, ← sq,
    toFloat_int _ hsq]

/-- The truncated mean of integers between `lo` and `hi` lies between `lo` and `hi`. -/
theorem tdiv_sum_between (l : List Int) (lo hi : Int) (hl : 0 < l.length)
    (h : ∀ v ∈ l, lo ≤ v ∧ v ≤ hi) :
    lo ≤ Int.tdiv l.sum l.length ∧ Int.tdiv l.sum l.length ≤ hi := by
  have hn : (0 : Int) < (l.length : Int) := by exact_mod_cast hl
  obtain ⟨b1, b2⟩ := tdiv_mul_bounds l.sum l.length hn
  have s1 := le_sum_of_forall_ge l lo (fun v hv => (h v hv).1)
  have s2 := sum_le_of_forall_le l hi (fun v hv => (h v hv).2)
  constructor
  · by_contra hc
    have : Int.tdiv l.sum l.length + 1 ≤ lo := by omega
    nlinarith
  · by_contra hc
    have : hi + 1 ≤ Int.tdiv l.sum l.length := by omega
    nlinarith

theorem sumWhere_one_eq_length {α : Type} (c : α → Bool) (l : List α) :
    sumWhere c (fun _ => (1 : Int)) l = ((l.filter c).length : Int) := by
  unfold sumWhere
  induction l.filter c with
  | nil => simp
  | cons a t ih =>
    rw [List.map_cons, List.sum_cons, ih, List.length_cons]
    push_cast
    ring

/-- The truncated mean of the values of one half lies between `lo` and `hi`. -/
theorem halfMean_between (c : Int × Point → Bool) (g : Int × Point → Int)
    (entries : PointMap) (lo hi : Int) (h : ∀ kv ∈ entries, lo ≤ g kv ∧ g kv ≤ hi)
    (hnum : sumWhere c (fun _ => 1) entries ≠ 0) :
    lo ≤ Int.tdiv (sumWhere c g entries) (sumWhere c (fun _ => 1) entries) ∧
      Int.tdiv (sumWhere c g entries) (sumWhere c (fun _ => 1) entries) ≤ hi := by
  rw [sumWhere_one_eq_length] at hnum ⊢
  have hl : 0 < ((entries.filter c).map g).length := by
    rw [List.length_map]
    by_contra hc
    have : (entries.filter c).length = 0 := by omega
    rw [this] at hnum
    exact hnum rfl
  have := tdiv_sum_between ((entries.filter c).map g) lo hi hl (by
    intro v hv
    rw [List.mem_map] at hv
    obtain ⟨kv, hkv, rfl⟩ := hv
    exact h kv (List.mem_of_mem_filter hkv))
  rw [List.length_map] at this
  exact this

theorem foldl_count_eq (c : Int × Point → Bool) (entries : PointMap) :
    entries.foldl (fun (n : Int) kv => if c kv then n + 1 else n) 0
      = sumWhere c (fun _ => 1) entries := by
  have := foldl_cond_eq (fun kv : Int × Point => c kv = true) (fun _ => (1 : Int)) entries 0
  simp only [zero_add, Bool.decide_eq_true] at this
  exact this

/-- On a region whose sums are exact the loops of lines 48-80 compute the sums over the
integer values. -/
theorem ieee_halfDeviations_exact (image : InternalImage) (entries : PointMap) (lo hi : Int)
    (hex : ExactRegion image entries lo hi) (mgv : Int) :
    Ieee.halfDeviations image entries mgv = Ieee.halfDeviationsOfSums image entries mgv := by
  obtain ⟨hval, hmax, hsq, _⟩ := hex
  have hB : (0 : Int) ≤ max |lo| |hi| := le_trans (abs_nonneg lo) (le_max_left _ _)
  have hbound : ∀ v : Int, lo ≤ v → v ≤ hi → |v| ≤ max |lo| |hi| := by
    intro v h1 h2
    rw [abs_le]
    constructor
    · have : -|lo| ≤ lo := neg_abs_le lo
      have : |lo| ≤ max |lo| |hi| := le_max_left _ _
      linarith
    · have : hi ≤ |hi| := le_abs_self hi
      have : |hi| ≤ max |lo| |hi| := le_max_right _ _
      linarith
  have hsum : ∀ c : Int × Point → Bool,
      Ieee.accumulateWhere c (fun kv => image.GetPixel kv.2) entries
        = some (sumWhere c (fun kv => image.intPixel kv.2) entries) := by
    intro c
    exact accumulateWhere_exact c _ _ (max |lo| |hi|) hB entries
      (fun kv hkv _ => ⟨pixel_eq_intPixel image kv.2 (hval kv hkv).1,
        hbound _ (hval kv hkv).2.1 (hval kv hkv).2.2⟩) hmax
  unfold Ieee.halfDeviations Ieee.halfDeviationsOfSums
  simp only [hsum, foldl_count_eq]
  split
  · rfl
  rename_i hun
  split
  · rfl
  rename_i hln
  -- the squares
  have hlen0 : (0 : Int) < entries.length := by
    by_contra hc
    have : entries = [] := List.length_eq_zero.mp (by omega)
    rw [this] at hun
    exact hun rfl
  have hD : (hi - lo) ^ 2 ≤ 2 ^ 24 := by
    have h0 : 0 ≤ (hi - lo) ^ 2 := sq_nonneg _
    nlinarith
  have hM : max |lo| |hi| ≤ 2 ^ 24 := by nlinarith
  have hsquares : ∀ (c : Int × Point → Bool) (um : Int), lo ≤ um → um ≤ hi →
      Ieee.accumulateWhere c (fun kv => Ieee.squaredDifference (image.GetPixel kv.2) um) entries
        = some (sumWhere c (fun kv => (image.intPixel kv.2 - um) ^ 2) entries) := by
    intro c um h1 h2
    have hsqb : ∀ kv ∈ entries, (image.intPixel kv.2 - um) ^ 2 ≤ (hi - lo) ^ 2 := by
      intro kv hkv
      obtain ⟨_, hv1, hv2⟩ := hval kv hkv
      apply sq_le_sq'
      · linarith
      · linarith
    exact accumulateWhere_exact c _ _ ((hi - lo) ^ 2) (sq_nonneg _) entries
      (fun kv hkv _ => by
        rw [pixel_eq_intPixel image kv.2 (hval kv hkv).1]
        refine ⟨squaredDifference_exact _ _ (le_trans (hbound um h1 h2) hM)
          (le_trans (hsqb kv hkv) hD), ?_⟩
        rw [abs_of_nonneg (sq_nonneg _)]
        exact hsqb kv hkv) hsq
  have hbetween : ∀ kv ∈ entries, lo ≤ image.intPixel kv.2 ∧ image.intPixel kv.2 ≤ hi :=
    fun kv hkv => (hval kv hkv).2
  obtain ⟨u1, u2⟩ := halfMean_between _ (fun kv => image.intPixel kv.2) entries lo hi
    hbetween hun
  obtain ⟨l1, l2⟩ := halfMean_between _ (fun kv => image.intPixel kv.2) entries lo hi
    hbetween hln
  simp only [hsquares _ _ u1 u2, hsquares _ _ l1 l2]

/-- The closed form of lines 48-80 does not depend on the order of the entries. -/
theorem halfDeviationsOfSums_perm (image : InternalImage) {l₁ l₂ : PointMap}
    (h : l₁.Perm l₂) (mgv : Int) :
    Ieee.halfDeviationsOfSums image l₁ mgv = Ieee.halfDeviationsOfSums image l₂ mgv := by
  have hp : ∀ (c : Int × Point → Bool) (f : Int × Point → Int),
      sumWhere c f l₁ = sumWhere c f l₂ := fun c f => sumWhere_perm c f h
  unfold Ieee.halfDeviationsOfSums
  simp only [hp]

/-- On a region whose sums are exact, lines 41-46 divide the sum of the integer
values. -/
theorem ieee_regionMean_exact (ord : MapOrder) (image : InternalImage) (m : PointMap)
    (lo hi : Int) (hex : ExactRegion image m lo hi) :
    Ieee.regionMean ord image m
      = if m.length = 0 then none
        else some (toInt64 (Int.tdiv
          (toUInt64 (sumWhere (fun _ => true) (fun kv => image.intPixel kv.2) m)) m.length)) := by
  have hex2 := ExactRegion_perm image (ord.perm m).symm lo hi hex
  obtain ⟨hval, hmax, _, _⟩ := hex2
  have hB : (0 : Int) ≤ max |lo| |hi| := le_trans (abs_nonneg lo) (le_max_left _ _)
  unfold Ieee.regionMean
  rw [accumulateWhere_exact (fun _ => true) _ (fun kv => image.intPixel kv.2) (max |lo| |hi|) hB
    _ (fun kv hkv _ => ⟨pixel_eq_intPixel image kv.2 (hval kv hkv).1, by
      obtain ⟨_, h1, h2⟩ := hval kv hkv
      rw [abs_le]
      constructor
      · have : -|lo| ≤ lo := neg_abs_le lo
        have : |lo| ≤ max |lo| |hi| := le_max_left _ _
        linarith
      · have : hi ≤ |hi| := le_abs_self hi
        have : |hi| ≤ max |lo| |hi| := le_max_right _ _
        linarith⟩) hmax]
  rw [sumWhere_perm (fun _ => true) (fun kv : Int × Point => image.intPixel kv.2) (ord.perm m)]

/-- On a region whose sums are exact, `ComputeStats` does not depend on the order in
which the map is enumerated. -/
theorem ieee_ComputeStats_order_of_exact (ord₁ ord₂ : MapOrder) (image : InternalImage)
    (m : PointMap) (lo hi : Int) (hex : ExactRegion image m lo hi) :
    Ieee.ComputeStats ord₁ image m = Ieee.ComputeStats ord₂ image m := by
  unfold Ieee.ComputeStats
  rw [ieee_regionMean_exact ord₁ image m lo hi hex, ieee_regionMean_exact ord₂ image m lo hi hex]
  split
  · rfl
  · rw [ieee_halfDeviations_exact image _ lo hi
        (ExactRegion_perm image (ord₁.perm m).symm lo hi hex),
      ieee_halfDeviations_exact image _ lo hi
        (ExactRegion_perm image (ord₂.perm m).symm lo hi hex),
      halfDeviationsOfSums_perm image ((ord₁.perm m).trans (ord₂.perm m).symm)]

/-- On an exact region `ComputeStats` gives the same result for two enumerations of
two maps that hold the same entries. -/
theorem ieee_ComputeStats_perm_of_exact (ord₁ ord₂ : MapOrder) (image : InternalImage)
    {l₁ l₂ : PointMap} (h : l₁.Perm l₂) (lo hi : Int) (hex : ExactRegion image l₁ lo hi) :
    Ieee.ComputeStats ord₁ image l₁ = Ieee.ComputeStats ord₂ image l₂ := by
  have hex2 := ExactRegion_perm image h lo hi hex
  unfold Ieee.ComputeStats
  rw [ieee_regionMean_exact ord₁ image l₁ lo hi hex,
    ieee_regionMean_exact ord₂ image l₂ lo hi hex2,
    sumWhere_perm (fun _ => true) (fun kv : Int × Point => image.intPixel kv.2) h, h.length_eq]
  split
  · rfl
  · rw [ieee_halfDeviations_exact image _ lo hi
        (ExactRegion_perm image (ord₁.perm l₁).symm lo hi hex),
      ieee_halfDeviations_exact image _ lo hi
        (ExactRegion_perm image (ord₂.perm l₂).symm lo hi hex2),
      halfDeviationsOfSums_perm image (((ord₁.perm l₁).trans h).trans (ord₂.perm l₂).symm)]

/-! ## The square root and the conversion to `long long` -/

/-- What `sqrtDouble` rounds: for `x > 0` the result is the `double` nearest to
`(t + d) / 2^s`, where `t` is the integer part of the root of `y = x * 4^s`, `y` is at
least `2^120`, and `d` is 0 when `t * t = y` and one half otherwise. -/
theorem sqrtDouble_spec (x : ℚ) (hx : 0 < x) :
    ∃ (t : Nat) (s : Int) (d : ℚ),
      sqrtDouble x = toDouble (((t : ℚ) + d) / (2 : ℚ) ^ s) ∧
      ((d = 0 ∧ (t : ℚ) * t = x * (4 : ℚ) ^ s) ∨ (d = 1 / 2 ∧ (t : ℚ) * t ≠ x * (4 : ℚ) ^ s)) ∧
      (t : ℚ) * t ≤ x * (4 : ℚ) ^ s ∧ x * (4 : ℚ) ^ s < ((t : ℚ) + 1) * ((t : ℚ) + 1) ∧
      (2 : ℚ) ^ (120 : Nat) ≤ x * (4 : ℚ) ^ s ∧ (4 : ℚ) ^ s = (2 : ℚ) ^ s * (2 : ℚ) ^ s := by
  have hx0 : x ≠ 0 := ne_of_gt hx
  obtain ⟨hE, _⟩ := binaryExponent_spec x hx0
  rw [abs_of_pos hx] at hE
  generalize hs : (60 : Int) - binaryExponent x / 2 = s
  have h4 : (4 : ℚ) ^ s = (2 : ℚ) ^ s * (2 : ℚ) ^ s := by
    rw [← zpow_add₀ (by norm_num : (2 : ℚ) ≠ 0), ← two_mul, zpow_mul]
    norm_num
  have hy0 : (0 : ℚ) ≤ x * (4 : ℚ) ^ s := le_of_lt (mul_pos hx (zpow_pos (by norm_num) _))
  have hbig : (2 : ℚ) ^ (120 : Nat) ≤ x * (4 : ℚ) ^ s := by
    have hdiv : 2 * (binaryExponent x / 2) ≤ binaryExponent x := by omega
    have h1 : (2 : ℚ) ^ (120 - binaryExponent x) ≤ (4 : ℚ) ^ s := by
      rw [h4, ← zpow_add₀ (by norm_num : (2 : ℚ) ≠ 0)]
      apply zpow_le_zpow_right₀ (by norm_num)
      omega
    calc (2 : ℚ) ^ (120 : Nat) = (2 : ℚ) ^ binaryExponent x * (2 : ℚ) ^ (120 - binaryExponent x) := by
          rw [← zpow_add₀ (by norm_num : (2 : ℚ) ≠ 0), ← zpow_natCast]
          congr 1
          push_cast
          ring
      _ ≤ x * (4 : ℚ) ^ s :=
          mul_le_mul hE h1 (le_of_lt (zpow_pos (by norm_num) _)) (le_of_lt hx)
  have hfl0 : (0 : Int) ≤ ⌊x * (4 : ℚ) ^ s⌋ := Int.floor_nonneg.mpr hy0
  have hcast : ((⌊x * (4 : ℚ) ^ s⌋.toNat : Nat) : ℚ) = ((⌊x * (4 : ℚ) ^ s⌋ : Int) : ℚ) := by
    have := Int.toNat_of_nonneg hfl0
    exact_mod_cast congrArg (fun z : Int => (z : ℚ)) this
  have hle : ((isqrt ⌊x * (4 : ℚ) ^ s⌋.toNat : Nat) : ℚ) * (isqrt ⌊x * (4 : ℚ) ^ s⌋.toNat : Nat)
      ≤ x * (4 : ℚ) ^ s := by
    have h1 := isqrt_sq_le ⌊x * (4 : ℚ) ^ s⌋.toNat
    have h2 : ((isqrt ⌊x * (4 : ℚ) ^ s⌋.toNat * isqrt ⌊x * (4 : ℚ) ^ s⌋.toNat : Nat) : ℚ)
        ≤ ((⌊x * (4 : ℚ) ^ s⌋.toNat : Nat) : ℚ) := by exact_mod_cast h1
    rw [hcast] at h2
    push_cast at h2
    exact le_trans h2 (Int.floor_le _)
  have hlt : x * (4 : ℚ) ^ s
      < ((isqrt ⌊x * (4 : ℚ) ^ s⌋.toNat : Nat) + 1 : ℚ)
        * ((isqrt ⌊x * (4 : ℚ) ^ s⌋.toNat : Nat) + 1 : ℚ) := by
    have h1 := lt_isqrt_succ_sq ⌊x * (4 : ℚ) ^ s⌋.toNat
    have h2 : ((⌊x * (4 : ℚ) ^ s⌋.toNat : Nat) : ℚ) + 1
        ≤ (((isqrt ⌊x * (4 : ℚ) ^ s⌋.toNat + 1) * (isqrt ⌊x * (4 : ℚ) ^ s⌋.toNat + 1) : Nat) : ℚ) := by
      exact_mod_cast h1
    rw [hcast] at h2
    push_cast at h2
    exact lt_of_lt_of_le (Int.lt_floor_add_one _) h2
  refine ⟨isqrt ⌊x * (4 : ℚ) ^ s⌋.toNat, s,
    if ((isqrt ⌊x * (4 : ℚ) ^ s⌋.toNat : Nat) : ℚ) * (isqrt ⌊x * (4 : ℚ) ^ s⌋.toNat : Nat)
      = x * (4 : ℚ) ^ s then 0 else 1 / 2, ?_, ?_, hle, hlt, hbig, h4⟩
  · unfold sqrtDouble
    rw [if_neg (not_le.mpr hx)]
    simp only [hs]
  · by_cases hc : ((isqrt ⌊x * (4 : ℚ) ^ s⌋.toNat : Nat) : ℚ) * (isqrt ⌊x * (4 : ℚ) ^ s⌋.toNat : Nat)
        = x * (4 : ℚ) ^ s
    · exact Or.inl ⟨by rw [if_pos hc], hc⟩
    · exact Or.inr ⟨by rw [if_neg hc], hc⟩

theorem toDouble_nonneg (x : ℚ) (hx : 0 ≤ x) : 0 ≤ toDouble x := by
  have h := abs_le.mp (toDouble_error x)
  rw [abs_of_nonneg hx] at h
  have : x / 2 ^ 53 ≤ x := div_le_self hx (by norm_num)
  linarith [h.1]

theorem toDouble_le_two_mul (x : ℚ) (hx : 0 ≤ x) : toDouble x ≤ 2 * x := by
  have h := abs_le.mp (toDouble_error x)
  rw [abs_of_nonneg hx] at h
  have : x / 2 ^ 53 ≤ x := div_le_self hx (by norm_num)
  linarith [h.2]

theorem abs_toDouble_le (x : ℚ) : |toDouble x| ≤ 2 * |x| := by
  have h := toDouble_error x
  have h1 : |x| / 2 ^ 53 ≤ |x| := div_le_self (abs_nonneg x) (by norm_num)
  have h2 : |toDouble x| ≤ |toDouble x - x| + |x| := by
    have := abs_add (toDouble x - x) x
    simpa using this
  linarith

theorem half_le_toDouble (x : ℚ) (hx : 0 ≤ x) : x / 2 ≤ toDouble x := by
  have h := abs_le.mp (toDouble_error x)
  rw [abs_of_nonneg hx] at h
  have : x / 2 ^ 53 ≤ x / 2 := by
    apply div_le_div_of_nonneg_left hx (by norm_num) (by norm_num)
  linarith [h.1]

/-- The computed root is not negative and at most `2 * (x + 2)`. -/
theorem sqrtDouble_bounds (x : ℚ) (hx : 0 ≤ x) :
    0 ≤ sqrtDouble x ∧ sqrtDouble x ≤ 2 * (x + 2) := by
  rcases eq_or_lt_of_le hx with h0 | hpos
  · rw [← h0]
    unfold sqrtDouble
    simp
  obtain ⟨t, s, d, hsd, hd, hle, hlt, hbig, h4⟩ := sqrtDouble_spec x hpos
  have h2s : (0 : ℚ) < (2 : ℚ) ^ s := zpow_pos (by norm_num) _
  have hd0 : 0 ≤ d ∧ d ≤ 1 / 2 := by
    rcases hd with ⟨h, _⟩ | ⟨h, _⟩
    · rw [h]; norm_num
    · rw [h]; norm_num
  have ht0 : (0 : ℚ) ≤ t := Nat.cast_nonneg t
  have hz0 : 0 ≤ ((t : ℚ) + d) / (2 : ℚ) ^ s := div_nonneg (by linarith) (le_of_lt h2s)
  have ht1 : (1 : ℚ) ≤ t := by
    by_contra hc
    have hlt1 : (t : ℚ) < 1 := not_le.mp hc
    have h1 : ((t : ℚ) + 1) * ((t : ℚ) + 1) ≤ 2 * 2 := by nlinarith
    have h2 : (4 : ℚ) < 2 ^ (120 : Nat) := by norm_num
    linarith
  -- `(t / 2^s)^2 ≤ x`
  have hq : ((t : ℚ) / (2 : ℚ) ^ s) * ((t : ℚ) / (2 : ℚ) ^ s) ≤ x := by
    rw [h4] at hle
    have : ((t : ℚ) / (2 : ℚ) ^ s) * ((t : ℚ) / (2 : ℚ) ^ s)
        = (t : ℚ) * t / ((2 : ℚ) ^ s * (2 : ℚ) ^ s) := by
      field_simp
    rw [this, div_le_iff₀ (mul_pos h2s h2s)]
    linarith
  have hq0 : 0 ≤ (t : ℚ) / (2 : ℚ) ^ s := div_nonneg ht0 (le_of_lt h2s)
  have hq1 : (t : ℚ) / (2 : ℚ) ^ s ≤ x + 1 := by
    by_contra hc
    have : x + 1 < (t : ℚ) / (2 : ℚ) ^ s := not_le.mp hc
    nlinarith
  have hdz : d / (2 : ℚ) ^ s ≤ (t : ℚ) / (2 : ℚ) ^ s :=
    div_le_div_of_nonneg_right (by linarith) (le_of_lt h2s)
  have hz1 : ((t : ℚ) + d) / (2 : ℚ) ^ s ≤ x + 2 := by
    rw [add_div]
    nlinarith
  rw [hsd]
  exact ⟨toDouble_nonneg _ hz0, le_trans (toDouble_le_two_mul _ hz0) (by linarith)⟩

/-- The computed root of a number that is at least 1 is at least one quarter. -/
theorem quarter_le_sqrtDouble (x : ℚ) (hx : 1 ≤ x) : 1 / 4 ≤ sqrtDouble x := by
  obtain ⟨t, s, d, hsd, hd, _, hlt, hbig, h4⟩ := sqrtDouble_spec x (by linarith)
  have h2s : (0 : ℚ) < (2 : ℚ) ^ s := zpow_pos (by norm_num) _
  have hd0 : 0 ≤ d := by
    rcases hd with ⟨h, _⟩ | ⟨h, _⟩
    · rw [h]
    · rw [h]; norm_num
  have ht0 : (0 : ℚ) ≤ t := Nat.cast_nonneg t
  have ht1 : (1 : ℚ) ≤ t := by
    by_contra hc
    have hlt1 : (t : ℚ) < 1 := not_le.mp hc
    have h1 : ((t : ℚ) + 1) * ((t : ℚ) + 1) ≤ 2 * 2 := by nlinarith
    have h2 : (4 : ℚ) < 2 ^ (120 : Nat) := by norm_num
    linarith
  -- `2^s < t + 1`
  have hs1 : (2 : ℚ) ^ s < (t : ℚ) + 1 := by
    by_contra hc
    have hc1 : (t : ℚ) + 1 ≤ (2 : ℚ) ^ s := not_lt.mp hc
    have h1 : ((t : ℚ) + 1) * ((t : ℚ) + 1) ≤ (2 : ℚ) ^ s * (2 : ℚ) ^ s :=
      mul_le_mul hc1 hc1 (by linarith) (le_of_lt h2s)
    have h2 : (2 : ℚ) ^ s * (2 : ℚ) ^ s ≤ x * (4 : ℚ) ^ s := by
      rw [h4]
      nlinarith [mul_pos h2s h2s]
    linarith
  have hz : 1 / 2 ≤ ((t : ℚ) + d) / (2 : ℚ) ^ s := by
    rw [le_div_iff₀ h2s]
    linarith
  have hz0 : 0 ≤ ((t : ℚ) + d) / (2 : ℚ) ^ s := by linarith
  rw [hsd]
  have := half_le_toDouble _ hz0
  linarith

theorem abs_truncate_le (x : ℚ) : |(truncate x : ℚ)| ≤ |x| := by
  unfold truncate
  split
  · rename_i h
    rw [abs_of_nonneg h, abs_of_nonneg (by exact_mod_cast Int.floor_nonneg.mpr h)]
    exact Int.floor_le x
  · rename_i h
    have hx : x < 0 := not_le.mp h
    have hc : (⌈x⌉ : ℚ) ≤ 0 := by exact_mod_cast Int.ceil_le.mpr (by simpa using hx.le)
    rw [abs_of_neg hx, abs_of_nonpos hc]
    have := Int.le_ceil x
    linarith

theorem truncate_nonneg (x : ℚ) (hx : 0 ≤ x) : 0 ≤ truncate x := by
  unfold truncate
  rw [if_pos hx]
  exact Int.floor_nonneg.mpr hx

/-- A value below `2^62` in magnitude converts to `long long`. -/
theorem toLongLong_isSome (x : ℚ) (h : |x| ≤ 2 ^ 62) :
    toLongLong x = some (truncate x) := by
  have h1 := abs_truncate_le x
  have h2 : |(truncate x : ℚ)| ≤ 2 ^ 62 := le_trans h1 h
  have h3 : |truncate x| ≤ 2 ^ 62 := by exact_mod_cast h2
  have h4 := abs_le.mp h3
  unfold toLongLong
  rw [if_pos ⟨by unfold two63; omega, by unfold two63; omega⟩]

/-- The root `(long long) sqrt(n)` is defined for `0 ≤ n ≤ 2^53`, not negative and at
most `2 * (n + 2)`. -/
theorem sqrtLongLong_isSome (n : Int) (h0 : 0 ≤ n) (h1 : n ≤ 2 ^ 53) :
    ∃ d, Ieee.sqrtLongLong n = some d ∧ 0 ≤ d ∧ d ≤ 2 * (n + 2) := by
  have hn : |n| ≤ 2 ^ 53 := by rw [abs_of_nonneg h0]; exact h1
  have hq0 : (0 : ℚ) ≤ (n : ℚ) := by exact_mod_cast h0
  have hq1 : (n : ℚ) ≤ 2 ^ 53 := by exact_mod_cast h1
  obtain ⟨b0, b1⟩ := sqrtDouble_bounds (n : ℚ) hq0
  unfold Ieee.sqrtLongLong
  rw [if_neg (not_lt.mpr h0), toDouble_int n hn,
    toLongLong_isSome _ (by rw [abs_of_nonneg b0]; linarith)]
  refine ⟨_, rfl, truncate_nonneg _ b0, ?_⟩
  have h2 := abs_truncate_le (sqrtDouble (n : ℚ))
  rw [abs_of_nonneg b0,
    abs_of_nonneg (by exact_mod_cast truncate_nonneg _ b0)] at h2
  have h3 : (truncate (sqrtDouble (n : ℚ)) : ℚ) ≤ ((2 * (n + 2) : Int) : ℚ) := by
    push_cast
    linarith
  exact_mod_cast h3

/-- The term `20 / sqrt(size)` is at most 160 in magnitude for a size of at least 1. -/
theorem abs_sizeTerm_le (n : Nat) (h1 : 1 ≤ n) (h2 : n ≤ 2 ^ 53) : |Ieee.sizeTerm n| ≤ 160 := by
  have hn : |(n : Int)| ≤ 2 ^ 53 := by
    rw [abs_of_nonneg (Int.ofNat_nonneg n)]
    exact_mod_cast h2
  have hcast : ((n : Nat) : ℚ) = ((n : Int) : ℚ) := by push_cast; rfl
  have hq := quarter_le_sqrtDouble (n : ℚ) (by exact_mod_cast h1)
  unfold Ieee.sizeTerm
  rw [hcast, toDouble_int (n : Int) hn, ← hcast]
  have hpos : (0 : ℚ) < sqrtDouble (n : ℚ) := by linarith
  have h20 : |(20 : ℚ) / sqrtDouble (n : ℚ)| ≤ 80 := by
    rw [abs_of_nonneg (div_nonneg (by norm_num) (le_of_lt hpos)), div_le_iff₀ hpos]
    linarith
  calc |toDouble (20 / sqrtDouble (n : ℚ))| ≤ 2 * |(20 : ℚ) / sqrtDouble (n : ℚ)| :=
        abs_toDouble_le _
    _ ≤ 160 := by linarith

theorem abs_spread_le (dev : Int) (h : |dev| ≤ 2 ^ 53) : |Ieee.spread dev| ≤ 3 * |(dev : ℚ)| := by
  unfold Ieee.spread
  rw [toDouble_int dev h]
  calc |toDouble ((dev : ℚ) * (3 / 2))| ≤ 2 * |(dev : ℚ) * (3 / 2)| := abs_toDouble_le _
    _ = 3 * |(dev : ℚ)| := by
        rw [abs_mul, abs_of_pos (by norm_num : (0 : ℚ) < 3 / 2)]; ring

theorem abs_literal258_le : |Ieee.literal258| ≤ 6 := by
  unfold Ieee.literal258
  calc |toDouble (258 / 100)| ≤ 2 * |(258 / 100 : ℚ)| := abs_toDouble_le _
    _ ≤ 6 := by norm_num [abs_of_nonneg]

theorem abs_finalSpread_le (dev : Int) (h : |dev * 2| ≤ 2 ^ 53) :
    |Ieee.finalSpread dev| ≤ 24 * |(dev : ℚ)| := by
  unfold Ieee.finalSpread
  rw [toDouble_int (dev * 2) h]
  calc |toDouble (((dev * 2 : Int) : ℚ) * Ieee.literal258)|
      ≤ 2 * |((dev * 2 : Int) : ℚ) * Ieee.literal258| := abs_toDouble_le _
    _ = 2 * (|(dev : ℚ)| * 2 * |Ieee.literal258|) := by
        rw [abs_mul]; push_cast; rw [abs_mul]; norm_num
    _ ≤ 2 * (|(dev : ℚ)| * 2 * 6) := by
        have := abs_literal258_le
        have h0 : 0 ≤ |(dev : ℚ)| := abs_nonneg _
        nlinarith
    _ = 24 * |(dev : ℚ)| := by ring

/-- The two bounds are defined when the mean, the spread and the size are of moderate
magnitude. -/
theorem bounds_isSome (mgv : Int) (s : ℚ) (n : Nat) (hm : |mgv| ≤ 2 ^ 53) (hs : |s| ≤ 2 ^ 56)
    (h1 : 1 ≤ n) (h2 : n ≤ 2 ^ 53) :
    (∃ u, Ieee.boundAbove mgv s n = some u) ∧ (∃ l, Ieee.boundBelow mgv s n = some l) := by
  have ht := abs_sizeTerm_le n h1 h2
  have hsum : |toDouble (s + Ieee.sizeTerm n)| ≤ 2 * (2 ^ 56 + 160) :=
    calc |toDouble (s + Ieee.sizeTerm n)| ≤ 2 * |s + Ieee.sizeTerm n| := abs_toDouble_le _
      _ ≤ 2 * (|s| + |Ieee.sizeTerm n|) := by linarith [abs_add s (Ieee.sizeTerm n)]
      _ ≤ _ := by linarith
  have hmq : |(mgv : ℚ)| ≤ 2 ^ 53 := by exact_mod_cast hm
  rw [← toDouble_int mgv hm] at hmq
  constructor
  · refine ⟨_, toLongLong_isSome _ ?_⟩
    calc |toDouble (toDouble (mgv : ℚ) + toDouble (s + Ieee.sizeTerm n))|
        ≤ 2 * |toDouble (mgv : ℚ) + toDouble (s + Ieee.sizeTerm n)| := abs_toDouble_le _
      _ ≤ 2 * (|toDouble (mgv : ℚ)| + |toDouble (s + Ieee.sizeTerm n)|) := by
          linarith [abs_add (toDouble (mgv : ℚ)) (toDouble (s + Ieee.sizeTerm n))]
      _ ≤ 2 ^ 62 := by norm_num at hsum hmq ⊢; linarith
  · refine ⟨_, toLongLong_isSome _ ?_⟩
    calc |toDouble (toDouble (mgv : ℚ) - toDouble (s + Ieee.sizeTerm n))|
        ≤ 2 * |toDouble (mgv : ℚ) - toDouble (s + Ieee.sizeTerm n)| := abs_toDouble_le _
      _ ≤ 2 * (|toDouble (mgv : ℚ)| + |toDouble (s + Ieee.sizeTerm n)|) := by
          linarith [abs_sub (toDouble (mgv : ℚ)) (toDouble (s + Ieee.sizeTerm n))]
      _ ≤ 2 ^ 62 := by norm_num at hsum hmq ⊢; linarith

/-! ## The run in machine arithmetic: well-formed maps -/

/-- A well-formed map has at most as many entries as the image has pixels. -/
theorem MapWF_length_le_volume (image : Volume) (m : PointMap) (hm : MapWF image m) :
    m.length ≤ image.sx * image.sy * image.sz := by
  obtain ⟨_, hent, hnd⟩ := hm
  have hkeys : (m.map fun kv => kv.1) = (m.map fun kv => kv.2).map ComputePointHash := by
    rw [List.map_map]
    apply List.map_congr_left
    intro kv hkv
    exact (hent kv hkv).1
  rw [hkeys] at hnd
  have hpts : (m.map fun kv => kv.2).Nodup := List.Nodup.of_map _ hnd
  have := length_le_volume image (m.map fun kv => kv.2) hpts (by
    intro p hp
    rw [List.mem_map] at hp
    obtain ⟨kv, hkv, rfl⟩ := hp
    exact (hent kv hkv).2)
  rwa [List.length_map] at this

/-- A neighbour examined in a good state leaves a good state. -/
theorem ieee_growNeighbour_good (ord : MapOrder) (image : InternalImage)
    (hsize : SizeRepresentable image.grid) (elem : Point) (helem : InBounds image.grid elem)
    (st st1 : GrowState) (o : Int × Int × Int) (ho : o ∈ offsets26)
    (h : GoodState image.grid st) (hrun : Ieee.growNeighbour ord image elem st o = some st1) :
    GoodState image.grid st1 := by
  rcases ieee_growNeighbour_cases ord image elem st st1 o hrun with
    ⟨ha, hr, hv, hq, hb⟩ | ⟨_, he⟩
  · obtain ⟨hcb, _, hk⟩ := (ieee_accepts_iff image elem st o).mp ha
    have hin : InBounds image.grid (elem.shift o) :=
      InBounds_shift_of_CheckBounds image.grid hsize elem helem o ho hcb
    have hwf := mapAssign_wf image.grid st.visited_points (elem.shift o) hin h.1
    rw [mapAssign_eq_of_absent _ _ _ hk, ← hv] at hwf
    refine ⟨hwf, ?_, ?_⟩
    · intro p hp
      rw [hq, List.mem_append, List.mem_singleton] at hp
      rcases hp with hp | hp
      · exact h.2.1 p hp
      · rw [hp]; exact hin
    · rcases hb with ⟨_, hrs, _⟩ | ⟨_, hrs, _, _⟩
      · rw [hrs]; omega
      · rw [hrs]; exact hr
  · rw [he]; exact h

theorem ieee_growNeighbours_good (ord : MapOrder) (image : InternalImage)
    (hsize : SizeRepresentable image.grid) (elem : Point) (helem : InBounds image.grid elem)
    (os : List (Int × Int × Int)) (hos : ∀ o ∈ os, o ∈ offsets26) (st st1 : GrowState)
    (h : GoodState image.grid st) (hrun : Ieee.growNeighbours ord image elem os st = some st1) :
    GoodState image.grid st1 := by
  induction os generalizing st with
  | nil =>
    simp only [Ieee.growNeighbours] at hrun
    injection hrun with hrun
    rw [← hrun]; exact h
  | cons o os ih =>
    simp only [Ieee.growNeighbours] at hrun
    split at hrun
    · exact absurd hrun (by simp)
    · rename_i st2 heq
      exact ih (fun o1 ho1 => hos o1 (List.mem_cons_of_mem _ ho1)) st2
        (ieee_growNeighbour_good ord image hsize elem helem st st2 o
          (hos o (List.mem_cons_self _ _)) h heq) hrun

theorem ieee_growStep_good (ord : MapOrder) (image : InternalImage)
    (hsize : SizeRepresentable image.grid) (st st1 : GrowState)
    (h : GoodState image.grid st) (hrun : Ieee.growStep ord image st = some st1) :
    GoodState image.grid st1 := by
  unfold Ieee.growStep at hrun
  split at hrun
  · injection hrun with hrun
    rw [← hrun]; exact h
  · rename_i elem rest hq
    have helem : InBounds image.grid elem :=
      h.2.1 elem (by rw [hq]; exact List.mem_cons_self _ _)
    exact ieee_growNeighbours_good ord image hsize elem helem offsets26 (fun _ ho => ho)
      ⟨st.visited_points, rest, st.upper_threshold, st.lower_threshold, st.region_size⟩ st1
      ⟨h.1, fun p hp => h.2.1 p (by rw [hq]; exact List.mem_cons_of_mem _ hp), h.2.2⟩ hrun

theorem ieee_growLoop_good (ord : MapOrder) (image : InternalImage)
    (hsize : SizeRepresentable image.grid) (n : Nat) (st st1 : GrowState)
    (h : GoodState image.grid st) (hrun : Ieee.growLoop ord image n st = some st1) :
    GoodState image.grid st1 := by
  induction n generalizing st with
  | zero =>
    simp only [Ieee.growLoop] at hrun
    injection hrun with hrun
    rw [← hrun]; exact h
  | succ n ih =>
    simp only [Ieee.growLoop] at hrun
    split at hrun
    · injection hrun with hrun
      rw [← hrun]; exact h
    · split at hrun
      · exact absurd hrun (by simp)
      · rename_i st2 heq
        exact ih st2 (ieee_growStep_good ord image hsize st st2 h heq) hrun

/-- Seeding from a seed inside the image ends in a good state when it returns. -/
theorem ieee_Seeding_good (ord : MapOrder) (image : InternalImage)
    (hsize : SizeRepresentable image.grid) (seed : Point) (hseed : InBounds image.grid seed)
    (st0 : GrowState) (h : Ieee.Seeding ord image seed = some st0) :
    GoodState image.grid st0 := by
  obtain ⟨hv, hq, hr, _⟩ := ieee_Seeding_eq_some ord image seed st0 h
  obtain ⟨hwf, hqin⟩ := seedRegion_wf image.grid hsize seed hseed
  refine ⟨by rw [hv]; exact hwf, by rw [hq]; exact hqin, by rw [hr]; exact hwf.1⟩

/-- The growing loop from a seed inside the image ends in a good state when it
returns: the map is not empty, holds points inside the image under their own keys, and
no key twice. -/
theorem ieee_Growing_good (ord : MapOrder) (image : InternalImage)
    (hsize : SizeRepresentable image.grid) (seed : Point) (hseed : InBounds image.grid seed)
    (st : GrowState) (h : Ieee.Growing ord image seed = some st) :
    GoodState image.grid st := by
  unfold Ieee.Growing at h
  cases h0 : Ieee.Seeding ord image seed with
  | none => rw [h0] at h; exact absurd h (by simp)
  | some st0 =>
    rw [h0] at h
    exact ieee_growLoop_good ord image hsize _ st0 st
      (ieee_Seeding_good ord image hsize seed hseed st0 h0) h

/-! ## No fault when the thresholds are defined on every well-formed map -/

theorem ieee_growNeighbour_isSome (ord : MapOrder) (image : InternalImage)
    (hsize : SizeRepresentable image.grid)
    (hthr : ∀ m, MapWF image.grid m → ∃ b, Ieee.ComputeThreshold ord image m = some b)
    (elem : Point) (helem : InBounds image.grid elem) (st : GrowState)
    (o : Int × Int × Int) (ho : o ∈ offsets26) (h : GoodState image.grid st) :
    ∃ st1, Ieee.growNeighbour ord image elem st o = some st1 := by
  by_cases hacc : CheckBounds (elem.shift o) image.size = true ∧
      (toFloat (st.lower_threshold : ℚ) ≤ image.GetPixel (elem.shift o) ∧
        image.GetPixel (elem.shift o) ≤ toFloat (st.upper_threshold : ℚ)) ∧
      mapContains st.visited_points (ComputePointHash (elem.shift o)) = false
  · obtain ⟨hb, hv, hk⟩ := hacc
    have hin : InBounds image.grid (elem.shift o) :=
      InBounds_shift_of_CheckBounds image.grid hsize elem helem o ho hb
    have hwf := mapAssign_wf image.grid st.visited_points (elem.shift o) hin h.1
    rw [mapAssign_eq_of_absent _ _ _ hk] at hwf
    rw [ieee_growNeighbour_accept ord image elem st o hb hv hk h.2.2]
    split
    · obtain ⟨b, hb1⟩ := hthr _ hwf
      rw [hb1]
      exact ⟨_, rfl⟩
    · exact ⟨_, rfl⟩
  · rw [ieee_growNeighbour_reject ord image elem st o hacc]
    exact ⟨st, rfl⟩

theorem ieee_growNeighbours_isSome (ord : MapOrder) (image : InternalImage)
    (hsize : SizeRepresentable image.grid)
    (hthr : ∀ m, MapWF image.grid m → ∃ b, Ieee.ComputeThreshold ord image m = some b)
    (elem : Point) (helem : InBounds image.grid elem) (os : List (Int × Int × Int))
    (hos : ∀ o ∈ os, o ∈ offsets26) (st : GrowState) (h : GoodState image.grid st) :
    ∃ st1, Ieee.growNeighbours ord image elem os st = some st1 := by
  induction os generalizing st with
  | nil => exact ⟨st, rfl⟩
  | cons o os ih =>
    obtain ⟨st1, h1⟩ := ieee_growNeighbour_isSome ord image hsize hthr elem helem st o
      (hos o (List.mem_cons_self _ _)) h
    have hg1 := ieee_growNeighbour_good ord image hsize elem helem st st1 o
      (hos o (List.mem_cons_self _ _)) h h1
    obtain ⟨st2, h2⟩ := ih (fun o1 ho1 => hos o1 (List.mem_cons_of_mem _ ho1)) st1 hg1
    refine ⟨st2, ?_⟩
    simp only [Ieee.growNeighbours, h1, h2]

theorem ieee_growStep_isSome (ord : MapOrder) (image : InternalImage)
    (hsize : SizeRepresentable image.grid)
    (hthr : ∀ m, MapWF image.grid m → ∃ b, Ieee.ComputeThreshold ord image m = some b)
    (st : GrowState) (h : GoodState image.grid st) :
    ∃ st1, Ieee.growStep ord image st = some st1 := by
  unfold Ieee.growStep
  split
  · exact ⟨st, rfl⟩
  · rename_i elem rest hq
    have helem : InBounds image.grid elem :=
      h.2.1 elem (by rw [hq]; exact List.mem_cons_self _ _)
    exact ieee_growNeighbours_isSome ord image hsize hthr elem helem offsets26 (fun _ ho => ho)
      _ ⟨h.1, fun p hp => h.2.1 p (by rw [hq]; exact List.mem_cons_of_mem _ hp), h.2.2⟩

theorem ieee_growLoop_isSome (ord : MapOrder) (image : InternalImage)
    (hsize : SizeRepresentable image.grid)
    (hthr : ∀ m, MapWF image.grid m → ∃ b, Ieee.ComputeThreshold ord image m = some b)
    (n : Nat) (st : GrowState) (h : GoodState image.grid st) :
    ∃ st1, Ieee.growLoop ord image n st = some st1 := by
  induction n generalizing st with
  | zero => exact ⟨st, rfl⟩
  | succ n ih =>
    simp only [Ieee.growLoop]
    split
    · exact ⟨st, rfl⟩
    · obtain ⟨st1, h1⟩ := ieee_growStep_isSome ord image hsize hthr st h
      rw [h1]
      exact ih st1 (ieee_growStep_good ord image hsize st st1 h h1)

/-- The run returns bounds when both threshold functions are defined on every
well-formed map. -/
theorem ieee_GrowRegions_isSome (ord : MapOrder) (image : InternalImage)
    (hsize : SizeRepresentable image.grid) (seed : Point) (hseed : InBounds image.grid seed)
    (hthr : ∀ m, MapWF image.grid m → ∃ b, Ieee.ComputeThreshold ord image m = some b)
    (hfin : ∀ m, MapWF image.grid m → ∃ b, Ieee.ComputeFinalThreshold ord image m = some b) :
    ∃ st b, Ieee.Growing ord image seed = some st ∧ Ieee.GrowRegions ord image seed = some b := by
  obtain ⟨hwf, hqin⟩ := seedRegion_wf image.grid hsize seed hseed
  obtain ⟨b0, hb0⟩ := hthr _ hwf
  have h0 : Ieee.Seeding ord image seed
      = some ⟨(seedRegion image.grid seed).1, (seedRegion image.grid seed).2, b0.1, b0.2,
          (seedRegion image.grid seed).1.length⟩ := by
    unfold Ieee.Seeding
    simp only [hb0]
  have hg0 := ieee_Seeding_good ord image hsize seed hseed _ h0
  obtain ⟨st, hst⟩ := ieee_growLoop_isSome ord image hsize hthr iterCap _ hg0
  have hgrow : Ieee.Growing ord image seed = some st := by
    unfold Ieee.Growing
    rw [h0]
    exact hst
  have hg := ieee_Growing_good ord image hsize seed hseed st hgrow
  obtain ⟨b, hb⟩ := hfin _ hg.1
  refine ⟨st, b, hgrow, ?_⟩
  rw [ieee_GrowRegions_of_Growing ord image seed st hgrow, hb]

/-! ## The run does not depend on the order when the thresholds do not -/

theorem ieee_growNeighbour_order (ord₁ ord₂ : MapOrder) (image : InternalImage)
    (hsize : SizeRepresentable image.grid)
    (hthr : ∀ m, MapWF image.grid m →
      Ieee.ComputeThreshold ord₁ image m = Ieee.ComputeThreshold ord₂ image m)
    (elem : Point) (helem : InBounds image.grid elem) (st : GrowState)
    (o : Int × Int × Int) (ho : o ∈ offsets26) (h : GoodState image.grid st) :
    Ieee.growNeighbour ord₁ image elem st o = Ieee.growNeighbour ord₂ image elem st o := by
  by_cases hacc : CheckBounds (elem.shift o) image.size = true ∧
      (toFloat (st.lower_threshold : ℚ) ≤ image.GetPixel (elem.shift o) ∧
        image.GetPixel (elem.shift o) ≤ toFloat (st.upper_threshold : ℚ)) ∧
      mapContains st.visited_points (ComputePointHash (elem.shift o)) = false
  · obtain ⟨hb, hv, hk⟩ := hacc
    have hin : InBounds image.grid (elem.shift o) :=
      InBounds_shift_of_CheckBounds image.grid hsize elem helem o ho hb
    have hwf := mapAssign_wf image.grid st.visited_points (elem.shift o) hin h.1
    rw [mapAssign_eq_of_absent _ _ _ hk] at hwf
    rw [ieee_growNeighbour_accept ord₁ image elem st o hb hv hk h.2.2,
      ieee_growNeighbour_accept ord₂ image elem st o hb hv hk h.2.2, hthr _ hwf]
  · rw [ieee_growNeighbour_reject ord₁ image elem st o hacc,
      ieee_growNeighbour_reject ord₂ image elem st o hacc]

theorem ieee_growNeighbours_order (ord₁ ord₂ : MapOrder) (image : InternalImage)
    (hsize : SizeRepresentable image.grid)
    (hthr : ∀ m, MapWF image.grid m →
      Ieee.ComputeThreshold ord₁ image m = Ieee.ComputeThreshold ord₂ image m)
    (elem : Point) (helem : InBounds image.grid elem) (os : List (Int × Int × Int))
    (hos : ∀ o ∈ os, o ∈ offsets26) (st : GrowState) (h : GoodState image.grid st) :
    Ieee.growNeighbours ord₁ image elem os st = Ieee.growNeighbours ord₂ image elem os st := by
  induction os generalizing st with
  | nil => rfl
  | cons o os ih =>
    have h1 := ieee_growNeighbour_order ord₁ ord₂ image hsize hthr elem helem st o
      (hos o (List.mem_cons_self _ _)) h
    simp only [Ieee.growNeighbours]
    rw [← h1]
    cases hn : Ieee.growNeighbour ord₁ image elem st o with
    | none => rfl
    | some st1 =>
      exact ih (fun o1 ho1 => hos o1 (List.mem_cons_of_mem _ ho1)) st1
        (ieee_growNeighbour_good ord₁ image hsize elem helem st st1 o
          (hos o (List.mem_cons_self _ _)) h hn)

theorem ieee_growStep_order (ord₁ ord₂ : MapOrder) (image : InternalImage)
    (hsize : SizeRepresentable image.grid)
    (hthr : ∀ m, MapWF image.grid m →
      Ieee.ComputeThreshold ord₁ image m = Ieee.ComputeThreshold ord₂ image m)
    (st : GrowState) (h : GoodState image.grid st) :
    Ieee.growStep ord₁ image st = Ieee.growStep ord₂ image st := by
  unfold Ieee.growStep
  split
  · rfl
  · rename_i elem rest hq
    have helem : InBounds image.grid elem :=
      h.2.1 elem (by rw [hq]; exact List.mem_cons_self _ _)
    exact ieee_growNeighbours_order ord₁ ord₂ image hsize hthr elem helem offsets26
      (fun _ ho => ho) _
      ⟨h.1, fun p hp => h.2.1 p (by rw [hq]; exact List.mem_cons_of_mem _ hp), h.2.2⟩

theorem ieee_growLoop_order (ord₁ ord₂ : MapOrder) (image : InternalImage)
    (hsize : SizeRepresentable image.grid)
    (hthr : ∀ m, MapWF image.grid m →
      Ieee.ComputeThreshold ord₁ image m = Ieee.ComputeThreshold ord₂ image m)
    (n : Nat) (st : GrowState) (h : GoodState image.grid st) :
    Ieee.growLoop ord₁ image n st = Ieee.growLoop ord₂ image n st := by
  induction n generalizing st with
  | zero => rfl
  | succ n ih =>
    simp only [Ieee.growLoop]
    split
    · rfl
    · rw [← ieee_growStep_order ord₁ ord₂ image hsize hthr st h]
      cases hs : Ieee.growStep ord₁ image st with
      | none => rfl
      | some st1 => exact ih st1 (ieee_growStep_good ord₁ image hsize st st1 h hs)

/-- The result of `GrowRegions` is the same for two iteration orders of the map when
the two threshold functions give the same result for them on every well-formed map. -/
theorem ieee_GrowRegions_order (ord₁ ord₂ : MapOrder) (image : InternalImage)
    (hsize : SizeRepresentable image.grid) (seed : Point) (hseed : InBounds image.grid seed)
    (hthr : ∀ m, MapWF image.grid m →
      Ieee.ComputeThreshold ord₁ image m = Ieee.ComputeThreshold ord₂ image m)
    (hfin : ∀ m, MapWF image.grid m →
      Ieee.ComputeFinalThreshold ord₁ image m = Ieee.ComputeFinalThreshold ord₂ image m) :
    Ieee.Growing ord₁ image seed = Ieee.Growing ord₂ image seed ∧
      Ieee.GrowRegions ord₁ image seed = Ieee.GrowRegions ord₂ image seed := by
  obtain ⟨hwf, hqin⟩ := seedRegion_wf image.grid hsize seed hseed
  have hseeding : Ieee.Seeding ord₁ image seed = Ieee.Seeding ord₂ image seed := by
    unfold Ieee.Seeding
    simp only [hthr _ hwf]
  have hgrow : Ieee.Growing ord₁ image seed = Ieee.Growing ord₂ image seed := by
    unfold Ieee.Growing
    rw [← hseeding]
    cases h0 : Ieee.Seeding ord₁ image seed with
    | none => rfl
    | some st0 =>
      exact ieee_growLoop_order ord₁ ord₂ image hsize hthr iterCap st0
        (ieee_Seeding_good ord₁ image hsize seed hseed st0 h0)
  refine ⟨hgrow, ?_⟩
  unfold Ieee.GrowRegions
  rw [← hgrow]
  cases hg : Ieee.Growing ord₁ image seed with
  | none => rfl
  | some st =>
    exact hfin _ (ieee_Growing_good ord₁ image hsize seed hseed st hg).1

/-! ## Images on which every sum is exact -/

/-- A well-formed map of an exact image is an exact region. -/
theorem ExactRegion_of_ExactImage (image : InternalImage) (lo hi : Int)
    (hex : ExactImage image lo hi) (m : PointMap) (hm : MapWF image.grid m) :
    ExactRegion image m lo hi := by
  obtain ⟨hval, hmax, hsq, hlen⟩ := hex
  have hle : (m.length : Int) ≤ ((image.sx * image.sy * image.sz : Nat) : Int) := by
    have := MapWF_length_le_volume image.grid m hm
    exact_mod_cast this
  have hB : (0 : Int) ≤ max |lo| |hi| := le_trans (abs_nonneg lo) (le_max_left _ _)
  refine ⟨fun kv hkv => hval kv.2 (hm.2.1 kv hkv).2, ?_, ?_, le_trans hle hlen⟩
  · exact le_trans (mul_le_mul_of_nonneg_right hle hB) hmax
  · exact le_trans (mul_le_mul_of_nonneg_right hle (sq_nonneg _)) hsq

theorem sumWhere_true {α : Type} (f : α → Int) (l : List α) :
    sumWhere (fun _ => true) f l = (l.map f).sum := by
  unfold sumWhere
  rw [List.filter_true]

theorem sumWhere_nonneg {α : Type} (c : α → Bool) (f : α → Int) (l : List α)
    (h : ∀ a ∈ l, 0 ≤ f a) : 0 ≤ sumWhere c f l := by
  induction l with
  | nil => simp [sumWhere]
  | cons a l ih =>
    rw [sumWhere_cons]
    have := ih (fun b hb => h b (List.mem_cons_of_mem _ hb))
    have ha := h a (List.mem_cons_self _ _)
    split <;> linarith

/-- Some value of a non-empty list is at least the truncated mean, and some value is at
most the truncated mean. -/
theorem exists_around_truncated_mean (l : List Int) (hl : 0 < l.length) :
    (∃ v ∈ l, Int.tdiv l.sum l.length ≤ v) ∧ (∃ v ∈ l, v ≤ Int.tdiv l.sum l.length) := by
  obtain ⟨hu, hlo⟩ := halves_nonempty_of_truncated_mean l hl
  constructor
  · obtain ⟨v, hv⟩ := List.exists_mem_of_length_pos hu
    unfold upperHalf at hv
    rw [List.mem_filter] at hv
    exact ⟨v, hv.1, by simpa using hv.2⟩
  · obtain ⟨v, hv⟩ := List.exists_mem_of_length_pos hlo
    unfold lowerHalf at hv
    rw [List.mem_filter] at hv
    exact ⟨v, hv.1, by simpa using hv.2⟩

theorem sumWhere_one_ne_zero {α : Type} (c : α → Bool) (l : List α) (a : α) (ha : a ∈ l)
    (hc : c a = true) : sumWhere c (fun _ => (1 : Int)) l ≠ 0 := by
  rw [sumWhere_one_eq_length]
  have : a ∈ l.filter c := List.mem_filter.mpr ⟨ha, hc⟩
  have := List.length_pos_of_mem this
  omega

theorem sumWhere_one_pos {α : Type} (c : α → Bool) (l : List α)
    (h : sumWhere c (fun _ => (1 : Int)) l ≠ 0) :
    0 < sumWhere c (fun _ => (1 : Int)) l ∧
      sumWhere c (fun _ => (1 : Int)) l ≤ l.length := by
  rw [sumWhere_one_eq_length] at h ⊢
  have := List.length_filter_le c l
  constructor
  · have : 0 ≤ ((l.filter c).length : Int) := Int.ofNat_nonneg _
    omega
  · exact_mod_cast this

theorem tdiv_nonneg_le (a b : Int) (ha : 0 ≤ a) (hb : 0 < b) :
    0 ≤ Int.tdiv a b ∧ Int.tdiv a b ≤ a := by
  rw [Int.tdiv_eq_ediv ha hb.le]
  exact ⟨Int.ediv_nonneg ha hb.le, Int.ediv_le_self _ ha⟩

/-- On a non-empty exact region with values that are not negative, `ComputeStats`
returns: the mean lies between `lo` and `hi` and the deviations between 0 and
`2^26`. -/
theorem ieee_ComputeStats_isSome (ord : MapOrder) (image : InternalImage) (m : PointMap)
    (lo hi : Int) (hex : ExactRegion image m lo hi) (hlo : 0 ≤ lo) (hm : 0 < m.length) :
    ∃ mgv upper_dev lower_dev, Ieee.ComputeStats ord image m = some (mgv, upper_dev, lower_dev) ∧
      (lo ≤ mgv ∧ mgv ≤ hi) ∧ (0 ≤ upper_dev ∧ upper_dev ≤ 2 ^ 26) ∧
      (0 ≤ lower_dev ∧ lower_dev ≤ 2 ^ 26) := by
  have hexE := ExactRegion_perm image (ord.perm m).symm lo hi hex
  obtain ⟨hval, hmax, hsq, hlen⟩ := hexE
  have hlenE : (ord.enumerate m).length = m.length := (ord.perm m).length_eq
  have hB : (0 : Int) ≤ max |lo| |hi| := le_trans (abs_nonneg lo) (le_max_left _ _)
  have hN : (0 : Int) < (m.length : Int) := by exact_mod_cast hm
  have hhi : |hi| ≤ 2 ^ 24 := by
    have : |hi| ≤ max |lo| |hi| := le_max_right _ _
    rw [hlenE] at hmax
    nlinarith
  have hlo24 : |lo| ≤ 2 ^ 24 := by
    have : |lo| ≤ max |lo| |hi| := le_max_left _ _
    rw [hlenE] at hmax
    nlinarith
  -- the values
  set vals := (ord.enumerate m).map (fun kv => image.intPixel kv.2) with hvals
  have hvlen : vals.length = m.length := by rw [hvals, List.length_map, hlenE]
  have hvmem : ∀ v ∈ vals, lo ≤ v ∧ v ≤ hi := by
    intro v hv
    rw [hvals, List.mem_map] at hv
    obtain ⟨kv, hkv, rfl⟩ := hv
    exact (hval kv hkv).2
  have hS : sumWhere (fun _ => true) (fun kv : Int × Point => image.intPixel kv.2) m = vals.sum := by
    rw [← sumWhere_perm _ _ (ord.perm m), sumWhere_true]
  have hS0 : 0 ≤ vals.sum := by
    have := le_sum_of_forall_ge vals 0 (fun v hv => le_trans hlo (hvmem v hv).1)
    simpa using this
  have hS1 : vals.sum ≤ 2 ^ 24 := by
    have := sum_le_of_forall_le vals hi (fun v hv => (hvmem v hv).2)
    rw [hvlen] at this
    have h2 : (m.length : Int) * hi ≤ m.length * max |lo| |hi| :=
      mul_le_mul_of_nonneg_left (le_trans (le_abs_self hi) (le_max_right _ _)) hN.le
    rw [hlenE] at hmax
    linarith
  -- the mean
  have hmeanEq : Ieee.regionMean ord image m = some (Int.tdiv vals.sum m.length) := by
    rw [ieee_regionMean_exact ord image m lo hi hex, if_neg (by omega), hS,
      unsigned_div_of_nonneg _ _ hS0 (by unfold two63; omega)]
  obtain ⟨hm1, hm2⟩ := tdiv_sum_between vals lo hi (by omega) hvmem
  rw [hvlen] at hm1 hm2
  have hmean24 : |Int.tdiv vals.sum m.length| ≤ 2 ^ 24 := by
    rw [abs_le]
    have := abs_le.mp hhi
    have := abs_le.mp hlo24
    constructor <;> omega
  -- the two halves are not empty
  obtain ⟨⟨vu, hvu, hvu1⟩, ⟨vl, hvl, hvl1⟩⟩ := exists_around_truncated_mean vals (by omega)
  rw [hvlen] at hvu1 hvl1
  rw [hvals, List.mem_map] at hvu hvl
  obtain ⟨kvu, hkvu, hkvu1⟩ := hvu
  obtain ⟨kvl, hkvl, hkvl1⟩ := hvl
  have hupper : sumWhere (fun kv : Int × Point =>
      decide (image.GetPixel kv.2 ≥ toFloat ((Int.tdiv vals.sum m.length : Int) : ℚ)))
      (fun _ => (1 : Int)) (ord.enumerate m) ≠ 0 := by
    apply sumWhere_one_ne_zero _ _ kvu hkvu
    rw [decide_eq_true_eq, toFloat_int _ hmean24, pixel_eq_intPixel image kvu.2 (hval kvu hkvu).1,
      hkvu1]
    exact_mod_cast hvu1
  have hlower : sumWhere (fun kv : Int × Point =>
      decide (image.GetPixel kv.2 ≤ toFloat ((Int.tdiv vals.sum m.length : Int) : ℚ)))
      (fun _ => (1 : Int)) (ord.enumerate m) ≠ 0 := by
    apply sumWhere_one_ne_zero _ _ kvl hkvl
    rw [decide_eq_true_eq, toFloat_int _ hmean24, pixel_eq_intPixel image kvl.2 (hval kvl hkvl).1,
      hkvl1]
    exact_mod_cast hvl1
  -- the roots
  have hroot : ∀ (c : Int × Point → Bool) (um : Int),
      sumWhere c (fun _ => (1 : Int)) (ord.enumerate m) ≠ 0 → lo ≤ um → um ≤ hi →
      ∃ d, Ieee.sqrtLongLong (Int.tdiv
          (sumWhere c (fun kv => (image.intPixel kv.2 - um) ^ 2) (ord.enumerate m))
          (sumWhere c (fun _ => (1 : Int)) (ord.enumerate m))) = some d ∧ 0 ≤ d ∧ d ≤ 2 ^ 26 := by
    intro c um hnum h1 h2
    obtain ⟨hpos, _⟩ := sumWhere_one_pos c _ hnum
    have hs0 : 0 ≤ sumWhere c (fun kv : Int × Point => (image.intPixel kv.2 - um) ^ 2)
        (ord.enumerate m) := sumWhere_nonneg _ _ _ (fun kv _ => sq_nonneg _)
    have hs1 : sumWhere c (fun kv : Int × Point => (image.intPixel kv.2 - um) ^ 2)
        (ord.enumerate m) ≤ 2 ^ 24 := by
      have := abs_sumWhere_le c (fun kv : Int × Point => (image.intPixel kv.2 - um) ^ 2)
        ((hi - lo) ^ 2) (sq_nonneg _) (ord.enumerate m) (by
          intro kv hkv _
          rw [abs_of_nonneg (sq_nonneg _)]
          obtain ⟨_, hv1, hv2⟩ := hval kv hkv
          apply sq_le_sq'
          · linarith
          · linarith)
      rw [abs_of_nonneg hs0] at this
      linarith
    obtain ⟨t0, t1⟩ := tdiv_nonneg_le _ _ hs0 hpos
    obtain ⟨d, hd, hd0, hd1⟩ := sqrtLongLong_isSome _ t0 (by
      have : (2 : Int) ^ 24 ≤ 2 ^ 53 := by norm_num
      linarith)
    exact ⟨d, hd, hd0, by
      have : (2 : Int) * (2 ^ 24 + 2) ≤ 2 ^ 26 := by norm_num
      linarith⟩
  have hbetween : ∀ kv ∈ ord.enumerate m, lo ≤ image.intPixel kv.2 ∧ image.intPixel kv.2 ≤ hi :=
    fun kv hkv => (hval kv hkv).2
  obtain ⟨u1, u2⟩ := halfMean_between _ (fun kv => image.intPixel kv.2) (ord.enumerate m) lo hi
    hbetween hupper
  obtain ⟨l1, l2⟩ := halfMean_between _ (fun kv => image.intPixel kv.2) (ord.enumerate m) lo hi
    hbetween hlower
  obtain ⟨du, hdu, hdu0, hdu1⟩ := hroot _ _ hupper u1 u2
  obtain ⟨dl, hdl, hdl0, hdl1⟩ := hroot _ _ hlower l1 l2
  refine ⟨Int.tdiv vals.sum m.length, du, dl, ?_, ⟨hm1, hm2⟩, ⟨hdu0, hdu1⟩, ⟨hdl0, hdl1⟩⟩
  unfold Ieee.ComputeStats
  rw [hmeanEq]
  simp only []
  rw [ieee_halfDeviations_exact image _ lo hi (ExactRegion_perm image (ord.perm m).symm lo hi hex)]
  unfold Ieee.halfDeviationsOfSums
  simp only []
  rw [if_neg hupper, if_neg hlower, hdu, hdl]

/-- On a non-empty exact region with values that are not negative both threshold
functions return bounds. -/
theorem ieee_thresholds_isSome (ord : MapOrder) (image : InternalImage) (m : PointMap)
    (lo hi : Int) (hex : ExactRegion image m lo hi) (hlo : 0 ≤ lo) (hm : 0 < m.length) :
    (∃ b, Ieee.ComputeThreshold ord image m = some b) ∧
      (∃ b, Ieee.ComputeFinalThreshold ord image m = some b) := by
  obtain ⟨mgv, ud, ld, hs, ⟨hm1, hm2⟩, ⟨hu0, hu1⟩, ⟨hl0, hl1⟩⟩ :=
    ieee_ComputeStats_isSome ord image m lo hi hex hlo hm
  obtain ⟨_, hmax, _, hlen⟩ := hex
  have hN : (0 : Int) < (m.length : Int) := by exact_mod_cast hm
  have hmgv : |mgv| ≤ 2 ^ 53 := by
    have h1 : |hi| ≤ max |lo| |hi| := le_max_right _ _
    have h2 : |hi| ≤ 2 ^ 24 := by nlinarith
    have h3 := abs_le.mp h2
    rw [abs_le]
    constructor <;> omega
  have hn1 : 1 ≤ m.length := hm
  have hn2 : m.length ≤ 2 ^ 53 := by
    have : (m.length : Int) ≤ 2 ^ 53 := le_trans hlen (by norm_num)
    exact_mod_cast this
  have hdev : ∀ d : Int, 0 ≤ d → d ≤ 2 ^ 26 →
      |d| ≤ 2 ^ 53 ∧ |d * 2| ≤ 2 ^ 53 ∧ |(d : ℚ)| ≤ 2 ^ 26 := by
    intro d h0 h1
    refine ⟨?_, ?_, ?_⟩
    · rw [abs_of_nonneg h0]; omega
    · rw [abs_of_nonneg (by omega)]; omega
    · rw [abs_of_nonneg (by exact_mod_cast h0)]; exact_mod_cast h1
  obtain ⟨hu53, hu253, huq⟩ := hdev ud hu0 hu1
  obtain ⟨hl53, hl253, hlq⟩ := hdev ld hl0 hl1
  have hsu : |Ieee.spread ud| ≤ 2 ^ 56 := by
    have := abs_spread_le ud hu53
    norm_num at huq ⊢
    linarith
  have hsl : |Ieee.spread ld| ≤ 2 ^ 56 := by
    have := abs_spread_le ld hl53
    norm_num at hlq ⊢
    linarith
  have hfu : |Ieee.finalSpread ud| ≤ 2 ^ 56 := by
    have := abs_finalSpread_le ud hu253
    norm_num at huq ⊢
    linarith
  have hfl : |Ieee.finalSpread ld| ≤ 2 ^ 56 := by
    have := abs_finalSpread_le ld hl253
    norm_num at hlq ⊢
    linarith
  obtain ⟨⟨u, hu⟩, _⟩ := bounds_isSome mgv (Ieee.spread ud) m.length hmgv hsu hn1 hn2
  obtain ⟨_, ⟨l, hl⟩⟩ := bounds_isSome mgv (Ieee.spread ld) m.length hmgv hsl hn1 hn2
  obtain ⟨⟨uf, huf⟩, _⟩ := bounds_isSome mgv (Ieee.finalSpread ud) m.length hmgv hfu hn1 hn2
  obtain ⟨_, ⟨lf, hlf⟩⟩ := bounds_isSome mgv (Ieee.finalSpread ld) m.length hmgv hfl hn1 hn2
  constructor
  · refine ⟨(u, l), ?_⟩
    unfold Ieee.ComputeThreshold
    rw [hs]
    simp only [hu, hl]
  · refine ⟨(uf, lf), ?_⟩
    unfold Ieee.ComputeFinalThreshold
    rw [hs]
    simp only [huf, hlf]

/-- On an exact region the two threshold functions do not depend on the order in which
the map is enumerated. -/
theorem ieee_thresholds_order_of_exact (ord₁ ord₂ : MapOrder) (image : InternalImage)
    (m : PointMap) (lo hi : Int) (hex : ExactRegion image m lo hi) :
    Ieee.ComputeThreshold ord₁ image m = Ieee.ComputeThreshold ord₂ image m ∧
      Ieee.ComputeFinalThreshold ord₁ image m = Ieee.ComputeFinalThreshold ord₂ image m := by
  unfold Ieee.ComputeThreshold Ieee.ComputeFinalThreshold
  rw [ieee_ComputeStats_order_of_exact ord₁ ord₂ image m lo hi hex]
  exact ⟨rfl, rfl⟩

/-- On an exact image with values that are not negative, of representable sizes, the
run of `GrowRegions` from a seed inside the image returns bounds. -/
theorem ieee_GrowRegions_isSome_of_exact (ord : MapOrder) (image : InternalImage)
    (lo hi : Int) (seed : Point) (hsize : SizeRepresentable image.grid)
    (hseed : InBounds image.grid seed) (hex : ExactImage image lo hi) (hlo : 0 ≤ lo) :
    ∃ st b, Ieee.Growing ord image seed = some st ∧ Ieee.GrowRegions ord image seed = some b :=
  ieee_GrowRegions_isSome ord image hsize seed hseed
    (fun m hm => (ieee_thresholds_isSome ord image m lo hi
      (ExactRegion_of_ExactImage image lo hi hex m hm) hlo hm.1).1)
    (fun m hm => (ieee_thresholds_isSome ord image m lo hi
      (ExactRegion_of_ExactImage image lo hi hex m hm) hlo hm.1).2)

/-- On an exact image of representable sizes the run of `GrowRegions` from a seed
inside the image does not depend on the order in which the map is enumerated. -/
theorem ieee_GrowRegions_order_of_exact (ord₁ ord₂ : MapOrder) (image : InternalImage)
    (lo hi : Int) (seed : Point) (hsize : SizeRepresentable image.grid)
    (hseed : InBounds image.grid seed) (hex : ExactImage image lo hi) :
    Ieee.GrowRegions ord₁ image seed = Ieee.GrowRegions ord₂ image seed :=
  (ieee_GrowRegions_order ord₁ ord₂ image hsize seed hseed
    (fun m hm => (ieee_thresholds_order_of_exact ord₁ ord₂ image m lo hi
      (ExactRegion_of_ExactImage image lo hi hex m hm)).1)
    (fun m hm => (ieee_thresholds_order_of_exact ord₁ ord₂ image m lo hi
      (ExactRegion_of_ExactImage image lo hi hex m hm)).2)).2

/-! ## The `double` expressions and the real numbers -/

theorem toDouble_error_real (x : ℚ) : |((toDouble x : ℚ) : ℝ) - (x : ℝ)| ≤ |(x : ℝ)| / 2 ^ 53 := by
  have h := toDouble_error x
  have : ((|toDouble x - x| : ℚ) : ℝ) ≤ ((|x| / 2 ^ 53 : ℚ) : ℝ) := by exact_mod_cast h
  push_cast at this
  exact this

/-- The computed root is within a relative error of `2^(-52)` of the real root. -/
theorem sqrtDouble_error (x : ℚ) (hx : 0 < x) :
    |((sqrtDouble x : ℚ) : ℝ) - √(x : ℝ)| ≤ √(x : ℝ) / 2 ^ 52 := by
  obtain ⟨t, s, d, hsd, hd, hle, hlt, hbig, h4⟩ := sqrtDouble_spec x hx
  have hxR : (0 : ℝ) < (x : ℝ) := by exact_mod_cast hx
  have h2s : (0 : ℝ) < (2 : ℝ) ^ s := zpow_pos (by norm_num) _
  have hsx : (0 : ℝ) < √(x : ℝ) := Real.sqrt_pos.mpr hxR
  -- the facts about `t` in the reals, with `y = x * (2^s)^2`
  have hleR : (t : ℝ) * t ≤ (x : ℝ) * ((2 : ℝ) ^ s * (2 : ℝ) ^ s) := by
    have : ((t : ℚ) * t : ℚ) ≤ x * ((2 : ℚ) ^ s * (2 : ℚ) ^ s) := by rw [← h4]; exact hle
    have h := (Rat.cast_le (K := ℝ)).mpr this
    push_cast at h
    exact h
  have hltR : (x : ℝ) * ((2 : ℝ) ^ s * (2 : ℝ) ^ s) < ((t : ℝ) + 1) * ((t : ℝ) + 1) := by
    have : x * ((2 : ℚ) ^ s * (2 : ℚ) ^ s) < ((t : ℚ) + 1) * ((t : ℚ) + 1) := by
      rw [← h4]; exact hlt
    have h := (Rat.cast_lt (K := ℝ)).mpr this
    push_cast at h
    exact h
  have hbigR : (2 : ℝ) ^ (120 : Nat) ≤ (x : ℝ) * ((2 : ℝ) ^ s * (2 : ℝ) ^ s) := by
    have : (2 : ℚ) ^ (120 : Nat) ≤ x * ((2 : ℚ) ^ s * (2 : ℚ) ^ s) := by rw [← h4]; exact hbig
    have h := (Rat.cast_le (K := ℝ)).mpr this
    push_cast at h
    exact h
  -- the root of `y`
  have hsq : √(x : ℝ) * √(x : ℝ) = (x : ℝ) := Real.mul_self_sqrt hxR.le
  set r := √(x : ℝ) * (2 : ℝ) ^ s with hr
  have hr0 : 0 < r := mul_pos hsx h2s
  have hrr : r * r = (x : ℝ) * ((2 : ℝ) ^ s * (2 : ℝ) ^ s) := by
    rw [hr]; nlinarith
  have ht0 : (0 : ℝ) ≤ (t : ℝ) := Nat.cast_nonneg t
  have htr : (t : ℝ) ≤ r := by
    by_contra hc
    have : r < t := not_le.mp hc
    nlinarith
  have hrt : r < (t : ℝ) + 1 := by
    by_contra hc
    have : (t : ℝ) + 1 ≤ r := not_lt.mp hc
    nlinarith
  have hr60 : (2 : ℝ) ^ (60 : Nat) ≤ r := by
    by_contra hc
    have h1 : r < (2 : ℝ) ^ (60 : Nat) := not_le.mp hc
    have h2 : r * r < (2 : ℝ) ^ (60 : Nat) * (2 : ℝ) ^ (60 : Nat) :=
      mul_lt_mul'' h1 h1 hr0.le hr0.le
    have h3 : (2 : ℝ) ^ (60 : Nat) * (2 : ℝ) ^ (60 : Nat) = (2 : ℝ) ^ (120 : Nat) := by norm_num
    linarith
  have hdR : (0 : ℝ) ≤ (d : ℝ) ∧ (d : ℝ) ≤ 1 / 2 ∧ ((d : ℝ) = 0 → (t : ℝ) = r) := by
    rcases hd with ⟨h, heq⟩ | ⟨h, _⟩
    · refine ⟨by rw [h]; norm_num, by rw [h]; norm_num, fun _ => ?_⟩
      have : ((t : ℚ) * t : ℚ) = x * ((2 : ℚ) ^ s * (2 : ℚ) ^ s) := by rw [← h4]; exact heq
      have h1 := congrArg (fun q : ℚ => (q : ℝ)) this
      simp only [] at h1
      push_cast at h1
      have h2 : (t : ℝ) * t = r * r := by rw [hrr]; exact h1
      nlinarith
    · refine ⟨by rw [h]; norm_num, by rw [h]; norm_num, fun h0 => ?_⟩
      rw [h] at h0
      norm_num at h0
  obtain ⟨hd0, hd1, hd2⟩ := hdR
  -- the rounded argument `z` and its distance from the root
  set z : ℝ := ((t : ℝ) + (d : ℝ)) / (2 : ℝ) ^ s with hz
  have hzcast : ((((t : ℚ) + d) / (2 : ℚ) ^ s : ℚ) : ℝ) = z := by
    rw [hz]; push_cast; rfl
  have hroot : √(x : ℝ) = r / (2 : ℝ) ^ s := by
    rw [hr]; field_simp
  have hdist : |z - √(x : ℝ)| ≤ 1 / (2 : ℝ) ^ s := by
    rw [hroot, hz, ← sub_div, abs_div, abs_of_pos h2s]
    apply div_le_div_of_nonneg_right _ h2s.le
    rw [abs_le]
    constructor <;> linarith
  have hinv : 1 / (2 : ℝ) ^ s ≤ √(x : ℝ) / 2 ^ (60 : Nat) := by
    have h1 : (1 : ℝ) ≤ r / 2 ^ (60 : Nat) := by
      rw [le_div_iff₀ (by positivity)]; linarith
    calc 1 / (2 : ℝ) ^ s ≤ r / 2 ^ (60 : Nat) / (2 : ℝ) ^ s :=
          div_le_div_of_nonneg_right h1 h2s.le
      _ = √(x : ℝ) / 2 ^ (60 : Nat) := by rw [hroot, div_right_comm]
  have hz0 : 0 ≤ z := by rw [hz]; positivity
  have hzle : z ≤ √(x : ℝ) + √(x : ℝ) / 2 ^ (60 : Nat) := by
    have := (abs_le.mp hdist).2
    linarith
  have hround := toDouble_error_real (((t : ℚ) + d) / (2 : ℚ) ^ s)
  rw [hzcast, abs_of_nonneg hz0] at hround
  rw [hsd]
  have h1 : |((toDouble (((t : ℚ) + d) / (2 : ℚ) ^ s) : ℚ) : ℝ) - √(x : ℝ)|
      ≤ |((toDouble (((t : ℚ) + d) / (2 : ℚ) ^ s) : ℚ) : ℝ) - z| + |z - √(x : ℝ)| := by
    have := abs_add (((toDouble (((t : ℚ) + d) / (2 : ℚ) ^ s) : ℚ) : ℝ) - z) (z - √(x : ℝ))
    simpa using this
  have h2 : z / 2 ^ 53 ≤ (√(x : ℝ) + √(x : ℝ) / 2 ^ (60 : Nat)) / 2 ^ 53 :=
    div_le_div_of_nonneg_right hzle (by positivity)
  have h3 : (√(x : ℝ) + √(x : ℝ) / 2 ^ (60 : Nat)) / 2 ^ 53 + √(x : ℝ) / 2 ^ (60 : Nat)
      ≤ √(x : ℝ) / 2 ^ 52 := by
    have : (√(x : ℝ) + √(x : ℝ) / 2 ^ (60 : Nat)) / 2 ^ 53 + √(x : ℝ) / 2 ^ (60 : Nat)
        = √(x : ℝ) * (1 / 2 ^ 53 + 1 / 2 ^ 113 + 1 / 2 ^ 60) := by
      field_simp
      ring
    rw [this, div_eq_mul_one_div]
    apply mul_le_mul_of_nonneg_left _ hsx.le
    norm_num
  linarith

theorem toDouble_error_abs (x : ℚ) (b : ℚ) (h : |x| ≤ b) : |toDouble x - x| ≤ b / 2 ^ 53 :=
  le_trans (toDouble_error x) (div_le_div_of_nonneg_right h (by norm_num))

/-- The `double` value of `dev * 2 * 2.58` is within `2^(-17)` of `dev * 5.16` for a
deviation between 0 and `2^32`. -/
theorem finalSpread_error (dev : Int) (h0 : 0 ≤ dev) (h1 : dev ≤ 2 ^ 32) :
    |Ieee.finalSpread dev - (dev : ℚ) * (129 / 25)| ≤ 1 / 2 ^ 17 := by
  have hd2 : |dev * 2| ≤ 2 ^ 53 := by
    rw [abs_of_nonneg (by omega)]; omega
  have hq0 : (0 : ℚ) ≤ (dev : ℚ) := by exact_mod_cast h0
  have hq1 : (dev : ℚ) ≤ 2 ^ 32 := by exact_mod_cast h1
  have hc : |Ieee.literal258 - 258 / 100| ≤ (258 / 100) / 2 ^ 53 := by
    unfold Ieee.literal258
    have := toDouble_error (258 / 100)
    rwa [abs_of_pos (by norm_num : (0 : ℚ) < 258 / 100)] at this
  obtain ⟨c1, c2⟩ := abs_le.mp hc
  unfold Ieee.finalSpread
  rw [toDouble_int (dev * 2) hd2]
  push_cast
  have hP0 : 0 ≤ (dev : ℚ) * 2 * Ieee.literal258 := by
    apply mul_nonneg (by linarith)
    norm_num at c1
    linarith
  have hP1 : (dev : ℚ) * 2 * Ieee.literal258 ≤ 2 ^ 35 := by
    have : Ieee.literal258 ≤ 3 := by norm_num at c2; linarith
    nlinarith
  have hr := toDouble_error_abs ((dev : ℚ) * 2 * Ieee.literal258) (2 ^ 35)
    (by rw [abs_of_nonneg hP0]; exact hP1)
  obtain ⟨r1, r2⟩ := abs_le.mp hr
  have hlit : |(dev : ℚ) * 2 * Ieee.literal258 - (dev : ℚ) * (129 / 25)| ≤ 2 ^ 35 / 2 ^ 53 := by
    have : (dev : ℚ) * 2 * Ieee.literal258 - (dev : ℚ) * (129 / 25)
        = (dev : ℚ) * 2 * (Ieee.literal258 - 258 / 100) := by ring
    rw [this, abs_mul, abs_of_nonneg (by linarith : (0 : ℚ) ≤ (dev : ℚ) * 2)]
    calc (dev : ℚ) * 2 * |Ieee.literal258 - 258 / 100|
        ≤ (2 ^ 32 * 2) * ((258 / 100) / 2 ^ 53) :=
          mul_le_mul (by linarith) hc (abs_nonneg _) (by norm_num)
      _ ≤ 2 ^ 35 / 2 ^ 53 := by norm_num
  obtain ⟨l1, l2⟩ := abs_le.mp hlit
  rw [abs_le]
  constructor
  · norm_num at r1 l1 ⊢; linarith
  · norm_num at r2 l2 ⊢; linarith

/-- The `double` value of `20 / sqrt(size)` is within `2^(-45)` of the real number for
a size between 1 and `2^53`. -/
theorem sizeTerm_error (n : Nat) (h1 : 1 ≤ n) (h2 : n ≤ 2 ^ 53) :
    |((Ieee.sizeTerm n : ℚ) : ℝ) - 20 / √(n : ℝ)| ≤ 1 / 2 ^ 45 := by
  have hn : |(n : Int)| ≤ 2 ^ 53 := by
    rw [abs_of_nonneg (Int.ofNat_nonneg n)]
    exact_mod_cast h2
  have hcast : ((n : Nat) : ℚ) = ((n : Int) : ℚ) := by push_cast; rfl
  have hnq : (1 : ℚ) ≤ (n : ℚ) := by exact_mod_cast h1
  have hnR : (1 : ℝ) ≤ (n : ℝ) := by exact_mod_cast h1
  have hsqrt1 : (1 : ℝ) ≤ √(n : ℝ) := by
    rw [show (1 : ℝ) = √1 by simp]
    exact Real.sqrt_le_sqrt hnR
  have herr := sqrtDouble_error (n : ℚ) (by linarith)
  rw [show (((n : ℚ) : ℝ)) = (n : ℝ) by push_cast; rfl] at herr
  obtain ⟨e1, e2⟩ := abs_le.mp herr
  have hsmall : √(n : ℝ) / 2 ^ 52 ≤ √(n : ℝ) / 2 := by
    apply div_le_div_of_nonneg_left (by linarith) (by norm_num) (by norm_num)
  have hsqpos : (0 : ℝ) < ((sqrtDouble (n : ℚ) : ℚ) : ℝ) := by linarith
  have hsqhalf : (1 : ℝ) / 2 ≤ ((sqrtDouble (n : ℚ) : ℚ) : ℝ) := by linarith
  have hsqrtpos : (0 : ℝ) < √(n : ℝ) := by linarith
  -- the quotient before rounding
  have hquot : |(20 : ℝ) / ((sqrtDouble (n : ℚ) : ℚ) : ℝ) - 20 / √(n : ℝ)| ≤ 40 / 2 ^ 52 := by
    have : (20 : ℝ) / ((sqrtDouble (n : ℚ) : ℚ) : ℝ) - 20 / √(n : ℝ)
        = 20 * (√(n : ℝ) - ((sqrtDouble (n : ℚ) : ℚ) : ℝ))
          / (((sqrtDouble (n : ℚ) : ℚ) : ℝ) * √(n : ℝ)) := by
      field_simp
      ring
    rw [this, abs_div, abs_mul, abs_of_pos (mul_pos hsqpos hsqrtpos),
      abs_of_pos (by norm_num : (0 : ℝ) < 20), div_le_iff₀ (mul_pos hsqpos hsqrtpos)]
    have h3 : |√(n : ℝ) - ((sqrtDouble (n : ℚ) : ℚ) : ℝ)| ≤ √(n : ℝ) / 2 ^ 52 := by
      rw [abs_sub_comm]; exact herr
    have h4 : √(n : ℝ) / 2 ^ 52 * 20 ≤ 40 / 2 ^ 52 * (((sqrtDouble (n : ℚ) : ℚ) : ℝ) * √(n : ℝ)) := by
      have : 40 / 2 ^ 52 * (((sqrtDouble (n : ℚ) : ℚ) : ℝ) * √(n : ℝ))
          = (√(n : ℝ) / 2 ^ 52) * (40 * ((sqrtDouble (n : ℚ) : ℚ) : ℝ)) := by ring
      rw [this]
      apply mul_le_mul_of_nonneg_left (by linarith) (by positivity)
    nlinarith
  -- the rounding of the quotient
  have hq40 : |(20 : ℚ) / sqrtDouble (n : ℚ)| ≤ 40 := by
    have hqhalf : (1 : ℚ) / 2 ≤ sqrtDouble (n : ℚ) := by
      have : ((1 / 2 : ℚ) : ℝ) ≤ ((sqrtDouble (n : ℚ) : ℚ) : ℝ) := by
        push_cast; exact hsqhalf
      exact (Rat.cast_le (K := ℝ)).mp this
    have hqpos : (0 : ℚ) < sqrtDouble (n : ℚ) := by linarith
    rw [abs_of_nonneg (div_nonneg (by norm_num) hqpos.le), div_le_iff₀ hqpos]
    linarith
  have hround := toDouble_error_abs _ 40 hq40
  have hroundR : |((toDouble (20 / sqrtDouble (n : ℚ)) : ℚ) : ℝ)
      - (20 : ℝ) / ((sqrtDouble (n : ℚ) : ℚ) : ℝ)| ≤ 40 / 2 ^ 53 := by
    have : ((|toDouble (20 / sqrtDouble (n : ℚ)) - 20 / sqrtDouble (n : ℚ)| : ℚ) : ℝ)
        ≤ ((40 / 2 ^ 53 : ℚ) : ℝ) := by exact_mod_cast hround
    push_cast at this
    exact this
  unfold Ieee.sizeTerm
  rw [hcast, toDouble_int (n : Int) hn, ← hcast]
  obtain ⟨a1, a2⟩ := abs_le.mp hquot
  obtain ⟨b1, b2⟩ := abs_le.mp hroundR
  rw [abs_le]
  constructor
  · norm_num at a1 b1 ⊢; linarith
  · norm_num at a2 b2 ⊢; linarith

theorem isTruncation_truncate (q : ℚ) : IsTruncation ((q : ℚ) : ℝ) (truncate q) := by
  unfold IsTruncation truncate
  constructor
  · intro h
    have hq : 0 ≤ q := by exact_mod_cast h
    rw [if_pos hq, Rat.floor_cast]
  · intro h
    have hq : ¬ 0 ≤ q := by
      have : q < 0 := by exact_mod_cast h
      exact not_le.mpr this
    rw [if_neg hq, Rat.ceil_cast]

theorem isTruncation_exists (x : ℝ) : ∃ t, IsTruncation x t := by
  by_cases h : 0 ≤ x
  · exact ⟨⌊x⌋, fun _ => rfl, fun hn => absurd h (not_le.mpr hn)⟩
  · exact ⟨⌈x⌉, fun hp => absurd hp h, fun _ => rfl⟩

/-- Two real numbers less than 1 apart have truncations at most 1 apart. -/
theorem truncation_near (x y : ℝ) (tx ty : Int) (hx : IsTruncation x tx)
    (hy : IsTruncation y ty) (h : |x - y| < 1) : |tx - ty| ≤ 1 := by
  obtain ⟨h1, h2⟩ := abs_lt.mp h
  have key : ∀ (a b : ℝ) (ta tb : Int), IsTruncation a ta → IsTruncation b tb →
      a - b < 1 → b - a < 1 → ta - tb ≤ 1 := by
    intro a b ta tb ha hb hab hba
    by_cases ha0 : 0 ≤ a
    · have hta := ha.1 ha0
      by_cases hb0 : 0 ≤ b
      · have htb := hb.1 hb0
        have f1 : (⌊a⌋ : ℝ) ≤ a := Int.floor_le a
        have f2 : b < (⌊b⌋ : ℝ) + 1 := Int.lt_floor_add_one b
        have : (ta : ℝ) < (tb : ℝ) + 2 := by rw [hta, htb]; linarith
        have : ta < tb + 2 := by exact_mod_cast this
        omega
      · have hbn : b < 0 := not_le.mp hb0
        have htb := hb.2 hbn
        have f1 : (⌊a⌋ : ℝ) ≤ a := Int.floor_le a
        have f2 : b ≤ (⌈b⌉ : ℝ) := Int.le_ceil b
        have : (ta : ℝ) < (tb : ℝ) + 1 + 1 := by rw [hta, htb]; linarith
        have : ta < tb + 1 + 1 := by exact_mod_cast this
        omega
    · have han : a < 0 := not_le.mp ha0
      have hta := ha.2 han
      have hta0 : ta ≤ 0 := by
        rw [hta]; exact Int.ceil_le.mpr (by simpa using han.le)
      by_cases hb0 : 0 ≤ b
      · have htb := hb.1 hb0
        have : 0 ≤ tb := by rw [htb]; exact Int.floor_nonneg.mpr hb0
        omega
      · have hbn : b < 0 := not_le.mp hb0
        have htb := hb.2 hbn
        have f1 : (⌈a⌉ : ℝ) < a + 1 := Int.ceil_lt_add_one a
        have f2 : b ≤ (⌈b⌉ : ℝ) := Int.le_ceil b
        have : (ta : ℝ) < (tb : ℝ) + 2 := by rw [hta, htb]; linarith
        have : ta < tb + 2 := by exact_mod_cast this
        omega
  rw [abs_le]
  constructor
  · have := key y x ty tx hy hx (by linarith) (by linarith)
    omega
  · exact key x y tx ty hx hy (by linarith) (by linarith)

theorem cast_abs_le_real (q b : ℚ) (h : |q| ≤ b) : |(q : ℝ)| ≤ (b : ℝ) := by
  have : ((|q| : ℚ) : ℝ) ≤ (b : ℝ) := by exact_mod_cast h
  push_cast at this
  exact this

/-- The `double` value that the final pass converts lies within one quarter of the
real number `mgv ± (dev * 5.16 + 20 / sqrt n)`, for a mean of magnitude at most `2^50`,
a deviation between 0 and `2^32` and a size between 1 and `2^53`. -/
theorem final_value_error (mgv dev : Int) (n : Nat) (sign : ℚ) (hsign : sign = 1 ∨ sign = -1)
    (hm : |mgv| ≤ 2 ^ 50) (h0 : 0 ≤ dev) (h1 : dev ≤ 2 ^ 32) (hn1 : 1 ≤ n) (hn2 : n ≤ 2 ^ 53) :
    |((toDouble (toDouble (mgv : ℚ)
          + sign * toDouble (Ieee.finalSpread dev + Ieee.sizeTerm n)) : ℚ) : ℝ)
      - ((mgv : ℝ) + (sign : ℝ) * ((dev : ℝ) * 5.16 + 20 / √(n : ℝ)))| ≤ 1 / 4 ∧
    |toDouble (toDouble (mgv : ℚ)
          + sign * toDouble (Ieee.finalSpread dev + Ieee.sizeTerm n))| ≤ 2 ^ 62 := by
  have hm53 : |mgv| ≤ 2 ^ 53 := le_trans hm (by norm_num)
  have hmq : |(mgv : ℚ)| ≤ 2 ^ 50 := by exact_mod_cast hm
  have hq0 : (0 : ℚ) ≤ (dev : ℚ) := by exact_mod_cast h0
  have hq1 : (dev : ℚ) ≤ 2 ^ 32 := by exact_mod_cast h1
  have hfs := finalSpread_error dev h0 h1
  have hst := sizeTerm_error n hn1 hn2
  have hst160 := abs_sizeTerm_le n hn1 hn2
  have hsabs : |sign| = 1 := by
    rcases hsign with h | h <;> rw [h] <;> norm_num
  -- the sum of the two terms
  have hfsabs : |Ieee.finalSpread dev| ≤ 2 ^ 35 - 161 := by
    have hA : |(dev : ℚ) * (129 / 25)| ≤ 2 ^ 32 * (129 / 25) := by
      rw [abs_of_nonneg (by positivity)]
      linarith
    have := abs_sub_abs_le_abs_sub (Ieee.finalSpread dev) ((dev : ℚ) * (129 / 25))
    norm_num at hA hfs this ⊢
    linarith
  have hsum : |Ieee.finalSpread dev + Ieee.sizeTerm n| ≤ 2 ^ 35 := by
    have := abs_add (Ieee.finalSpread dev) (Ieee.sizeTerm n)
    linarith
  have hw := toDouble_error_abs _ _ hsum
  have hwabs : |toDouble (Ieee.finalSpread dev + Ieee.sizeTerm n)| ≤ 2 ^ 36 := by
    have := abs_toDouble_le (Ieee.finalSpread dev + Ieee.sizeTerm n)
    norm_num at hsum this ⊢
    linarith
  -- the outer sum
  have hswabs : |sign * toDouble (Ieee.finalSpread dev + Ieee.sizeTerm n)| ≤ 2 ^ 36 := by
    rw [abs_mul, hsabs, one_mul]; exact hwabs
  have houter : |toDouble (mgv : ℚ) + sign * toDouble (Ieee.finalSpread dev + Ieee.sizeTerm n)|
      ≤ 2 ^ 50 + 2 ^ 36 := by
    rw [toDouble_int mgv hm53]
    have := abs_add (mgv : ℚ) (sign * toDouble (Ieee.finalSpread dev + Ieee.sizeTerm n))
    linarith
  have hv := toDouble_error_abs _ _ houter
  constructor
  · -- all the errors in the reals
    have hvR := cast_abs_le_real _ _ hv
    have hwR := cast_abs_le_real _ _ hw
    have hfsR := cast_abs_le_real _ _ hfs
    have hsR : |(sign : ℝ)| = 1 := by
      rcases hsign with h | h <;> rw [h] <;> norm_num
    push_cast at hvR hwR hfsR
    rw [toDouble_int mgv hm53] at hvR ⊢
    push_cast at hvR ⊢
    have hA : ((dev : ℝ) * 5.16) = (dev : ℝ) * (129 / 25) := by norm_num
    rw [hA]
    set V : ℝ := ((toDouble ((mgv : ℚ) + sign * toDouble (Ieee.finalSpread dev + Ieee.sizeTerm n)) : ℚ) : ℝ)
    set W : ℝ := ((toDouble (Ieee.finalSpread dev + Ieee.sizeTerm n) : ℚ) : ℝ)
    set F : ℝ := ((Ieee.finalSpread dev : ℚ) : ℝ)
    set S : ℝ := ((Ieee.sizeTerm n : ℚ) : ℝ)
    have hdecomp : V - ((mgv : ℝ) + (sign : ℝ) * ((dev : ℝ) * (129 / 25) + 20 / √(n : ℝ)))
        = (V - ((mgv : ℝ) + (sign : ℝ) * W))
          + (sign : ℝ) * ((W - (F + S)) + (F - (dev : ℝ) * (129 / 25)) + (S - 20 / √(n : ℝ))) := by
      ring
    rw [hdecomp]
    have t1 := abs_add (V - ((mgv : ℝ) + (sign : ℝ) * W))
      ((sign : ℝ) * ((W - (F + S)) + (F - (dev : ℝ) * (129 / 25)) + (S - 20 / √(n : ℝ))))
    have t2 : |(sign : ℝ) * ((W - (F + S)) + (F - (dev : ℝ) * (129 / 25)) + (S - 20 / √(n : ℝ)))|
        = |(W - (F + S)) + (F - (dev : ℝ) * (129 / 25)) + (S - 20 / √(n : ℝ))| := by
      rw [abs_mul, hsR, one_mul]
    have t3 := abs_add ((W - (F + S)) + (F - (dev : ℝ) * (129 / 25))) (S - 20 / √(n : ℝ))
    have t4 := abs_add (W - (F + S)) (F - (dev : ℝ) * (129 / 25))
    norm_num at hvR hwR hfsR hst ⊢
    linarith
  · have := abs_toDouble_le
      (toDouble (mgv : ℚ) + sign * toDouble (Ieee.finalSpread dev + Ieee.sizeTerm n))
    norm_num at houter this ⊢
    linarith

/-- The bounds of the final pass are defined and differ by at most 1 from the real
numbers `mgv ± (dev * 5.16 + 20 / sqrt n)` truncated toward zero, for a mean of
magnitude at most `2^50`, a deviation between 0 and `2^32` and a size between 1 and
`2^53`. -/
theorem final_bounds_near_real (mgv dev : Int) (n : Nat)
    (hm : |mgv| ≤ 2 ^ 50) (h0 : 0 ≤ dev) (h1 : dev ≤ 2 ^ 32) (hn1 : 1 ≤ n) (hn2 : n ≤ 2 ^ 53) :
    (∃ u t, Ieee.boundAbove mgv (Ieee.finalSpread dev) n = some u ∧
      IsTruncation ((mgv : ℝ) + ((dev : ℝ) * 5.16 + 20 / √(n : ℝ))) t ∧ |u - t| ≤ 1) ∧
    (∃ l t, Ieee.boundBelow mgv (Ieee.finalSpread dev) n = some l ∧
      IsTruncation ((mgv : ℝ) - ((dev : ℝ) * 5.16 + 20 / √(n : ℝ))) t ∧ |l - t| ≤ 1) := by
  obtain ⟨ea, ra⟩ := final_value_error mgv dev n 1 (Or.inl rfl) hm h0 h1 hn1 hn2
  obtain ⟨eb, rb⟩ := final_value_error mgv dev n (-1) (Or.inr rfl) hm h0 h1 hn1 hn2
  simp only [one_mul, neg_one_mul, ← sub_eq_add_neg] at ea ra eb rb
  push_cast at ea eb
  simp only [one_mul, neg_one_mul, ← sub_eq_add_neg] at ea eb
  constructor
  · obtain ⟨t, ht⟩ := isTruncation_exists ((mgv : ℝ) + ((dev : ℝ) * 5.16 + 20 / √(n : ℝ)))
    refine ⟨_, t, toLongLong_isSome _ ra, ht, ?_⟩
    exact truncation_near _ _ _ _ (isTruncation_truncate _) ht
      (lt_of_le_of_lt ea (by norm_num))
  · obtain ⟨t, ht⟩ := isTruncation_exists ((mgv : ℝ) - ((dev : ℝ) * 5.16 + 20 / √(n : ℝ)))
    refine ⟨_, t, toLongLong_isSome _ rb, ht, ?_⟩
    exact truncation_near _ _ _ _ (isTruncation_truncate _) ht
      (lt_of_le_of_lt eb (by norm_num))

/-- A root returned by `sqrtLongLong` is not negative. -/
theorem sqrtLongLong_nonneg (n d : Int) (h : Ieee.sqrtLongLong n = some d) : 0 ≤ d := by
  unfold Ieee.sqrtLongLong at h
  split at h
  · exact absurd h (by simp)
  · rename_i hn
    have hn0 : (0 : ℚ) ≤ (n : ℚ) := by exact_mod_cast not_lt.mp hn
    have hr := (sqrtDouble_bounds _ (toDouble_nonneg _ hn0)).1
    unfold toLongLong at h
    split at h
    · injection h with h
      rw [← h]
      exact truncate_nonneg _ hr
    · exact absurd h (by simp)

/-- The deviations that `ComputeStats` returns are not negative, and it returns only
for a map that is not empty. -/
theorem ieee_ComputeStats_nonneg (ord : MapOrder) (image : InternalImage) (m : PointMap)
    (mgv upper_dev lower_dev : Int)
    (h : Ieee.ComputeStats ord image m = some (mgv, upper_dev, lower_dev)) :
    0 ≤ upper_dev ∧ 0 ≤ lower_dev ∧ 1 ≤ m.length := by
  unfold Ieee.ComputeStats at h
  split at h
  · exact absurd h (by simp)
  · rename_i mean hmean
    have hlen : 1 ≤ m.length := by
      unfold Ieee.regionMean at hmean
      split at hmean
      · exact absurd hmean (by simp)
      · split at hmean
        · exact absurd hmean (by simp)
        · omega
    split at h
    · exact absurd h (by simp)
    · rename_i ud ld hdev
      injection h with h
      injection h with _ h
      injection h with h1 h2
      subst h1 h2
      unfold Ieee.halfDeviations at hdev
      simp only [] at hdev
      split at hdev
      · split at hdev
        · exact absurd hdev (by simp)
        · split at hdev
          · exact absurd hdev (by simp)
          · split at hdev
            · split at hdev
              · rename_i a b ha hb
                injection hdev with hdev
                injection hdev with h1 h2
                subst h1 h2
                exact ⟨sqrtLongLong_nonneg _ _ ha, sqrtLongLong_nonneg _ _ hb, hlen⟩
              · exact absurd hdev (by simp)
            · exact absurd hdev (by simp)
      · exact absurd hdev (by simp)
set_option maxRecDepth 100000

/-- C6, as stated.  The final bounds are not the real numbers truncated: they are
computed in `double`.  In the 1x1x3 image with the pixels 2^53, 2^53 and 2^53 + 2^32
and the seed (0,0,1) the final Region has three points with the statistics
(9007200686396757, 0, 0); the real number `mean - 20 / sqrt 3` truncates to
9007200686396745, and `GrowRegions` returns the lower bound 9007200686396744, because
the mean is not a `double`.  For ordinary values too: with the mean 1000, the lower
deviation 105 and 10000 points the real number `1000 - (105 * 5.16 + 20 / 100)` is
458, and the expression of line 105 gives 457, because 2.58 and 0.2 are not
`double` values. -/
theorem final_bounds_differ_from_real_arithmetic :
    (∀ p, IsBinary32
      ((lineImage 9007199254740992 9007199254740992 9007203549708288).GetPixel p)) ∧
    InBounds (lineImage 9007199254740992 9007199254740992 9007203549708288).grid ⟨0, 0, 1⟩ ∧
    (Ieee.Growing insertionOrder
        (lineImage 9007199254740992 9007199254740992 9007203549708288) ⟨0, 0, 1⟩).map
      (fun st => st.visited_points) = some [(1, ⟨0, 0, 1⟩), (0, ⟨0, 0, 0⟩), (2, ⟨0, 0, 2⟩)] ∧
    Ieee.ComputeStats insertionOrder
        (lineImage 9007199254740992 9007199254740992 9007203549708288)
        [(1, ⟨0, 0, 1⟩), (0, ⟨0, 0, 0⟩), (2, ⟨0, 0, 2⟩)] = some (9007200686396757, 0, 0) ∧
    Ieee.GrowRegions insertionOrder
        (lineImage 9007199254740992 9007199254740992 9007203549708288) ⟨0, 0, 1⟩
      = some (9007200686396768, 9007200686396744) ∧
    IsTruncation ((9007200686396757 : ℝ) + ((0 : ℝ) * 5.16 + 20 / √(3 : ℝ)))
      9007200686396768 ∧
    IsTruncation ((9007200686396757 : ℝ) - ((0 : ℝ) * 5.16 + 20 / √(3 : ℝ)))
      9007200686396745 ∧
    ¬ IsTruncation ((9007200686396757 : ℝ) - ((0 : ℝ) * 5.16 + 20 / √(3 : ℝ)))
      9007200686396744 ∧
    Ieee.boundBelow 1000 (Ieee.finalSpread 105) 10000 = some 457 ∧
    IsTruncation ((1000 : ℝ) - ((105 : ℝ) * 5.16 + 20 / √(10000 : ℝ))) 458 ∧
    ¬ IsTruncation ((1000 : ℝ) - ((105 : ℝ) * 5.16 + 20 / √(10000 : ℝ))) 457 := by
  have e : ((129 : ℕ) : ℝ) / ((25 : ℕ) : ℝ) = 5.16 := by norm_num
  have hu := boundAbove_spec 9007200686396757 0 129 25 3 (by decide) (by decide)
  have hl := boundBelow_spec 9007200686396757 0 129 25 3 (by decide) (by decide)
  have hf := boundBelow_spec 1000 105 129 25 10000 (by decide) (by decide)
  have hu1 : boundAbove 9007200686396757 0 129 25 3 = 9007200686396768 := by decide
  have hl1 : boundBelow 9007200686396757 0 129 25 3 = 9007200686396745 := by decide
  have hf1 : boundBelow 1000 105 129 25 10000 = 458 := by decide
  rw [e, hu1] at hu
  rw [e, hl1] at hl
  rw [e, hf1] at hf
  have hl2 : IsTruncation ((9007200686396757 : ℝ) - ((0 : ℝ) * 5.16 + 20 / √(3 : ℝ)))
      9007200686396745 := by exact_mod_cast hl
  have hf2 : IsTruncation ((1000 : ℝ) - ((105 : ℝ) * 5.16 + 20 / √(10000 : ℝ))) 458 := by
    exact_mod_cast hf
  refine ⟨fun p => lineImage_binary32 _ _ _ (by decide!) (by decide!) (by decide!) p,
    by decide, by decide!, by decide!, by decide!, ?_, hl2, ?_, by decide!, hf2, ?_⟩
  · exact_mod_cast hu
  · intro h
    exact absurd (isTruncation_unique _ _ _ h hl2) (by decide)
  · intro h
    exact absurd (isTruncation_unique _ _ _ h hf2) (by decide)

/-- C6, amended.  Final result: `GrowRegions` returns the pair `(upper, lower)` exactly
when the growing loop ends in a state on whose map `ComputeStats` returns
`(mean, upperDev, lowerDev)`, and `upper` and `lower` are the values of
`mean + (upperDev * 2 * 2.58 + 20 / sqrt N)` and
`mean - (lowerDev * 2 * 2.58 + 20 / sqrt N)` computed in `double`, every operation
rounded to the nearest `double`, and truncated toward zero, with `N` the number of
entries of that map; the exploratory bounds of the state are not part of the result.
For a mean of magnitude at most `2^50`, deviations at most `2^32` and at most `2^53`
entries these values exist and differ by at most 1 from the real numbers
`mean + (upperDev * 5.16 + 20 / sqrt N)` and `mean - (lowerDev * 5.16 + 20 / sqrt N)`
truncated toward zero.  And `GrowRegions` does return a pair for every image of
representable sizes whose pixels are integers between `lo >= 0` and `hi` with exact
sums (`ExactImage`) and every seed inside it. -/
theorem final_result_in_double (ord : MapOrder) (image : InternalImage) (seed : Point) :
    (∀ upper lower : Int, Ieee.GrowRegions ord image seed = some (upper, lower) ↔
      ∃ st mgv upper_dev lower_dev,
        Ieee.Growing ord image seed = some st ∧
        Ieee.ComputeStats ord image st.visited_points = some (mgv, upper_dev, lower_dev) ∧
        toLongLong (toDouble (toDouble mgv +
          toDouble (toDouble (toDouble ((upper_dev * 2 : Int) : ℚ) * toDouble (258 / 100))
            + toDouble (20 / sqrtDouble (toDouble st.visited_points.length))))) = some upper ∧
        toLongLong (toDouble (toDouble mgv -
          toDouble (toDouble (toDouble ((lower_dev * 2 : Int) : ℚ) * toDouble (258 / 100))
            + toDouble (20 / sqrtDouble (toDouble st.visited_points.length))))) = some lower) ∧
    (∀ st mgv upper_dev lower_dev,
      Ieee.Growing ord image seed = some st →
      Ieee.ComputeStats ord image st.visited_points = some (mgv, upper_dev, lower_dev) →
      |mgv| ≤ 2 ^ 50 → upper_dev ≤ 2 ^ 32 → lower_dev ≤ 2 ^ 32 →
      st.visited_points.length ≤ 2 ^ 53 →
      ∃ upper lower tu tl, Ieee.GrowRegions ord image seed = some (upper, lower) ∧
        IsTruncation ((mgv : ℝ) +
          ((upper_dev : ℝ) * 5.16 + 20 / √(st.visited_points.length : ℝ))) tu ∧
        IsTruncation ((mgv : ℝ) -
          ((lower_dev : ℝ) * 5.16 + 20 / √(st.visited_points.length : ℝ))) tl ∧
        |upper - tu| ≤ 1 ∧ |lower - tl| ≤ 1) ∧
    (∀ lo hi : Int, SizeRepresentable image.grid → InBounds image.grid seed →
      ExactImage image lo hi → 0 ≤ lo →
      ∃ upper lower, Ieee.GrowRegions ord image seed = some (upper, lower)) := by
  have hfin : ∀ st mgv upper_dev lower_dev,
      Ieee.ComputeStats ord image st = some (mgv, upper_dev, lower_dev) →
      ∀ upper lower : Int, Ieee.ComputeFinalThreshold ord image st = some (upper, lower) ↔
        (Ieee.boundAbove mgv (Ieee.finalSpread upper_dev) st.length = some upper ∧
          Ieee.boundBelow mgv (Ieee.finalSpread lower_dev) st.length = some lower) := by
    intro st mgv upper_dev lower_dev hs upper lower
    unfold Ieee.ComputeFinalThreshold
    rw [hs]
    simp only []
    cases ha : Ieee.boundAbove mgv (Ieee.finalSpread upper_dev) st.length with
    | none => simp
    | some u =>
      cases hb : Ieee.boundBelow mgv (Ieee.finalSpread lower_dev) st.length with
      | none => simp
      | some l => simp
  refine ⟨fun upper lower => ?_, ?_, fun lo hi hsize hseed hex hlo => ?_⟩
  · show _ ↔ ∃ st mgv upper_dev lower_dev, Ieee.Growing ord image seed = some st ∧
      Ieee.ComputeStats ord image st.visited_points = some (mgv, upper_dev, lower_dev) ∧
      Ieee.boundAbove mgv (Ieee.finalSpread upper_dev) st.visited_points.length = some upper ∧
      Ieee.boundBelow mgv (Ieee.finalSpread lower_dev) st.visited_points.length = some lower
    constructor
    · intro h
      cases hg : Ieee.Growing ord image seed with
      | none =>
        unfold Ieee.GrowRegions at h
        rw [hg] at h
        exact absurd h (by simp)
      | some st =>
        rw [ieee_GrowRegions_of_Growing ord image seed st hg] at h
        cases hs : Ieee.ComputeStats ord image st.visited_points with
        | none =>
          unfold Ieee.ComputeFinalThreshold at h
          rw [hs] at h
          exact absurd h (by simp)
        | some s =>
          obtain ⟨mgv, upper_dev, lower_dev⟩ := s
          obtain ⟨h1, h2⟩ := (hfin _ _ _ _ hs upper lower).mp h
          exact ⟨st, mgv, upper_dev, lower_dev, rfl, hs, h1, h2⟩
    · rintro ⟨st, mgv, upper_dev, lower_dev, hg, hs, h1, h2⟩
      rw [ieee_GrowRegions_of_Growing ord image seed st hg]
      exact (hfin _ _ _ _ hs upper lower).mpr ⟨h1, h2⟩
  · intro st mgv upper_dev lower_dev hg hs hm hu hl hn
    obtain ⟨hu0, hl0, hn1⟩ := ieee_ComputeStats_nonneg ord image _ _ _ _ hs
    obtain ⟨⟨u, tu, hbu, htu, hdu⟩, _⟩ :=
      final_bounds_near_real mgv upper_dev st.visited_points.length hm hu0 hu hn1 hn
    obtain ⟨_, ⟨l, tl, hbl, htl, hdl⟩⟩ :=
      final_bounds_near_real mgv lower_dev st.visited_points.length hm hl0 hl hn1 hn
    refine ⟨u, l, tu, tl, ?_, htu, htl, hdu, hdl⟩
    rw [ieee_GrowRegions_of_Growing ord image seed st hg]
    exact (hfin _ _ _ _ hs u l).mpr ⟨hbu, hbl⟩
  · obtain ⟨_, b, _, hb⟩ :=
      ieee_GrowRegions_isSome_of_exact ord image lo hi seed hsize hseed hex hlo
    exact ⟨b.1, b.2, hb⟩

/-- The final-result theorem at the 1x1x3 image with the pixels 95, 100, 108 and the
seed (0,0,1): the loop ends with the three points in the map and the exploratory
bounds 112 and 86 in the state; the statistics are (101, 0, 2) and `GrowRegions`
returns 112 and 79, the `double` values of the final pass, which are here the
truncated real numbers `101 + 20 / sqrt 3` and `101 - (2 * 5.16 + 20 / sqrt 3)`. -/
theorem final_result_in_double_witness :
    SizeRepresentable (lineImage 95 100 108).grid ∧
    InBounds (lineImage 95 100 108).grid ⟨0, 0, 1⟩ ∧
    ExactImage (lineImage 95 100 108) 95 108 ∧
    Ieee.Growing insertionOrder (lineImage 95 100 108) ⟨0, 0, 1⟩
      = some ⟨[(1, ⟨0, 0, 1⟩), (0, ⟨0, 0, 0⟩), (2, ⟨0, 0, 2⟩)], [], 112, 86, 3⟩ ∧
    Ieee.ComputeStats insertionOrder (lineImage 95 100 108)
        [(1, ⟨0, 0, 1⟩), (0, ⟨0, 0, 0⟩), (2, ⟨0, 0, 2⟩)] = some (101, 0, 2) ∧
    Ieee.GrowRegions insertionOrder (lineImage 95 100 108) ⟨0, 0, 1⟩ = some (112, 79) ∧
    toLongLong (toDouble (toDouble ((101 : Int) : ℚ) +
        toDouble (toDouble (toDouble ((0 * 2 : Int) : ℚ) * toDouble (258 / 100))
          + toDouble (20 / sqrtDouble (toDouble ((3 : Nat) : ℚ)))))) = some 112 ∧
    toLongLong (toDouble (toDouble ((101 : Int) : ℚ) -
        toDouble (toDouble (toDouble ((2 * 2 : Int) : ℚ) * toDouble (258 / 100))
          + toDouble (20 / sqrtDouble (toDouble ((3 : Nat) : ℚ)))))) = some 79 ∧
    IsTruncation ((101 : ℝ) + ((0 : ℝ) * 5.16 + 20 / √(3 : ℝ))) 112 ∧
    IsTruncation ((101 : ℝ) - ((2 : ℝ) * 5.16 + 20 / √(3 : ℝ))) 79 ∧
    (∃ upper lower tu tl,
      Ieee.GrowRegions insertionOrder (lineImage 95 100 108) ⟨0, 0, 1⟩ = some (upper, lower) ∧
      IsTruncation ((101 : ℝ) + ((0 : ℝ) * 5.16 + 20 / √(3 : ℝ))) tu ∧
      IsTruncation ((101 : ℝ) - ((2 : ℝ) * 5.16 + 20 / √(3 : ℝ))) tl ∧
      |upper - tu| ≤ 1 ∧ |lower - tl| ≤ 1) ∧
    ∃ upper lower,
      Ieee.GrowRegions insertionOrder (lineImage 95 100 108) ⟨0, 0, 1⟩ = some (upper, lower) := by
  have hsize : SizeRepresentable (lineImage 95 100 108).grid := by decide
  have hseed : InBounds (lineImage 95 100 108).grid ⟨0, 0, 1⟩ := by decide
  have hex : ExactImage (lineImage 95 100 108) 95 108 := by
    refine ⟨fun p _ => ?_, by decide, by decide, by decide⟩
    unfold InternalImage.intPixel lineImage
    simp only []
    split
    · decide
    · split <;> decide
  have hg : Ieee.Growing insertionOrder (lineImage 95 100 108) ⟨0, 0, 1⟩
      = some ⟨[(1, ⟨0, 0, 1⟩), (0, ⟨0, 0, 0⟩), (2, ⟨0, 0, 2⟩)], [], 112, 86, 3⟩ := by decide!
  have hs : Ieee.ComputeStats insertionOrder (lineImage 95 100 108)
      [(1, ⟨0, 0, 1⟩), (0, ⟨0, 0, 0⟩), (2, ⟨0, 0, 2⟩)] = some (101, 0, 2) := by decide!
  have hrun : Ieee.GrowRegions insertionOrder (lineImage 95 100 108) ⟨0, 0, 1⟩
      = some (112, 79) := by decide!
  have h := final_result_in_double insertionOrder (lineImage 95 100 108) ⟨0, 0, 1⟩
  obtain ⟨st, mgv, upper_dev, lower_dev, hg1, hs1, hu1, hl1⟩ := (h.1 112 79).mp hrun
  rw [hg] at hg1
  injection hg1 with hg1
  subst hg1
  rw [hs] at hs1
  injection hs1 with hs1
  injection hs1 with e1 hs1
  injection hs1 with e2 e3
  subst e1 e2 e3
  have e : ((129 : ℕ) : ℝ) / ((25 : ℕ) : ℝ) = 5.16 := by norm_num
  have tu := boundAbove_spec 101 0 129 25 3 (by decide) (by decide)
  have tl := boundBelow_spec 101 2 129 25 3 (by decide) (by decide)
  have tu1 : boundAbove 101 0 129 25 3 = 112 := by decide
  have tl1 : boundBelow 101 2 129 25 3 = 79 := by decide
  rw [e, tu1] at tu
  rw [e, tl1] at tl
  have hnear := h.2.1 _ 101 0 2 hg hs (by decide) (by decide) (by decide) (by decide)
  refine ⟨hsize, hseed, hex, hg, hs, hrun, hu1, hl1, by exact_mod_cast tu,
    by exact_mod_cast tl, ?_, h.2.2 95 108 hsize hseed hex (by decide)⟩
  obtain ⟨upper, lower, tu, tl, a1, a2, a3, a4, a5⟩ := hnear
  exact ⟨upper, lower, tu, tl, a1, by exact_mod_cast a2, by exact_mod_cast a3, a4, a5⟩
set_option maxRecDepth 100000

/-- C10, as stated.  The statistics depend on the order of enumeration.  In the 1x1x3
image with the pixels 1, 16777216, 1 and the seed (0,0,1), seeding stores the seed and
its two neighbours, with the values 16777216, 1, 1 in insertion order.  The loop
`sum += pixel` adds in `float`: in insertion order the sum stays 16777216 (16777217 is
not a `float` and is rounded to the even neighbour), in the reverse order it is
16777218.  So `ComputeStats` returns the mean 5592405 for one order of enumeration and
5592406 for the other, and `GrowRegions` returns different bounds for the two
orders. -/
theorem mean_depends_on_enumeration_order :
    (∀ p, IsBinary32 ((lineImage 1 16777216 1).GetPixel p)) ∧
    InBounds (lineImage 1 16777216 1).grid ⟨0, 0, 1⟩ ∧
    (seedRegion (lineImage 1 16777216 1).grid ⟨0, 0, 1⟩).1
      = [(1, ⟨0, 0, 1⟩), (0, ⟨0, 0, 0⟩), (2, ⟨0, 0, 2⟩)] ∧
    Ieee.ComputeStats insertionOrder (lineImage 1 16777216 1)
        [(1, ⟨0, 0, 1⟩), (0, ⟨0, 0, 0⟩), (2, ⟨0, 0, 2⟩)] = some (5592405, 0, 0) ∧
    Ieee.ComputeStats reverseOrder (lineImage 1 16777216 1)
        [(1, ⟨0, 0, 1⟩), (0, ⟨0, 0, 0⟩), (2, ⟨0, 0, 2⟩)] = some (5592406, 0, 0) ∧
    Ieee.GrowRegions insertionOrder (lineImage 1 16777216 1) ⟨0, 0, 1⟩
      = some (5592416, 5592393) ∧
    Ieee.GrowRegions reverseOrder (lineImage 1 16777216 1) ⟨0, 0, 1⟩
      = some (5592417, 5592394) ∧
    Ieee.ComputeStats insertionOrder (lineImage 1 16777216 1)
        [(1, ⟨0, 0, 1⟩), (0, ⟨0, 0, 0⟩), (2, ⟨0, 0, 2⟩)]
      ≠ Ieee.ComputeStats reverseOrder (lineImage 1 16777216 1)
        [(1, ⟨0, 0, 1⟩), (0, ⟨0, 0, 0⟩), (2, ⟨0, 0, 2⟩)] ∧
    Ieee.GrowRegions insertionOrder (lineImage 1 16777216 1) ⟨0, 0, 1⟩
      ≠ Ieee.GrowRegions reverseOrder (lineImage 1 16777216 1) ⟨0, 0, 1⟩ ∧
    toFloat (16777216 + 1) = 16777216 := by
  have hs1 : Ieee.ComputeStats insertionOrder (lineImage 1 16777216 1)
      [(1, ⟨0, 0, 1⟩), (0, ⟨0, 0, 0⟩), (2, ⟨0, 0, 2⟩)] = some (5592405, 0, 0) := by decide!
  have hs2 : Ieee.ComputeStats reverseOrder (lineImage 1 16777216 1)
      [(1, ⟨0, 0, 1⟩), (0, ⟨0, 0, 0⟩), (2, ⟨0, 0, 2⟩)] = some (5592406, 0, 0) := by decide!
  have hg1 : Ieee.GrowRegions insertionOrder (lineImage 1 16777216 1) ⟨0, 0, 1⟩
      = some (5592416, 5592393) := by decide!
  have hg2 : Ieee.GrowRegions reverseOrder (lineImage 1 16777216 1) ⟨0, 0, 1⟩
      = some (5592417, 5592394) := by decide!
  refine ⟨fun p => lineImage_binary32 _ _ _ (by decide!) (by decide!) (by decide!) p,
    by decide, by decide, hs1, hs2, hg1, hg2, ?_, ?_, by decide!⟩
  · rw [hs1, hs2]; decide
  · rw [hg1, hg2]; decide

/-- C10, amended.  Order independence where the sums are exact.  For a region whose
pixels are integers between `lo` and `hi`, with `N * max |lo| |hi| <= 2^24`,
`N * (hi - lo)^2 <= 2^24` and `N <= 2^24` for its `N` points (`ExactRegion`),
`ComputeStats`, `ComputeThreshold` and `ComputeFinalThreshold` return the same result
for every two orders of enumeration, and for every two maps that hold the same entries
in a different order.  For an image of representable sizes all of whose pixels are
such integers, with the number of pixels in the place of `N` (`ExactImage`), and a
seed inside it, `GrowRegions` returns the same result for every two orders of
enumeration. -/
theorem stats_order_independent_when_exact (ord₁ ord₂ : MapOrder) (image : InternalImage) :
    (∀ (m : PointMap) (lo hi : Int), ExactRegion image m lo hi →
      Ieee.ComputeStats ord₁ image m = Ieee.ComputeStats ord₂ image m ∧
      Ieee.ComputeThreshold ord₁ image m = Ieee.ComputeThreshold ord₂ image m ∧
      Ieee.ComputeFinalThreshold ord₁ image m = Ieee.ComputeFinalThreshold ord₂ image m) ∧
    (∀ (l₁ l₂ : PointMap) (lo hi : Int), l₁.Perm l₂ → ExactRegion image l₁ lo hi →
      Ieee.ComputeStats ord₁ image l₁ = Ieee.ComputeStats ord₂ image l₂) ∧
    (∀ (lo hi : Int) (seed : Point), SizeRepresentable image.grid → InBounds image.grid seed →
      ExactImage image lo hi →
      Ieee.GrowRegions ord₁ image seed = Ieee.GrowRegions ord₂ image seed) := by
  refine ⟨fun m lo hi hex => ?_, fun l₁ l₂ lo hi h hex => ?_, fun lo hi seed hsize hseed hex => ?_⟩
  · obtain ⟨h1, h2⟩ := ieee_thresholds_order_of_exact ord₁ ord₂ image m lo hi hex
    exact ⟨ieee_ComputeStats_order_of_exact ord₁ ord₂ image m lo hi hex, h1, h2⟩
  · exact ieee_ComputeStats_perm_of_exact ord₁ ord₂ image h lo hi hex
  · exact ieee_GrowRegions_order_of_exact ord₁ ord₂ image lo hi seed hsize hseed hex

/-- The order theorem in the 1x1x3 image with the pixels 90, 100, 110 and the seed
(0,0,1): the image is exact for the bounds 90 and 110, the statistics of the three
points are (100, 5, 5), whether they are enumerated in insertion order or in reverse
order and whether the map lists the seed first or the point (0,0,0) first, and the
result of `GrowRegions` is (137, 62) in insertion order and in reverse order. -/
theorem stats_order_independent_when_exact_witness :
    SizeRepresentable (lineImage 90 100 110).grid ∧
    InBounds (lineImage 90 100 110).grid ⟨0, 0, 1⟩ ∧
    ExactImage (lineImage 90 100 110) 90 110 ∧
    ExactRegion (lineImage 90 100 110) [(1, ⟨0, 0, 1⟩), (0, ⟨0, 0, 0⟩), (2, ⟨0, 0, 2⟩)] 90 110 ∧
    List.Perm [((1 : Int), (⟨0, 0, 1⟩ : Point)), (0, ⟨0, 0, 0⟩), (2, ⟨0, 0, 2⟩)]
      [(0, ⟨0, 0, 0⟩), (1, ⟨0, 0, 1⟩), (2, ⟨0, 0, 2⟩)] ∧
    Ieee.ComputeStats insertionOrder (lineImage 90 100 110)
        [(1, ⟨0, 0, 1⟩), (0, ⟨0, 0, 0⟩), (2, ⟨0, 0, 2⟩)] = some (100, 5, 5) ∧
    Ieee.ComputeStats insertionOrder (lineImage 90 100 110)
        [(1, ⟨0, 0, 1⟩), (0, ⟨0, 0, 0⟩), (2, ⟨0, 0, 2⟩)]
      = Ieee.ComputeStats reverseOrder (lineImage 90 100 110)
        [(1, ⟨0, 0, 1⟩), (0, ⟨0, 0, 0⟩), (2, ⟨0, 0, 2⟩)] ∧
    Ieee.ComputeThreshold insertionOrder (lineImage 90 100 110)
        [(1, ⟨0, 0, 1⟩), (0, ⟨0, 0, 0⟩), (2, ⟨0, 0, 2⟩)]
      = Ieee.ComputeThreshold reverseOrder (lineImage 90 100 110)
        [(1, ⟨0, 0, 1⟩), (0, ⟨0, 0, 0⟩), (2, ⟨0, 0, 2⟩)] ∧
    Ieee.ComputeFinalThreshold insertionOrder (lineImage 90 100 110)
        [(1, ⟨0, 0, 1⟩), (0, ⟨0, 0, 0⟩), (2, ⟨0, 0, 2⟩)]
      = Ieee.ComputeFinalThreshold reverseOrder (lineImage 90 100 110)
        [(1, ⟨0, 0, 1⟩), (0, ⟨0, 0, 0⟩), (2, ⟨0, 0, 2⟩)] ∧
    Ieee.ComputeStats insertionOrder (lineImage 90 100 110)
        [(1, ⟨0, 0, 1⟩), (0, ⟨0, 0, 0⟩), (2, ⟨0, 0, 2⟩)]
      = Ieee.ComputeStats reverseOrder (lineImage 90 100 110)
        [(0, ⟨0, 0, 0⟩), (1, ⟨0, 0, 1⟩), (2, ⟨0, 0, 2⟩)] ∧
    Ieee.GrowRegions insertionOrder (lineImage 90 100 110) ⟨0, 0, 1⟩ = some (137, 62) ∧
    Ieee.GrowRegions insertionOrder (lineImage 90 100 110) ⟨0, 0, 1⟩
      = Ieee.GrowRegions reverseOrder (lineImage 90 100 110) ⟨0, 0, 1⟩ := by
  have hsize : SizeRepresentable (lineImage 90 100 110).grid := by decide
  have hseed : InBounds (lineImage 90 100 110).grid ⟨0, 0, 1⟩ := by decide
  have hpix : ∀ p : Point, ((lineImage 90 100 110).GetPixel p).den = 1 ∧
      90 ≤ (lineImage 90 100 110).intPixel p ∧ (lineImage 90 100 110).intPixel p ≤ 110 := by
    intro p
    unfold InternalImage.intPixel lineImage
    simp only []
    split
    · decide
    · split <;> decide
  have hex : ExactImage (lineImage 90 100 110) 90 110 :=
    ⟨fun p _ => hpix p, by decide, by decide, by decide⟩
  have hreg : ExactRegion (lineImage 90 100 110)
      [(1, ⟨0, 0, 1⟩), (0, ⟨0, 0, 0⟩), (2, ⟨0, 0, 2⟩)] 90 110 :=
    ⟨fun kv _ => hpix kv.2, by decide, by decide, by decide⟩
  have hperm : List.Perm [((1 : Int), (⟨0, 0, 1⟩ : Point)), (0, ⟨0, 0, 0⟩), (2, ⟨0, 0, 2⟩)]
      [(0, ⟨0, 0, 0⟩), (1, ⟨0, 0, 1⟩), (2, ⟨0, 0, 2⟩)] :=
    List.Perm.swap _ _ _
  have h := stats_order_independent_when_exact insertionOrder reverseOrder (lineImage 90 100 110)
  obtain ⟨h1, h2, h3⟩ := h.1 _ 90 110 hreg
  exact ⟨hsize, hseed, hex, hreg, hperm, by decide!, h1, h2, h3, h.2.1 _ _ 90 110 hperm hreg,
    by decide!, h.2.2 90 110 ⟨0, 0, 1⟩ hsize hseed hex⟩
set_option maxRecDepth 100000

/-- C12, as stated.  A point is accepted with a value below the lower bound of that
moment.  In the 1x1x3 image with the pixels 16777232, 16777232, 16777216 and the seed
(0,0,0), seeding takes (0,0,0) and (0,0,1) and the first bounds are 16777217 and
16777246.  The neighbour (0,0,2) has the value 16777216, below the lower bound; line
181 compares it with the lower bound converted to `float`, which is 16777216, so the
neighbour is accepted, and it is in the final Region of a run that returns bounds. -/
theorem accepted_value_below_lower_bound :
    (∀ p, IsBinary32 ((lineImage 16777232 16777232 16777216).GetPixel p)) ∧
    InBounds (lineImage 16777232 16777232 16777216).grid ⟨0, 0, 0⟩ ∧
    regionPoints (seedRegion (lineImage 16777232 16777232 16777216).grid ⟨0, 0, 0⟩).1
      = [⟨0, 0, 0⟩, ⟨0, 0, 1⟩] ∧
    (Ieee.GrowingLog insertionOrder (lineImage 16777232 16777232 16777216) ⟨0, 0, 0⟩).map
        (fun sl => (regionPoints sl.1.visited_points, sl.2.accepted))
      = some ([⟨0, 0, 0⟩, ⟨0, 0, 1⟩, ⟨0, 0, 2⟩], [(⟨0, 0, 2⟩, 16777217, 16777246)]) ∧
    (lineImage 16777232 16777232 16777216).GetPixel ⟨0, 0, 2⟩ = 16777216 ∧
    ¬ ((16777217 : ℚ) ≤ (lineImage 16777232 16777232 16777216).GetPixel ⟨0, 0, 2⟩) ∧
    toFloat 16777217 = 16777216 ∧
    Ieee.GrowRegions insertionOrder (lineImage 16777232 16777232 16777216) ⟨0, 0, 0⟩
      = some (16777237, 16777214) := by
  refine ⟨fun p => lineImage_binary32 _ _ _ (by decide!) (by decide!) (by decide!) p,
    by decide, by decide, by decide!, by decide!, by decide!, by decide!, by decide!⟩

/-- C12, amended.  Bounds containment as line 181 tests it.  The record of a run lists
the neighbours accepted in Growing, each with the bounds of the state in which it
passed the tests (first part: what `logNeighbour` records; an accepted neighbour has a
value between the two bounds converted to `float`).  When the growing loop ends in the
state `st`, the final map is the map of the end of Seeding followed by the accepted
neighbours, and every point of the final Region is a point of the Region of the end of
Seeding or was accepted with bounds `lower`, `upper`, current at that moment, for which
`float(lower) <= value <= float(upper)`.  Hence `lower <= value` when `lower` is at
most `2^24` in magnitude, `value <= upper` when `upper` is, and in every case the value
is within the bounds widened by their own magnitude over `2^24`. -/
theorem bounds_containment_in_float (ord : MapOrder) (image : InternalImage) (seed : Point) :
    (∀ elem sl o sl1, Ieee.logNeighbour ord image elem sl o = some sl1 →
      (Ieee.accepts image elem sl.1 o = true →
        sl1.1.visited_points = sl.1.visited_points ++
          [(ComputePointHash (elem.shift o), elem.shift o)] ∧
        sl1.2.accepted = sl.2.accepted ++
          [(elem.shift o, sl.1.lower_threshold, sl.1.upper_threshold)] ∧
        toFloat (sl.1.lower_threshold : ℚ) ≤ image.GetPixel (elem.shift o) ∧
        image.GetPixel (elem.shift o) ≤ toFloat (sl.1.upper_threshold : ℚ)) ∧
      (Ieee.accepts image elem sl.1 o = false →
        sl1.1.visited_points = sl.1.visited_points ∧ sl1.2.accepted = sl.2.accepted)) ∧
    (∀ st, Ieee.Growing ord image seed = some st →
      ∃ log, Ieee.GrowingLog ord image seed = some (st, log) ∧
        st.visited_points
          = (seedRegion image.grid seed).1 ++ keyed (log.accepted.map fun e => e.1) ∧
        (∀ p ∈ regionPoints st.visited_points,
          p ∈ regionPoints (seedRegion image.grid seed).1 ∨
          ∃ lower upper : Int, (p, lower, upper) ∈ log.accepted ∧
            (toFloat (lower : ℚ) ≤ image.GetPixel p ∧
              image.GetPixel p ≤ toFloat (upper : ℚ)) ∧
            (|lower| ≤ 2 ^ 24 → (lower : ℚ) ≤ image.GetPixel p) ∧
            (|upper| ≤ 2 ^ 24 → image.GetPixel p ≤ (upper : ℚ)) ∧
            (lower : ℚ) - |(lower : ℚ)| / 2 ^ 24 ≤ image.GetPixel p ∧
            image.GetPixel p ≤ (upper : ℚ) + |(upper : ℚ)| / 2 ^ 24)) := by
  refine ⟨fun elem sl o sl1 hstep => ?_, fun st hst => ?_⟩
  · obtain ⟨hg, hlog⟩ := ieee_logNeighbour_cases ord image elem sl sl1 o hstep
    refine ⟨fun ha => ?_, fun ha => ?_⟩
    · obtain ⟨_, hb, _⟩ := (ieee_accepts_iff image elem sl.1 o).mp ha
      rcases hlog with ⟨_, hacc, _, _⟩ | ⟨hf, _⟩
      · rcases ieee_growNeighbour_cases ord image elem sl.1 sl1.1 o hg with
          ⟨_, _, hv, _⟩ | ⟨hf, _⟩
        · exact ⟨hv, hacc, hb.1, hb.2⟩
        · rw [ha] at hf; exact absurd hf (by simp)
      · rw [ha] at hf; exact absurd hf (by simp)
    · rcases hlog with ⟨ht, _⟩ | ⟨_, hsame⟩
      · rw [ha] at ht; exact absurd ht (by simp)
      · rcases ieee_growNeighbour_cases ord image elem sl.1 sl1.1 o hg with ⟨ht, _⟩ | ⟨_, he⟩
        · rw [ha] at ht; exact absurd ht (by simp)
        · rw [he, hsame]; exact ⟨rfl, rfl⟩
  · obtain ⟨log, hlog⟩ := ieee_GrowingLog_of_Growing ord image seed st hst
    obtain ⟨hv, hall⟩ := ieee_reached_accepted ord image seed _
      (ieee_reached_of_GrowingLog ord image seed _ hlog)
    refine ⟨log, hlog, hv, ?_⟩
    intro p hp
    simp only [] at hv
    rw [hv] at hp
    unfold regionPoints at hp ⊢
    rw [List.map_append, List.mem_append] at hp
    rcases hp with hp | hp
    · exact Or.inl hp
    · right
      have hk := regionPoints_keyed (log.accepted.map fun e => e.1)
      unfold regionPoints at hk
      rw [hk, List.mem_map] at hp
      obtain ⟨e, he, rfl⟩ := hp
      obtain ⟨h1, h2⟩ := hall e he
      have e1 := abs_le.mp (toFloat_error (e.2.1 : ℚ))
      have e2 := abs_le.mp (toFloat_error (e.2.2 : ℚ))
      refine ⟨e.2.1, e.2.2, he, ⟨h1, h2⟩, fun hl => ?_, fun hu => ?_, by linarith [e1.1],
        by linarith [e2.2]⟩
      · rw [← toFloat_int _ hl]; exact h1
      · rw [← toFloat_int _ hu]; exact h2

/-- The containment theorem in the 1x1x4 image with the pixels 100 and the seed
(0,0,0).  A single step: in the state of the end of Seeding, with the bounds 85 and
114, the neighbour (0,0,2) of the dequeued point (0,0,1) is accepted and recorded with
these bounds, which contain its value, and the neighbour (0,0,0) is not accepted and
changes nothing.  The run: it returns the Region (0,0,0), (0,0,1), (0,0,2), (0,0,3);
the last two points were accepted in Growing, both under the bounds 85 and 114, which
contain their value 100. -/
theorem bounds_containment_in_float_witness :
    Ieee.accepts (uniformImage 1 1 4 100) ⟨0, 0, 1⟩
      ⟨[(0, ⟨0, 0, 0⟩), (1, ⟨0, 0, 1⟩)], [], 114, 85, 2⟩ (0, 0, 1) = true ∧
    Ieee.logNeighbour insertionOrder (uniformImage 1 1 4 100) ⟨0, 0, 1⟩
        (⟨[(0, ⟨0, 0, 0⟩), (1, ⟨0, 0, 1⟩)], [], 114, 85, 2⟩, RunLog.empty) (0, 0, 1)
      = some (⟨[(0, ⟨0, 0, 0⟩), (1, ⟨0, 0, 1⟩), (2, ⟨0, 0, 2⟩)], [⟨0, 0, 2⟩], 114, 85, 2⟩,
          ⟨[(⟨0, 0, 2⟩, 85, 114)], 0, 0⟩) ∧
    (toFloat ((85 : Int) : ℚ) ≤ (uniformImage 1 1 4 100).GetPixel ⟨0, 0, 2⟩ ∧
      (uniformImage 1 1 4 100).GetPixel ⟨0, 0, 2⟩ ≤ toFloat ((114 : Int) : ℚ)) ∧
    Ieee.accepts (uniformImage 1 1 4 100) ⟨0, 0, 1⟩
      ⟨[(0, ⟨0, 0, 0⟩), (1, ⟨0, 0, 1⟩)], [], 114, 85, 2⟩ (0, 0, -1) = false ∧
    Ieee.logNeighbour insertionOrder (uniformImage 1 1 4 100) ⟨0, 0, 1⟩
        (⟨[(0, ⟨0, 0, 0⟩), (1, ⟨0, 0, 1⟩)], [], 114, 85, 2⟩, RunLog.empty) (0, 0, -1)
      = some (⟨[(0, ⟨0, 0, 0⟩), (1, ⟨0, 0, 1⟩)], [], 114, 85, 2⟩, RunLog.empty) ∧
    (Ieee.GrowingLog insertionOrder (uniformImage 1 1 4 100) ⟨0, 0, 0⟩).map
        (fun sl => (regionPoints sl.1.visited_points, sl.2.accepted))
      = some ([⟨0, 0, 0⟩, ⟨0, 0, 1⟩, ⟨0, 0, 2⟩, ⟨0, 0, 3⟩],
          [(⟨0, 0, 2⟩, 85, 114), (⟨0, 0, 3⟩, 85, 114)]) ∧
    regionPoints (seedRegion (uniformImage 1 1 4 100).grid ⟨0, 0, 0⟩).1
      = [⟨0, 0, 0⟩, ⟨0, 0, 1⟩] ∧
    ∃ st log, Ieee.Growing insertionOrder (uniformImage 1 1 4 100) ⟨0, 0, 0⟩ = some st ∧
      Ieee.GrowingLog insertionOrder (uniformImage 1 1 4 100) ⟨0, 0, 0⟩ = some (st, log) ∧
      ∀ p ∈ regionPoints st.visited_points,
        p ∈ regionPoints (seedRegion (uniformImage 1 1 4 100).grid ⟨0, 0, 0⟩).1 ∨
        ∃ lower upper : Int, (p, lower, upper) ∈ log.accepted ∧
          (lower : ℚ) ≤ (uniformImage 1 1 4 100).GetPixel p ∧
          (uniformImage 1 1 4 100).GetPixel p ≤ (upper : ℚ) := by
  have hth := bounds_containment_in_float insertionOrder (uniformImage 1 1 4 100) ⟨0, 0, 0⟩
  have hacc : Ieee.accepts (uniformImage 1 1 4 100) ⟨0, 0, 1⟩
      ⟨[(0, ⟨0, 0, 0⟩), (1, ⟨0, 0, 1⟩)], [], 114, 85, 2⟩ (0, 0, 1) = true := by decide!
  have hstep : Ieee.logNeighbour insertionOrder (uniformImage 1 1 4 100) ⟨0, 0, 1⟩
        (⟨[(0, ⟨0, 0, 0⟩), (1, ⟨0, 0, 1⟩)], [], 114, 85, 2⟩, RunLog.empty) (0, 0, 1)
      = some (⟨[(0, ⟨0, 0, 0⟩), (1, ⟨0, 0, 1⟩), (2, ⟨0, 0, 2⟩)], [⟨0, 0, 2⟩], 114, 85, 2⟩,
          ⟨[(⟨0, 0, 2⟩, 85, 114)], 0, 0⟩) := by decide!
  have hrej : Ieee.accepts (uniformImage 1 1 4 100) ⟨0, 0, 1⟩
      ⟨[(0, ⟨0, 0, 0⟩), (1, ⟨0, 0, 1⟩)], [], 114, 85, 2⟩ (0, 0, -1) = false := by decide!
  have hstep2 : Ieee.logNeighbour insertionOrder (uniformImage 1 1 4 100) ⟨0, 0, 1⟩
        (⟨[(0, ⟨0, 0, 0⟩), (1, ⟨0, 0, 1⟩)], [], 114, 85, 2⟩, RunLog.empty) (0, 0, -1)
      = some (⟨[(0, ⟨0, 0, 0⟩), (1, ⟨0, 0, 1⟩)], [], 114, 85, 2⟩, RunLog.empty) := by decide!
  obtain ⟨_, _, hlo, hhi⟩ := (hth.1 _ _ _ _ hstep).1 hacc
  obtain ⟨_, _⟩ := (hth.1 _ _ _ _ hstep2).2 hrej
  have hst : Ieee.Growing insertionOrder (uniformImage 1 1 4 100) ⟨0, 0, 0⟩
      = some ⟨[(0, ⟨0, 0, 0⟩), (1, ⟨0, 0, 1⟩), (2, ⟨0, 0, 2⟩), (3, ⟨0, 0, 3⟩)], [], 110, 90, 4⟩ := by
    decide!
  have hlogv : Ieee.GrowingLog insertionOrder (uniformImage 1 1 4 100) ⟨0, 0, 0⟩
      = some (⟨[(0, ⟨0, 0, 0⟩), (1, ⟨0, 0, 1⟩), (2, ⟨0, 0, 2⟩), (3, ⟨0, 0, 3⟩)], [], 110, 90, 4⟩,
        ⟨[(⟨0, 0, 2⟩, 85, 114), (⟨0, 0, 3⟩, 85, 114)], 1, 3⟩) := by
    decide!
  obtain ⟨log, hlog, _, hpts⟩ := hth.2 _ hst
  rw [hlogv] at hlog
  injection hlog with hlog
  injection hlog with _ hlog
  subst hlog
  refine ⟨hacc, hstep, ⟨hlo, hhi⟩, hrej, hstep2, by rw [hlogv]; rfl, by decide, _, _, hst,
    hlogv, fun p hp => ?_⟩
  rcases hpts p hp with h | ⟨lower, upper, hmem, _, hl, hu, _⟩
  · exact Or.inl h
  · right
    have hb : |lower| ≤ 2 ^ 24 ∧ |upper| ≤ 2 ^ 24 := by
      simp only [List.mem_cons, Prod.mk.injEq, List.mem_singleton, List.not_mem_nil,
        or_false] at hmem
      rcases hmem with ⟨_, rfl, rfl⟩ | ⟨_, rfl, rfl⟩ <;> decide
    exact ⟨lower, upper, hmem, hl hb.1, hu hb.2⟩
set_option maxRecDepth 100000

/-- C13, as stated.  Bounds are not returned for every volume and in-bounds seed.  In
the 1x1x3 image whose three pixels are 16777215, with the seed (0,0,0), the loop ends
with an empty queue after two dequeues and the Region holds the three points.  In the
final pass the sum of the three values, 50331645, is kept in `float` as 50331644, the
mean is 16777214, no pixel is at or under the mean, and line 62 divides by the size
zero of the lower half: `GrowRegions` returns no bounds.  The same happens when a cap
of one iteration stops the loop with the point (0,0,2) still in the queue. -/
theorem final_pass_faults_on_rounded_sum :
    (∀ p, IsBinary32 ((lineImage 16777215 16777215 16777215).GetPixel p)) ∧
    InBounds (lineImage 16777215 16777215 16777215).grid ⟨0, 0, 0⟩ ∧
    Ieee.GrowingLog insertionOrder (lineImage 16777215 16777215 16777215) ⟨0, 0, 0⟩
      = some (⟨[(0, ⟨0, 0, 0⟩), (1, ⟨0, 0, 1⟩), (2, ⟨0, 0, 2⟩)], [], 16777229, 16777200, 2⟩,
          ⟨[(⟨0, 0, 2⟩, 16777200, 16777229)], 0, 2⟩) ∧
    Ieee.accumulateWhere (fun _ => true)
        (fun kv => (lineImage 16777215 16777215 16777215).GetPixel kv.2)
        [(0, ⟨0, 0, 0⟩), (1, ⟨0, 0, 1⟩), (2, ⟨0, 0, 2⟩)] = some 50331644 ∧
    Ieee.regionMean insertionOrder (lineImage 16777215 16777215 16777215)
        [(0, ⟨0, 0, 0⟩), (1, ⟨0, 0, 1⟩), (2, ⟨0, 0, 2⟩)] = some 16777214 ∧
    Ieee.ComputeStats insertionOrder (lineImage 16777215 16777215 16777215)
        [(0, ⟨0, 0, 0⟩), (1, ⟨0, 0, 1⟩), (2, ⟨0, 0, 2⟩)] = none ∧
    Ieee.GrowRegions insertionOrder (lineImage 16777215 16777215 16777215) ⟨0, 0, 0⟩ = none ∧
    ((Ieee.Seeding insertionOrder (lineImage 16777215 16777215 16777215) ⟨0, 0, 0⟩).bind
      fun st0 =>
        (Ieee.logLoop insertionOrder (lineImage 16777215 16777215 16777215) 1
            (st0, RunLog.empty)).map fun sl =>
          (sl.1.q, sl.2.dequeues,
            Ieee.ComputeFinalThreshold insertionOrder (lineImage 16777215 16777215 16777215)
              sl.1.visited_points))
      = some ([⟨0, 0, 2⟩], 1, none) := by
  refine ⟨fun p => lineImage_binary32 _ _ _ (by decide!) (by decide!) (by decide!) p,
    by decide, by decide!, by decide!, by decide!, by decide!, by decide!, by decide!⟩

/-- C13, amended.  Iteration cap and termination.  The growing loop is a recursion on
the number of iterations that the cap still allows, so it ends for every image and
seed: with `n` iterations allowed it takes at most `n` points from the queue, and
exactly `n` when it ends with a queue that is not empty; with no iteration left it
returns its state as it is.  For the run of `GrowRegions`, with the cap 10,000,000: at
most 10,000,000 points are dequeued; a queue that is not empty at the end means the cap
stopped the loop; in either case the rest of the queue is ignored and the result of
`GrowRegions` is that of `ComputeFinalThreshold` on the map accumulated so far, so
bounds are returned exactly when the final pass on that map gives bounds.  They are
returned for every image of representable sizes whose pixels are integers between
`lo >= 0` and `hi` with exact sums (`ExactImage`) and every seed inside it. -/
theorem iteration_cap_and_final_pass (ord : MapOrder) (image : InternalImage) (seed : Point) :
    (∀ n sl sl1, Ieee.logLoop ord image n sl = some sl1 →
      sl1.2.dequeues ≤ sl.2.dequeues + n ∧
      (sl1.1.q ≠ [] → sl1.2.dequeues = sl.2.dequeues + n)) ∧
    (∀ st : GrowState, Ieee.growLoop ord image 0 st = some st) ∧
    (∀ st log, Ieee.GrowingLog ord image seed = some (st, log) →
      log.dequeues ≤ 10000000 ∧ (st.q ≠ [] → log.dequeues = 10000000) ∧
      Ieee.GrowRegions ord image seed = Ieee.ComputeFinalThreshold ord image st.visited_points ∧
      (∀ b, Ieee.GrowRegions ord image seed = some b ↔
        Ieee.ComputeFinalThreshold ord image st.visited_points = some b)) ∧
    (∀ lo hi, SizeRepresentable image.grid → InBounds image.grid seed →
      ExactImage image lo hi → 0 ≤ lo →
      ∃ st log upper lower, Ieee.GrowingLog ord image seed = some (st, log) ∧
        log.dequeues ≤ 10000000 ∧ Ieee.GrowRegions ord image seed = some (upper, lower)) := by
  have hfinal : ∀ st log, Ieee.GrowingLog ord image seed = some (st, log) →
      log.dequeues ≤ 10000000 ∧ (st.q ≠ [] → log.dequeues = 10000000) ∧
      Ieee.GrowRegions ord image seed = Ieee.ComputeFinalThreshold ord image st.visited_points ∧
      (∀ b, Ieee.GrowRegions ord image seed = some b ↔
        Ieee.ComputeFinalThreshold ord image st.visited_points = some b) := by
    intro st log h
    have hst : Ieee.Growing ord image seed = some st := by
      rw [← ieee_GrowingLog_fst, h]
      rfl
    have hres := ieee_GrowRegions_of_Growing ord image seed st hst
    unfold Ieee.GrowingLog at h
    cases h0 : Ieee.Seeding ord image seed with
    | none => rw [h0] at h; exact absurd h (by simp)
    | some st0 =>
      rw [h0] at h
      obtain ⟨h1, h2⟩ := ieee_logLoop_dequeues ord image iterCap _ _ h
      have hcap : iterCap = 10000000 := rfl
      simp only [RunLog.empty, Nat.zero_add, hcap] at h1 h2
      exact ⟨h1, h2, hres, fun b => by rw [hres]⟩
  refine ⟨fun n sl sl1 h => ieee_logLoop_dequeues ord image n sl sl1 h, fun st => rfl, hfinal,
    fun lo hi hsize hseed hex hlo => ?_⟩
  obtain ⟨st, b, hst, hb⟩ := ieee_GrowRegions_isSome_of_exact ord image lo hi seed hsize hseed hex hlo
  obtain ⟨log, hlog⟩ := ieee_GrowingLog_of_Growing ord image seed st hst
  exact ⟨st, log, b.1, b.2, hlog, (hfinal st log hlog).1, hb⟩

/-- The cap theorem at the uniform 1x1x4 image of value 100 with the seed (0,0,0).  The
run takes three points from the queue, ends with an empty queue and returns the bounds
110 and 90, those of the final pass on its four points.  With a single iteration
allowed the loop stops after one dequeue with the point (0,0,2) left in the queue, and
the final pass on the three points accumulated so far gives the bounds 111 and 88. -/
theorem iteration_cap_and_final_pass_witness :
    SizeRepresentable (uniformImage 1 1 4 100).grid ∧
    InBounds (uniformImage 1 1 4 100).grid ⟨0, 0, 0⟩ ∧
    ExactImage (uniformImage 1 1 4 100) 100 100 ∧
    Ieee.Seeding insertionOrder (uniformImage 1 1 4 100) ⟨0, 0, 0⟩
      = some ⟨[(0, ⟨0, 0, 0⟩), (1, ⟨0, 0, 1⟩)], [⟨0, 0, 1⟩], 114, 85, 2⟩ ∧
    Ieee.logLoop insertionOrder (uniformImage 1 1 4 100) 1
        (⟨[(0, ⟨0, 0, 0⟩), (1, ⟨0, 0, 1⟩)], [⟨0, 0, 1⟩], 114, 85, 2⟩, RunLog.empty)
      = some (⟨[(0, ⟨0, 0, 0⟩), (1, ⟨0, 0, 1⟩), (2, ⟨0, 0, 2⟩)], [⟨0, 0, 2⟩], 114, 85, 2⟩,
          ⟨[(⟨0, 0, 2⟩, 85, 114)], 0, 1⟩) ∧
    ([(⟨0, 0, 2⟩ : Point)] ≠ [] → (1 : Nat) = 0 + 1) ∧
    Ieee.ComputeFinalThreshold insertionOrder (uniformImage 1 1 4 100)
        [(0, ⟨0, 0, 0⟩), (1, ⟨0, 0, 1⟩), (2, ⟨0, 0, 2⟩)] = some (111, 88) ∧
    Ieee.GrowingLog insertionOrder (uniformImage 1 1 4 100) ⟨0, 0, 0⟩
      = some (⟨[(0, ⟨0, 0, 0⟩), (1, ⟨0, 0, 1⟩), (2, ⟨0, 0, 2⟩), (3, ⟨0, 0, 3⟩)], [], 110, 90, 4⟩,
          ⟨[(⟨0, 0, 2⟩, 85, 114), (⟨0, 0, 3⟩, 85, 114)], 1, 3⟩) ∧
    (3 : Nat) ≤ 10000000 ∧
    Ieee.GrowRegions insertionOrder (uniformImage 1 1 4 100) ⟨0, 0, 0⟩
      = Ieee.ComputeFinalThreshold insertionOrder (uniformImage 1 1 4 100)
          [(0, ⟨0, 0, 0⟩), (1, ⟨0, 0, 1⟩), (2, ⟨0, 0, 2⟩), (3, ⟨0, 0, 3⟩)] ∧
    Ieee.GrowRegions insertionOrder (uniformImage 1 1 4 100) ⟨0, 0, 0⟩ = some (110, 90) ∧
    ∃ st log upper lower,
      Ieee.GrowingLog insertionOrder (uniformImage 1 1 4 100) ⟨0, 0, 0⟩ = some (st, log) ∧
      log.dequeues ≤ 10000000 ∧
      Ieee.GrowRegions insertionOrder (uniformImage 1 1 4 100) ⟨0, 0, 0⟩ = some (upper, lower) := by
  have hsize : SizeRepresentable (uniformImage 1 1 4 100).grid := by decide
  have hseed : InBounds (uniformImage 1 1 4 100).grid ⟨0, 0, 0⟩ := by decide
  have hex : ExactImage (uniformImage 1 1 4 100) 100 100 :=
    ⟨fun _ _ => by unfold InternalImage.intPixel uniformImage; simp, by decide, by decide,
      by decide⟩
  have hth := iteration_cap_and_final_pass insertionOrder (uniformImage 1 1 4 100) ⟨0, 0, 0⟩
  have hone : Ieee.logLoop insertionOrder (uniformImage 1 1 4 100) 1
        (⟨[(0, ⟨0, 0, 0⟩), (1, ⟨0, 0, 1⟩)], [⟨0, 0, 1⟩], 114, 85, 2⟩, RunLog.empty)
      = some (⟨[(0, ⟨0, 0, 0⟩), (1, ⟨0, 0, 1⟩), (2, ⟨0, 0, 2⟩)], [⟨0, 0, 2⟩], 114, 85, 2⟩,
          ⟨[(⟨0, 0, 2⟩, 85, 114)], 0, 1⟩) := by decide!
  have hlog : Ieee.GrowingLog insertionOrder (uniformImage 1 1 4 100) ⟨0, 0, 0⟩
      = some (⟨[(0, ⟨0, 0, 0⟩), (1, ⟨0, 0, 1⟩), (2, ⟨0, 0, 2⟩), (3, ⟨0, 0, 3⟩)], [], 110, 90, 4⟩,
          ⟨[(⟨0, 0, 2⟩, 85, 114), (⟨0, 0, 3⟩, 85, 114)], 1, 3⟩) := by decide!
  obtain ⟨_, hstop⟩ := hth.1 1 _ _ hone
  obtain ⟨hcap, _, hres, hiff⟩ := hth.2.2.1 _ _ hlog
  have hfin : Ieee.ComputeFinalThreshold insertionOrder (uniformImage 1 1 4 100)
      [(0, ⟨0, 0, 0⟩), (1, ⟨0, 0, 1⟩), (2, ⟨0, 0, 2⟩), (3, ⟨0, 0, 3⟩)] = some (110, 90) := by
    decide!
  exact ⟨hsize, hseed, hex, by decide!, hone, hstop, by decide!, hlog, hcap, hres,
    (hiff (110, 90)).mpr hfin, hth.2.2.2 100 100 hsize hseed hex (by decide)⟩

end RegionGrowing
